import Mathlib

/-!
NPB-DSM conjugate-gradient benchmark (`NPB-DSM/CG/cg.cpp`) and Fourier-transform
benchmark (`NPB-DSM/FT/ft.cpp`).

A shallow embedding of the partition code, the hand-built reduction, the
sparse-matrix generator (`makea`, `sprnvc`, `vecset`), the CSR compactor
(`sparse`) and the conjugate-gradient iteration of `cg.cpp` (namespace `CG`), and
of `ipow46`, `compute_indexmap`, `fft_init`, `cfftz`, `fftz2` and `verify` of
`ft.cpp` (namespace `FT`), with theorems about them.

Conventions of the embedding.

* C arrays are total functions from indices to values (`Nat → β`); a store
  `arr[i] = v` is `setAt arr i v`.  The contents an array has before a routine
  runs are a parameter of the model, so uninitialised memory is arbitrary.
* `int` indices and counters are natural numbers.  A C expression `p - q + 1` is
  written `p + 1 - q`, which is its value whenever that value is not negative (and
  `0` otherwise, where the C loops over `1 .. p - q + 1` do not run either).  The
  theorems restrict the inputs to those for which no array index computed by the C
  code is negative.
* `double` values are exact: `sparse` is generic in the value type, the
  generator uses rational numbers.
* A counted loop `for (i = lo; i < lo + cnt; i++)` is `forUp body lo cnt`.
-/

namespace CG

/-! ## Arrays and loops -/

/-- The array `arr` after the store `arr[i] = v`. -/
def setAt {β : Type} (arr : Nat → β) (i : Nat) (v : β) : Nat → β :=
  fun k => if k = i then v else arr k

/-- The loop `for (i = lo; i < lo + cnt; i++) s = body i s`. -/
@[nospecialize] def forUp {σ : Type} (body : Nat → σ → σ) : Nat → Nat → σ → σ
  | _, 0, s => s
  | lo, cnt + 1, s => forUp body (lo + 1) cnt (body lo s)

/-- The loop `for (j = hi; j >= 1; j--) s = body j s`. -/
def forDown {σ : Type} (body : Nat → σ → σ) : Nat → σ → σ
  | 0, s => s
  | j + 1, s => forDown body j (body (j + 1) s)

/-! ## Partition planner (`conj_grad`, lines 458-468; `main`, lines 216-218, 317-319) -/

/-- `chunk = size / numtasks`. -/
def chunk (size numtasks : Nat) : Nat := size / numtasks

/-- `beg = 1 + workrank * chunk`. -/
def beg (size numtasks workrank : Nat) : Nat := 1 + workrank * chunk size numtasks

/-- `end = (workrank != numtasks - 1) ? workrank * chunk + chunk : size`. -/
def end_ (size numtasks workrank : Nat) : Nat :=
  if workrank ≠ numtasks - 1 then workrank * chunk size numtasks + chunk size numtasks else size

/-- The plan as the specification words it: `chunk = totalSize / numWorkers`,
`begin = workerId*chunk + 1`, `end = totalSize` for the last worker and
`begin + chunk - 1` otherwise. -/
def specPlan (totalSize numWorkers workerId : Nat) : Nat × Nat :=
  let c := totalSize / numWorkers
  let b := workerId * c + 1
  (b, if workerId = numWorkers - 1 then totalSize else b + c - 1)

/-! ## Reduction through the shared buffer (`conj_grad`, lines 494-502; `main`, lines 333-345) -/

/-- Worker `workrank` publishes its partial value: `gnorm_temps[workrank] = rho`. -/
def publish {α : Type} (gnorm_temps : Nat → α) (workrank : Nat) (rho : α) : Nat → α :=
  setAt gnorm_temps workrank rho

/-- The buffer once the workers listed in `order` have published, in that order,
their partial values `v w`; this is the state the barrier waits for. -/
def published {α : Type} (v : Nat → α) (order : List Nat) (gnorm_temps : Nat → α) : Nat → α :=
  order.foldl (fun buf w => publish buf w (v w)) gnorm_temps

/-- The summation after the barrier:
`for (j = 0; j < numtasks; j++) if (j != workrank) rho += gnorm_temps[j];`. -/
def gather {α : Type} [Add α] (gnorm_temps : Nat → α) (numtasks workrank : Nat) (rho : α) : α :=
  forUp (fun j acc => if j ≠ workrank then acc + gnorm_temps j else acc) 0 numtasks rho

/-- Worker `workrank` publishes the pair of `main`:
`gnorm_temps[2*workrank] = norm_temp11; gnorm_temps[2*workrank+1] = norm_temp12`. -/
def publish2 {α : Type} (gnorm_temps : Nat → α) (workrank : Nat) (t11 t12 : α) : Nat → α :=
  setAt (setAt gnorm_temps (2 * workrank) t11) (2 * workrank + 1) t12

/-- The buffer once the workers listed in `order` have published their pairs. -/
def published2 {α : Type} (v11 v12 : Nat → α) (order : List Nat) (gnorm_temps : Nat → α) :
    Nat → α :=
  order.foldl (fun buf w => publish2 buf w (v11 w) (v12 w)) gnorm_temps

/-- The summation of `main` after the barrier:
`if (j != workrank) { norm_temp11 += gnorm_temps[2*j]; norm_temp12 += gnorm_temps[2*j+1]; }`. -/
def gather2 {α : Type} [Add α] (gnorm_temps : Nat → α) (numtasks workrank : Nat)
    (t : α × α) : α × α :=
  forUp (fun j acc =>
    if j ≠ workrank then (acc.1 + gnorm_temps (2 * j), acc.2 + gnorm_temps (2 * j + 1)) else acc)
    0 numtasks t

/-! ## CSR compactor `sparse` (lines 846-961) -/

/-- The arrays `sparse` reads and writes (`a`, `colidx`, `rowstr`, and the scratch
arrays `x`, `mark`, `nzloc`) together with its local variables `nza`, `nzrow` and
`jajp1`.  The triples `arow`, `acol`, `aelt` are only read and stay parameters. -/
structure SparseState (α : Type) where
  a : Nat → α
  colidx : Nat → Nat
  rowstr : Nat → Nat
  x : Nat → α
  mark : Nat → Bool
  nzloc : Nat → Nat
  nza : Nat
  nzrow : Nat
  jajp1 : Nat

/-- Lines 878-882: `for (j = 1; j <= n; j++) { rowstr[j] = 0; mark[j] = FALSE; }`
and `rowstr[n+1] = 0`. -/
def sparseClear {α : Type} (n : Nat) (s : SparseState α) : SparseState α :=
  let s1 := forUp (fun j (s : SparseState α) =>
    { s with rowstr := setAt s.rowstr j 0, mark := setAt s.mark j false }) 1 n s
  { s1 with rowstr := setAt s1.rowstr (n + 1) 0 }

/-- Lines 884-887: count the triples of each row,
`j = (arow[nza] - firstrow + 1) + 1; rowstr[j] = rowstr[j] + 1`
(with `arow[nza] - firstrow + 1` written `arow nza + 1 - firstrow`). -/
def sparseCount {α : Type} (arow : Nat → Nat) (firstrow nnza : Nat) (s : SparseState α) :
    SparseState α :=
  forUp (fun nza (s : SparseState α) =>
    let j := (arow nza + 1 - firstrow) + 1
    { s with rowstr := setAt s.rowstr j (s.rowstr j + 1) }) 1 nnza s

/-- Lines 888-891: `rowstr[1] = 1` and the running sum
`for (j = 2; j <= nrows+1; j++) rowstr[j] = rowstr[j] + rowstr[j-1]`. -/
def sparsePrefix {α : Type} (nrows : Nat) (s : SparseState α) : SparseState α :=
  forUp (fun j (s : SparseState α) =>
    { s with rowstr := setAt s.rowstr j (s.rowstr j + s.rowstr (j - 1)) }) 2 nrows
    { s with rowstr := setAt s.rowstr 1 1 }

/-- Lines 901-907: the bucket sort of the triples on the row index,
`j = arow[nza] - firstrow + 1; k = rowstr[j]; a[k] = aelt[nza]; colidx[k] = acol[nza];
rowstr[j] = rowstr[j] + 1`. -/
def sparseBucket {α : Type} (arow acol : Nat → Nat) (aelt : Nat → α) (firstrow nnza : Nat)
    (s : SparseState α) : SparseState α :=
  forUp (fun nza (s : SparseState α) =>
    let j := arow nza + 1 - firstrow
    let k := s.rowstr j
    { s with a := setAt s.a k (aelt nza), colidx := setAt s.colidx k (acol nza),
             rowstr := setAt s.rowstr j (s.rowstr j + 1) }) 1 nnza s

/-- Lines 912-915: `for (j = nrows; j >= 1; j--) rowstr[j+1] = rowstr[j]` and
`rowstr[1] = 1`. -/
def sparseShift {α : Type} (nrows : Nat) (s : SparseState α) : SparseState α :=
  let s1 := forDown (fun j (s : SparseState α) =>
    { s with rowstr := setAt s.rowstr (j + 1) (s.rowstr j) }) nrows s
  { s1 with rowstr := setAt s1.rowstr 1 1 }

/-- Lines 920-925: `nza = 0` and `for (i = 1; i <= n; i++) { x[i] = 0.0; mark[i] = FALSE; }`. -/
def sparseZero {α : Type} [Zero α] (n : Nat) (s : SparseState α) : SparseState α :=
  forUp (fun i (s : SparseState α) =>
    { s with x := setAt s.x i 0, mark := setAt s.mark i false }) 1 n { s with nza := 0 }

/-- Lines 935-941, the body of the loop over the entries `k` of one row:
`i = colidx[k]; x[i] = x[i] + a[k];
if (mark[i] == FALSE && x[i] != 0.0) { mark[i] = TRUE; nzrow = nzrow + 1; nzloc[nzrow] = i; }`. -/
def accumBody {α : Type} [Zero α] [Add α] [DecidableEq α] (k : Nat) (s : SparseState α) :
    SparseState α :=
  let i := s.colidx k
  let x1 := setAt s.x i (s.x i + s.a k)
  if s.mark i = false ∧ x1 i ≠ 0 then
    { s with x := x1, mark := setAt s.mark i true, nzrow := s.nzrow + 1,
             nzloc := setAt s.nzloc (s.nzrow + 1) i }
  else
    { s with x := x1 }

/-- Lines 948-956, the body of the loop that extracts the nonzeros of one row:
`i = nzloc[k]; mark[i] = FALSE; xi = x[i]; x[i] = 0.0;
if (xi != 0.0) { nza = nza + 1; a[nza] = xi; colidx[nza] = i; }`. -/
def extractBody {α : Type} [Zero α] [DecidableEq α] (k : Nat) (s : SparseState α) :
    SparseState α :=
  let i := s.nzloc k
  let xi := s.x i
  if xi ≠ 0 then
    { s with mark := setAt s.mark i false, x := setAt s.x i 0, nza := s.nza + 1,
             a := setAt s.a (s.nza + 1) xi, colidx := setAt s.colidx (s.nza + 1) i }
  else
    { s with mark := setAt s.mark i false, x := setAt s.x i 0 }

/-- Lines 929-959, the body of the loop over the rows `j`: `nzrow = 0`, the loop
`for (k = jajp1; k < rowstr[j+1]; k++)`, the loop `for (k = 1; k <= nzrow; k++)`, then
`jajp1 = rowstr[j+1]; rowstr[j+1] = nza + rowstr[1]`. -/
def rowBody {α : Type} [Zero α] [Add α] [DecidableEq α] (j : Nat) (s : SparseState α) :
    SparseState α :=
  let s1 : SparseState α := { s with nzrow := 0 }
  let s2 := forUp accumBody s1.jajp1 (s1.rowstr (j + 1) - s1.jajp1) s1
  let s3 := forUp extractBody 1 s2.nzrow s2
  { s3 with jajp1 := s3.rowstr (j + 1), rowstr := setAt s3.rowstr (j + 1) (s3.nza + s3.rowstr 1) }

/-- Lines 927-960: `jajp1 = rowstr[1]` and the loop `for (j = 1; j <= nrows; j++)`. -/
def sparseCoalesce {α : Type} [Zero α] [Add α] [DecidableEq α] (nrows : Nat)
    (s : SparseState α) : SparseState α :=
  forUp rowBody 1 nrows { s with jajp1 := s.rowstr 1 }

/-- The routine `sparse(a, colidx, rowstr, n, arow, acol, aelt, firstrow, lastrow, x, mark,
nzloc, nnza)`: `s` holds the contents of the arrays on entry, the result their contents
on return (with the final value of the counter `nza`).  Line 872,
`nrows = lastrow - firstrow + 1`, is `lastrow + 1 - firstrow`. -/
def sparse {α : Type} [Zero α] [Add α] [DecidableEq α] (n : Nat) (arow acol : Nat → Nat)
    (aelt : Nat → α) (firstrow lastrow nnza : Nat) (s : SparseState α) : SparseState α :=
  let nrows := lastrow + 1 - firstrow
  sparseCoalesce nrows
    (sparseZero n
      (sparseShift nrows
        (sparseBucket arow acol aelt firstrow nnza
          (sparsePrefix nrows
            (sparseCount arow firstrow nnza
              (sparseClear n s))))))

/-- The 1-based array holding the list `l` (and `d` outside `1 .. l.length`). -/
def arrayOf {β : Type} (l : List β) (d : β) : Nat → β :=
  fun k => if k = 0 then d else l.getD (k - 1) d

/-- The entries `(colidx[k], a[k])` stored at the positions `lo, lo+1, .., lo+len-1`. -/
def seg {α : Type} (colidx : Nat → Nat) (a : Nat → α) (lo len : Nat) : List (Nat × α) :=
  (List.range' lo len).map (fun k => (colidx k, a k))

/-- The entries stored for local row `j` of a CSR matrix: positions
`rowstr[j] .. rowstr[j+1]-1`. -/
def csrRow {α : Type} (s : SparseState α) (j : Nat) : List (Nat × α) :=
  seg s.colidx s.a (s.rowstr j) (s.rowstr (j + 1) - s.rowstr j)

/-- The sum `S(r, c)` of `aelt` over the input triples `1 .. nnza` whose row is `r`
and whose column is `c`. -/
def tripleSum {α : Type} [AddMonoid α] (arow acol : Nat → Nat) (aelt : Nat → α) (nnza r c : Nat) :
    α :=
  (((List.range' 1 nnza).filter (fun t => arow t = r ∧ acol t = c)).map aelt).sum

/-- An all-zero initial memory, for examples. -/
def SparseState.blank (α : Type) [Zero α] : SparseState α :=
  { a := fun _ => 0, colidx := fun _ => 0, rowstr := fun _ => 0, x := fun _ => 0,
    mark := fun _ => false, nzloc := fun _ => 0, nza := 0, nzrow := 0, jajp1 := 0 }

/-! ### The mathematical content of the arrays of `sparse` -/

/-- The pairs `(acol[t], aelt[t])` of the triples `t = 1 .. m` whose local row
`arow[t] + 1 - firstrow` is `j`, in the order of the triples. -/
def rowEntries {α : Type} (arow acol : Nat → Nat) (aelt : Nat → α) (firstrow : Nat) :
    Nat → Nat → List (Nat × α)
  | 0, _ => []
  | m + 1, j => rowEntries arow acol aelt firstrow m j ++
      (if arow (m + 1) + 1 - firstrow = j then [(acol (m + 1), aelt (m + 1))] else [])

/-- Where the triples of local row `j` start after the bucket sort: one more than
the number of triples of the local rows below `j`. -/
def startOf {α : Type} (arow acol : Nat → Nat) (aelt : Nat → α) (firstrow nnza : Nat) :
    Nat → Nat
  | 0 => 1
  | j + 1 => startOf arow acol aelt firstrow nnza j
      + (rowEntries arow acol aelt firstrow nnza j).length

/-- The sum of the values of the entries of `l` in column `c`. -/
def colSum {α : Type} [AddMonoid α] (l : List (Nat × α)) (c : Nat) : α :=
  ((l.filter (fun e => e.1 = c)).map (fun e => e.2)).sum

/-- The accumulation loop of one row on lists: `x` after adding every entry of `l`,
the marks, and the list of the columns marked, in the order they were marked. -/
def scanRow {α : Type} [Zero α] [Add α] [DecidableEq α] :
    List (Nat × α) → (Nat → α) → (Nat → Bool) → List Nat → (Nat → α) × (Nat → Bool) × List Nat
  | [], x, mark, nzl => (x, mark, nzl)
  | e :: l, x, mark, nzl =>
    if mark e.1 = false ∧ setAt x e.1 (x e.1 + e.2) e.1 ≠ 0 then
      scanRow l (setAt x e.1 (x e.1 + e.2)) (setAt mark e.1 true) (nzl ++ [e.1])
    else
      scanRow l (setAt x e.1 (x e.1 + e.2)) mark nzl

/-- The extraction loop of one row on lists: the entries emitted for the marked
columns `cs`, each column being zeroed in `x` once visited. -/
def emitRow {α : Type} [Zero α] [DecidableEq α] : List Nat → (Nat → α) → List (Nat × α)
  | [], _ => []
  | c :: cs, x => (if x c ≠ 0 then [(c, x c)] else []) ++ emitRow cs (setAt x c 0)

/-- The array `x` after the extraction loop over the columns `cs`. -/
def clearAt {β : Type} (d : β) : List Nat → (Nat → β) → (Nat → β)
  | [], x => x
  | c :: cs, x => clearAt d cs (setAt x c d)

/-- The entries `sparse` stores for a row whose triples are `l`, when the scratch
arrays are clean. -/
def coalesceRow {α : Type} [Zero α] [Add α] [DecidableEq α] (l : List (Nat × α)) :
    List (Nat × α) :=
  emitRow (scanRow l (fun _ => 0) (fun _ => false) []).2.2
    (scanRow l (fun _ => 0) (fun _ => false) []).1

/-- Where the stored entries of local row `j` start after compaction. -/
def newStart {α : Type} [Zero α] [Add α] [DecidableEq α] (arow acol : Nat → Nat)
    (aelt : Nat → α) (firstrow nnza : Nat) : Nat → Nat
  | 0 => 1
  | j + 1 => newStart arow acol aelt firstrow nnza j
      + (coalesceRow (rowEntries arow acol aelt firstrow nnza j)).length

/-- The columns recorded in `nzloc[lo .. lo+cnt-1]`. -/
def nzList (nzloc : Nat → Nat) (lo cnt : Nat) : List Nat :=
  (List.range' lo cnt).map nzloc

/-- Example input of `sparse`: the rows of seven triples over a 3 x 3 matrix, with
repeated `(row, col)` pairs, a pair that sums to zero and a zero element. -/
def demoRow : Nat → Nat := arrayOf [2, 1, 2, 2, 1, 3, 2] 0

/-- The columns of the example triples. -/
def demoCol : Nat → Nat := arrayOf [3, 1, 3, 1, 1, 2, 2] 0

/-- The values of the example triples. -/
def demoElt : Nat → Int := arrayOf [5, 4, -5, 7, 1, 0, 9] 0

/-- The stored matrix re-expanded into triples in storage order: for the local rows
`j = 1 .. nrows` in turn, the triples `(j + firstrow - 1, colidx[k], a[k])` for
`k = rowstr[j] .. rowstr[j+1]-1`. -/
def expandTriples {α : Type} (s : SparseState α) (firstrow : Nat) : Nat → List (Nat × Nat × α)
  | 0 => []
  | j + 1 => expandTriples s firstrow j ++
      (csrRow s (j + 1)).map (fun e => (j + 1 + firstrow - 1, e.1, e.2))

/-- The routine `sparse` run a second time, from the memory `s2`, on the triples
re-expanded from the stored matrix `out`. -/
def sparseAgain {α : Type} [Zero α] [Add α] [DecidableEq α] (n firstrow lastrow : Nat)
    (out s2 : SparseState α) : SparseState α :=
  sparse n
    (arrayOf ((expandTriples out firstrow (lastrow + 1 - firstrow)).map (fun t => t.1)) 0)
    (arrayOf ((expandTriples out firstrow (lastrow + 1 - firstrow)).map (fun t => t.2.1)) 0)
    (arrayOf ((expandTriples out firstrow (lastrow + 1 - firstrow)).map (fun t => t.2.2)) 0)
    firstrow lastrow (expandTriples out firstrow (lastrow + 1 - firstrow)).length s2

/-! ## Sparse vector generator `sprnvc`, `icnvrt`, `vecset` (lines 972-1058)

The generator `randlc` is not part of `cg.cpp`.  The values its successive calls
return are a parameter `rand : Nat → ℚ` of the model (`rand k` is the value of the call
number `k`, counted from 0), and the state of the generator is the number `pos` of
values drawn so far. -/

/-- Line 1027: `icnvrt(x, ipwr2) = (int)(ipwr2 * x)`, the product truncated toward zero. -/
def icnvrt (x : ℚ) (ipwr2 : Nat) : Int :=
  Int.tdiv ((ipwr2 : ℚ) * x).num ((ipwr2 : ℚ) * x).den

/-- The arrays `sprnvc` works on, its counters `nzv` and `nzrow`, and the position in
the stream of random values. -/
structure SprnvcState where
  v : Nat → ℚ
  iv : Nat → Nat
  nzloc : Nat → Nat
  mark : Nat → Nat
  nzv : Nat
  nzrow : Nat
  pos : Nat

/-- Lines 986-989: `nn1 = 1; do { nn1 = 2 * nn1; } while (nn1 < n);`, started from the
current value `nn1`; `fuel` bounds the number of iterations. -/
def nn1Loop : Nat → Nat → Nat → Nat
  | 0, _, nn1 => nn1
  | fuel + 1, n, nn1 => if 2 * nn1 < n then nn1Loop fuel n (2 * nn1) else 2 * nn1

/-- Lines 996-1015, one iteration of `while (nzv < nz)`: draw `vecelt` and `vecloc`,
`i = icnvrt(vecloc, nn1) + 1; if (i > n) continue;` and, when `mark[i] == 0`, record `i`.
The index `i` is an `int`; it is used as the natural number `i.toNat`, which is `i`
itself for draws that are not negative. -/
def sprnvcStep (n nn1 : Nat) (rand : Nat → ℚ) (s : SprnvcState) : SprnvcState :=
  let vecelt := rand s.pos
  let vecloc := rand (s.pos + 1)
  let i : Int := icnvrt vecloc nn1 + 1
  if i > (n : Int) then { s with pos := s.pos + 2 }
  else if s.mark i.toNat = 0 then
    { s with mark := setAt s.mark i.toNat 1, nzrow := s.nzrow + 1,
             nzloc := setAt s.nzloc (s.nzrow + 1) i.toNat, nzv := s.nzv + 1,
             v := setAt s.v (s.nzv + 1) vecelt, iv := setAt s.iv (s.nzv + 1) i.toNat,
             pos := s.pos + 2 }
  else { s with pos := s.pos + 2 }

/-- Lines 995-1016, the loop `while (nzv < nz)`: `none` when it has not ended after
`fuel` iterations. -/
def sprnvcLoop (n nz nn1 : Nat) (rand : Nat → ℚ) : Nat → SprnvcState → Option SprnvcState
  | 0, s => if s.nzv < nz then none else some s
  | fuel + 1, s =>
    if s.nzv < nz then sprnvcLoop n nz nn1 rand fuel (sprnvcStep n nn1 rand s) else some s

/-- Lines 1018-1021: `for (ii = 1; ii <= nzrow; ii++) { i = nzloc[ii]; mark[i] = 0; }`. -/
def sprnvcClear (s : SprnvcState) : SprnvcState :=
  forUp (fun ii (s : SprnvcState) => { s with mark := setAt s.mark (s.nzloc ii) 0 }) 1 s.nzrow s

/-- The routine `sprnvc(n, nz, v, iv, nzloc, mark)`: `s` holds the arrays on entry and
the position in the random stream; the result is `none` when the rejection loop has
not ended after `fuel` iterations.  The doubling loop runs at most `n + 1` times. -/
def sprnvc (fuel n nz : Nat) (rand : Nat → ℚ) (s : SprnvcState) : Option SprnvcState :=
  match sprnvcLoop n nz (nn1Loop (n + 1) n 1) rand fuel { s with nzv := 0, nzrow := 0 } with
  | none => none
  | some s1 => some (sprnvcClear s1)

/-- The sparse vector `(v, iv)` with `nzv` entries. -/
structure VecState where
  v : Nat → ℚ
  iv : Nat → Nat
  nzv : Nat
  set : Bool

/-- The routine `vecset(n, v, iv, &nzv, i, val)` (lines 1035-1058): every entry with
index `i` gets the value `val`; when there is none, the entry `(i, val)` is appended. -/
def vecset (v : Nat → ℚ) (iv : Nat → Nat) (nzv i : Nat) (val : ℚ) : VecState :=
  let s1 := forUp (fun k (s : VecState) =>
    if s.iv k = i then { s with v := setAt s.v k val, set := true } else s) 1 nzv
    { v := v, iv := iv, nzv := nzv, set := false }
  if s1.set = false then
    { s1 with nzv := s1.nzv + 1, v := setAt s1.v (s1.nzv + 1) val, iv := setAt s1.iv (s1.nzv + 1) i }
  else s1

/-- Modelled from the spec: the generator `randlc` is not among the sources; the
specification describes it as a linear congruential generator on a 46-bit state,
`x := (a * x) mod 2^46`, that returns `x * 2^(-46)`.  `randlcState k` is the state
after `k` calls with the seed `tran = 314159265` and the multiplier
`amult = 1220703125` of `main` (lines 185-186). -/
def randlcState : Nat → Nat
  | 0 => 314159265
  | k + 1 => (1220703125 * randlcState k) % 2 ^ 46

/-- The values `randlc` returns inside `makea`: `main` has made one call before
(line 187), so the call number `k` of the generator returns the state `k + 2`
scaled by `2^(-46)`. -/
def npbStream (k : Nat) : ℚ := (randlcState (k + 2) : ℚ) / 2 ^ 46

/-- An all-zero memory for `sprnvc`, for examples. -/
def SprnvcState.blank : SprnvcState :=
  { v := fun _ => 0, iv := fun _ => 0, nzloc := fun _ => 0, mark := fun _ => 0,
    nzv := 0, nzrow := 0, pos := 0 }

/-- The loop invariant of `sprnvc`: at most `nz` entries, every recorded index is
marked, the recorded indices are pairwise distinct and at most `n`, and every mark
set since the start is listed in `nzloc`. -/
def SprnvcInv (n nz : Nat) (mark0 : Nat → Nat) (s : SprnvcState) : Prop :=
  s.nzv ≤ nz ∧
  (∀ k, 1 ≤ k → k ≤ s.nzv → s.mark (s.iv k) ≠ 0) ∧
  (∀ k1 k2, 1 ≤ k1 → k1 ≤ s.nzv → 1 ≤ k2 → k2 ≤ s.nzv → k1 ≠ k2 → s.iv k1 ≠ s.iv k2) ∧
  (∀ k, 1 ≤ k → k ≤ s.nzv → s.iv k ≤ n) ∧
  (∀ c, s.mark c ≠ mark0 c → c ∈ nzList s.nzloc 1 s.nzrow)

/-! ## Matrix assembler `makea` (lines 747-840) -/

/-- How a routine ends: normally with a state, by `exit(1)`, or, in the model only,
because the fuel given to a rejection loop ran out. -/
inductive Run (σ : Type) where
  | ok (s : σ) : Run σ
  | exited : Run σ
  | outOfFuel : Run σ

/-- Sequencing: a run that has ended by `exit(1)` or without fuel stays so. -/
def Run.bind {σ τ : Type} (r : Run σ) (f : σ → Run τ) : Run τ :=
  match r with
  | Run.ok s => f s
  | Run.exited => Run.exited
  | Run.outOfFuel => Run.outOfFuel

/-- The loop `for (i = lo; i < lo + cnt; i++)` whose body may end the run. -/
def forUpRun {σ : Type} (body : Nat → σ → Run σ) (lo cnt : Nat) (s : σ) : Run σ :=
  forUp (fun i (r : Run σ) => r.bind (body i)) lo cnt (Run.ok s)

/-- The arrays of `makea`, its variables `nnza`, `nzv` and `size`, and the position
`pos` in the stream of random values. -/
structure MakeaState where
  a : Nat → ℚ
  colidx : Nat → Nat
  rowstr : Nat → Nat
  arow : Nat → Nat
  acol : Nat → Nat
  aelt : Nat → ℚ
  v : Nat → ℚ
  iv : Nat → Nat
  nnza : Nat
  nzv : Nat
  size : ℚ
  pos : Nat

/-- Lines 796-808, the body of `for (ivelt1 = 1; ivelt1 <= nzv; ivelt1++)`:
`irow = iv[ivelt1]`; when `irow` is in `[firstrow, lastrow]`, `nnza = nnza + 1`,
`exit(1)` if `nnza > nz`, else the triple `(irow, jcol, v[ivelt1] * scale)` is stored. -/
def makeaInner (nz firstrow lastrow jcol : Nat) (scale : ℚ) (ivelt1 : Nat) (s : MakeaState) :
    Run MakeaState :=
  if s.iv ivelt1 ≥ firstrow ∧ s.iv ivelt1 ≤ lastrow then
    if s.nnza + 1 > nz then Run.exited
    else Run.ok { s with nnza := s.nnza + 1, acol := setAt s.acol (s.nnza + 1) jcol,
                         arow := setAt s.arow (s.nnza + 1) (s.iv ivelt1),
                         aelt := setAt s.aelt (s.nnza + 1) (s.v ivelt1 * scale) }
  else Run.ok s

/-- Lines 792-810, the body of `for (ivelt = 1; ivelt <= nzv; ivelt++)`:
`jcol = iv[ivelt]`; when `jcol` is in `[firstcol, lastcol]`, `scale = size * v[ivelt]`
and the loop over `ivelt1`. -/
def makeaColumn (nz firstrow lastrow firstcol lastcol : Nat) (ivelt : Nat) (s : MakeaState) :
    Run MakeaState :=
  if s.iv ivelt ≥ firstcol ∧ s.iv ivelt ≤ lastcol then
    forUpRun (makeaInner nz firstrow lastrow (s.iv ivelt) (s.size * s.v ivelt)) 1 s.nzv s
  else Run.ok s

/-- Lines 788-812, the body of `for (iouter = 1; iouter <= n; iouter++)`: `nzv = nonzer`,
the call `sprnvc(n, nzv, v, iv, &(colidx[0]), &(colidx[n]))` (so `nzloc[i]` is
`colidx[i]` and `mark[i]` is `colidx[n+i]`), `vecset(n, v, iv, &nzv, iouter, 0.5)`, the
loop over `ivelt`, and `size = size * ratio`. -/
def makeaOuter (fuel : Nat) (rand : Nat → ℚ) (ratio : ℚ)
    (n nz nonzer firstrow lastrow firstcol lastcol : Nat) (iouter : Nat) (s : MakeaState) :
    Run MakeaState :=
  match sprnvc fuel n nonzer rand
      { v := s.v, iv := s.iv, nzloc := s.colidx, mark := fun i => s.colidx (n + i),
        nzv := 0, nzrow := 0, pos := s.pos } with
  | none => Run.outOfFuel
  | some g =>
    (forUpRun (makeaColumn nz firstrow lastrow firstcol lastcol) 1
        (vecset g.v g.iv nonzer iouter (1 / 2)).nzv
        { s with v := (vecset g.v g.iv nonzer iouter (1 / 2)).v,
                 iv := (vecset g.v g.iv nonzer iouter (1 / 2)).iv,
                 nzv := (vecset g.v g.iv nonzer iouter (1 / 2)).nzv,
                 colidx := fun k => if k ≤ n then g.nzloc k else g.mark (k - n),
                 pos := g.pos }).bind
      (fun s2 => Run.ok { s2 with size := s2.size * ratio })

/-- Lines 819-833, the body of `for (i = firstrow; i <= lastrow; i++)`: when `i` is in
`[firstcol, lastcol]`, `nnza = nnza + 1`, `exit(1)` if `nnza > nz`, else the triple
`(i, i, rcond - shift)` is stored. -/
def makeaDiag (nz firstcol lastcol : Nat) (rcond shift : ℚ) (i : Nat) (s : MakeaState) :
    Run MakeaState :=
  if i ≥ firstcol ∧ i ≤ lastcol then
    if s.nnza + 1 > nz then Run.exited
    else Run.ok { s with nnza := s.nnza + 1, acol := setAt s.acol (s.nnza + 1) i,
                         arow := setAt s.arow (s.nnza + 1) i,
                         aelt := setAt s.aelt (s.nnza + 1) (rcond - shift) }
  else Run.ok s

/-- Line 839, the call `sparse(a, colidx, rowstr, n, arow, acol, aelt, firstrow, lastrow,
v, &(iv[0]), &(iv[n]), nnza)` at the end of `makea`: `x` is `v`, `mark[i]` is `iv[i]` and
`nzloc[i]` is `iv[n+i]`. -/
def makeaSparse (n firstrow lastrow : Nat) (s : MakeaState) : SparseState ℚ :=
  sparse n s.arow s.acol s.aelt firstrow lastrow s.nnza
    { a := s.a, colidx := s.colidx, rowstr := s.rowstr, x := s.v,
      mark := fun i => decide (s.iv i ≠ 0), nzloc := fun i => s.iv (n + i),
      nza := 0, nzrow := 0, jajp1 := 0 }

/-- The routine `makea`.  `cpow` stands for the library function `pow` in
`ratio = pow(rcond, 1.0 / n)`; `rand` is the stream of values of `randlc` and `fuel`
bounds the attempts of each call of `sprnvc`.  Lines 775-786 initialise `size`, `nnza`
and `colidx[n+1 .. 2n]`; then come the loop over `iouter`, the loop over the diagonal
and the call of `sparse`, whose arrays are copied back. -/
def makea (fuel : Nat) (rand : Nat → ℚ) (cpow : ℚ → ℚ → ℚ)
    (n nz nonzer firstrow lastrow firstcol lastcol : Nat) (rcond shift : ℚ) (s : MakeaState) :
    Run MakeaState :=
  ((forUpRun
      (makeaOuter fuel rand (cpow rcond (1 / (n : ℚ))) n nz nonzer firstrow lastrow firstcol
        lastcol) 1 n
      (forUp (fun i (s : MakeaState) => { s with colidx := setAt s.colidx (n + i) 0 }) 1 n
        { s with size := 1, nnza := 0 })).bind
    (fun s1 => forUpRun (makeaDiag nz firstcol lastcol rcond shift) firstrow
      (lastrow + 1 - firstrow) s1)).bind
    (fun s2 =>
      Run.ok { s2 with
        a := (makeaSparse n firstrow lastrow s2).a,
        colidx := (makeaSparse n firstrow lastrow s2).colidx,
        rowstr := (makeaSparse n firstrow lastrow s2).rowstr,
        v := (makeaSparse n firstrow lastrow s2).x,
        iv := fun k =>
          if k ≤ n then (if (makeaSparse n firstrow lastrow s2).mark k then 1 else 0)
          else (makeaSparse n firstrow lastrow s2).nzloc (k - n) })

/-- Lines 207-211 of `main`: `for (j = 1; j <= lastrow - firstrow + 1; j++)
for (k = rowstr[j]; k < rowstr[j+1]; k++) colidx[k] = colidx[k] - firstcol + 1;`. -/
def shiftColidx (firstrow lastrow firstcol : Nat) (rowstr colidx : Nat → Nat) : Nat → Nat :=
  forUp (fun j (colidx : Nat → Nat) =>
    forUp (fun k (colidx : Nat → Nat) => setAt colidx k (colidx k + 1 - firstcol))
      (rowstr j) (rowstr (j + 1) - rowstr j) colidx) 1 (lastrow + 1 - firstrow) colidx

/-- An all-zero memory for `makea`, for examples. -/
def MakeaState.blank : MakeaState :=
  { a := fun _ => 0, colidx := fun _ => 0, rowstr := fun _ => 0, arow := fun _ => 0,
    acol := fun _ => 0, aelt := fun _ => 0, v := fun _ => 0, iv := fun _ => 0,
    nnza := 0, nzv := 0, size := 0, pos := 0 }

/-- Every triple stored so far has its row in `[firstrow, lastrow]` and its column in
`[firstcol, lastcol]`. -/
def TriplesInRange (firstrow lastrow firstcol lastcol : Nat) (s : MakeaState) : Prop :=
  ∀ t, 1 ≤ t → t ≤ s.nnza →
    (firstrow ≤ s.arow t ∧ s.arow t ≤ lastrow) ∧ (firstcol ≤ s.acol t ∧ s.acol t ≤ lastcol)

/-- Whether the run has ended normally. -/
def Run.isOk {σ : Type} : Run σ → Bool
  | Run.ok _ => true
  | Run.exited => false
  | Run.outOfFuel => false

/-- The state a run has ended with, `d` when it has not ended normally. -/
def Run.getD {σ : Type} (r : Run σ) (d : σ) : σ :=
  match r with
  | Run.ok s => s
  | Run.exited => d
  | Run.outOfFuel => d

/-- Example run of `makea`: a 4 x 4 matrix with 2 nonzeros per generated vector,
the benchmark's random stream, and `1/2` standing for `pow(rcond, 1/n)`. -/
def demoMakea : Run MakeaState :=
  makea 40 npbStream (fun _ _ => 1 / 2) 4 100 2 1 4 1 4 (1 / 10) 10 MakeaState.blank

/-- Lines 775-813 of `makea`: the initialisations and the loop over the columns
`iouter = 1 .. n`, that is `makea` up to, and without, the loop over the diagonal. -/
def makeaColumns (fuel : Nat) (rand : Nat → ℚ) (cpow : ℚ → ℚ → ℚ)
    (n nz nonzer firstrow lastrow firstcol lastcol : Nat) (rcond : ℚ) (s : MakeaState) :
    Run MakeaState :=
  forUpRun
    (makeaOuter fuel rand (cpow rcond (1 / (n : ℚ))) n nz nonzer firstrow lastrow firstcol
      lastcol) 1 n
    (forUp (fun i (s : MakeaState) => { s with colidx := setAt s.colidx (n + i) 0 }) 1 n
      { s with size := 1, nnza := 0 })

/-- The owned diagonal indices: the `i` of `[firstrow, lastrow]` that also lie in
`[firstcol, lastcol]`, in increasing order. -/
def diagIndices (firstrow lastrow firstcol lastcol : Nat) : List Nat :=
  (List.range' firstrow (lastrow + 1 - firstrow)).filter (fun i => firstcol ≤ i ∧ i ≤ lastcol)

/-- The triples `(arow[t], acol[t], aelt[t])` stored at the positions
`t = lo, .., lo+len-1`. -/
def triplesFrom (s : MakeaState) (lo len : Nat) : List (Nat × Nat × ℚ) :=
  (List.range' lo len).map (fun t => (s.arow t, s.acol t, s.aelt t))

/-- The count of triples is within the capacity `nz`, and the elements of `arow`, `acol`,
`aelt` beyond index `nz` are those of the state `s0`. -/
def WithinCapacity (nz : Nat) (s0 s : MakeaState) : Prop :=
  s.nnza ≤ nz ∧
    ∀ t, nz < t → s.arow t = s0.arow t ∧ s.acol t = s0.acol t ∧ s.aelt t = s0.aelt t

/-! ## The solver on several workers (`conj_grad`, lines 435-720; `main`, lines 204-368)

The program runs on `numtasks` workers (the ArgoDSM nodes), told apart by `workrank`.
Each worker is modelled as running its code sequentially: the OpenMP directives share the
loops of one worker among its threads and are not modelled. -/

/-- The arrays of the global memory (`common /global_mem/`, allocated with
`argo::conew_array`): all workers read and write the same `gnorm_temps`, `x`, `z`, `p`,
`q`, `r`, `w`. -/
@[ext] structure GlobalMem (K : Type) where
  gnorm_temps : Nat → K
  x : Nat → K
  z : Nat → K
  p : Nat → K
  q : Nat → K
  r : Nat → K
  w : Nat → K

/-- The memory of one worker: its own copy of the matrix `a`, `colidx`, `rowstr`
(allocated with `new`), the statics `d`, `sum`, `rho`, `rho0`, `alpha`, `beta` of
`conj_grad` and the locals `zeta`, `rnorm`, `norm_temp11`, `norm_temp12` of `main`. -/
@[ext] structure NodeMem (K : Type) where
  a : Nat → K
  colidx : Nat → Nat
  rowstr : Nat → Nat
  d : K
  sum : K
  rho : K
  rho0 : K
  alpha : K
  beta : K
  zeta : K
  rnorm : K
  norm_temp11 : K
  norm_temp12 : K

/-- What the code of one worker works on: the global memory and the worker's own memory. -/
@[ext] structure Worker (K : Type) where
  glob : GlobalMem K
  node : NodeMem K

/-- The state of the whole run: the global memory and the memory of each worker. -/
@[ext] structure World (K : Type) where
  glob : GlobalMem K
  node : Nat → NodeMem K

/-- The globals `naa`, `firstrow`, `lastrow`, `firstcol`, `lastcol` and `numtasks`, which
have the same values on all workers. -/
structure Globals where
  naa : Nat
  firstrow : Nat
  lastrow : Nat
  firstcol : Nat
  lastcol : Nat
  numtasks : Nat

/-- The values `main` gives the globals (lines 139-142, 182, 128):
`firstrow = 1; lastrow = NA; firstcol = 1; lastcol = NA; naa = NA`. -/
def mainGlobals (NA numtasks : Nat) : Globals :=
  { naa := NA, firstrow := 1, lastrow := NA, firstcol := 1, lastcol := NA,
    numtasks := numtasks }

/-- Line 459, `beg_naa`, from `chunk_naa = (naa+1) / numtasks`. -/
def beg_naa (G : Globals) (workrank : Nat) : Nat := beg (G.naa + 1) G.numtasks workrank

/-- Line 460, `end_naa`. -/
def end_naa (G : Globals) (workrank : Nat) : Nat := end_ (G.naa + 1) G.numtasks workrank

/-- Line 463, `beg_row`, from `chunk_row = (lastrow-firstrow+1) / numtasks`. -/
def beg_row (G : Globals) (workrank : Nat) : Nat :=
  beg (G.lastrow + 1 - G.firstrow) G.numtasks workrank

/-- Line 464, `end_row`. -/
def end_row (G : Globals) (workrank : Nat) : Nat :=
  end_ (G.lastrow + 1 - G.firstrow) G.numtasks workrank

/-- Line 467, `beg_col`, from `chunk_col = (lastcol-firstcol+1) / numtasks`. -/
def beg_col (G : Globals) (workrank : Nat) : Nat :=
  beg (G.lastcol + 1 - G.firstcol) G.numtasks workrank

/-- Line 468, `end_col`. -/
def end_col (G : Globals) (workrank : Nat) : Nat :=
  end_ (G.lastcol + 1 - G.firstcol) G.numtasks workrank

/-- Lines 470-495 of `conj_grad`, up to the first barrier: `rho = 0.0`; the loop over
`[beg_naa, end_naa]` setting `q[j] = 0.0; z[j] = 0.0; r[j] = x[j]; p[j] = r[j];
w[j] = 0.0`; the loop `rho = rho + x[j]*x[j]` over `[beg_col, end_col]`; and
`gnorm_temps[workrank] = rho`. -/
def cgInit {K : Type} [Field K] (G : Globals) (workrank : Nat) (s : Worker K) : Worker K :=
  let s := { s with node.rho := 0 }
  let s := forUp (fun j (s : Worker K) =>
      let s := { s with glob.q := setAt s.glob.q j 0 }
      let s := { s with glob.z := setAt s.glob.z j 0 }
      let xj := s.glob.x j
      let s := { s with glob.r := setAt s.glob.r j xj }
      let rj := s.glob.r j
      let s := { s with glob.p := setAt s.glob.p j rj }
      { s with glob.w := setAt s.glob.w j 0 })
    (beg_naa G workrank) (end_naa G workrank + 1 - beg_naa G workrank) s
  let s := forUp (fun j (s : Worker K) =>
      let t := s.glob.x j * s.glob.x j
      { s with node.rho := s.node.rho + t })
    (beg_col G workrank) (end_col G workrank + 1 - beg_col G workrank) s
  let t := s.node.rho
  { s with glob.gnorm_temps := setAt s.glob.gnorm_temps workrank t }

/-- Lines 499-502 (and 653-656):
`for (j = 0; j < numtasks; j++) if (j != workrank) rho += gnorm_temps[j];`. -/
def cgSumRho {K : Type} [Field K] (G : Globals) (workrank : Nat) (s : Worker K) : Worker K :=
  let t := gather s.glob.gnorm_temps G.numtasks workrank s.node.rho
  { s with node.rho := t }

/-- Lines 510-515, the head of an iteration: `rho0 = rho; d = 0.0; rho = 0.0;`. -/
def cgStart {K : Type} [Field K] (_ : Globals) (_ : Nat) (s : Worker K) : Worker K :=
  let s := { s with node.rho0 := s.node.rho }
  let s := { s with node.d := 0 }
  { s with node.rho := 0 }

/-- Lines 533-540, the product `q = A.p` into the workspace `w`: for `j` in
`[beg_row, end_row]`, `sum = 0.0`, `sum = sum + a[k]*p[colidx[k]]` for
`rowstr[j] <= k < rowstr[j+1]`, and `w[j] = sum`.  The directive makes `sum` private to
the loop, so it is an accumulator of the body and the static `sum` is not touched. -/
def cgMatVec {K : Type} [Field K] (G : Globals) (workrank : Nat) (s : Worker K) : Worker K :=
  forUp (fun j (s : Worker K) =>
      let sum := forUp (fun k (sum : K) => sum + s.node.a k * s.glob.p (s.node.colidx k))
        (s.node.rowstr j) (s.node.rowstr (j + 1) - s.node.rowstr j) 0
      { s with glob.w := setAt s.glob.w j sum })
    (beg_row G workrank) (end_row G workrank + 1 - beg_row G workrank) s

/-- Lines 585-607: over `[beg_col, end_col]`, `q[j] = w[j]`; then `w[j] = 0.0`; then
`d = d + p[j]*q[j]`; and `gnorm_temps[workrank] = d`. -/
def cgDot {K : Type} [Field K] (G : Globals) (workrank : Nat) (s : Worker K) : Worker K :=
  let s := forUp (fun j (s : Worker K) =>
      let wj := s.glob.w j
      { s with glob.q := setAt s.glob.q j wj })
    (beg_col G workrank) (end_col G workrank + 1 - beg_col G workrank) s
  let s := forUp (fun j (s : Worker K) => { s with glob.w := setAt s.glob.w j 0 })
    (beg_col G workrank) (end_col G workrank + 1 - beg_col G workrank) s
  let s := forUp (fun j (s : Worker K) =>
      let t := s.glob.p j * s.glob.q j
      { s with node.d := s.node.d + t })
    (beg_col G workrank) (end_col G workrank + 1 - beg_col G workrank) s
  let t := s.node.d
  { s with glob.gnorm_temps := setAt s.glob.gnorm_temps workrank t }

/-- Lines 611-634: `d += gnorm_temps[j]` for the other workers `j`; `alpha = rho0 / d`;
and over `[beg_col, end_col]`, `z[j] = z[j] + alpha*p[j]; r[j] = r[j] - alpha*q[j]`. -/
def cgAxpy {K : Type} [Field K] (G : Globals) (workrank : Nat) (s : Worker K) : Worker K :=
  let t := gather s.glob.gnorm_temps G.numtasks workrank s.node.d
  let s := { s with node.d := t }
  let s := { s with node.alpha := s.node.rho0 / s.node.d }
  forUp (fun j (s : Worker K) =>
      let zj := s.glob.z j + s.node.alpha * s.glob.p j
      let s := { s with glob.z := setAt s.glob.z j zj }
      let rj := s.glob.r j - s.node.alpha * s.glob.q j
      { s with glob.r := setAt s.glob.r j rj })
    (beg_col G workrank) (end_col G workrank + 1 - beg_col G workrank) s

/-- Lines 643-649: `rho = rho + r[j]*r[j]` over `[beg_col, end_col]` and
`gnorm_temps[workrank] = rho`. -/
def cgNorm {K : Type} [Field K] (G : Globals) (workrank : Nat) (s : Worker K) : Worker K :=
  let s := forUp (fun j (s : Worker K) =>
      let t := s.glob.r j * s.glob.r j
      { s with node.rho := s.node.rho + t })
    (beg_col G workrank) (end_col G workrank + 1 - beg_col G workrank) s
  let t := s.node.rho
  { s with glob.gnorm_temps := setAt s.glob.gnorm_temps workrank t }

/-- Lines 653-670: `rho += gnorm_temps[j]` for the other workers `j`;
`beta = rho / rho0`; and `p[j] = r[j] + beta*p[j]` over `[beg_col, end_col]`. -/
def cgDirection {K : Type} [Field K] (G : Globals) (workrank : Nat) (s : Worker K) :
    Worker K :=
  let s := cgSumRho G workrank s
  let s := { s with node.beta := s.node.rho / s.node.rho0 }
  forUp (fun j (s : Worker K) =>
      let pj := s.glob.r j + s.node.beta * s.glob.p j
      { s with glob.p := setAt s.glob.p j pj })
    (beg_col G workrank) (end_col G workrank + 1 - beg_col G workrank) s

/-- Lines 678-688: `sum = 0.0`, and for `j` in `[beg_row, end_row]`, `d = 0.0`,
`d = d + a[k]*z[colidx[k]]` for `rowstr[j] <= k <= rowstr[j+1]-1`, and `w[j] = d`.  The
directive makes `d` private to the loop, so it is an accumulator of the body. -/
def cgResidualMatVec {K : Type} [Field K] (G : Globals) (workrank : Nat) (s : Worker K) :
    Worker K :=
  let s := { s with node.sum := 0 }
  forUp (fun j (s : Worker K) =>
      let d := forUp (fun k (d : K) => d + s.node.a k * s.glob.z (s.node.colidx k))
        (s.node.rowstr j) (s.node.rowstr (j + 1) - s.node.rowstr j) 0
      { s with glob.w := setAt s.glob.w j d })
    (beg_row G workrank) (end_row G workrank + 1 - beg_row G workrank) s

/-- Lines 692-707: over `[beg_col, end_col]`, `r[j] = w[j]`; then `d = x[j] - r[j];
sum = sum + d*d` (`d` private to the loop); and `gnorm_temps[workrank] = sum`. -/
def cgResidual {K : Type} [Field K] (G : Globals) (workrank : Nat) (s : Worker K) :
    Worker K :=
  let s := forUp (fun j (s : Worker K) =>
      let wj := s.glob.w j
      { s with glob.r := setAt s.glob.r j wj })
    (beg_col G workrank) (end_col G workrank + 1 - beg_col G workrank) s
  let s := forUp (fun j (s : Worker K) =>
      let d := s.glob.x j - s.glob.r j
      { s with node.sum := s.node.sum + d * d })
    (beg_col G workrank) (end_col G workrank + 1 - beg_col G workrank) s
  let t := s.node.sum
  { s with glob.gnorm_temps := setAt s.glob.gnorm_temps workrank t }

/-- Lines 711-719: `sum += gnorm_temps[j]` for the other workers `j`, and
`(*rnorm) = sqrt(sum)`, where `rnorm` points to the local `rnorm` of `main`; `csqrt` stands
for the library function `sqrt`. -/
def cgRnorm {K : Type} [Field K] (csqrt : K → K) (G : Globals) (workrank : Nat)
    (s : Worker K) : Worker K :=
  let t := gather s.glob.gnorm_temps G.numtasks workrank s.node.sum
  let s := { s with node.sum := t }
  { s with node.rnorm := csqrt s.node.sum }

/-- An instruction of the program of the workers: a stretch of code without barrier,
given for each `workrank`, or the barrier `argo::barrier`. -/
inductive Instr (K : Type) where
  | run (f : Nat → Worker K → Worker K) : Instr K
  | barrier : Instr K

/-- The code of a counted loop `for (i = lo; i < lo + cnt; i++)` around a body. -/
def loopProg {K : Type} (body : Nat → List (Instr K)) : Nat → Nat → List (Instr K)
  | _, 0 => []
  | lo, cnt + 1 => body lo ++ loopProg body (lo + 1) cnt

/-- Lines 509-671, the body of the loop over `cgit`, with its five barriers (lines 530,
542, 609, 637, 651). -/
def cgIteration {K : Type} [Field K] (G : Globals) : List (Instr K) :=
  [Instr.run (cgStart G), Instr.barrier, Instr.run (cgMatVec G), Instr.barrier,
   Instr.run (cgDot G), Instr.barrier, Instr.run (cgAxpy G), Instr.barrier,
   Instr.run (cgNorm G), Instr.barrier, Instr.run (cgDirection G)]

/-- Line 456: `cgitmax = 25`. -/
def cgitmax : Nat := 25

/-- The routine `conj_grad` as the sequence of its stretches of code and barriers (lines
497, 690 and 709 outside the loop): the initialisation, the loop
`for (cgit = 1; cgit <= cgitmax; cgit++)`, and the residual norm. -/
def conj_grad {K : Type} [Field K] (csqrt : K → K) (G : Globals) : List (Instr K) :=
  [Instr.run (cgInit G), Instr.barrier, Instr.run (cgSumRho G)]
    ++ loopProg (fun _ => cgIteration G) 1 cgitmax
    ++ [Instr.run (cgResidualMatVec G), Instr.barrier, Instr.run (cgResidual G),
        Instr.barrier, Instr.run (cgRnorm csqrt G)]

/-- Worker `workrank` runs the stretch `f` on the global memory and its own memory. -/
def step {K : Type} (f : Nat → Worker K → Worker K) (workrank : Nat) (g : World K) : World K :=
  { glob := (f workrank { glob := g.glob, node := g.node workrank }).glob,
    node := setAt g.node workrank (f workrank { glob := g.glob, node := g.node workrank }).node }

/-- The workers run the code they have between two barriers one after the other, in the
order `order`. -/
def runPhase {K : Type} (order : List Nat) (f : Nat → Worker K → Worker K) (g : World K) :
    World K :=
  order.foldl (fun g workrank => step f workrank g) g

/-- The run of a program from its `k`-th barrier on: `pending` is the code each worker
has met since that barrier; at a barrier, and at the end, the workers run their pending
code in the order `sched k`.  No order is imposed between the workers inside a phase other
than the one the schedule chooses. -/
def exec {K : Type} (sched : Nat → List Nat) :
    Nat → (Nat → Worker K → Worker K) → List (Instr K) → World K → World K
  | k, pending, [], g => runPhase (sched k) pending g
  | k, pending, Instr.run f :: rest, g =>
    exec sched k (fun workrank s => f workrank (pending workrank s)) rest g
  | k, pending, Instr.barrier :: rest, g =>
    exec sched (k + 1) (fun _ s => s) rest (runPhase (sched k) pending g)

/-- The run of a program that starts at a barrier. -/
def runProg {K : Type} (sched : Nat → List Nat) (prog : List (Instr K)) (g : World K) :
    World K :=
  exec sched 0 (fun _ s => s) prog g

/-- Lines 216-226 of `main` (and again 277-286): with
`chunk = (NA+1) / numtasks; beg = 1 + workrank * chunk;
end = (workrank != numtasks - 1) ? workrank * chunk + chunk : NA+1`,
`x[i] = 1.0` for `i` in `[beg, end]`, and `zeta = 0.0`. -/
def mainSetX {K : Type} [Field K] (NA : Nat) (G : Globals) (workrank : Nat) (s : Worker K) :
    Worker K :=
  let s := forUp (fun i (s : Worker K) => { s with glob.x := setAt s.glob.x i 1 })
    (beg (NA + 1) G.numtasks workrank)
    (end_ (NA + 1) G.numtasks workrank + 1 - beg (NA + 1) G.numtasks workrank) s
  { s with node.zeta := 0 }

/-- Lines 246-270, the untimed iteration after its call of `conj_grad`: with the partition
of `lastcol-firstcol+1`, `norm_temp11 = 0.0; norm_temp12 = 0.0`, the loop
`norm_temp11 = norm_temp11 + x[j]*z[j]; norm_temp12 = norm_temp12 + z[j]*z[j]`,
`norm_temp12 = 1.0 / sqrt(norm_temp12)`, and `x[j] = norm_temp12*z[j]`. -/
def mainWarmNorms {K : Type} [Field K] (csqrt : K → K) (G : Globals) (workrank : Nat)
    (s : Worker K) : Worker K :=
  let s := { s with node.norm_temp11 := 0 }
  let s := { s with node.norm_temp12 := 0 }
  let s := forUp (fun j (s : Worker K) =>
      let t := s.glob.x j * s.glob.z j
      let s := { s with node.norm_temp11 := s.node.norm_temp11 + t }
      let t := s.glob.z j * s.glob.z j
      { s with node.norm_temp12 := s.node.norm_temp12 + t })
    (beg_col G workrank) (end_col G workrank + 1 - beg_col G workrank) s
  let s := { s with node.norm_temp12 := 1 / csqrt s.node.norm_temp12 }
  forUp (fun j (s : Worker K) =>
      let xj := s.node.norm_temp12 * s.glob.z j
      { s with glob.x := setAt s.glob.x j xj })
    (beg_col G workrank) (end_col G workrank + 1 - beg_col G workrank) s

/-- Lines 317-336, a timed iteration after its call of `conj_grad`, up to the barrier:
`norm_temp11 = 0.0; norm_temp12 = 0.0`, the loop over `[beg, end]` of the partition of
`lastcol-firstcol+1`, and
`gnorm_temps[2*workrank] = norm_temp11; gnorm_temps[2*workrank+1] = norm_temp12`. -/
def mainNorms {K : Type} [Field K] (G : Globals) (workrank : Nat) (s : Worker K) : Worker K :=
  let s := { s with node.norm_temp11 := 0 }
  let s := { s with node.norm_temp12 := 0 }
  let s := forUp (fun j (s : Worker K) =>
      let t := s.glob.x j * s.glob.z j
      let s := { s with node.norm_temp11 := s.node.norm_temp11 + t }
      let t := s.glob.z j * s.glob.z j
      { s with node.norm_temp12 := s.node.norm_temp12 + t })
    (beg_col G workrank) (end_col G workrank + 1 - beg_col G workrank) s
  let t := publish2 s.glob.gnorm_temps workrank s.node.norm_temp11 s.node.norm_temp12
  { s with glob.gnorm_temps := t }

/-- Lines 340-365, after the barrier: the sums over the slots of the other workers,
`norm_temp12 = 1.0 / sqrt(norm_temp12)`, `zeta = SHIFT + 1.0 / norm_temp11`, and
`x[j] = norm_temp12*z[j]` over `[beg, end]`. -/
def mainZeta {K : Type} [Field K] (SHIFT : K) (csqrt : K → K) (G : Globals) (workrank : Nat)
    (s : Worker K) : Worker K :=
  let t := gather2 s.glob.gnorm_temps G.numtasks workrank
    (s.node.norm_temp11, s.node.norm_temp12)
  let s := { s with node.norm_temp11 := t.1, node.norm_temp12 := t.2 }
  let s := { s with node.norm_temp12 := 1 / csqrt s.node.norm_temp12 }
  let s := { s with node.zeta := SHIFT + 1 / s.node.norm_temp11 }
  forUp (fun j (s : Worker K) =>
      let xj := s.node.norm_temp12 * s.glob.z j
      { s with glob.x := setAt s.glob.x j xj })
    (beg_col G workrank) (end_col G workrank + 1 - beg_col G workrank) s

/-- Lines 213-290 of `main`: the start vector, the loop `for (it = 1; it <= 1; it++)` of
the untimed iteration, the start vector again, and the barrier of line 290.  (The loop of
lines 206-211 before it changes only the worker's own `colidx`.) -/
def mainWarmup {K : Type} [Field K] (csqrt : K → K) (NA : Nat) (G : Globals) :
    List (Instr K) :=
  [Instr.run (mainSetX NA G)]
    ++ loopProg (fun _ => conj_grad csqrt G ++ [Instr.run (mainWarmNorms csqrt G)]) 1 1
    ++ [Instr.run (mainSetX NA G), Instr.barrier]

/-- Lines 304-368, the body of the loop `for (it = 1; it <= NITER; it++)`: the call of
`conj_grad`, the norms, the barrier of line 338, `zeta` and the new `x`, and the barrier of
line 367. -/
def mainIteration {K : Type} [Field K] (SHIFT : K) (csqrt : K → K) (G : Globals) :
    List (Instr K) :=
  conj_grad csqrt G
    ++ [Instr.run (mainNorms G), Instr.barrier, Instr.run (mainZeta SHIFT csqrt G),
        Instr.barrier]

/-- Lines 213-368 of `main` on `numtasks` workers, with the globals as `main` sets them. -/
def mainProg {K : Type} [Field K] (SHIFT : K) (csqrt : K → K) (NA NITER numtasks : Nat) :
    List (Instr K) :=
  mainWarmup csqrt NA (mainGlobals NA numtasks)
    ++ loopProg (fun _ => mainIteration SHIFT csqrt (mainGlobals NA numtasks)) 1 NITER

/-- The names of the arrays of the global memory. -/
inductive Fld where
  | gnorm_temps : Fld
  | x : Fld
  | z : Fld
  | p : Fld
  | q : Fld
  | r : Fld
  | w : Fld

/-- The element `j` of the array named `f`. -/
def GlobalMem.get {K : Type} (m : GlobalMem K) : Fld → Nat → K
  | Fld.gnorm_temps => m.gnorm_temps
  | Fld.x => m.x
  | Fld.z => m.z
  | Fld.p => m.p
  | Fld.q => m.q
  | Fld.r => m.r
  | Fld.w => m.w

/-- The code `seg` keeps to the ownership `own` among the workers `ws` (`own u f j`:
worker `u` may write element `j` of the array `f` in this phase): a worker writes only
elements it owns, and what it writes there and leaves in its own memory depends on the
global memory only through elements that no other worker owns. -/
def Confined {K : Type} (ws : List Nat) (own : Nat → Fld → Nat → Prop)
    (seg : Nat → Worker K → Worker K) : Prop :=
  (∀ u, u ∈ ws → ∀ (v : Worker K) f j, ¬ own u f j →
      (seg u v).glob.get f j = v.glob.get f j) ∧
  (∀ u, u ∈ ws → ∀ (v v2 : Worker K), v.node = v2.node →
      (∀ f j, (∀ u2, u2 ∈ ws → u2 ≠ u → ¬ own u2 f j) → v.glob.get f j = v2.glob.get f j) →
      (seg u v).node = (seg u v2).node ∧
      ∀ f j, own u f j → (seg u v).glob.get f j = (seg u v2).glob.get f j)

/-- No element is owned by two of the workers `ws`. -/
def OwnDisjoint (ws : List Nat) (own : Nat → Fld → Nat → Prop) : Prop :=
  ∀ u, u ∈ ws → ∀ u2, u2 ∈ ws → u ≠ u2 → ∀ f j, ¬ (own u f j ∧ own u2 f j)

/-- The `j`-th component of `A*v` for the matrix a worker holds in the arrays `a`,
`colidx`, `rowstr`: the sum of `a[k]*v[colidx[k]]` over `rowstr[j] <= k < rowstr[j+1]`. -/
def csrApply {K : Type} [Field K] (nd : NodeMem K) (v : Nat → K) (j : Nat) : K :=
  ∑ k ∈ Finset.Ico (nd.rowstr j) (nd.rowstr (j + 1)), nd.a k * v (nd.colidx k)

/-- The array that holds `f k` at the indices `lo <= k <= hi` and `old k` elsewhere: the
result of a loop `for (k = lo; k <= hi; k++)` that stores `f k` into element `k`. -/
def onRange {β : Type} (lo hi : Nat) (f old : Nat → β) : Nat → β :=
  fun k => if lo ≤ k ∧ k ≤ hi then f k else old k

/-- The array after the first `t` iterations of such a loop. -/
def onFirst {β : Type} (lo t : Nat) (f old : Nat → β) : Nat → β :=
  fun k => if lo ≤ k ∧ k < lo + t then f k else old k

/-- An ownership for a phase: worker `u` owns the elements `lo u <= j <= hi u` of the
arrays `arrs`, and the elements `j` of `gnorm_temps` with `slot u j`. -/
def ownRanges (arrs : Fld → Prop) (lo hi : Nat → Nat) (slot : Nat → Nat → Prop) (u : Nat)
    (f : Fld) (j : Nat) : Prop :=
  match f with
  | Fld.gnorm_temps => slot u j
  | Fld.x => arrs Fld.x ∧ lo u ≤ j ∧ j ≤ hi u
  | Fld.z => arrs Fld.z ∧ lo u ≤ j ∧ j ≤ hi u
  | Fld.p => arrs Fld.p ∧ lo u ≤ j ∧ j ≤ hi u
  | Fld.q => arrs Fld.q ∧ lo u ≤ j ∧ j ≤ hi u
  | Fld.r => arrs Fld.r ∧ lo u ≤ j ∧ j ≤ hi u
  | Fld.w => arrs Fld.w ∧ lo u ≤ j ∧ j ≤ hi u

/-- An example: the memory of a worker holding the matrix
`[[2, 1, 0], [1, 3, 1], [0, 1, 4]]` in CSR form, all scalars zero. -/
def demoNode : NodeMem ℚ :=
  { a := arrayOf [2, 1, 1, 3, 1, 1, 4] 0, colidx := arrayOf [1, 2, 1, 2, 3, 2, 3] 0,
    rowstr := arrayOf [1, 3, 6, 8] 0, d := 0, sum := 0, rho := 0, rho0 := 0, alpha := 0,
    beta := 0, zeta := 0, rnorm := 0, norm_temp11 := 0, norm_temp12 := 0 }

/-- An example: `NA = 3`, the start vector `x[1 .. 4] = 1`, and arbitrary other contents
of the global arrays. -/
def demoWorld : World ℚ :=
  { glob := { gnorm_temps := fun _ => 9, x := fun j => if 1 ≤ j ∧ j ≤ 4 then 1 else 0,
              z := fun _ => 7, p := fun _ => 7, q := fun _ => 7, r := fun _ => 7,
              w := fun _ => 7 },
    node := fun _ => demoNode }

/-- The number of barriers of a program. -/
def barriers {K : Type} : List (Instr K) → Nat
  | [] => 0
  | Instr.run _ :: rest => barriers rest
  | Instr.barrier :: rest => barriers rest + 1

/-- The code of a timed iteration from the last barrier of `conj_grad` (line 709) on:
lines 711-719 of `conj_grad`, then lines 317-368 of `main`. -/
def iterationTail {K : Type} [Field K] (SHIFT : K) (csqrt : K → K) (G : Globals) :
    List (Instr K) :=
  [Instr.run (cgRnorm csqrt G), Instr.run (mainNorms G), Instr.barrier,
   Instr.run (mainZeta SHIFT csqrt G), Instr.barrier]

/-- The code of `conj_grad` up to its last barrier (line 709). -/
def cgBody {K : Type} [Field K] (G : Globals) : List (Instr K) :=
  [Instr.run (cgInit G), Instr.barrier, Instr.run (cgSumRho G)]
    ++ loopProg (fun _ => cgIteration G) 1 cgitmax
    ++ [Instr.run (cgResidualMatVec G), Instr.barrier, Instr.run (cgResidual G)]

/-- An example of a square root on the rationals: exact at 169, 25 and 16. -/
def demoSqrt (s : ℚ) : ℚ :=
  if s = 169 then 13 else if s = 25 then 5 else if s = 16 then 4 else 0

/-- An example of a state at the last barrier of `conj_grad`: `NA = 3`, `x = (1, 1, 1)`
and `z = (3, 4, 12)`. -/
def demoTailWorld : World ℚ :=
  { glob := { gnorm_temps := fun _ => 0, x := fun j => if 1 ≤ j ∧ j ≤ 4 then 1 else 0,
              z := arrayOf [3, 4, 12] 0, p := fun _ => 0, q := fun _ => 0, r := fun _ => 0,
              w := fun _ => 0 },
    node := fun _ => demoNode }

/-- The family that holds `f u` for the workers `u < numtasks` and `old u` for the other
indices. -/
def onWorkers {β : Type} (numtasks : Nat) (f old : Nat → β) : Nat → β :=
  fun u => if u < numtasks then f u else old u

/-! ## Class table and verification (`main`, lines 144-170 and 378-433)

The constants `NA`, `NONZER`, `NITER` and `SHIFT` come from `npbparams.hpp`, which is not
among the sources: they are parameters.  Doubles are rationals. -/

/-- The variables `class_npb` and `zeta_verify_value` of `main`. -/
structure ClassChoice where
  class_npb : Char
  zeta_verify_value : ℚ
deriving DecidableEq

/-- Lines 144-170 of `main`: the chain of tests on `(NA, NONZER, NITER, SHIFT)`.  In the
last branch `zeta_verify_value` is not assigned: it keeps the value `zeta_verify_value`
it had. -/
def selectClass (NA NONZER NITER : Int) (SHIFT : ℚ) (zeta_verify_value : ℚ) : ClassChoice :=
  if NA = 1400 ∧ NONZER = 7 ∧ NITER = 15 ∧ SHIFT = 10.0 then
    { class_npb := 'S', zeta_verify_value := 8.5971775078648 }
  else if NA = 7000 ∧ NONZER = 8 ∧ NITER = 15 ∧ SHIFT = 12.0 then
    { class_npb := 'W', zeta_verify_value := 10.362595087124 }
  else if NA = 14000 ∧ NONZER = 11 ∧ NITER = 15 ∧ SHIFT = 20.0 then
    { class_npb := 'A', zeta_verify_value := 17.130235054029 }
  else if NA = 75000 ∧ NONZER = 13 ∧ NITER = 75 ∧ SHIFT = 60.0 then
    { class_npb := 'B', zeta_verify_value := 22.712745482631 }
  else if NA = 150000 ∧ NONZER = 15 ∧ NITER = 75 ∧ SHIFT = 110.0 then
    { class_npb := 'C', zeta_verify_value := 28.973605592845 }
  else if NA = 1500000 ∧ NONZER = 21 ∧ NITER = 100 ∧ SHIFT = 500.0 then
    { class_npb := 'D', zeta_verify_value := 52.514532105794 }
  else if NA = 9000000 ∧ NONZER = 26 ∧ NITER = 100 ∧ SHIFT = 1.5e3 then
    { class_npb := 'E', zeta_verify_value := 77.522164599383 }
  else if NA = 54000000 ∧ NONZER = 31 ∧ NITER = 100 ∧ SHIFT = 5.0e3 then
    { class_npb := 'F', zeta_verify_value := 107.3070826433 }
  else
    { class_npb := 'U', zeta_verify_value := zeta_verify_value }

/-- The eight conditions of the chain of lines 144-168, in the order of the chain. -/
def classConds (NA NONZER NITER : Int) (SHIFT : ℚ) : List Bool :=
  [decide (NA = 1400 ∧ NONZER = 7 ∧ NITER = 15 ∧ SHIFT = 10.0),
   decide (NA = 7000 ∧ NONZER = 8 ∧ NITER = 15 ∧ SHIFT = 12.0),
   decide (NA = 14000 ∧ NONZER = 11 ∧ NITER = 15 ∧ SHIFT = 20.0),
   decide (NA = 75000 ∧ NONZER = 13 ∧ NITER = 75 ∧ SHIFT = 60.0),
   decide (NA = 150000 ∧ NONZER = 15 ∧ NITER = 75 ∧ SHIFT = 110.0),
   decide (NA = 1500000 ∧ NONZER = 21 ∧ NITER = 100 ∧ SHIFT = 500.0),
   decide (NA = 9000000 ∧ NONZER = 26 ∧ NITER = 100 ∧ SHIFT = 1.5e3),
   decide (NA = 54000000 ∧ NONZER = 31 ∧ NITER = 100 ∧ SHIFT = 5.0e3)]

/-- The classes and reference values of the branches of the chain, in its order. -/
def classRows : List ClassChoice :=
  [{ class_npb := 'S', zeta_verify_value := 8.5971775078648 },
   { class_npb := 'W', zeta_verify_value := 10.362595087124 },
   { class_npb := 'A', zeta_verify_value := 17.130235054029 },
   { class_npb := 'B', zeta_verify_value := 22.712745482631 },
   { class_npb := 'C', zeta_verify_value := 28.973605592845 },
   { class_npb := 'D', zeta_verify_value := 52.514532105794 },
   { class_npb := 'E', zeta_verify_value := 77.522164599383 },
   { class_npb := 'F', zeta_verify_value := 107.3070826433 }]

/-- Line 382: `epsilon = 1.0e-10`. -/
def epsilon : ℚ := 1.0e-10

/-- Lines 383-399, the value of `verified` on worker 0:
`if (class_npb != 'U') { if (fabs(zeta - zeta_verify_value) <= epsilon) verified = TRUE;
else verified = FALSE; } else verified = FALSE;`. -/
def verified (class_npb : Char) (zeta zeta_verify_value : ℚ) : Bool :=
  if class_npb ≠ 'U' then
    if |zeta - zeta_verify_value| ≤ epsilon then true else false
  else false

/-- What the end of `main` leaves on worker 0: the flag `verified` it reports and the
value `main` returns. -/
structure MainResult where
  verified : Bool
  status : Int
deriving DecidableEq

/-- Lines 378-433 of `main` on worker 0: the verification, the report and `return 0`;
no statement of these lines ends the run otherwise. -/
def mainFinish (c : ClassChoice) (zeta : ℚ) : Run MainResult :=
  Run.ok { verified := verified c.class_npb zeta c.zeta_verify_value, status := 0 }

/-- The triples of one generated vector `(v, iv)` with `nzv` entries and scale factor
`size`, in the order the loops of lines 791-810 of `makea` visit them: for each entry
`a` whose index is a column of `[firstcol, lastcol]` and each entry `b` whose index is a
row of `[firstrow, lastrow]`, the triple `(iv[b], iv[a], v[b] * (size * v[a]))`. -/
def vecTriples (firstrow lastrow firstcol lastcol : Nat) (v : Nat → ℚ) (iv : Nat → Nat)
    (nzv : Nat) (size : ℚ) : List (Nat × Nat × ℚ) :=
  (List.range' 1 nzv).flatMap (fun a =>
    if firstcol ≤ iv a ∧ iv a ≤ lastcol then
      (List.range' 1 nzv).flatMap (fun b =>
        if firstrow ≤ iv b ∧ iv b ≤ lastrow then [(iv b, iv a, v b * (size * v a))]
        else [])
    else [])

/-- The state of `makea` when the loop over `iouter` starts (lines 775-786): `size = 1.0`,
`nnza = 0` and `colidx[n+1 .. 2n]` zeroed. -/
def makeaStart (n : Nat) (s : MakeaState) : MakeaState :=
  forUp (fun i (s : MakeaState) => { s with colidx := setAt s.colidx (n + i) 0 }) 1 n
    { s with size := 1, nnza := 0 }

/-- The sum of the values of the triples of the list `T` with row `r` and column `c`. -/
def listSum (T : List (Nat × Nat × ℚ)) (r c : Nat) : ℚ :=
  ((T.filter (fun t => t.1 = r ∧ t.2.1 = c)).map (fun t => t.2.2)).sum

/-- The matrix element `A[i][j]` a CSR structure `(rowstr, colidx, a)` with the rows
`firstrow .. lastrow` represents: the value stored for column `j` in the local row
`i - firstrow + 1`, and 0 when none is stored or `i` is not a row of the structure. -/
def csrEntry (rowstr colidx : Nat → Nat) (a : Nat → ℚ) (firstrow lastrow i j : Nat) : ℚ :=
  if firstrow ≤ i ∧ i ≤ lastrow then
    match (seg colidx a (rowstr (i + 1 - firstrow))
        (rowstr (i + 1 - firstrow + 1) - rowstr (i + 1 - firstrow))).find?
        (fun e => e.1 = j) with
    | some e => e.2
    | none => 0
  else 0

/-- Example run of the loop over the columns of `makea`, on the data of `demoMakea`. -/
def demoColumns : Run MakeaState :=
  makeaColumns 40 npbStream (fun _ _ => 1 / 2) 4 100 2 1 4 1 4 (1 / 10) MakeaState.blank

/-- The stretches of code the workers run between the barriers of a program, in order:
`pending` is the code met since the last barrier. -/
def phasesFrom {K : Type} :
    (Nat → Worker K → Worker K) → List (Instr K) → List (Nat → Worker K → Worker K)
  | pending, [] => [pending]
  | pending, Instr.run f :: rest => phasesFrom (fun workrank s => f workrank (pending workrank s)) rest
  | pending, Instr.barrier :: rest => pending :: phasesFrom (fun _ s => s) rest

/-- The phases `fs` run one after the other, the workers of the phase number `k` in the
order `sched k`. -/
def runPhases {K : Type} (sched : Nat → List Nat) :
    Nat → List (Nat → Worker K → Worker K) → World K → World K
  | _, [], g => g
  | k, f :: fs, g => runPhases sched (k + 1) fs (runPhase (sched k) f g)

/-- The vectors `z`, `r`, `p` and the scalar `rho` an iteration of the solver works on. -/
structure CgVecs (K : Type) where
  z : Nat → K
  r : Nat → K
  p : Nat → K
  rho : K

/-- One iteration of the solver as the specification states it, for the matrix `mat` and
the vector length `N`: `q = A*p`; `d = p.q`; `alpha = rho / d`; `z = z + alpha*p`;
`r = r - alpha*q`; `rho' = r.r`; `beta = rho' / rho`; `p = r + beta*p`, the sums and the
updates taken over `[1, N]`. -/
def specIteration {K : Type} [Field K] (mat : NodeMem K) (N : Nat) (c : CgVecs K) : CgVecs K :=
  let q := csrApply mat c.p
  let d := ∑ j ∈ Finset.Icc 1 N, c.p j * q j
  let alpha := c.rho / d
  let z := onRange 1 N (fun j => c.z j + alpha * c.p j) c.z
  let r := onRange 1 N (fun j => c.r j - alpha * q j) c.r
  let rho := ∑ j ∈ Finset.Icc 1 N, r j * r j
  let beta := rho / c.rho
  { z := z, r := r, p := onRange 1 N (fun j => r j + beta * c.p j) c.p, rho := rho }

/-- The state of the solver after its initialisation, as the specification states it:
`z = 0`, `r = p = x` (here on `[1, N1]`, the range the code initialises, the other
elements being those of the arrays `z`, `r`, `p` before) and `rho = x.x` over `[1, N]`. -/
def specInit {K : Type} [Field K] (N1 N : Nat) (x z r p : Nat → K) : CgVecs K :=
  { z := onRange 1 N1 (fun _ => 0) z, r := onRange 1 N1 x r, p := onRange 1 N1 x p,
    rho := ∑ j ∈ Finset.Icc 1 N, x j * x j }

/-- The code of `conj_grad` from its start to the end of the iteration `cgit = m` of its
loop (lines 470-671). -/
def cgPrefix {K : Type} [Field K] (G : Globals) (m : Nat) : List (Instr K) :=
  [Instr.run (cgInit G), Instr.barrier, Instr.run (cgSumRho G)]
    ++ loopProg (fun _ => cgIteration G) 1 m

/-- The state at the barrier of line 530, when an iteration of the solver starts from the
vectors `c`: the global arrays `x`, `z`, `r`, `p` are `x`, `c.z`, `c.r`, `c.p`, and every
worker holds the matrix `mat`, `rho0 = c.rho`, `d = 0` and `rho = 0`. -/
def HeadInv {K : Type} [Field K] (G : Globals) (mat : NodeMem K) (x : Nat → K)
    (c : CgVecs K) (g : World K) : Prop :=
  g.glob.x = x ∧ g.glob.z = c.z ∧ g.glob.r = c.r ∧ g.glob.p = c.p ∧
    ∀ u, u < G.numtasks →
      ((g.node u).a = mat.a ∧ (g.node u).colidx = mat.colidx ∧
        (g.node u).rowstr = mat.rowstr) ∧
      (g.node u).rho0 = c.rho ∧ (g.node u).d = 0 ∧ (g.node u).rho = 0

/-- The state at the barrier of line 651, in the iteration that started from the vectors
`c`: `z` and `r` are those of the end of the iteration, `p` is still `c.p`, and every
worker holds `rho0 = c.rho` and, in `rho` and in its slot, its part of the sum `r.r`. -/
def NormInv {K : Type} [Field K] (G : Globals) (mat : NodeMem K) (x : Nat → K)
    (c : CgVecs K) (g : World K) : Prop :=
  g.glob.x = x ∧
    g.glob.z = (specIteration mat (G.lastcol + 1 - G.firstcol) c).z ∧
    g.glob.r = (specIteration mat (G.lastcol + 1 - G.firstcol) c).r ∧
    g.glob.p = c.p ∧
    ∀ u, u < G.numtasks →
      ((g.node u).a = mat.a ∧ (g.node u).colidx = mat.colidx ∧
        (g.node u).rowstr = mat.rowstr) ∧
      (g.node u).rho0 = c.rho ∧
      g.glob.gnorm_temps u = ∑ j ∈ Finset.Icc (beg_col G u) (end_col G u),
        (specIteration mat (G.lastcol + 1 - G.firstcol) c).r j
          * (specIteration mat (G.lastcol + 1 - G.firstcol) c).r j ∧
      (g.node u).rho = ∑ j ∈ Finset.Icc (beg_col G u) (end_col G u),
        (specIteration mat (G.lastcol + 1 - G.firstcol) c).r j
          * (specIteration mat (G.lastcol + 1 - G.firstcol) c).r j

/-- The vectors `x`, `z`, `r`, `p` and the value `zeta` between the outer iterations of
`main`. -/
structure OuterVecs (K : Type) where
  x : Nat → K
  z : Nat → K
  r : Nat → K
  p : Nat → K
  zeta : K

/-- One outer iteration as the specification states it, for the matrix `mat`: the solver
(initialisation and `cgitmax` iterations) from `x`, then `zeta = SHIFT + 1/(x.z)` and
`x = z / sqrt(z.z)` over `[1, N]`; `r` is left holding `A*z` on `[1, N]`. -/
def specOuter {K : Type} [Field K] (mat : NodeMem K) (N1 N : Nat) (SHIFT : K)
    (csqrt : K → K) (s : OuterVecs K) : OuterVecs K :=
  let c := (specIteration mat N)^[cgitmax] (specInit N1 N s.x s.z s.r s.p)
  { x := onRange 1 N (fun k => 1 / csqrt (∑ i ∈ Finset.Icc 1 N, c.z i * c.z i) * c.z k) s.x,
    z := c.z, r := onRange 1 N (csrApply mat c.z) c.r, p := c.p,
    zeta := SHIFT + 1 / ∑ j ∈ Finset.Icc 1 N, s.x j * c.z j }

/-- The state at the barrier that ends an outer iteration: the global arrays are those
of `s`, and every worker holds the matrix `mat` and `zeta = s.zeta`. -/
def OuterInv {K : Type} [Field K] (G : Globals) (mat : NodeMem K) (s : OuterVecs K)
    (g : World K) : Prop :=
  g.glob.x = s.x ∧ g.glob.z = s.z ∧ g.glob.r = s.r ∧ g.glob.p = s.p ∧
    ∀ u, u < G.numtasks →
      ((g.node u).a = mat.a ∧ (g.node u).colidx = mat.colidx ∧
        (g.node u).rowstr = mat.rowstr) ∧
      (g.node u).zeta = s.zeta

/-- The code `seg` of a phase is free of races among `numtasks` workers for the ownership
in which worker `u` owns the elements of its range of the partition of `[1, size]` in the
arrays `arrs`, and the elements `j` of `gnorm_temps` with `slot u j`: no element has two
owners, a worker writes only elements it owns, and what it computes depends on the global
memory only through elements no other worker owns (so through values written before the
barrier that starts the phase, or by itself). -/
def KeepsTo {K : Type} (numtasks size : Nat) (arrs : Fld → Prop) (slot : Nat → Nat → Prop)
    (seg : Nat → Worker K → Worker K) : Prop :=
  OwnDisjoint (List.range numtasks)
      (ownRanges arrs (beg size numtasks) (end_ size numtasks) slot) ∧
    Confined (List.range numtasks)
      (ownRanges arrs (beg size numtasks) (end_ size numtasks) slot) seg

/-- In the code `seg` of a phase no element of a vector is written by two of the
`numtasks` workers: whatever the memories two distinct workers start from, they do not
both change the element `j` of the array `f` (`gnorm_temps` apart). -/
def SoleWriter {K : Type} (numtasks : Nat) (seg : Nat → Worker K → Worker K) : Prop :=
  ∀ u u2, u < numtasks → u2 < numtasks → u ≠ u2 →
    ∀ (v v2 : Worker K) (f : Fld) (j : Nat), f ≠ Fld.gnorm_temps →
      ¬ ((seg u v).glob.get f j ≠ v.glob.get f j ∧ (seg u2 v2).glob.get f j ≠ v2.glob.get f j)

/-- The code of `conj_grad` from its start to the barrier of line 609 of its first
iteration. -/
def cgToDot {K : Type} [Field K] (G : Globals) : List (Instr K) :=
  [Instr.run (cgInit G), Instr.barrier, Instr.run (cgSumRho G), Instr.run (cgStart G),
   Instr.barrier, Instr.run (cgMatVec G), Instr.barrier, Instr.run (cgDot G), Instr.barrier]

/-- An example of a square root on the rationals: exact at 169, 144, 81, 49 and 25. -/
def raceSqrt (s : ℚ) : ℚ :=
  if s = 169 then 13 else if s = 144 then 12 else if s = 81 then 9 else if s = 49 then 7
  else if s = 25 then 5 else 0

/-- An example: the memory of a worker holding the 3 x 3 identity matrix in CSR form. -/
def raceNode : NodeMem ℚ :=
  { a := arrayOf [1, 1, 1] 0, colidx := arrayOf [1, 2, 3] 0, rowstr := arrayOf [1, 2, 3, 4] 0,
    d := 0, sum := 0, rho := 0, rho0 := 0, alpha := 0, beta := 0, zeta := 0, rnorm := 0,
    norm_temp11 := 0, norm_temp12 := 0 }

/-- An example of a state at the barrier of line 690 of `conj_grad`, for `NA = 3` and the
identity matrix: `x = (7, 4, 7)`, `z = (1, 1, 1)` and `w = A*z = (1, 1, 1)`. -/
def raceWorld : World ℚ :=
  { glob := { gnorm_temps := fun _ => 0, x := arrayOf [7, 4, 7] 0, z := arrayOf [1, 1, 1] 0,
              p := fun _ => 0, q := fun _ => 0, r := fun _ => 0, w := arrayOf [1, 1, 1] 0 },
    node := fun _ => raceNode }

/-- An example of a state at the barrier of line 709 of `conj_grad`, for `NA = 3`:
`x = (1, 1, 1, 1)` and `z = (12, 3, 4)`. -/
def warmWorld : World ℚ :=
  { glob := { gnorm_temps := fun _ => 0, x := fun j => if 1 ≤ j ∧ j ≤ 4 then 1 else 0,
              z := arrayOf [12, 3, 4] 0, p := fun _ => 0, q := fun _ => 0, r := fun _ => 0,
              w := fun _ => 0 },
    node := fun _ => demoNode }

/-- The code of a timed iteration from the barrier of line 690 of `conj_grad` to the
barrier of line 338 of `main`: the residual (lines 692-707), the barrier of line 709, the
last reduction of `conj_grad` (lines 711-719), the norms of `main` (lines 317-336). -/
def residualEnd {K : Type} [Field K] (csqrt : K → K) (G : Globals) : List (Instr K) :=
  [Instr.run (cgResidual G), Instr.barrier, Instr.run (cgRnorm csqrt G),
   Instr.run (mainNorms G), Instr.barrier]

/-- The code of the untimed iteration from the last barrier of `conj_grad` (line 709) to
its end (line 272): lines 711-719 of `conj_grad`, then lines 246-270 of `main`. -/
def warmTail {K : Type} [Field K] (csqrt : K → K) (G : Globals) : List (Instr K) :=
  [Instr.run (cgRnorm csqrt G), Instr.run (mainWarmNorms csqrt G)]

/-- The code of `main` from the last barrier of the `conj_grad` of the untimed iteration
(line 709) to the barrier of line 290: the end of the untimed iteration and the second
initialisation of the start vector (lines 277-286). -/
def warmupEnd {K : Type} [Field K] (csqrt : K → K) (NA : Nat) (G : Globals) :
    List (Instr K) :=
  [Instr.run (cgRnorm csqrt G), Instr.run (mainWarmNorms csqrt G),
   Instr.run (mainSetX NA G), Instr.barrier]

/-! ## The capacity `NZ` (line 34) in `int` arithmetic -/

/-- Line 34, the macro `#define NZ NA*(NONZER+1)*(NONZER+1)+NA*(NONZER+2)`, as a number. -/
def NZ (NA NONZER : Int) : Int :=
  NA * (NONZER + 1) * (NONZER + 1) + NA * (NONZER + 2)

/-- The result of an operation on 32-bit `int` operands: the value when it lies in
`[-2^31, 2^31 - 1]`, and `none` when the operation overflows. -/
def int32 (x : Int) : Option Int :=
  if -2 ^ 31 ≤ x ∧ x < 2 ^ 31 then some x else none

/-- The macro `NZ` evaluated with `int` operands, in the order of the expression:
`((NA*(NONZER+1))*(NONZER+1)) + (NA*(NONZER+2))`; `none` when an operation overflows. -/
def NZ32 (NA NONZER : Int) : Option Int :=
  (int32 (NONZER + 1)).bind fun a =>
  (int32 (NA * a)).bind fun b =>
  (int32 (b * a)).bind fun c =>
  (int32 (NONZER + 2)).bind fun d =>
  (int32 (NA * d)).bind fun e =>
  int32 (c + e)

/-- Example run of `makea` as `main` calls it, with the capacity `NZ`: a 4 x 4 matrix
(`NA = 4`), `NONZER = 2`, the whole row and column range, the benchmark's random stream,
and `1/2` standing for `pow(rcond, 1/n)`. -/
def demoMakeaNZ : Run MakeaState :=
  makea 40 npbStream (fun _ _ => 1 / 2) 4 (NZ ((4 : Nat) : Int) ((2 : Nat) : Int)).toNat 2 1 4 1 4
    (1 / 10) 10 MakeaState.blank

/-- The index `i = icnvrt(vecloc, nn1) + 1` drawn by attempt number `k` (counted from 0)
of a call of `sprnvc` that starts at position `pos` of the random stream: every attempt
draws `vecelt`, then `vecloc`. -/
def drawIndex (nn1 : Nat) (rand : Nat → ℚ) (pos k : Nat) : Int :=
  icnvrt (rand (pos + 2 * k + 1)) nn1 + 1

/-- The distinct values in `[1, n]` among the indices drawn by the first `m` attempts. -/
def acceptedDraws (n nn1 : Nat) (rand : Nat → ℚ) (pos m : Nat) : Finset Int :=
  ((Finset.range m).image (drawIndex nn1 rand pos)).filter (fun i => 1 ≤ i ∧ i ≤ (n : Int))

/-- An example of a state at the barrier of line 690 of `conj_grad`, for `NA = 3` and the
identity matrix, in which the residual identity holds: `x = (16, 1, 1)`, `z = (9, 1, 1)`,
`w = A*z = z`, `r = x - A*z = (7, 0, 0)`, and every worker holds `rho = r.r = 49`. -/
def rhoWorld : World ℚ :=
  { glob := { gnorm_temps := fun _ => 0, x := arrayOf [16, 1, 1] 0, z := arrayOf [9, 1, 1] 0,
              p := fun _ => 0, q := fun _ => 0, r := arrayOf [7, 0, 0] 0,
              w := arrayOf [9, 1, 1] 0 },
    node := fun _ => { raceNode with rho := 49 } }

end CG

namespace FT

open CG

/-!
# NPB-DSM 3-D FFT benchmark (`NPB-DSM/FT/ft.cpp`)

The headers `npb-CPP.hpp` and `global.hpp` are not among the sources: the sizes `NX`,
`NY`, `NZ`, the block size `fftblock`, the constant `PI` and the library functions
`randlc`, `cos`, `sin` are parameters of the model.  `int` values are unbounded integers
(no size of the benchmark comes near `2^31`), `double` values are exact.
-/

/-! ## Power of the multiplier `ipow46` (lines 323-359) -/

/-- The loop `while (n > 1)` of lines 346-355, on the state `(q, r, n)`; a call
`randlc(&x, a)` replaces `x` by `randlc x a`.  The division `n/2` of two `int` truncates.
The result is the pair `(q, r)` at the end of the loop, `none` when the loop has not ended
after `fuel` iterations. -/
def ipow46Loop (randlc : Nat → Nat → Nat) : Nat → Nat → Nat → Int → Option (Nat × Nat)
  | 0, q, r, n => if n > 1 then none else some (q, r)
  | fuel + 1, q, r, n =>
    if n > 1 then
      if Int.tdiv n 2 * 2 = n then ipow46Loop randlc fuel (randlc q q) r (Int.tdiv n 2)
      else ipow46Loop randlc fuel q (randlc r q) (n - 1)
    else some (q, r)

/-- The routine `ipow46(a, exponent, &result)`: the value stored in `*result`, `none` when
the loop has not ended after `fuel` iterations. -/
def ipow46 (randlc : Nat → Nat → Nat) (fuel : Nat) (a : Nat) (exponent : Int) : Option Nat :=
  if exponent = 0 then some 1
  else
    match ipow46Loop randlc fuel a 1 exponent with
    | none => none
    | some (q, r) => some (randlc r q)

/-! ## Problem layout `setup` (lines 383-405) and the index map (lines 428-467) -/

/-- The arrays `dims`, `xstart`, `ystart`, `zstart` of `global.hpp`. -/
structure Layout where
  dims : Nat → Nat → Nat
  xstart : Nat → Int
  ystart : Nat → Int
  zstart : Nat → Int

/-- Lines 391-404 of `setup`: `dims[i] = {NX, NY, NZ}` and `xstart[i] = ystart[i] =
zstart[i] = 1` for `i = 0, 1, 2`. -/
def setup (NX NY NZ : Nat) : Layout :=
  { dims := fun _ c => if c = 0 then NX else if c = 1 then NY else NZ,
    xstart := fun _ => 1, ystart := fun _ => 1, zstart := fun _ => 1 }

/-- Line 43: `#define at(x, y, z) (((x) * NY * NX) + ((y) * NX) + (z))`. -/
def at_ (NX NY : Nat) (x y z : Nat) : Nat := x * NY * NX + y * NX + z

/-- The expression `(i+1+start-2+N/2)%N - N/2` of lines 457, 460 and 463; `/` and `%`
on `int` truncate. -/
def foldIndex (i : Nat) (start : Int) (N : Nat) : Int :=
  Int.tmod ((i : Int) + 1 + start - 2 + Int.tdiv (N : Int) 2) (N : Int) - Int.tdiv (N : Int) 2

/-- Lines 452-467 of `compute_indexmap(indexmap, dims[2])` on worker `workrank` of
`numtasks`: the worker fills the planes `i` of its part `[beg, end)` of `[0, dims[2][0])`.
The lines 469-478, which fill the array `ex`, do not touch `indexmap`. -/
def compute_indexmap (NX NY NZ : Nat) (L : Layout) (numtasks workrank : Nat)
    (indexmap : Nat → Int) : Nat → Int :=
  let chunk := L.dims 2 0 / numtasks
  let beg := workrank * chunk
  let end_ := if workrank ≠ numtasks - 1 then beg + chunk else L.dims 2 0
  forUp (fun i indexmap =>
    let ii := foldIndex i (L.xstart 2) NX
    let ii2 := ii * ii
    forUp (fun j indexmap =>
      let jj := foldIndex j (L.ystart 2) NY
      let ij2 := jj * jj + ii2
      forUp (fun k indexmap =>
        let kk := foldIndex k (L.zstart 2) NZ
        setAt indexmap (at_ NX NY k j i) (kk * kk + ij2)) 0 (L.dims 2 2) indexmap)
      0 (L.dims 2 1) indexmap)
    beg (end_ - beg) indexmap

/-- The index map once the workers listed in `order` have run `compute_indexmap`, in
that order. -/
def indexmapAll (NX NY NZ : Nat) (L : Layout) (numtasks : Nat) (order : List Nat)
    (indexmap : Nat → Int) : Nat → Int :=
  order.foldl (fun m u => compute_indexmap NX NY NZ L numtasks u m) indexmap

/-- The code between two marks fills the set `S` of an array with the values `V`: it
stores `V a` at every index `a` of `S` and leaves the other elements as they are. -/
def Fills {β : Type} (f : (Nat → β) → (Nat → β)) (S : Nat → Prop) (V : Nat → β) : Prop :=
  ∀ m a, (S a → f m a = V a) ∧ (¬ S a → f m a = m a)

/-- The value `ibar^2 + jbar^2 + kbar^2` of the element at position `a = at(k, j, i)`,
with the coordinates read back from `a`. -/
def indexValue (NX NY NZ : Nat) (a : Nat) : Int :=
  foldIndex (a / NX / NY) 1 NZ * foldIndex (a / NX / NY) 1 NZ
    + (foldIndex (a / NX % NY) 1 NY * foldIndex (a / NX % NY) 1 NY
      + foldIndex (a % NX) 1 NX * foldIndex (a % NX) 1 NX)

/-! ## Verification `verify` (lines 938-1406) -/

/-- The type `dcomplex` of `npb-CPP.hpp`: a pair of doubles `real`, `imag`. -/
structure dcomplex (K : Type) where
  real : K
  imag : K

/-- Lines 957-963: `double vdata_real_s[6+1]`, the reference values of class S
(real parts), from index 0. -/
def vdata_real_s : List ℚ :=
  [0.0, 5.546087004964e+02, 5.546385409189e+02, 5.546148406171e+02,
   5.545423607415e+02, 5.544255039624e+02, 5.542683411902e+02]

/-- Lines 964-970: `double vdata_imag_s[6+1]`, the reference values of class S
(imag parts), from index 0. -/
def vdata_imag_s : List ℚ :=
  [0.0, 4.845363331978e+02, 4.865304269511e+02, 4.883910722336e+02,
   4.901273169046e+02, 4.917475857993e+02, 4.932597244941e+02]

/-- Lines 974-980: `double vdata_real_w[6+1]`, the reference values of class W
(real parts), from index 0. -/
def vdata_real_w : List ℚ :=
  [0.0, 5.673612178944e+02, 5.631436885271e+02, 5.594024089970e+02,
   5.560698047020e+02, 5.530898991250e+02, 5.504159734538e+02]

/-- Lines 981-987: `double vdata_imag_w[6+1]`, the reference values of class W
(imag parts), from index 0. -/
def vdata_imag_w : List ℚ :=
  [0.0, 5.293246849175e+02, 5.282149986629e+02, 5.270996558037e+02,
   5.260027904925e+02, 5.249400845633e+02, 5.239212247086e+02]

/-- Lines 991-997: `double vdata_real_a[6+1]`, the reference values of class A
(real parts), from index 0. -/
def vdata_real_a : List ℚ :=
  [0.0, 5.046735008193e+02, 5.059412319734e+02, 5.069376896287e+02,
   5.077892868474e+02, 5.085233095391e+02, 5.091487099959e+02]

/-- Lines 998-1004: `double vdata_imag_a[6+1]`, the reference values of class A
(imag parts), from index 0. -/
def vdata_imag_a : List ℚ :=
  [0.0, 5.114047905510e+02, 5.098809666433e+02, 5.098144042213e+02,
   5.101336130759e+02, 5.104914655194e+02, 5.107917842803e+02]

/-- Lines 1008-1028: `double vdata_real_b[20+1]`, the reference values of class B
(real parts), from index 0. -/
def vdata_real_b : List ℚ :=
  [0.0, 5.177643571579e+02, 5.154521291263e+02, 5.146409228649e+02,
   5.142378756213e+02, 5.139626667737e+02, 5.137423460082e+02, 5.135547056878e+02,
   5.133910925466e+02, 5.132470705390e+02, 5.131197729984e+02, 5.130070319283e+02,
   5.129070537032e+02, 5.128182883502e+02, 5.127393733383e+02, 5.126691062020e+02,
   5.126064276004e+02, 5.125504076570e+02, 5.125002331720e+02, 5.124551951846e+02,
   5.124146770029e+02]

/-- Lines 1029-1049: `double vdata_imag_b[20+1]`, the reference values of class B
(imag parts), from index 0. -/
def vdata_imag_b : List ℚ :=
  [0.0, 5.077803458597e+02, 5.088249431599e+02, 5.096208912659e+02,
   5.101023387619e+02, 5.103976610617e+02, 5.105948019802e+02, 5.107404165783e+02,
   5.108576573661e+02, 5.109577278523e+02, 5.110460304483e+02, 5.111252433800e+02,
   5.111968077718e+02, 5.112616233064e+02, 5.113203605551e+02, 5.113735928093e+02,
   5.114218460548e+02, 5.114656139760e+02, 5.115053595966e+02, 5.115415130407e+02,
   5.115744692211e+02]

/-- Lines 1053-1073: `double vdata_real_c[20+1]`, the reference values of class C
(real parts), from index 0. -/
def vdata_real_c : List ℚ :=
  [0.0, 5.195078707457e+02, 5.155422171134e+02, 5.144678022222e+02,
   5.140150594328e+02, 5.137550426810e+02, 5.135811056728e+02, 5.134569343165e+02,
   5.133651975661e+02, 5.132955192805e+02, 5.132410471738e+02, 5.131971141679e+02,
   5.131605205716e+02, 5.131290734194e+02, 5.131012720314e+02, 5.130760908195e+02,
   5.130528295923e+02, 5.130310107773e+02, 5.130103090133e+02, 5.129905029333e+02,
   5.129714421109e+02]

/-- Lines 1074-1094: `double vdata_imag_c[20+1]`, the reference values of class C
(imag parts), from index 0. -/
def vdata_imag_c : List ℚ :=
  [0.0, 5.149019699238e+02, 5.127578201997e+02, 5.122251847514e+02,
   5.121090289018e+02, 5.121143685824e+02, 5.121496764568e+02, 5.121870921893e+02,
   5.122193250322e+02, 5.122454735794e+02, 5.122663649603e+02, 5.122830879827e+02,
   5.122965869718e+02, 5.123075927445e+02, 5.123166486553e+02, 5.123241541685e+02,
   5.123304037599e+02, 5.123356167976e+02, 5.123399592211e+02, 5.123435588985e+02,
   5.123465164008e+02]

/-- Lines 1098-1123: `double vdata_real_d[25+1]`, the reference values of class D
(real parts), from index 0. -/
def vdata_real_d : List ℚ :=
  [0.0, 5.122230065252e+02, 5.120463975765e+02, 5.119865766760e+02,
   5.119518799488e+02, 5.119269088223e+02, 5.119082416858e+02, 5.118943814638e+02,
   5.118842385057e+02, 5.118769435632e+02, 5.118718203448e+02, 5.118683569061e+02,
   5.118661708593e+02, 5.118649768950e+02, 5.118645605626e+02, 5.118647586618e+02,
   5.118654451572e+02, 5.118665212451e+02, 5.118679083821e+02, 5.118695433664e+02,
   5.118713748264e+02, 5.118733606701e+02, 5.118754661974e+02, 5.118776626738e+02,
   5.118799262314e+02, 5.118822370068e+02]

/-- Lines 1124-1149: `double vdata_imag_d[25+1]`, the reference values of class D
(imag parts), from index 0. -/
def vdata_imag_d : List ℚ :=
  [0.0, 5.118534037109e+02, 5.117061181082e+02, 5.117096364601e+02,
   5.117373863950e+02, 5.117680347632e+02, 5.117967875532e+02, 5.118225281841e+02,
   5.118451629348e+02, 5.118649119387e+02, 5.118820803844e+02, 5.118969781011e+02,
   5.119098918835e+02, 5.119210777066e+02, 5.119307604484e+02, 5.119391362671e+02,
   5.119463757241e+02, 5.119526269238e+02, 5.119580184108e+02, 5.119626617538e+02,
   5.119666538138e+02, 5.119700787219e+02, 5.119730095953e+02, 5.119755100241e+02,
   5.119776353561e+02, 5.119794338060e+02]

/-- Lines 1153-1178: `double vdata_real_e[25+1]`, the reference values of class E
(real parts), from index 0. -/
def vdata_real_e : List ℚ :=
  [0.0, 5.121601045346e+02, 5.120905403678e+02, 5.120623229306e+02,
   5.120438418997e+02, 5.120311521872e+02, 5.120226088809e+02, 5.120169296534e+02,
   5.120131225172e+02, 5.120104767108e+02, 5.120085127969e+02, 5.120069224127e+02,
   5.120055158164e+02, 5.120041820159e+02, 5.120028605402e+02, 5.120015223011e+02,
   5.120001570022e+02, 5.119987650555e+02, 5.119973525091e+02, 5.119959279472e+02,
   5.119945006558e+02, 5.119930795911e+02, 5.119916728462e+02, 5.119902874185e+02,
   5.119889291565e+02, 5.119876028049e+02]

/-- Lines 1179-1204: `double vdata_imag_e[25+1]`, the reference values of class E
(imag parts), from index 0. -/
def vdata_imag_e : List ℚ :=
  [0.0, 5.117395998266e+02, 5.118614716182e+02, 5.119074203747e+02,
   5.119345900733e+02, 5.119551325550e+02, 5.119720179919e+02, 5.119861371665e+02,
   5.119979364402e+02, 5.120077674092e+02, 5.120159443121e+02, 5.120227453670e+02,
   5.120284096041e+02, 5.120331373793e+02, 5.120370938679e+02, 5.120404138831e+02,
   5.120432068837e+02, 5.120455615860e+02, 5.120475499442e+02, 5.120492304629e+02,
   5.120506508902e+02, 5.120518503782e+02, 5.120528612016e+02, 5.120537101195e+02,
   5.120544194514e+02, 5.120550079284e+02]

/-- Lines 1208-1233: `double vdata_real_f[25+1]`, the reference values of class F
(real parts), from index 0. -/
def vdata_real_f : List ℚ :=
  [0.0, 5.119892866928e+02, 5.119560157487e+02, 5.119437960123e+02,
   5.119395628845e+02, 5.119390371879e+02, 5.119405091840e+02, 5.119430444528e+02,
   5.119460702242e+02, 5.119492377036e+02, 5.119523446268e+02, 5.119552825361e+02,
   5.119580008777e+02, 5.119604834177e+02, 5.119627332821e+02, 5.119647637538e+02,
   5.119665927740e+02, 5.119682397643e+02, 5.119697238718e+02, 5.119710630664e+02,
   5.119722737384e+02, 5.119733705802e+02, 5.119743666226e+02, 5.119752733481e+02,
   5.119761008382e+02, 5.119768579280e+02]

/-- Lines 1234-1259: `double vdata_imag_f[25+1]`, the reference values of class F
(imag parts), from index 0. -/
def vdata_imag_f : List ℚ :=
  [0.0, 5.121457822747e+02, 5.121009044434e+02, 5.120761074285e+02,
   5.120614320496e+02, 5.120514085624e+02, 5.120438117102e+02, 5.120376348915e+02,
   5.120323831062e+02, 5.120277980818e+02, 5.120237368268e+02, 5.120201137845e+02,
   5.120168723492e+02, 5.120139707209e+02, 5.120113749334e+02, 5.120090554887e+02,
   5.120069857863e+02, 5.120051414260e+02, 5.120034999132e+02, 5.120020405355e+02,
   5.120007442976e+02, 5.119995938652e+02, 5.119985735001e+02, 5.119976689792e+02,
   5.119968675026e+02, 5.119961575929e+02]

/-- What `verify` leaves: `*verified`, `*class_npb`, and the line it prints at lines
1395-1399. -/
structure VerifyResult where
  verified : Bool
  class_npb : Char
  printed : String
deriving DecidableEq

/-- The loop of a branch of `verify`, from the index `i` on, with `cnt` iterations left
and the current value of `*verified`:
`for (i = 1; i <= nt; i++) { err = (get_real(sums[i]) - vdata_real[i]) / vdata_real[i];
if (fabs(err) > epsilon) { *verified = FALSE; break; } err = (get_imag(sums[i]) -
vdata_imag[i]) / vdata_imag[i]; if (fabs(err) > epsilon) { *verified = FALSE; break; } }`. -/
def verifyLoop (vdata_real vdata_imag : List ℚ) (sums : Nat → dcomplex ℚ) (epsilon : ℚ) :
    Nat → Nat → Bool → Bool
  | 0, _, verified => verified
  | cnt + 1, i, verified =>
    if |((sums i).real - vdata_real.getD i 0) / vdata_real.getD i 0| > epsilon then false
    else if |((sums i).imag - vdata_imag.getD i 0) / vdata_imag.getD i 0| > epsilon then false
    else verifyLoop vdata_real vdata_imag sums epsilon cnt (i + 1) verified

/-- Lines 1395-1399: `if (*class_npb != 'U') printf("Result verification successful\n");
else printf("Result verification failed\n");`. -/
def verifyMessage (class_npb : Char) : String :=
  if class_npb ≠ 'U' then "Result verification successful" else "Result verification failed"

/-- The routine `verify(d1, d2, d3, nt, &verified, &class_npb)`, lines 1260-1400:
`epsilon = 1.0e-12; *verified = TRUE; *class_npb = 'U';`, then the chain of tests on
`(d1, d2, d3, nt)`, each branch with its class and its loop over the checksums `sums[i]`,
then the message. -/
def verify (d1 d2 d3 nt : Int) (sums : Nat → dcomplex ℚ) : VerifyResult :=
  let epsilon : ℚ := 1.0e-12
  let verified := true
  if d1 = 64 ∧ d2 = 64 ∧ d3 = 64 ∧ nt = 6 then
    { verified := verifyLoop vdata_real_s vdata_imag_s sums epsilon nt.toNat 1 verified,
      class_npb := 'S', printed := verifyMessage 'S' }
  else if d1 = 128 ∧ d2 = 128 ∧ d3 = 32 ∧ nt = 6 then
    { verified := verifyLoop vdata_real_w vdata_imag_w sums epsilon nt.toNat 1 verified,
      class_npb := 'W', printed := verifyMessage 'W' }
  else if d1 = 256 ∧ d2 = 256 ∧ d3 = 128 ∧ nt = 6 then
    { verified := verifyLoop vdata_real_a vdata_imag_a sums epsilon nt.toNat 1 verified,
      class_npb := 'A', printed := verifyMessage 'A' }
  else if d1 = 512 ∧ d2 = 256 ∧ d3 = 256 ∧ nt = 20 then
    { verified := verifyLoop vdata_real_b vdata_imag_b sums epsilon nt.toNat 1 verified,
      class_npb := 'B', printed := verifyMessage 'B' }
  else if d1 = 512 ∧ d2 = 512 ∧ d3 = 512 ∧ nt = 20 then
    { verified := verifyLoop vdata_real_c vdata_imag_c sums epsilon nt.toNat 1 verified,
      class_npb := 'C', printed := verifyMessage 'C' }
  else if d1 = 2048 ∧ d2 = 1024 ∧ d3 = 1024 ∧ nt = 25 then
    { verified := verifyLoop vdata_real_d vdata_imag_d sums epsilon nt.toNat 1 verified,
      class_npb := 'D', printed := verifyMessage 'D' }
  else if d1 = 4096 ∧ d2 = 2048 ∧ d3 = 2048 ∧ nt = 25 then
    { verified := verifyLoop vdata_real_e vdata_imag_e sums epsilon nt.toNat 1 verified,
      class_npb := 'E', printed := verifyMessage 'E' }
  else if d1 = 8192 ∧ d2 = 4096 ∧ d3 = 4096 ∧ nt = 25 then
    { verified := verifyLoop vdata_real_f vdata_imag_f sums epsilon nt.toNat 1 verified,
      class_npb := 'F', printed := verifyMessage 'F' }
  else
    { verified := verified, class_npb := 'U', printed := verifyMessage 'U' }

/-- The branches of `verify`: the sizes, the iteration count, the class, and the two
tables of reference values. -/
def verifyRows : List ((Int × Int × Int × Int) × Char × List ℚ × List ℚ) :=
  [((64, 64, 64, 6), 'S', vdata_real_s, vdata_imag_s),
   ((128, 128, 32, 6), 'W', vdata_real_w, vdata_imag_w),
   ((256, 256, 128, 6), 'A', vdata_real_a, vdata_imag_a),
   ((512, 256, 256, 20), 'B', vdata_real_b, vdata_imag_b),
   ((512, 512, 512, 20), 'C', vdata_real_c, vdata_imag_c),
   ((2048, 1024, 1024, 25), 'D', vdata_real_d, vdata_imag_d),
   ((4096, 2048, 2048, 25), 'E', vdata_real_e, vdata_imag_e),
   ((8192, 4096, 4096, 25), 'F', vdata_real_f, vdata_imag_f)]

/-- An example of checksums: every `sums[i]` is `0 + 0i`. -/
def zeroSums : Nat → dcomplex ℚ := fun _ => { real := 0, imag := 0 }

/-! ## The one-dimensional FFT: `fft_init`, `cfftz`, `fftz2`, `ilog2` (lines 685-871)

A `dcomplex` array `x[NX][FFTBLOCKPAD]` is a function of the two indices; the model
supposes that the indices used are inside the array (`n <= NX`, `fftblock <= FFTBLOCKPAD`),
so that no two pairs of indices name the same element.  `cos`, `sin` and the constant `PI`
are the parameters `ccos`, `csin`, `PI`, and `ctrunc` is the conversion `(int)` of a
double. -/

/-- The array `y` after the two stores `y[r][j].real = v.real; y[r][j].imag = v.imag`. -/
def setAt2 {β : Type} (y : Nat → Nat → β) (r j : Nat) (v : β) : Nat → Nat → β :=
  fun r2 j2 => if r2 = r ∧ j2 = j then v else y r2 j2

/-- The loop `while (nn < n) { nn = nn << 1; lg++; }` of `ilog2` (lines 864-867), on the
state `(nn, lg)`; `fuel` bounds the number of iterations. -/
def ilog2Loop : Nat → Nat → Nat → Nat → Nat
  | 0, _, _, lg => lg
  | fuel + 1, n, nn, lg => if nn < n then ilog2Loop fuel n (nn <<< 1) (lg + 1) else lg

/-- The routine `ilog2(n)` (lines 852-870): 0 for `n == 1`, else the loop from `nn = 2`,
`lg = 1`.  The loop runs less than `n` times. -/
def ilog2 (n : Nat) : Nat :=
  if n = 1 then 0 else ilog2Loop n n 2 1

/-- The state of the loop over `j` of `fft_init`: the table `u` and the variables `ku`,
`ln`. -/
structure InitState (K : Type) where
  u : Nat → dcomplex K
  ku : Nat
  ln : Nat

/-- The routine `fft_init(n)` (lines 685-722): `m = ilog2(n); u[0] = (m, 0); ku = 1;
ln = 1;` and, for `j = 1 .. m`, `t = PI / ln`, `u[i+ku] = (cos(i*t), sin(i*t))` for
`i = 0 .. ln-1`, `ku = ku + ln`, `ln = 2 * ln`.  The result is the table `u`. -/
def fft_init {K : Type} [Field K] (PI : K) (ccos csin : K → K) (n : Nat)
    (u : Nat → dcomplex K) : Nat → dcomplex K :=
  let m := ilog2 n
  let u := setAt u 0 { real := (m : K), imag := 0 }
  (forUp (fun _ (s : InitState K) =>
      let t := PI / (s.ln : K)
      let u := forUp (fun i (u : Nat → dcomplex K) =>
          let ti := (i : K) * t
          setAt u (i + s.ku) { real := ccos ti, imag := csin ti }) 0 s.ln s.u
      { u := u, ku := s.ku + s.ln, ln := 2 * s.ln })
    1 m { u := u, ku := 1, ln := 1 }).u

/-- The routine `fftz2(is, l, m, n, ny, ny1, u, x, y)` (lines 781-846), the `l`-th
iteration of the Stockham FFT from the array `x` into the array `y`; the result is `y`.
`2 << k` is `2 * 2^k`.  The argument `ny1` is not used by the body. -/
def fftz2 {K : Type} [Field K] (is : Int) (l m n ny : Nat) (u : Nat → dcomplex K)
    (x y : Nat → Nat → dcomplex K) : Nat → Nat → dcomplex K :=
  let n1 := n / 2
  let lk := if l - 1 = 0 then 1 else 2 <<< (l - 1 - 1)
  let li := if m - l = 0 then 1 else 2 <<< (m - l - 1)
  let lj := 2 * lk
  let ku := li
  forUp (fun i (y : Nat → Nat → dcomplex K) =>
      let i11 := i * lk
      let i12 := i11 + n1
      let i21 := i * lj
      let i22 := i21 + lk
      let u1 : dcomplex K :=
        if is ≥ 1 then { real := (u (ku + i)).real, imag := (u (ku + i)).imag }
        else { real := (u (ku + i)).real, imag := -(u (ku + i)).imag }
      forUp (fun k (y : Nat → Nat → dcomplex K) =>
          forUp (fun j (y : Nat → Nat → dcomplex K) =>
              let x11real := (x (i11 + k) j).real
              let x11imag := (x (i11 + k) j).imag
              let x21real := (x (i12 + k) j).real
              let x21imag := (x (i12 + k) j).imag
              let y := setAt2 y (i21 + k) j
                { real := x11real + x21real, imag := x11imag + x21imag }
              setAt2 y (i22 + k) j
                { real := u1.real * (x11real - x21real) - u1.imag * (x11imag - x21imag),
                  imag := u1.real * (x11imag - x21imag) + u1.imag * (x11real - x21real) })
            0 ny y)
        0 lk y)
    0 li y

/-- The state of the loop over `l` of `cfftz`: the arrays `x` and `y`, and whether the
`break` of line 763 has been taken. -/
structure FftState (K : Type) where
  x : Nat → Nat → dcomplex K
  y : Nat → Nat → dcomplex K
  broken : Bool

/-- The routine `cfftz(is, m, n, x, y)` (lines 728-775) with the table `u` and the block
size `fftblock`: `mx = (int)(u[0].real)`; `exit(1)` when `is` is neither 1 nor -1, or
`m < 1`, or `m > mx`; the loop `for (l = 1; l <= m; l += 2)` (its iterations are
`l = 1 + 2 t` for `t < (m+1)/2`) with `fftz2` from `x` into `y`, the `break` when `l == m`,
and `fftz2` from `y` into `x`; then the copy of `y` to `x` when `m` is odd.  The result is
the pair `(x, y)`. -/
def cfftz {K : Type} [Field K] (ctrunc : K → Int) (fftblock : Nat) (u : Nat → dcomplex K)
    (is : Int) (m : Int) (n : Nat) (x y : Nat → Nat → dcomplex K) :
    Run ((Nat → Nat → dcomplex K) × (Nat → Nat → dcomplex K)) :=
  let mx := ctrunc (u 0).real
  if (is ≠ 1 ∧ is ≠ -1) ∨ m < 1 ∨ m > mx then Run.exited
  else
    let s := forUp (fun t (s : FftState K) =>
        if s.broken then s
        else
          let l := 1 + 2 * t
          let y := fftz2 is l m.toNat n fftblock u s.x s.y
          if (l : Int) = m then { x := s.x, y := y, broken := true }
          else { x := fftz2 is (l + 1) m.toNat n fftblock u y s.x, y := y, broken := false })
      0 ((m.toNat + 1) / 2) { x := x, y := y, broken := false }
    if Int.tmod m 2 = 1 then
      Run.ok (forUp (fun j (x : Nat → Nat → dcomplex K) =>
          forUp (fun i (x : Nat → Nat → dcomplex K) => setAt2 x j i (s.y j i)) 0 fftblock x)
        0 n s.x, s.y)
    else Run.ok (s.x, s.y)

/-- The complex number a `dcomplex` of real doubles stands for. -/
def dcomplex.toComplex (z : dcomplex ℝ) : ℂ := ⟨z.real, z.imag⟩

/-- The code between two marks fills the set `S` of a two-dimensional array with the
values `V`: it stores `V r j` at every `(r, j)` of `S` and leaves the other elements as
they are. -/
def Fills2 {β : Type} (f : (Nat → Nat → β) → (Nat → Nat → β)) (S : Nat → Nat → Prop)
    (V : Nat → Nat → β) : Prop :=
  ∀ y r j, (S r j → f y r j = V r j) ∧ (¬ S r j → f y r j = y r j)

/-- The partial transform of the sequence `X` held between the iterations of the Stockham
FFT, with `w` the root of unity: when the iterations done so far leave `M` blocks of length
`L` (`M * L = n`), entry `k` of block `i`, stored at position `i * L + k`, is the sum over
`t < L` of `X (i + t * M) * w^((i + t * M) * k)`.  For `M = 1` this is the transform of
`X`, for `L = 1` it is `X`. -/
def partialDft {R : Type} [CommRing R] (w : R) (M L : Nat) (X : Nat → R) (i k : Nat) : R :=
  ∑ t ∈ Finset.range L, X (i + t * M) * w ^ ((i + t * M) * k)

/-- The sum `x11 + x21` as `fftz2` stores it, part by part. -/
def dcomplex.add {K : Type} [Field K] (a b : dcomplex K) : dcomplex K :=
  { real := a.real + b.real, imag := a.imag + b.imag }

/-- The product `u1 * (x11 - x21)` as `fftz2` stores it, part by part. -/
def dcomplex.mulSub {K : Type} [Field K] (u1 a b : dcomplex K) : dcomplex K :=
  { real := u1.real * (a.real - b.real) - u1.imag * (a.imag - b.imag),
    imag := u1.real * (a.imag - b.imag) + u1.imag * (a.real - b.real) }

/-- The factor `u1` of `fftz2`: the element of the table for `is >= 1`, its conjugate
otherwise. -/
def twiddle {K : Type} [Field K] (is : Int) (u : Nat → dcomplex K) (idx : Nat) : dcomplex K :=
  if is ≥ 1 then { real := (u idx).real, imag := (u idx).imag }
  else { real := (u idx).real, imag := -(u idx).imag }

/-- The value `fftz2` stores at row `r` of column `j`, told from the position: with
`i = r / (2 lk)` and `k = r mod (2 lk)`, the sum of `x[i*lk + k]` and `x[i*lk + n1 + k]`
when `k < lk`, and `u1` times their difference, for `k - lk`, otherwise. -/
def stageValue {K : Type} [Field K] (is : Int) (lk li n1 : Nat) (u : Nat → dcomplex K)
    (x : Nat → Nat → dcomplex K) (r j : Nat) : dcomplex K :=
  if r % (2 * lk) < lk then
    dcomplex.add (x (r / (2 * lk) * lk + r % (2 * lk)) j)
      (x (r / (2 * lk) * lk + n1 + r % (2 * lk)) j)
  else
    dcomplex.mulSub (twiddle is u (li + r / (2 * lk)))
      (x (r / (2 * lk) * lk + (r % (2 * lk) - lk)) j)
      (x (r / (2 * lk) * lk + n1 + (r % (2 * lk) - lk)) j)

/-- The array `arr` holds, in its columns `j < ny`, the partial transforms after `l` of
the `m` iterations of the FFT of the columns of `x0`: `2^(m-l)` blocks of length `2^l`. -/
def HoldsStage (w : ℂ) (m ny : Nat) (x0 arr : Nat → Nat → dcomplex ℝ) (l : Nat) : Prop :=
  ∀ j, j < ny → ∀ i, i < 2 ^ (m - l) → ∀ k, k < 2 ^ l →
    (arr (i * 2 ^ l + k) j).toComplex
      = partialDft w (2 ^ (m - l)) (2 ^ l) (fun t => (x0 t j).toComplex) i k

end FT

namespace CG

/-! ## Lemmas on arrays and loops -/

@[simp] theorem setAt_same {β : Type} (arr : Nat → β) (i : Nat) (v : β) :
    setAt arr i v i = v := by
  simp [setAt]

theorem setAt_other {β : Type} (arr : Nat → β) {i k : Nat} (v : β) (h : k ≠ i) :
    setAt arr i v k = arr k := by
  simp [setAt, h]

theorem setAt_apply {β : Type} (arr : Nat → β) (i k : Nat) (v : β) :
    setAt arr i v k = if k = i then v else arr k := rfl

theorem forUp_zero {σ : Type} (body : Nat → σ → σ) (lo : Nat) (s : σ) :
    forUp body lo 0 s = s := rfl

theorem forUp_succ {σ : Type} (body : Nat → σ → σ) (lo cnt : Nat) (s : σ) :
    forUp body lo (cnt + 1) s = forUp body (lo + 1) cnt (body lo s) := rfl

/-- The last iteration of a counted loop, peeled off. -/
theorem forUp_succ_last {σ : Type} (body : Nat → σ → σ) (lo cnt : Nat) (s : σ) :
    forUp body lo (cnt + 1) s = body (lo + cnt) (forUp body lo cnt s) := by
  induction cnt generalizing lo s with
  | zero => rfl
  | succ m ih =>
    rw [forUp_succ, ih (lo + 1) (body lo s), forUp_succ]
    congr 1
    omega

/-- A counted loop splits into two consecutive loops. -/
theorem forUp_add {σ : Type} (body : Nat → σ → σ) (lo c1 c2 : Nat) (s : σ) :
    forUp body lo (c1 + c2) s = forUp body (lo + c1) c2 (forUp body lo c1 s) := by
  induction c1 generalizing lo s with
  | zero => simp [forUp]
  | succ m ih =>
    have h : m + 1 + c2 = (m + c2) + 1 := by omega
    rw [h, forUp_succ, ih, forUp_succ]
    congr 1
    omega

/-- Two loops whose bodies agree on the indices they run over are equal. -/
theorem forUp_congr {σ : Type} (f g : Nat → σ → σ) (lo cnt : Nat) (s : σ)
    (h : ∀ i, lo ≤ i → i < lo + cnt → ∀ t, f i t = g i t) :
    forUp f lo cnt s = forUp g lo cnt s := by
  induction cnt generalizing lo s with
  | zero => rfl
  | succ m ih =>
    rw [forUp_succ, forUp_succ, h lo (le_refl _) (by omega)]
    exact ih (lo + 1) _ (fun i h1 h2 t => h i (by omega) (by omega) t)

/-- Invariant rule for counted loops: `P t` holds after `t` iterations. -/
theorem forUp_invariant {σ : Type} (body : Nat → σ → σ) (P : Nat → σ → Prop) (lo cnt : Nat)
    (s : σ) (h0 : P 0 s)
    (hstep : ∀ t s, t < cnt → P t s → P (t + 1) (body (lo + t) s)) :
    P cnt (forUp body lo cnt s) := by
  induction cnt with
  | zero => exact h0
  | succ m ih =>
    rw [forUp_succ_last]
    exact hstep m _ (Nat.lt_succ_self m)
      (ih (fun t s ht hP => hstep t s (Nat.lt_succ_of_lt ht) hP))

/-- A component of the state that no iteration changes is unchanged by the loop. -/
theorem forUp_preserve {σ τ : Type} (body : Nat → σ → σ) (proj : σ → τ)
    (h : ∀ i s, proj (body i s) = proj s) (lo cnt : Nat) (s : σ) :
    proj (forUp body lo cnt s) = proj s := by
  induction cnt generalizing lo s with
  | zero => rfl
  | succ m ih => rw [forUp_succ, ih, h]

theorem forDown_preserve {σ τ : Type} (body : Nat → σ → σ) (proj : σ → τ)
    (h : ∀ i s, proj (body i s) = proj s) (cnt : Nat) (s : σ) :
    proj (forDown body cnt s) = proj s := by
  induction cnt generalizing s with
  | zero => rfl
  | succ m ih =>
    show proj (forDown body m (body (m + 1) s)) = proj s
    rw [ih, h]

/-! ## Partition planner: theorems -/

theorem chunk_mul_le (size numtasks : Nat) : numtasks * chunk size numtasks ≤ size := by
  unfold chunk
  exact Nat.mul_div_le size numtasks

theorem end_of_not_last {size numtasks w : Nat} (h : w + 1 < numtasks) :
    end_ size numtasks w = (w + 1) * chunk size numtasks := by
  have hne : w ≠ numtasks - 1 := by omega
  simp [end_, hne, Nat.succ_mul]

theorem end_of_last {size numtasks w : Nat} (h : w + 1 = numtasks) :
    end_ size numtasks w = size := by
  have he : w = numtasks - 1 := by omega
  simp [end_, he]

theorem mul_chunk_le_of_lt {size numtasks w : Nat} (h : w < numtasks) :
    w * chunk size numtasks + chunk size numtasks ≤ size := by
  have h1 : (w + 1) * chunk size numtasks ≤ numtasks * chunk size numtasks :=
    Nat.mul_le_mul_right _ h
  have h2 := chunk_mul_le size numtasks
  have h3 : (w + 1) * chunk size numtasks = w * chunk size numtasks + chunk size numtasks :=
    Nat.succ_mul _ _
  omega

/-- Ranges of workers `w1 < w2` do not meet. -/
theorem end_lt_beg_of_lt {size numtasks w1 w2 : Nat} (h12 : w1 < w2) (h2 : w2 < numtasks) :
    end_ size numtasks w1 < beg size numtasks w2 := by
  rw [end_of_not_last (by omega : w1 + 1 < numtasks)]
  unfold beg
  have : (w1 + 1) * chunk size numtasks ≤ w2 * chunk size numtasks :=
    Nat.mul_le_mul_right _ h12
  omega

/-- Every index of `[1, size]` lies in the range of some worker. -/
theorem exists_owner {size numtasks : Nat} (hn : 1 ≤ numtasks) {i : Nat} (h1 : 1 ≤ i)
    (h2 : i ≤ size) :
    ∃ w, w < numtasks ∧ beg size numtasks w ≤ i ∧ i ≤ end_ size numtasks w := by
  by_cases hc : chunk size numtasks = 0
  · refine ⟨numtasks - 1, by omega, ?_, ?_⟩
    · simp [beg, hc]; exact h1
    · rw [end_of_last (by omega)]; exact h2
  · have hcpos : 0 < chunk size numtasks := Nat.pos_of_ne_zero hc
    by_cases hlast : (numtasks - 1) * chunk size numtasks < i
    · refine ⟨numtasks - 1, by omega, ?_, ?_⟩
      · unfold beg; omega
      · rw [end_of_last (by omega)]; exact h2
    · refine ⟨(i - 1) / chunk size numtasks, ?_, ?_, ?_⟩
      · have hlt : (i - 1) / chunk size numtasks < numtasks - 1 := by
          rw [Nat.div_lt_iff_lt_mul hcpos]
          omega
        omega
      · unfold beg
        have := Nat.div_mul_le_self (i - 1) (chunk size numtasks)
        omega
      · have hlt : (i - 1) / chunk size numtasks < numtasks - 1 := by
          rw [Nat.div_lt_iff_lt_mul hcpos]
          omega
        rw [end_of_not_last (by omega)]
        have hd := Nat.div_add_mod (i - 1) (chunk size numtasks)
        have hm := Nat.mod_lt (i - 1) hcpos
        rw [Nat.succ_mul, Nat.mul_comm]
        omega

theorem end_le_size {size numtasks w : Nat} (h : w < numtasks) :
    end_ size numtasks w ≤ size := by
  unfold end_
  split
  · exact mul_chunk_le_of_lt h
  · exact le_refl _

/-- C1: for every `totalSize` and `numWorkers >= 1` the ranges `[beg w, end w]`,
`w = 0 .. numWorkers-1`, of the partition code are contiguous
(`beg (w+1) = end w + 1`), pairwise disjoint, and their union is `[1, totalSize]`. -/
theorem partition_contiguous_disjoint_cover (totalSize numWorkers : Nat)
    (hn : 1 ≤ numWorkers) :
    (∀ w, w + 1 < numWorkers →
        beg totalSize numWorkers (w + 1) = end_ totalSize numWorkers w + 1) ∧
    (∀ w1 w2, w1 < numWorkers → w2 < numWorkers → w1 ≠ w2 → ∀ i,
        ¬ ((beg totalSize numWorkers w1 ≤ i ∧ i ≤ end_ totalSize numWorkers w1) ∧
           (beg totalSize numWorkers w2 ≤ i ∧ i ≤ end_ totalSize numWorkers w2))) ∧
    (∀ i, (1 ≤ i ∧ i ≤ totalSize) ↔
        ∃ w, w < numWorkers ∧
          beg totalSize numWorkers w ≤ i ∧ i ≤ end_ totalSize numWorkers w) := by
  refine ⟨?_, ?_, ?_⟩
  · intro w hw
    rw [end_of_not_last hw]
    unfold beg
    omega
  · intro w1 w2 h1 h2 hne i hi
    rcases Nat.lt_or_gt_of_ne hne with h | h
    · have := @end_lt_beg_of_lt totalSize _ _ _ h h2
      omega
    · have := @end_lt_beg_of_lt totalSize _ _ _ h h1
      omega
  · intro i
    constructor
    · rintro ⟨h1, h2⟩
      exact exists_owner hn h1 h2
    · rintro ⟨w, hw, hb, he⟩
      have h1 : 1 ≤ beg totalSize numWorkers w := by unfold beg; omega
      have h2 := @end_le_size totalSize _ _ hw
      omega

/-- Witness of C1 with 1400 elements on 4 workers. -/
theorem partition_contiguous_disjoint_cover_witness :
    1 ≤ 4 ∧ beg 1400 4 (2 + 1) = end_ 1400 4 2 + 1 :=
  ⟨by decide, (partition_contiguous_disjoint_cover 1400 4 (by decide)).1 2 (by decide)⟩

/-- C2: for every `totalSize`, `numWorkers >= 1` and `workerId < numWorkers` the
`(beg, end)` of the code is the plan of the specification; workers
`0 .. numWorkers-2` own `chunk` elements each and the last worker owns
`totalSize - (numWorkers-1)*chunk` elements. -/
theorem partition_eq_specPlan (totalSize numWorkers workerId : Nat)
    (hn : 1 ≤ numWorkers) (hw : workerId < numWorkers) :
    (beg totalSize numWorkers workerId, end_ totalSize numWorkers workerId)
        = specPlan totalSize numWorkers workerId ∧
    (workerId + 1 < numWorkers →
        (Finset.Icc (beg totalSize numWorkers workerId)
          (end_ totalSize numWorkers workerId)).card = totalSize / numWorkers) ∧
    (workerId + 1 = numWorkers →
        (Finset.Icc (beg totalSize numWorkers workerId)
          (end_ totalSize numWorkers workerId)).card
          = totalSize - (numWorkers - 1) * (totalSize / numWorkers)) := by
  refine ⟨?_, ?_, ?_⟩
  · unfold specPlan beg end_ chunk
    generalize totalSize / numWorkers = c
    by_cases h : workerId = numWorkers - 1
    · simp [h, Nat.add_comm]
    · simp only [ne_eq, h, not_false_eq_true, if_true, if_false, Prod.mk.injEq]
      generalize workerId * c = m
      constructor <;> omega
  · intro h
    rw [Nat.card_Icc, end_of_not_last h]
    unfold beg chunk
    rw [Nat.succ_mul]
    generalize totalSize / numWorkers = c
    generalize workerId * c = m
    omega
  · intro h
    rw [Nat.card_Icc, end_of_last h]
    have h1 : workerId = numWorkers - 1 := by omega
    have h2 := @mul_chunk_le_of_lt totalSize _ _ hw
    unfold beg
    unfold chunk at h2 ⊢
    rw [← h1]
    generalize totalSize / numWorkers = c at h2 ⊢
    generalize workerId * c = m at h2 ⊢
    omega

/-- Witness of C2: worker 3 of 4 on 1402 elements. -/
theorem partition_eq_specPlan_witness :
    1 ≤ 4 ∧ 3 < 4 ∧ (beg 1402 4 3, end_ 1402 4 3) = specPlan 1402 4 3 :=
  ⟨by decide, by decide, (partition_eq_specPlan 1402 4 3 (by decide) (by decide)).1⟩

/-! ## Reduction: theorems -/

theorem published_apply {α : Type} (v : Nat → α) (order : List Nat) (buf : Nat → α) (j : Nat) :
    published v order buf j = if j ∈ order then v j else buf j := by
  induction order generalizing buf with
  | nil => simp [published]
  | cons a l ih =>
    have hstep : published v (a :: l) buf = published v l (publish buf a (v a)) := rfl
    rw [hstep, ih]
    by_cases hj : j ∈ l
    · simp [hj]
    · by_cases hja : j = a
      · subst hja; simp [publish]
      · simp [hj, hja, publish, setAt_other]

theorem gather_eq {α : Type} [AddCommMonoid α] (buf : Nat → α) (w m : Nat) (acc : α) :
    forUp (fun j (acc : α) => if j ≠ w then acc + buf j else acc) 0 m acc
      = acc + ∑ j ∈ (Finset.range m).filter (fun j => j ≠ w), buf j := by
  induction m with
  | zero => simp [forUp]
  | succ m ih =>
    rw [forUp_succ_last, ih, Finset.range_succ, Finset.filter_insert]
    by_cases h : m = w
    · simp [h]
    · have hnot : m ∉ (Finset.range m).filter (fun j => j ≠ w) := by simp
      simp only [Nat.zero_add, ne_eq, h, not_false_eq_true, if_true]
      rw [Finset.sum_insert hnot, add_assoc]
      congr 1
      exact add_comm _ _

theorem gather_sum {α : Type} [AddCommMonoid α] (buf v : Nat → α) (numtasks w : Nat)
    (hw : w < numtasks) (hbuf : ∀ j, j < numtasks → buf j = v j) :
    gather buf numtasks w (v w) = ∑ i ∈ Finset.range numtasks, v i := by
  unfold gather
  rw [gather_eq, Finset.filter_ne']
  have hmem : w ∈ Finset.range numtasks := Finset.mem_range.mpr hw
  rw [← Finset.add_sum_erase _ _ hmem]
  congr 1
  apply Finset.sum_congr rfl
  intro j hj
  exact hbuf j (Finset.mem_range.mp (Finset.mem_of_mem_erase hj))

/-- C3: once every worker `w < numWorkers` has stored its partial value `v w` in its
slot (in any order) and the barrier has passed, the value worker `w` computes, its
own value plus the slots of the other workers, is the sum of all `v i`, and so is the
same for every querying worker. -/
theorem reduction_sum_all_workers {α : Type} [AddCommMonoid α] (numWorkers : Nat)
    (v : Nat → α) (gnorm_temps : Nat → α) (order : List Nat)
    (hall : ∀ w, w < numWorkers → w ∈ order) (w : Nat) (hw : w < numWorkers) :
    gather (published v order gnorm_temps) numWorkers w (v w)
        = ∑ i ∈ Finset.range numWorkers, v i ∧
    ∀ w2, w2 < numWorkers →
      gather (published v order gnorm_temps) numWorkers w2 (v w2)
        = gather (published v order gnorm_temps) numWorkers w (v w) := by
  have key : ∀ u, u < numWorkers →
      gather (published v order gnorm_temps) numWorkers u (v u)
        = ∑ i ∈ Finset.range numWorkers, v i := by
    intro u hu
    apply gather_sum _ _ _ _ hu
    intro j hj
    rw [published_apply]
    simp [hall j hj]
  exact ⟨key w hw, fun w2 hw2 => (key w2 hw2).trans (key w hw).symm⟩

/-- Witness of C3: three workers with partial values 5, 7, 11 publishing in the
order 2, 0, 1; worker 1 obtains the total. -/
theorem reduction_sum_all_workers_witness :
    (∀ w, w < 3 → w ∈ [2, 0, 1]) ∧ 1 < 3 ∧
    gather (published (fun w => if w = 0 then (5 : Int) else if w = 1 then 7 else 11)
        [2, 0, 1] (fun _ => 99)) 3 1 7
      = ∑ i ∈ Finset.range 3, (fun w => if w = 0 then (5 : Int) else if w = 1 then 7 else 11) i :=
  ⟨by decide, by decide,
    (reduction_sum_all_workers 3 (fun w => if w = 0 then (5 : Int) else if w = 1 then 7 else 11)
      (fun _ => 99) [2, 0, 1] (by decide) 1 (by decide)).1⟩

/-! ## `sparse`: the phases before the coalescing loop -/

theorem seg_succ {α : Type} (colidx : Nat → Nat) (a : Nat → α) (lo len : Nat) :
    seg colidx a lo (len + 1) = seg colidx a lo len ++ [(colidx (lo + len), a (lo + len))] := by
  simp [seg, List.range'_concat]

theorem seg_congr {α : Type} {colidx colidx2 : Nat → Nat} {a a2 : Nat → α} {lo len : Nat}
    (h : ∀ k, lo ≤ k → k < lo + len → colidx2 k = colidx k ∧ a2 k = a k) :
    seg colidx2 a2 lo len = seg colidx a lo len := by
  unfold seg
  apply List.map_congr_left
  intro k hk
  rw [List.mem_range'_1] at hk
  rw [(h k hk.1 hk.2).1, (h k hk.1 hk.2).2]

theorem seg_length {α : Type} (colidx : Nat → Nat) (a : Nat → α) (lo len : Nat) :
    (seg colidx a lo len).length = len := by
  simp [seg]

theorem rowEntries_zero_row {α : Type} (arow acol : Nat → Nat) (aelt : Nat → α)
    (firstrow m : Nat) (hpos : ∀ t, 1 ≤ t → t ≤ m → firstrow ≤ arow t) :
    rowEntries arow acol aelt firstrow m 0 = [] := by
  induction m with
  | zero => rfl
  | succ m ih =>
    have := hpos (m + 1) (by omega) (le_refl _)
    rw [rowEntries, ih (fun t h1 h2 => hpos t h1 (by omega)), if_neg (by omega)]
    rfl

theorem rowEntries_length_succ {α : Type} (arow acol : Nat → Nat) (aelt : Nat → α)
    (firstrow m j : Nat) :
    (rowEntries arow acol aelt firstrow (m + 1) j).length
      = (rowEntries arow acol aelt firstrow m j).length
        + (if arow (m + 1) + 1 - firstrow = j then 1 else 0) := by
  simp only [rowEntries, List.length_append]
  split <;> simp

theorem rowEntries_length_mono {α : Type} (arow acol : Nat → Nat) (aelt : Nat → α)
    (firstrow j : Nat) {m1 m2 : Nat} (h : m1 ≤ m2) :
    (rowEntries arow acol aelt firstrow m1 j).length
      ≤ (rowEntries arow acol aelt firstrow m2 j).length := by
  induction h with
  | refl => exact le_refl _
  | step _ ih =>
    rw [rowEntries_length_succ]
    omega

theorem startOf_one {α : Type} (arow acol : Nat → Nat) (aelt : Nat → α) (firstrow nnza : Nat)
    (hpos : ∀ t, 1 ≤ t → t ≤ nnza → firstrow ≤ arow t) :
    startOf arow acol aelt firstrow nnza 1 = 1 := by
  simp [startOf, rowEntries_zero_row arow acol aelt firstrow nnza hpos]

theorem startOf_mono {α : Type} (arow acol : Nat → Nat) (aelt : Nat → α) (firstrow nnza : Nat)
    {i j : Nat} (h : i ≤ j) :
    startOf arow acol aelt firstrow nnza i ≤ startOf arow acol aelt firstrow nnza j := by
  induction h with
  | refl => exact le_refl _
  | step _ ih =>
    simp only [startOf]
    omega

theorem sparseClear_rowstr {α : Type} (n : Nat) (s : SparseState α) (j : Nat) :
    (sparseClear n s).rowstr j = if 1 ≤ j ∧ j ≤ n + 1 then 0 else s.rowstr j := by
  have h := forUp_invariant
    (fun j (s : SparseState α) =>
      { s with rowstr := setAt s.rowstr j 0, mark := setAt s.mark j false })
    (fun t s2 => ∀ j, s2.rowstr j = if 1 ≤ j ∧ j ≤ t then 0 else s.rowstr j) 1 n s
    (by intro j; rw [if_neg (by omega)])
    (by
      intro t s2 _ hP j
      simp only [setAt_apply, hP j]
      split_ifs <;> first | rfl | omega)
  simp only [sparseClear, setAt_apply, h j]
  split_ifs <;> first | rfl | omega

theorem sparseCount_rowstr {α : Type} (arow acol : Nat → Nat) (aelt : Nat → α)
    (firstrow nnza : Nat) (s : SparseState α) (j : Nat) :
    (sparseCount arow firstrow nnza s).rowstr (j + 1)
      = s.rowstr (j + 1) + (rowEntries arow acol aelt firstrow nnza j).length := by
  have h := forUp_invariant
    (fun nza (s : SparseState α) =>
      let j := (arow nza + 1 - firstrow) + 1
      { s with rowstr := setAt s.rowstr j (s.rowstr j + 1) })
    (fun t s2 => ∀ j, s2.rowstr (j + 1)
      = s.rowstr (j + 1) + (rowEntries arow acol aelt firstrow t j).length) 1 nnza s
    (by intro j; simp [rowEntries])
    (by
      intro t s2 _ hP j
      have e : 1 + t = t + 1 := Nat.add_comm 1 t
      simp only [e, rowEntries_length_succ]
      by_cases hj : arow (t + 1) + 1 - firstrow = j
      · rw [hj, setAt_same, hP j, if_pos rfl]
        omega
      · rw [setAt_other _ _ (by omega), hP j, if_neg hj]
        omega)
  exact h j

theorem sparsePrefix_rowstr {α : Type} (nrows : Nat) (s : SparseState α) (f : Nat → Nat)
    (hf1 : f 1 = 1) (hf : ∀ i, 1 ≤ i → i ≤ nrows → f (i + 1) = f i + s.rowstr (i + 1))
    (i : Nat) (h1 : 1 ≤ i) (h2 : i ≤ nrows + 1) :
    (sparsePrefix nrows s).rowstr i = f i := by
  have h := forUp_invariant
    (fun j (s : SparseState α) =>
      { s with rowstr := setAt s.rowstr j (s.rowstr j + s.rowstr (j - 1)) })
    (fun t s2 => (∀ i, 1 ≤ i → i ≤ t + 1 → s2.rowstr i = f i) ∧
      (∀ i, t + 1 < i → s2.rowstr i = s.rowstr i)) 2 nrows
    { s with rowstr := setAt s.rowstr 1 1 }
    (by
      constructor
      · intro i h1 h2
        have : i = 1 := by omega
        subst this
        simp [hf1]
      · intro i hi
        simp only [setAt_apply]
        rw [if_neg (by omega)])
    (by
      intro t s2 ht hP
      constructor
      · intro i h1 h2
        simp only [setAt_apply]
        by_cases hi : i = 2 + t
        · rw [if_pos hi, hP.2 (2 + t) (by omega), hP.1 (2 + t - 1) (by omega) (by omega)]
          have e : 2 + t - 1 = t + 1 := by omega
          have e2 : 2 + t = (t + 1) + 1 := by omega
          rw [hi, e, e2, hf (t + 1) (by omega) (by omega)]
          omega
        · rw [if_neg hi]
          exact hP.1 i h1 (by omega)
      · intro i hi
        simp only [setAt_apply]
        rw [if_neg (by omega)]
        exact hP.2 i (by omega))
  exact h.1 i h1 h2

theorem startOf_succ {α : Type} (arow acol : Nat → Nat) (aelt : Nat → α) (firstrow nnza j : Nat) :
    startOf arow acol aelt firstrow nnza (j + 1)
      = startOf arow acol aelt firstrow nnza j
        + (rowEntries arow acol aelt firstrow nnza j).length := rfl

/-- The bucket sort puts the triples of every local row, in their order, at the
positions that start at `startOf` of the row. -/
theorem sparseBucket_inv {α : Type} (arow acol : Nat → Nat) (aelt : Nat → α)
    (firstrow nnza nrows : Nat) (s : SparseState α)
    (hpos : ∀ t, 1 ≤ t → t ≤ nnza → firstrow ≤ arow t)
    (hrow : ∀ t, 1 ≤ t → t ≤ nnza → arow t + 1 - firstrow ≤ nrows)
    (hs : ∀ i, 1 ≤ i → i ≤ nrows → s.rowstr i = startOf arow acol aelt firstrow nnza i) :
    (∀ i, 1 ≤ i → i ≤ nrows →
      (sparseBucket arow acol aelt firstrow nnza s).rowstr i
        = startOf arow acol aelt firstrow nnza (i + 1)) ∧
    (∀ i, 1 ≤ i → i ≤ nrows →
      seg (sparseBucket arow acol aelt firstrow nnza s).colidx
          (sparseBucket arow acol aelt firstrow nnza s).a
          (startOf arow acol aelt firstrow nnza i)
          (rowEntries arow acol aelt firstrow nnza i).length
        = rowEntries arow acol aelt firstrow nnza i) := by
  have h := forUp_invariant
    (fun nza (s : SparseState α) =>
      let j := arow nza + 1 - firstrow
      let k := s.rowstr j
      { s with a := setAt s.a k (aelt nza), colidx := setAt s.colidx k (acol nza),
               rowstr := setAt s.rowstr j (s.rowstr j + 1) })
    (fun t s2 =>
      (∀ i, 1 ≤ i → i ≤ nrows → s2.rowstr i
        = startOf arow acol aelt firstrow nnza i
          + (rowEntries arow acol aelt firstrow t i).length) ∧
      (∀ i, 1 ≤ i → i ≤ nrows →
        seg s2.colidx s2.a (startOf arow acol aelt firstrow nnza i)
            (rowEntries arow acol aelt firstrow t i).length
          = rowEntries arow acol aelt firstrow t i)) 1 nnza s
    (by
      constructor
      · intro i h1 h2
        simp [rowEntries, hs i h1 h2]
      · intro i _ _
        simp [rowEntries, seg])
    (by
      intro t s2 ht hP
      have e : 1 + t = t + 1 := Nat.add_comm 1 t
      simp only [e]
      -- the row of the triple `t+1` and the position it is stored at
      generalize hj0 : arow (t + 1) + 1 - firstrow = j0
      have hj0a : 1 ≤ j0 := by
        have := hpos (t + 1) (by omega) (by omega)
        omega
      have hj0b : j0 ≤ nrows := by
        have := hrow (t + 1) (by omega) (by omega)
        omega
      have hk := hP.1 j0 hj0a hj0b
      have hlen0 : (rowEntries arow acol aelt firstrow (t + 1) j0).length
          = (rowEntries arow acol aelt firstrow t j0).length + 1 := by
        rw [rowEntries_length_succ, if_pos hj0]
      have hlt : (rowEntries arow acol aelt firstrow t j0).length
          < (rowEntries arow acol aelt firstrow nnza j0).length := by
        have := rowEntries_length_mono arow acol aelt firstrow j0
          (show t + 1 ≤ nnza by omega)
        omega
      constructor
      · intro i h1 h2
        by_cases hi : i = j0
        · subst hi
          rw [setAt_same, hk, hlen0]
          omega
        · rw [setAt_other _ _ hi, hP.1 i h1 h2, rowEntries_length_succ, if_neg (by omega)]
          rfl
      · intro i h1 h2
        by_cases hi : i = j0
        · subst hi
          rw [hlen0, seg_succ]
          simp only [rowEntries, if_pos hj0]
          congr 1
          · refine (seg_congr ?_).trans (hP.2 i h1 h2)
            intro k hk1 hk2
            rw [setAt_other _ _ (by omega), setAt_other _ _ (by omega)]
            exact ⟨rfl, rfl⟩
          · rw [← hk]
            simp
        · have hsame : rowEntries arow acol aelt firstrow (t + 1) i
              = rowEntries arow acol aelt firstrow t i := by
            simp only [rowEntries]
            rw [if_neg (by omega)]
            simp
          rw [hsame]
          have hlen := rowEntries_length_mono arow acol aelt firstrow i
            (show t ≤ nnza by omega)
          have hsucc := startOf_succ arow acol aelt firstrow nnza i
          have hsucc0 := startOf_succ arow acol aelt firstrow nnza j0
          refine (seg_congr ?_).trans (hP.2 i h1 h2)
          intro k hk1 hk2
          have hne : k ≠ s2.rowstr j0 := by
            rw [hk]
            rcases Nat.lt_or_gt_of_ne hi with hlt2 | hgt2
            · have := startOf_mono arow acol aelt firstrow nnza
                (show i + 1 ≤ j0 by omega)
              omega
            · have := startOf_mono arow acol aelt firstrow nnza
                (show j0 + 1 ≤ i by omega)
              omega
          rw [setAt_other _ _ hne, setAt_other _ _ hne]
          exact ⟨rfl, rfl⟩)
  constructor
  · intro i h1 h2
    rw [startOf_succ]
    exact h.1 i h1 h2
  · exact h.2

theorem sparseBucket_rowstr_above {α : Type} (arow acol : Nat → Nat) (aelt : Nat → α)
    (firstrow nnza nrows : Nat) (s : SparseState α)
    (hrow : ∀ t, 1 ≤ t → t ≤ nnza → arow t + 1 - firstrow ≤ nrows)
    (i : Nat) (hi : nrows < i) :
    (sparseBucket arow acol aelt firstrow nnza s).rowstr i = s.rowstr i := by
  have h := forUp_invariant
    (fun nza (s : SparseState α) =>
      let j := arow nza + 1 - firstrow
      let k := s.rowstr j
      { s with a := setAt s.a k (aelt nza), colidx := setAt s.colidx k (acol nza),
               rowstr := setAt s.rowstr j (s.rowstr j + 1) })
    (fun _ s2 => s2.rowstr i = s.rowstr i) 1 nnza s rfl
    (by
      intro t s2 ht hP
      have := hrow (1 + t) (by omega) (by omega)
      simp only []
      rw [setAt_other _ _ (by omega)]
      exact hP)
  exact h

theorem sparseShift_rowstr {α : Type} (nrows : Nat) (s : SparseState α) (i : Nat) :
    (sparseShift nrows s).rowstr i
      = if i = 1 then 1 else if 2 ≤ i ∧ i ≤ nrows + 1 then s.rowstr (i - 1) else s.rowstr i := by
  have h : ∀ (m : Nat) (s : SparseState α) (i : Nat),
      (forDown (fun j (s : SparseState α) =>
        { s with rowstr := setAt s.rowstr (j + 1) (s.rowstr j) }) m s).rowstr i
        = if 2 ≤ i ∧ i ≤ m + 1 then s.rowstr (i - 1) else s.rowstr i := by
    intro m
    induction m with
    | zero =>
      intro s i
      rw [if_neg (by omega)]
      rfl
    | succ m ih =>
      intro s i
      simp only [forDown]
      rw [ih]
      simp only [setAt_apply]
      have e : ∀ k, k + 1 - 1 = k := fun k => rfl
      split_ifs <;> first | rfl | omega | (congr 1; omega)
  simp only [sparseShift, setAt_apply, h nrows s i]

theorem sparseShift_a {α : Type} (nrows : Nat) (s : SparseState α) :
    (sparseShift nrows s).a = s.a := by
  unfold sparseShift
  exact forDown_preserve _ SparseState.a (by intro _ _; rfl) nrows s

theorem sparseShift_colidx {α : Type} (nrows : Nat) (s : SparseState α) :
    (sparseShift nrows s).colidx = s.colidx := by
  unfold sparseShift
  exact forDown_preserve _ SparseState.colidx (by intro _ _; rfl) nrows s

theorem sparseZero_a {α : Type} [Zero α] (n : Nat) (s : SparseState α) :
    (sparseZero n s).a = s.a := by
  unfold sparseZero
  exact forUp_preserve _ SparseState.a (by intro _ _; rfl) 1 n _

theorem sparseZero_colidx {α : Type} [Zero α] (n : Nat) (s : SparseState α) :
    (sparseZero n s).colidx = s.colidx := by
  unfold sparseZero
  exact forUp_preserve _ SparseState.colidx (by intro _ _; rfl) 1 n _

theorem sparseZero_rowstr {α : Type} [Zero α] (n : Nat) (s : SparseState α) :
    (sparseZero n s).rowstr = s.rowstr := by
  unfold sparseZero
  exact forUp_preserve _ SparseState.rowstr (by intro _ _; rfl) 1 n _

theorem sparseZero_nza {α : Type} [Zero α] (n : Nat) (s : SparseState α) :
    (sparseZero n s).nza = 0 := by
  unfold sparseZero
  exact forUp_preserve _ SparseState.nza (by intro _ _; rfl) 1 n _

theorem sparseZero_clean {α : Type} [Zero α] (n : Nat) (s : SparseState α) (c : Nat)
    (h1 : 1 ≤ c) (h2 : c ≤ n) :
    (sparseZero n s).x c = 0 ∧ (sparseZero n s).mark c = false := by
  have h := forUp_invariant
    (fun i (s : SparseState α) =>
      { s with x := setAt s.x i 0, mark := setAt s.mark i false })
    (fun t s2 => ∀ c, 1 ≤ c → c ≤ t → s2.x c = 0 ∧ s2.mark c = false) 1 n
    { s with nza := 0 }
    (by intro c h1 h2; omega)
    (by
      intro t s2 _ hP c h1 h2
      simp only [setAt_apply]
      by_cases hc : c = 1 + t
      · simp [hc]
      · rw [if_neg hc, if_neg hc]
        exact hP c h1 (by omega))
  exact h c h1 h2

/-! ## One row on lists: `scanRow`, `emitRow`, `coalesceRow` -/

theorem colSum_nil {α : Type} [AddMonoid α] (c : Nat) : colSum ([] : List (Nat × α)) c = 0 := by
  simp [colSum]

theorem colSum_cons {α : Type} [AddMonoid α] (e : Nat × α) (l : List (Nat × α)) (c : Nat) :
    colSum (e :: l) c = if e.1 = c then e.2 + colSum l c else colSum l c := by
  unfold colSum
  by_cases h : e.1 = c
  · simp [List.filter_cons, h]
  · simp [List.filter_cons, h]

theorem colSum_append {α : Type} [AddMonoid α] (l1 l2 : List (Nat × α)) (c : Nat) :
    colSum (l1 ++ l2) c = colSum l1 c + colSum l2 c := by
  simp [colSum, List.filter_append]

theorem colSum_eq_zero_of_not_mem {α : Type} [AddMonoid α] (l : List (Nat × α)) (c : Nat)
    (h : c ∉ l.map Prod.fst) : colSum l c = 0 := by
  induction l with
  | nil => exact colSum_nil c
  | cons e l ih =>
    simp only [List.map_cons, List.mem_cons, not_or] at h
    rw [colSum_cons, if_neg (fun he => h.1 he.symm)]
    exact ih h.2

theorem colSum_of_nodup {α : Type} [AddMonoid α] (l : List (Nat × α))
    (hnd : (l.map Prod.fst).Nodup) (e : Nat × α) (he : e ∈ l) : colSum l e.1 = e.2 := by
  induction l with
  | nil => cases he
  | cons e0 l ih =>
    simp only [List.map_cons, List.nodup_cons] at hnd
    rw [colSum_cons]
    rcases List.mem_cons.mp he with h | h
    · subst h
      rw [if_pos rfl, colSum_eq_zero_of_not_mem l e.1 hnd.1, add_zero]
    · have hne : e0.1 ≠ e.1 := by
        intro heq
        apply hnd.1
        rw [heq]
        exact List.mem_map_of_mem _ h
      rw [if_neg hne]
      exact ih hnd.2 h

section ScanRow
variable {α : Type} [AddMonoid α] [DecidableEq α]

theorem scanRow_nil (x : Nat → α) (mark : Nat → Bool) (nzl : List Nat) :
    scanRow [] x mark nzl = (x, mark, nzl) := rfl

theorem scanRow_cons_pos (e : Nat × α) (l : List (Nat × α)) (x : Nat → α) (mark : Nat → Bool)
    (nzl : List Nat) (h : mark e.1 = false ∧ setAt x e.1 (x e.1 + e.2) e.1 ≠ 0) :
    scanRow (e :: l) x mark nzl
      = scanRow l (setAt x e.1 (x e.1 + e.2)) (setAt mark e.1 true) (nzl ++ [e.1]) := by
  rw [scanRow, if_pos h]

theorem scanRow_cons_neg (e : Nat × α) (l : List (Nat × α)) (x : Nat → α) (mark : Nat → Bool)
    (nzl : List Nat) (h : ¬ (mark e.1 = false ∧ setAt x e.1 (x e.1 + e.2) e.1 ≠ 0)) :
    scanRow (e :: l) x mark nzl = scanRow l (setAt x e.1 (x e.1 + e.2)) mark nzl := by
  rw [scanRow, if_neg h]

/-- After the accumulation loop `x[c]` has grown by the sum of the entries of column `c`. -/
theorem scanRow_x (l : List (Nat × α)) (x : Nat → α) (mark : Nat → Bool) (nzl : List Nat)
    (c : Nat) : (scanRow l x mark nzl).1 c = x c + colSum l c := by
  induction l generalizing x mark nzl with
  | nil => simp [scanRow_nil, colSum_nil]
  | cons e l ih =>
    have key : ∀ (m : Nat → Bool) (z : List Nat),
        (scanRow l (setAt x e.1 (x e.1 + e.2)) m z).1 c = x c + colSum (e :: l) c := by
      intro m z
      rw [ih, colSum_cons, setAt_apply]
      by_cases h : c = e.1
      · subst h
        simp [add_assoc]
      · rw [if_neg h, if_neg (fun h2 => h h2.symm)]
    by_cases hc : mark e.1 = false ∧ setAt x e.1 (x e.1 + e.2) e.1 ≠ 0
    · rw [scanRow_cons_pos e l x mark nzl hc]
      exact key _ _
    · rw [scanRow_cons_neg e l x mark nzl hc]
      exact key _ _

/-- The marks and the list of marked columns stay consistent: a column is marked
exactly when it is listed, no column is listed twice, and a column whose sum is not
zero is marked. -/
theorem scanRow_inv (l : List (Nat × α)) (x : Nat → α) (mark : Nat → Bool) (nzl : List Nat)
    (h1 : ∀ c, mark c = true ↔ c ∈ nzl) (h2 : nzl.Nodup) (h3 : ∀ c, x c ≠ 0 → mark c = true) :
    (∀ c, (scanRow l x mark nzl).2.1 c = true ↔ c ∈ (scanRow l x mark nzl).2.2) ∧
    (scanRow l x mark nzl).2.2.Nodup ∧
    (∀ c, (scanRow l x mark nzl).1 c ≠ 0 → (scanRow l x mark nzl).2.1 c = true) := by
  induction l generalizing x mark nzl with
  | nil => exact ⟨h1, h2, h3⟩
  | cons e l ih =>
    by_cases hc : mark e.1 = false ∧ setAt x e.1 (x e.1 + e.2) e.1 ≠ 0
    · rw [scanRow_cons_pos e l x mark nzl hc]
      apply ih
      · intro c
        rw [setAt_apply, List.mem_append, List.mem_singleton]
        by_cases h : c = e.1
        · simp [h]
        · simp [h, h1 c]
      · rw [List.nodup_append]
        refine ⟨h2, List.nodup_singleton _, ?_⟩
        intro c hc1 hc2
        rw [List.mem_singleton] at hc2
        rw [hc2] at hc1
        have := (h1 e.1).mpr hc1
        rw [hc.1] at this
        cases this
      · intro c hx
        rw [setAt_apply]
        by_cases h : c = e.1
        · simp [h]
        · rw [if_neg h]
          rw [setAt_other _ _ h] at hx
          exact h3 c hx
    · rw [scanRow_cons_neg e l x mark nzl hc]
      apply ih _ _ _ h1 h2
      intro c hx
      by_cases h : c = e.1
      · rw [h] at hx ⊢
        by_contra hm
        exact hc ⟨Bool.eq_false_iff.mpr hm, hx⟩
      · rw [setAt_other _ _ h] at hx
        exact h3 c hx

theorem scanRow_mem (l : List (Nat × α)) (x : Nat → α) (mark : Nat → Bool) (nzl : List Nat)
    (c : Nat) (h : c ∈ (scanRow l x mark nzl).2.2) : c ∈ nzl ∨ c ∈ l.map Prod.fst := by
  induction l generalizing x mark nzl with
  | nil => exact Or.inl h
  | cons e l ih =>
    by_cases hc : mark e.1 = false ∧ setAt x e.1 (x e.1 + e.2) e.1 ≠ 0
    · rw [scanRow_cons_pos e l x mark nzl hc] at h
      rcases ih _ _ _ h with h' | h'
      · rw [List.mem_append, List.mem_singleton] at h'
        rcases h' with h' | h'
        · exact Or.inl h'
        · right; simp [h']
      · right; simp only [List.map_cons, List.mem_cons]; exact Or.inr h'
    · rw [scanRow_cons_neg e l x mark nzl hc] at h
      rcases ih _ _ _ h with h' | h'
      · exact Or.inl h'
      · right; simp only [List.map_cons, List.mem_cons]; exact Or.inr h'

theorem scanRow_length (l : List (Nat × α)) (x : Nat → α) (mark : Nat → Bool) (nzl : List Nat) :
    (scanRow l x mark nzl).2.2.length ≤ nzl.length + l.length := by
  induction l generalizing x mark nzl with
  | nil => simp [scanRow_nil]
  | cons e l ih =>
    by_cases hc : mark e.1 = false ∧ setAt x e.1 (x e.1 + e.2) e.1 ≠ 0
    · rw [scanRow_cons_pos e l x mark nzl hc]
      have := ih (setAt x e.1 (x e.1 + e.2)) (setAt mark e.1 true) (nzl ++ [e.1])
      simp only [List.length_append, List.length_singleton, List.length_cons,
        List.length_nil] at this ⊢
      omega
    · rw [scanRow_cons_neg e l x mark nzl hc]
      have := ih (setAt x e.1 (x e.1 + e.2)) mark nzl
      simp only [List.length_cons]
      omega

/-- The accumulation loop only looks at the scratch arrays at the columns of the row. -/
theorem scanRow_congr (P : Nat → Prop) (l : List (Nat × α)) (x y : Nat → α)
    (mark mark2 : Nat → Bool) (nzl : List Nat) (hl : ∀ e ∈ l, P e.1)
    (hxy : ∀ c, P c → x c = y c ∧ mark c = mark2 c) :
    (scanRow l x mark nzl).2.2 = (scanRow l y mark2 nzl).2.2 ∧
    ∀ c, P c → (scanRow l x mark nzl).1 c = (scanRow l y mark2 nzl).1 c ∧
      (scanRow l x mark nzl).2.1 c = (scanRow l y mark2 nzl).2.1 c := by
  induction l generalizing x y mark mark2 nzl with
  | nil => exact ⟨rfl, hxy⟩
  | cons e l ih =>
    have hP : P e.1 := hl e (List.mem_cons_self _ _)
    have hl2 : ∀ e2 ∈ l, P e2.1 := fun e2 h => hl e2 (List.mem_cons_of_mem _ h)
    have hx1 : ∀ c, P c → setAt x e.1 (x e.1 + e.2) c = setAt y e.1 (y e.1 + e.2) c := by
      intro c hc
      rw [setAt_apply, setAt_apply, (hxy c hc).1, (hxy e.1 hP).1]
    have hcond : (mark e.1 = false ∧ setAt x e.1 (x e.1 + e.2) e.1 ≠ 0)
        ↔ (mark2 e.1 = false ∧ setAt y e.1 (y e.1 + e.2) e.1 ≠ 0) := by
      rw [hx1 e.1 hP, (hxy e.1 hP).2]
    by_cases hc : mark e.1 = false ∧ setAt x e.1 (x e.1 + e.2) e.1 ≠ 0
    · rw [scanRow_cons_pos e l x mark nzl hc, scanRow_cons_pos e l y mark2 nzl (hcond.mp hc)]
      apply ih _ _ _ _ _ hl2
      intro c hPc
      refine ⟨hx1 c hPc, ?_⟩
      rw [setAt_apply, setAt_apply, (hxy c hPc).2]
    · rw [scanRow_cons_neg e l x mark nzl hc,
        scanRow_cons_neg e l y mark2 nzl (fun h => hc (hcond.mpr h))]
      apply ih _ _ _ _ _ hl2
      intro c hPc
      exact ⟨hx1 c hPc, (hxy c hPc).2⟩

/-- On a row without repeated columns and without zero values every column is
marked, in the order of the row. -/
theorem scanRow_of_nodup (l : List (Nat × α)) (x : Nat → α) (mark : Nat → Bool)
    (nzl : List Nat) (hnd : (l.map Prod.fst).Nodup)
    (hl : ∀ e ∈ l, e.2 ≠ 0 ∧ x e.1 = 0 ∧ mark e.1 = false) :
    (scanRow l x mark nzl).2.2 = nzl ++ l.map Prod.fst := by
  induction l generalizing x mark nzl with
  | nil => simp [scanRow_nil]
  | cons e l ih =>
    simp only [List.map_cons, List.nodup_cons] at hnd
    have he := hl e (List.mem_cons_self _ _)
    have hc : mark e.1 = false ∧ setAt x e.1 (x e.1 + e.2) e.1 ≠ 0 := by
      refine ⟨he.2.2, ?_⟩
      rw [setAt_same, he.2.1, zero_add]
      exact he.1
    rw [scanRow_cons_pos e l x mark nzl hc, ih _ _ _ hnd.2]
    · simp
    · intro e2 he2
      have h2 := hl e2 (List.mem_cons_of_mem _ he2)
      have hne : e2.1 ≠ e.1 := by
        intro heq
        apply hnd.1
        rw [← heq]
        exact List.mem_map_of_mem _ he2
      rw [setAt_other _ _ hne, setAt_other _ _ hne]
      exact h2

end ScanRow

section EmitRow
variable {α : Type} [AddMonoid α] [DecidableEq α]

theorem clearAt_apply {β : Type} (d : β) (cs : List Nat) (x : Nat → β) (c : Nat) :
    clearAt d cs x c = if c ∈ cs then d else x c := by
  induction cs generalizing x with
  | nil => simp [clearAt]
  | cons c0 cs ih =>
    rw [clearAt, ih, setAt_apply]
    by_cases h1 : c ∈ cs
    · simp [h1]
    · by_cases h2 : c = c0
      · simp [h2]
      · simp [h1, h2]

theorem emitRow_nil (x : Nat → α) : emitRow [] x = [] := rfl

theorem emitRow_cons (c : Nat) (cs : List Nat) (x : Nat → α) :
    emitRow (c :: cs) x = (if x c ≠ 0 then [(c, x c)] else []) ++ emitRow cs (setAt x c 0) := rfl

/-- An emitted entry belongs to a listed column and carries its nonzero value. -/
theorem emitRow_mem (cs : List Nat) (x : Nat → α) (c : Nat) (v : α)
    (h : (c, v) ∈ emitRow cs x) : c ∈ cs ∧ v = x c ∧ v ≠ 0 := by
  induction cs generalizing x with
  | nil => cases h
  | cons c0 cs ih =>
    rw [emitRow_cons, List.mem_append] at h
    rcases h with h | h
    · by_cases hx : x c0 ≠ 0
      · rw [if_pos hx, List.mem_singleton] at h
        cases h
        exact ⟨List.mem_cons_self _ _, rfl, hx⟩
      · rw [if_neg hx] at h
        cases h
    · obtain ⟨h1, h2, h3⟩ := ih _ h
      have hne : c ≠ c0 := by
        intro heq
        rw [heq, setAt_same] at h2
        exact h3 h2
      rw [setAt_other _ _ hne] at h2
      exact ⟨List.mem_cons_of_mem _ h1, h2, h3⟩

/-- A listed column with a nonzero value is emitted. -/
theorem mem_emitRow (cs : List Nat) (x : Nat → α) (c : Nat) (h1 : c ∈ cs) (h2 : x c ≠ 0) :
    (c, x c) ∈ emitRow cs x := by
  induction cs generalizing x with
  | nil => cases h1
  | cons c0 cs ih =>
    rw [emitRow_cons, List.mem_append]
    by_cases hc : c = c0
    · left
      rw [← hc, if_pos h2]
      exact List.mem_singleton_self _
    · right
      have hmem : c ∈ cs := by
        rcases List.mem_cons.mp h1 with h | h
        · exact absurd h hc
        · exact h
      have := ih (setAt x c0 0) hmem (by rw [setAt_other _ _ hc]; exact h2)
      rw [setAt_other _ _ hc] at this
      exact this

/-- No column is emitted twice, whatever the list of marked columns is. -/
theorem emitRow_nodup (cs : List Nat) (x : Nat → α) : ((emitRow cs x).map Prod.fst).Nodup := by
  induction cs generalizing x with
  | nil => simp [emitRow_nil]
  | cons c0 cs ih =>
    rw [emitRow_cons, List.map_append, List.nodup_append]
    refine ⟨?_, ih _, ?_⟩
    · split <;> simp
    · intro c hc1 hc2
      have hc0 : c = c0 := by
        by_cases hx : x c0 ≠ 0
        · rw [if_pos hx] at hc1
          simpa using hc1
        · rw [if_neg hx] at hc1
          cases hc1
      rw [List.mem_map] at hc2
      obtain ⟨⟨c2, v⟩, hmem, heq⟩ := hc2
      simp only at heq
      subst heq
      obtain ⟨_, h2, h3⟩ := emitRow_mem _ _ _ _ hmem
      rw [hc0, setAt_same] at h2
      exact h3 h2

theorem emitRow_length (cs : List Nat) (x : Nat → α) : (emitRow cs x).length ≤ cs.length := by
  induction cs generalizing x with
  | nil => simp [emitRow_nil]
  | cons c0 cs ih =>
    rw [emitRow_cons, List.length_append, List.length_cons]
    have := ih (setAt x c0 0)
    split <;> simp <;> omega

/-- The extraction loop only reads `x` at the listed columns. -/
theorem emitRow_congr (cs : List Nat) (x y : Nat → α) (h : ∀ c ∈ cs, x c = y c) :
    emitRow cs x = emitRow cs y := by
  induction cs generalizing x y with
  | nil => rfl
  | cons c0 cs ih =>
    rw [emitRow_cons, emitRow_cons, h c0 (List.mem_cons_self _ _)]
    congr 1
    apply ih
    intro c hc
    rw [setAt_apply, setAt_apply, h c (List.mem_cons_of_mem _ hc)]

theorem emitRow_of_nodup (cs : List Nat) (x : Nat → α) (hnd : cs.Nodup)
    (hx : ∀ c ∈ cs, x c ≠ 0) : emitRow cs x = cs.map (fun c => (c, x c)) := by
  induction cs generalizing x with
  | nil => rfl
  | cons c0 cs ih =>
    rw [List.nodup_cons] at hnd
    rw [emitRow_cons, if_pos (hx c0 (List.mem_cons_self _ _)), List.map_cons]
    have hne : ∀ c ∈ cs, c ≠ c0 := fun c hc heq => hnd.1 (heq ▸ hc)
    rw [ih (setAt x c0 0) hnd.2]
    · simp only [List.singleton_append, List.cons.injEq, true_and]
      apply List.map_congr_left
      intro c hc
      rw [setAt_other _ _ (hne c hc)]
    · intro c hc
      rw [setAt_other _ _ (hne c hc)]
      exact hx c (List.mem_cons_of_mem _ hc)

/-! ### The stored row `coalesceRow l` -/

theorem canonical_inv (l : List (Nat × α)) :
    (∀ c, (scanRow l (fun _ => (0 : α)) (fun _ => false) []).2.1 c = true
        ↔ c ∈ (scanRow l (fun _ => (0 : α)) (fun _ => false) []).2.2) ∧
    (scanRow l (fun _ => (0 : α)) (fun _ => false) []).2.2.Nodup ∧
    (∀ c, (scanRow l (fun _ => (0 : α)) (fun _ => false) []).1 c ≠ 0
        → (scanRow l (fun _ => (0 : α)) (fun _ => false) []).2.1 c = true) :=
  scanRow_inv l _ _ _ (by simp) List.nodup_nil (by simp)

theorem canonical_x (l : List (Nat × α)) (c : Nat) :
    (scanRow l (fun _ => (0 : α)) (fun _ => false) []).1 c = colSum l c := by
  rw [scanRow_x, zero_add]

/-- The stored row holds `(c, v)` exactly when `v` is the nonzero sum of column `c`. -/
theorem mem_coalesceRow (l : List (Nat × α)) (c : Nat) (v : α) :
    (c, v) ∈ coalesceRow l ↔ v = colSum l c ∧ v ≠ 0 := by
  unfold coalesceRow
  constructor
  · intro h
    obtain ⟨_, h2, h3⟩ := emitRow_mem _ _ _ _ h
    rw [canonical_x] at h2
    exact ⟨h2, h3⟩
  · rintro ⟨h1, h2⟩
    have hx : (scanRow l (fun _ => (0 : α)) (fun _ => false) []).1 c ≠ 0 := by
      rw [canonical_x, ← h1]
      exact h2
    have hmem := ((canonical_inv l).1 c).mp ((canonical_inv l).2.2 c hx)
    have := mem_emitRow _ _ c hmem hx
    rw [canonical_x, ← h1] at this
    exact this

theorem coalesceRow_nodup (l : List (Nat × α)) : ((coalesceRow l).map Prod.fst).Nodup :=
  emitRow_nodup _ _

theorem coalesceRow_length (l : List (Nat × α)) : (coalesceRow l).length ≤ l.length := by
  unfold coalesceRow
  have h1 := emitRow_length (scanRow l (fun _ => (0 : α)) (fun _ => false) []).2.2
    (scanRow l (fun _ => (0 : α)) (fun _ => false) []).1
  have h2 := scanRow_length l (fun _ => (0 : α)) (fun _ => false) []
  simp only [List.length_nil] at h2
  omega

theorem coalesceRow_col_mem (l : List (Nat × α)) (c : Nat) (v : α) (h : (c, v) ∈ coalesceRow l) :
    c ∈ l.map Prod.fst := by
  unfold coalesceRow at h
  obtain ⟨h1, _, _⟩ := emitRow_mem _ _ _ _ h
  rcases scanRow_mem _ _ _ _ _ h1 with h' | h'
  · cases h'
  · exact h'

theorem coalesceRow_nil : coalesceRow ([] : List (Nat × α)) = [] := rfl

/-- A row without repeated columns and without zero values is stored unchanged. -/
theorem coalesceRow_of_nodup (l : List (Nat × α)) (hnd : (l.map Prod.fst).Nodup)
    (hnz : ∀ e ∈ l, e.2 ≠ 0) : coalesceRow l = l := by
  unfold coalesceRow
  have hnzl := scanRow_of_nodup l (fun _ => (0 : α)) (fun _ => false) [] hnd
    (fun e he => ⟨hnz e he, rfl, rfl⟩)
  rw [List.nil_append] at hnzl
  rw [hnzl, emitRow_of_nodup _ _ hnd]
  · rw [List.map_map]
    conv_rhs => rw [← List.map_id l]
    apply List.map_congr_left
    intro e he
    simp only [Function.comp, id, canonical_x]
    rw [colSum_of_nodup l hnd e he]
  · intro c hc
    rw [List.mem_map] at hc
    obtain ⟨e, he, rfl⟩ := hc
    rw [canonical_x, colSum_of_nodup l hnd e he]
    exact hnz e he

/-- With clean scratch arrays on the columns of the row, the two loops of a row emit
`coalesceRow` and leave the scratch arrays clean where they were clean. -/
theorem row_clean (P : Nat → Prop) (l : List (Nat × α)) (x : Nat → α) (mark : Nat → Bool)
    (hl : ∀ e ∈ l, P e.1) (hx : ∀ c, P c → x c = 0 ∧ mark c = false) :
    emitRow (scanRow l x mark []).2.2 (scanRow l x mark []).1 = coalesceRow l ∧
    ∀ c, P c → clearAt 0 (scanRow l x mark []).2.2 (scanRow l x mark []).1 c = 0 ∧
      clearAt false (scanRow l x mark []).2.2 (scanRow l x mark []).2.1 c = false := by
  have hcg := scanRow_congr P l x (fun _ => (0 : α)) mark (fun _ => false) [] hl hx
  have hinv := canonical_inv l
  have hP : ∀ c ∈ (scanRow l x mark []).2.2, P c := by
    intro c hc
    rcases scanRow_mem _ _ _ _ _ hc with h | h
    · cases h
    · rw [List.mem_map] at h
      obtain ⟨e, he, rfl⟩ := h
      exact hl e he
  constructor
  · unfold coalesceRow
    rw [← hcg.1]
    apply emitRow_congr
    intro c hc
    exact (hcg.2 c (hP c hc)).1
  · intro c hc
    rw [clearAt_apply, clearAt_apply]
    by_cases hmem : c ∈ (scanRow l x mark []).2.2
    · simp [hmem]
    · rw [if_neg hmem, if_neg hmem, (hcg.2 c hc).1, (hcg.2 c hc).2]
      rw [hcg.1] at hmem
      have hm : (scanRow l (fun _ => (0 : α)) (fun _ => false) []).2.1 c = false := by
        rw [Bool.eq_false_iff]
        intro h
        exact hmem ((hinv.1 c).mp h)
      refine ⟨?_, hm⟩
      by_contra hne
      have := hinv.2.2 c hne
      rw [hm] at this
      cases this

end EmitRow

/-! ## The two loops of a row simulate `scanRow` and `emitRow` -/

section RowLoops
variable {α : Type} [AddMonoid α] [DecidableEq α]

omit [AddMonoid α] [DecidableEq α] in
theorem seg_cons (colidx : Nat → Nat) (a : Nat → α) (lo len : Nat) :
    seg colidx a lo (len + 1) = (colidx lo, a lo) :: seg colidx a (lo + 1) len := by
  simp [seg, List.range'_succ]

theorem nzList_cons (nzloc : Nat → Nat) (lo cnt : Nat) :
    nzList nzloc lo (cnt + 1) = nzloc lo :: nzList nzloc (lo + 1) cnt := by
  simp [nzList, List.range'_succ]

theorem nzList_snoc (nzloc : Nat → Nat) (m i : Nat) :
    nzList (setAt nzloc (m + 1) i) 1 (m + 1) = nzList nzloc 1 m ++ [i] := by
  unfold nzList
  rw [List.range'_concat, List.map_append]
  congr 1
  · apply List.map_congr_left
    intro k hk
    rw [List.mem_range'_1] at hk
    rw [setAt_other _ _ (by omega)]
  · simp [Nat.add_comm]

theorem nzList_congr {f g : Nat → Nat} {lo cnt : Nat} (h : ∀ k, lo ≤ k → k < lo + cnt → f k = g k) :
    nzList f lo cnt = nzList g lo cnt := by
  unfold nzList
  apply List.map_congr_left
  intro k hk
  rw [List.mem_range'_1] at hk
  exact h k hk.1 hk.2

theorem accumBody_pos (k : Nat) (s : SparseState α)
    (h : s.mark (s.colidx k) = false ∧
      setAt s.x (s.colidx k) (s.x (s.colidx k) + s.a k) (s.colidx k) ≠ 0) :
    accumBody k s =
      { s with x := setAt s.x (s.colidx k) (s.x (s.colidx k) + s.a k),
               mark := setAt s.mark (s.colidx k) true, nzrow := s.nzrow + 1,
               nzloc := setAt s.nzloc (s.nzrow + 1) (s.colidx k) } := by
  unfold accumBody
  simp only []
  rw [if_pos h]

theorem accumBody_neg (k : Nat) (s : SparseState α)
    (h : ¬ (s.mark (s.colidx k) = false ∧
      setAt s.x (s.colidx k) (s.x (s.colidx k) + s.a k) (s.colidx k) ≠ 0)) :
    accumBody k s = { s with x := setAt s.x (s.colidx k) (s.x (s.colidx k) + s.a k) } := by
  unfold accumBody
  simp only []
  rw [if_neg h]

theorem accum_a (lo cnt : Nat) (s : SparseState α) : (forUp accumBody lo cnt s).a = s.a :=
  forUp_preserve _ SparseState.a (by intro k s; unfold accumBody; simp only []; split <;> rfl) _ _ _

theorem accum_colidx (lo cnt : Nat) (s : SparseState α) :
    (forUp accumBody lo cnt s).colidx = s.colidx :=
  forUp_preserve _ SparseState.colidx
    (by intro k s; unfold accumBody; simp only []; split <;> rfl) _ _ _

theorem accum_rowstr (lo cnt : Nat) (s : SparseState α) :
    (forUp accumBody lo cnt s).rowstr = s.rowstr :=
  forUp_preserve _ SparseState.rowstr
    (by intro k s; unfold accumBody; simp only []; split <;> rfl) _ _ _

theorem accum_nza (lo cnt : Nat) (s : SparseState α) : (forUp accumBody lo cnt s).nza = s.nza :=
  forUp_preserve _ SparseState.nza
    (by intro k s; unfold accumBody; simp only []; split <;> rfl) _ _ _

/-- The accumulation loop over the positions `lo .. lo+cnt-1` is `scanRow` on the
entries stored there. -/
theorem accum_sim (cnt lo : Nat) (s : SparseState α) :
    (forUp accumBody lo cnt s).x
      = (scanRow (seg s.colidx s.a lo cnt) s.x s.mark (nzList s.nzloc 1 s.nzrow)).1 ∧
    (forUp accumBody lo cnt s).mark
      = (scanRow (seg s.colidx s.a lo cnt) s.x s.mark (nzList s.nzloc 1 s.nzrow)).2.1 ∧
    nzList (forUp accumBody lo cnt s).nzloc 1 (forUp accumBody lo cnt s).nzrow
      = (scanRow (seg s.colidx s.a lo cnt) s.x s.mark (nzList s.nzloc 1 s.nzrow)).2.2 := by
  induction cnt generalizing lo s with
  | zero => exact ⟨rfl, rfl, rfl⟩
  | succ m ih =>
    rw [forUp_succ, seg_cons]
    by_cases hc : s.mark (s.colidx lo) = false ∧
        setAt s.x (s.colidx lo) (s.x (s.colidx lo) + s.a lo) (s.colidx lo) ≠ 0
    · rw [scanRow_cons_pos _ _ _ _ _ hc, accumBody_pos lo s hc]
      have := ih (lo + 1)
        { s with x := setAt s.x (s.colidx lo) (s.x (s.colidx lo) + s.a lo),
                 mark := setAt s.mark (s.colidx lo) true, nzrow := s.nzrow + 1,
                 nzloc := setAt s.nzloc (s.nzrow + 1) (s.colidx lo) }
      simp only [nzList_snoc] at this
      exact this
    · rw [scanRow_cons_neg _ _ _ _ _ hc, accumBody_neg lo s hc]
      exact ih (lo + 1) { s with x := setAt s.x (s.colidx lo) (s.x (s.colidx lo) + s.a lo) }

theorem extractBody_pos (k : Nat) (s : SparseState α) (h : s.x (s.nzloc k) ≠ 0) :
    extractBody k s =
      { s with mark := setAt s.mark (s.nzloc k) false, x := setAt s.x (s.nzloc k) 0,
               nza := s.nza + 1, a := setAt s.a (s.nza + 1) (s.x (s.nzloc k)),
               colidx := setAt s.colidx (s.nza + 1) (s.nzloc k) } := by
  unfold extractBody
  simp only []
  rw [if_pos h]

theorem extractBody_neg (k : Nat) (s : SparseState α) (h : ¬ s.x (s.nzloc k) ≠ 0) :
    extractBody k s =
      { s with mark := setAt s.mark (s.nzloc k) false, x := setAt s.x (s.nzloc k) 0 } := by
  unfold extractBody
  simp only []
  rw [if_neg h]

theorem extract_rowstr (lo cnt : Nat) (s : SparseState α) :
    (forUp extractBody lo cnt s).rowstr = s.rowstr :=
  forUp_preserve _ SparseState.rowstr
    (by intro k s; unfold extractBody; simp only []; split <;> rfl) _ _ _

/-- The extraction loop over `nzloc[lo .. lo+cnt-1]` appends `emitRow` of these
columns after position `nza` and clears `x` and `mark` at them. -/
theorem extract_sim (cnt lo : Nat) (s : SparseState α) :
    (forUp extractBody lo cnt s).nza
      = s.nza + (emitRow (nzList s.nzloc lo cnt) s.x).length ∧
    seg (forUp extractBody lo cnt s).colidx (forUp extractBody lo cnt s).a (s.nza + 1)
        (emitRow (nzList s.nzloc lo cnt) s.x).length
      = emitRow (nzList s.nzloc lo cnt) s.x ∧
    (∀ k, k ≤ s.nza ∨ s.nza + (emitRow (nzList s.nzloc lo cnt) s.x).length < k →
      (forUp extractBody lo cnt s).colidx k = s.colidx k ∧
      (forUp extractBody lo cnt s).a k = s.a k) ∧
    (forUp extractBody lo cnt s).x = clearAt 0 (nzList s.nzloc lo cnt) s.x ∧
    (forUp extractBody lo cnt s).mark = clearAt false (nzList s.nzloc lo cnt) s.mark := by
  induction cnt generalizing lo s with
  | zero =>
    refine ⟨rfl, rfl, fun k _ => ⟨rfl, rfl⟩, rfl, rfl⟩
  | succ m ih =>
    rw [forUp_succ, nzList_cons, emitRow_cons]
    by_cases hx : s.x (s.nzloc lo) ≠ 0
    · rw [if_pos hx, extractBody_pos lo s hx]
      obtain ⟨h1, h2, h3, h4, h5⟩ := ih (lo + 1)
        { s with mark := setAt s.mark (s.nzloc lo) false, x := setAt s.x (s.nzloc lo) 0,
                 nza := s.nza + 1, a := setAt s.a (s.nza + 1) (s.x (s.nzloc lo)),
                 colidx := setAt s.colidx (s.nza + 1) (s.nzloc lo) }
      simp only [] at h1 h2 h3 h4 h5
      refine ⟨?_, ?_, ?_, ?_, ?_⟩
      · rw [h1]
        simp only [List.singleton_append, List.length_cons]
        omega
      · simp only [List.singleton_append, List.length_cons]
        rw [seg_cons, h2]
        have := h3 (s.nza + 1) (Or.inl (le_refl _))
        rw [this.1, this.2, setAt_same, setAt_same]
      · intro k hk
        simp only [List.singleton_append, List.length_cons] at hk
        have := h3 k (by omega)
        rw [this.1, this.2, setAt_other _ _ (by omega), setAt_other _ _ (by omega)]
        exact ⟨rfl, rfl⟩
      · rw [h4]; rfl
      · rw [h5]; rfl
    · rw [if_neg hx, extractBody_neg lo s hx]
      obtain ⟨h1, h2, h3, h4, h5⟩ := ih (lo + 1)
        { s with mark := setAt s.mark (s.nzloc lo) false, x := setAt s.x (s.nzloc lo) 0 }
      simp only [] at h1 h2 h3 h4 h5
      refine ⟨?_, ?_, ?_, ?_, ?_⟩
      · rw [h1]; rfl
      · exact h2
      · exact h3
      · rw [h4]; rfl
      · rw [h5]; rfl

/-- What one iteration of the loop over the rows does: with `l` the entries found at
positions `jajp1 .. rowstr[j+1]-1`, it appends `emitRow` of the scanned row after
position `nza`, leaves the rest of `a` and `colidx` alone, and sets `rowstr[j+1]`. -/
theorem rowBody_spec (j : Nat) (s : SparseState α) :
    (rowBody j s).nza = s.nza +
      (emitRow
        (scanRow (seg s.colidx s.a s.jajp1 (s.rowstr (j + 1) - s.jajp1)) s.x s.mark []).2.2
        (scanRow (seg s.colidx s.a s.jajp1 (s.rowstr (j + 1) - s.jajp1)) s.x s.mark []).1).length ∧
    (rowBody j s).jajp1 = s.rowstr (j + 1) ∧
    (rowBody j s).rowstr = setAt s.rowstr (j + 1) ((rowBody j s).nza + s.rowstr 1) ∧
    seg (rowBody j s).colidx (rowBody j s).a (s.nza + 1) ((rowBody j s).nza - s.nza)
      = emitRow
        (scanRow (seg s.colidx s.a s.jajp1 (s.rowstr (j + 1) - s.jajp1)) s.x s.mark []).2.2
        (scanRow (seg s.colidx s.a s.jajp1 (s.rowstr (j + 1) - s.jajp1)) s.x s.mark []).1 ∧
    (∀ k, k ≤ s.nza ∨ (rowBody j s).nza < k →
      (rowBody j s).colidx k = s.colidx k ∧ (rowBody j s).a k = s.a k) ∧
    (rowBody j s).x = clearAt 0
        (scanRow (seg s.colidx s.a s.jajp1 (s.rowstr (j + 1) - s.jajp1)) s.x s.mark []).2.2
        (scanRow (seg s.colidx s.a s.jajp1 (s.rowstr (j + 1) - s.jajp1)) s.x s.mark []).1 ∧
    (rowBody j s).mark = clearAt false
        (scanRow (seg s.colidx s.a s.jajp1 (s.rowstr (j + 1) - s.jajp1)) s.x s.mark []).2.2
        (scanRow (seg s.colidx s.a s.jajp1 (s.rowstr (j + 1) - s.jajp1)) s.x s.mark []).2.1 := by
  have hA := accum_sim (s.rowstr (j + 1) - s.jajp1) s.jajp1 ({ s with nzrow := 0 } : SparseState α)
  have hAa := accum_a s.jajp1 (s.rowstr (j + 1) - s.jajp1) ({ s with nzrow := 0 } : SparseState α)
  have hAc := accum_colidx s.jajp1 (s.rowstr (j + 1) - s.jajp1)
    ({ s with nzrow := 0 } : SparseState α)
  have hAr := accum_rowstr s.jajp1 (s.rowstr (j + 1) - s.jajp1)
    ({ s with nzrow := 0 } : SparseState α)
  have hAn := accum_nza s.jajp1 (s.rowstr (j + 1) - s.jajp1)
    ({ s with nzrow := 0 } : SparseState α)
  simp only [] at hA hAa hAc hAr hAn
  have hnil : nzList s.nzloc 1 0 = [] := rfl
  rw [hnil] at hA
  generalize hs2 : forUp accumBody s.jajp1 (s.rowstr (j + 1) - s.jajp1)
    ({ s with nzrow := 0 } : SparseState α) = s2 at hA hAa hAc hAr hAn
  have hE := extract_sim s2.nzrow 1 s2
  have hEr := extract_rowstr 1 s2.nzrow s2
  generalize hs3 : forUp extractBody 1 s2.nzrow s2 = s3 at hE hEr
  have hrb : rowBody j s =
      { s3 with jajp1 := s3.rowstr (j + 1), rowstr := setAt s3.rowstr (j + 1) (s3.nza + s3.rowstr 1) } := by
    unfold rowBody
    simp only []
    rw [hs2, hs3]
  rw [hrb]
  simp only []
  obtain ⟨hx, hm, hz⟩ := hA
  obtain ⟨e1, e2, e3, e4, e5⟩ := hE
  rw [hz, hx, hAn] at e1
  rw [hz, hx, hAn] at e2
  rw [hz, hx, hAn, hAc, hAa] at e3
  rw [hz, hx] at e4
  rw [hz, hm] at e5
  rw [hEr, hAr]
  refine ⟨e1, rfl, rfl, ?_, ?_, e4, e5⟩
  · rw [e1, Nat.add_sub_cancel_left]
    exact e2
  · intro k hk
    rw [e1] at hk
    have := e3 k hk
    exact ⟨this.1, this.2⟩

end RowLoops

/-! ## The loop over the rows -/

section Coalesce
variable {α : Type} [AddMonoid α] [DecidableEq α]

omit [AddMonoid α] [DecidableEq α] in
theorem rowEntries_mem (arow acol : Nat → Nat) (aelt : Nat → α) (firstrow m j : Nat)
    (e : Nat × α) (h : e ∈ rowEntries arow acol aelt firstrow m j) :
    ∃ t, 1 ≤ t ∧ t ≤ m ∧ arow t + 1 - firstrow = j ∧ e = (acol t, aelt t) := by
  induction m with
  | zero => cases h
  | succ m ih =>
    rw [rowEntries, List.mem_append] at h
    rcases h with h | h
    · obtain ⟨t, h1, h2, h3, h4⟩ := ih h
      exact ⟨t, h1, by omega, h3, h4⟩
    · by_cases hr : arow (m + 1) + 1 - firstrow = j
      · rw [if_pos hr, List.mem_singleton] at h
        exact ⟨m + 1, by omega, le_refl _, hr, h⟩
      · rw [if_neg hr] at h
        cases h

theorem newStart_succ (arow acol : Nat → Nat) (aelt : Nat → α) (firstrow nnza j : Nat) :
    newStart arow acol aelt firstrow nnza (j + 1)
      = newStart arow acol aelt firstrow nnza j
        + (coalesceRow (rowEntries arow acol aelt firstrow nnza j)).length := rfl

theorem newStart_one (arow acol : Nat → Nat) (aelt : Nat → α) (firstrow nnza : Nat)
    (hpos : ∀ t, 1 ≤ t → t ≤ nnza → firstrow ≤ arow t) :
    newStart arow acol aelt firstrow nnza 1 = 1 := by
  rw [newStart_succ, rowEntries_zero_row arow acol aelt firstrow nnza hpos, coalesceRow_nil]
  rfl

theorem newStart_mono (arow acol : Nat → Nat) (aelt : Nat → α) (firstrow nnza : Nat)
    {i j : Nat} (h : i ≤ j) :
    newStart arow acol aelt firstrow nnza i ≤ newStart arow acol aelt firstrow nnza j := by
  induction h with
  | refl => exact le_refl _
  | step _ ih =>
    rw [newStart_succ]
    omega

theorem newStart_le_startOf (arow acol : Nat → Nat) (aelt : Nat → α) (firstrow nnza j : Nat) :
    newStart arow acol aelt firstrow nnza j ≤ startOf arow acol aelt firstrow nnza j := by
  induction j with
  | zero => exact le_refl _
  | succ j ih =>
    rw [newStart_succ, startOf_succ]
    have := coalesceRow_length (rowEntries arow acol aelt firstrow nnza j)
    omega

omit [DecidableEq α] in
/-- The state in which the loop over the rows is entered: the triples are sorted
by row and the scratch arrays are clean. -/
theorem sparse_prepared (n : Nat) (arow acol : Nat → Nat) (aelt : Nat → α)
    (firstrow nnza nrows : Nat) (s : SparseState α)
    (hpos : ∀ t, 1 ≤ t → t ≤ nnza → firstrow ≤ arow t)
    (hrow : ∀ t, 1 ≤ t → t ≤ nnza → arow t + 1 - firstrow ≤ nrows) (hn : nrows ≤ n) :
    (∀ i, 1 ≤ i → i ≤ nrows + 1 →
      (sparseZero n (sparseShift nrows (sparseBucket arow acol aelt firstrow nnza
        (sparsePrefix nrows (sparseCount arow firstrow nnza (sparseClear n s)))))).rowstr i
        = startOf arow acol aelt firstrow nnza i) ∧
    (∀ i, 1 ≤ i → i ≤ nrows →
      seg (sparseZero n (sparseShift nrows (sparseBucket arow acol aelt firstrow nnza
            (sparsePrefix nrows (sparseCount arow firstrow nnza (sparseClear n s)))))).colidx
          (sparseZero n (sparseShift nrows (sparseBucket arow acol aelt firstrow nnza
            (sparsePrefix nrows (sparseCount arow firstrow nnza (sparseClear n s)))))).a
          (startOf arow acol aelt firstrow nnza i)
          (rowEntries arow acol aelt firstrow nnza i).length
        = rowEntries arow acol aelt firstrow nnza i) := by
  have h3 : ∀ i, 1 ≤ i → i ≤ nrows + 1 →
      (sparsePrefix nrows (sparseCount arow firstrow nnza (sparseClear n s))).rowstr i
        = startOf arow acol aelt firstrow nnza i := by
    apply sparsePrefix_rowstr
    · exact startOf_one arow acol aelt firstrow nnza hpos
    · intro i h1 h2
      rw [startOf_succ, sparseCount_rowstr arow acol aelt, sparseClear_rowstr,
        if_pos ⟨by omega, by omega⟩, Nat.zero_add]
  have h4 := sparseBucket_inv arow acol aelt firstrow nnza nrows
    (sparsePrefix nrows (sparseCount arow firstrow nnza (sparseClear n s))) hpos hrow
    (fun i h1 h2 => h3 i h1 (by omega))
  constructor
  · intro i h1 h2
    rw [sparseZero_rowstr, sparseShift_rowstr]
    by_cases hi : i = 1
    · rw [if_pos hi, hi, startOf_one arow acol aelt firstrow nnza hpos]
    · rw [if_neg hi, if_pos ⟨by omega, h2⟩, h4.1 (i - 1) (by omega) (by omega)]
      congr 1
      omega
  · intro i h1 h2
    rw [sparseZero_colidx, sparseZero_a, sparseShift_colidx, sparseShift_a]
    exact h4.2 i h1 h2

/-- Facts about the loop over the rows that hold for every input: `rowstr[1]` stays
`1`, the row pointers are monotone and end at `nza + 1`, and no stored row repeats a
column. -/
theorem coalesce_unconditional (nrows : Nat) (s : SparseState α) (h1 : s.rowstr 1 = 1)
    (h0 : s.nza = 0) :
    (sparseCoalesce nrows s).rowstr 1 = 1 ∧
    (sparseCoalesce nrows s).rowstr (nrows + 1) = (sparseCoalesce nrows s).nza + 1 ∧
    (∀ i, 1 ≤ i → i ≤ nrows →
      (sparseCoalesce nrows s).rowstr i ≤ (sparseCoalesce nrows s).rowstr (i + 1)) ∧
    (∀ i, 1 ≤ i → i ≤ nrows → ((csrRow (sparseCoalesce nrows s) i).map Prod.fst).Nodup) := by
  have h := forUp_invariant rowBody
    (fun t (s2 : SparseState α) =>
      s2.rowstr 1 = 1 ∧ s2.rowstr (t + 1) = s2.nza + 1 ∧
      (∀ i, 1 ≤ i → i ≤ t + 1 → s2.rowstr i ≤ s2.nza + 1) ∧
      (∀ i, 1 ≤ i → i ≤ t → s2.rowstr i ≤ s2.rowstr (i + 1)) ∧
      (∀ i, 1 ≤ i → i ≤ t → ((csrRow s2 i).map Prod.fst).Nodup)) 1 nrows
    { s with jajp1 := s.rowstr 1 }
    (by
      refine ⟨h1, ?_, ?_, ?_, ?_⟩
      · show s.rowstr 1 = s.nza + 1
        rw [h1, h0]
      · intro i hi1 hi2
        have : i = 1 := by omega
        subst this
        show s.rowstr 1 ≤ s.nza + 1
        rw [h1, h0]
      · intro i hi1 hi2
        omega
      · intro i hi1 hi2
        omega)
    (by
      intro t s2 _ hP
      obtain ⟨p1, p2, p3, p4, p5⟩ := hP
      obtain ⟨q1, _, q3, q4, q5, _, _⟩ := rowBody_spec (1 + t) s2
      have hge : s2.nza ≤ (rowBody (1 + t) s2).nza := by rw [q1]; omega
      have hr : ∀ i, i ≠ 1 + t + 1 → (rowBody (1 + t) s2).rowstr i = s2.rowstr i := by
        intro i hi
        rw [q3, setAt_other _ _ hi]
      have hr2 : (rowBody (1 + t) s2).rowstr (t + 1 + 1) = (rowBody (1 + t) s2).nza + 1 := by
        rw [q3]
        have e : t + 1 + 1 = 1 + t + 1 := by omega
        rw [e, setAt_same, p1]
      refine ⟨?_, hr2, ?_, ?_, ?_⟩
      · rw [hr 1 (by omega)]
        exact p1
      · intro i hi1 hi2
        by_cases hi : i = t + 1 + 1
        · rw [hi, hr2]
        · rw [hr i (by omega)]
          have := p3 i hi1 (by omega)
          omega
      · intro i hi1 hi2
        by_cases hi : i = t + 1
        · rw [hi, hr2, hr (t + 1) (by omega), p2]
          omega
        · rw [hr i (by omega), hr (i + 1) (by omega)]
          exact p4 i hi1 (by omega)
      · intro i hi1 hi2
        by_cases hi : i = t + 1
        · have hrow : csrRow (rowBody (1 + t) s2) i
              = seg (rowBody (1 + t) s2).colidx (rowBody (1 + t) s2).a (s2.nza + 1)
                  ((rowBody (1 + t) s2).nza - s2.nza) := by
            unfold csrRow
            rw [hi, hr2, hr (t + 1) (by omega), p2]
            congr 1
            omega
          rw [hrow, q4]
          exact emitRow_nodup _ _
        · have hrow : csrRow (rowBody (1 + t) s2) i = csrRow s2 i := by
            unfold csrRow
            rw [hr i (by omega), hr (i + 1) (by omega)]
            apply seg_congr
            intro k hk1 hk2
            have hb := p3 (i + 1) (by omega) (by omega)
            have hm := p4 i hi1 (by omega)
            exact q5 k (Or.inl (by omega))
          rw [hrow]
          exact p5 i hi1 (by omega))
  obtain ⟨r1, r2, _, r4, r5⟩ := h
  exact ⟨r1, r2, r4, r5⟩

end Coalesce

section CoalesceSpec
variable {α : Type} [AddMonoid α] [DecidableEq α]

/-- On a sorted, clean state whose columns lie in `[1, n]` the loop over the rows
stores `coalesceRow` of every row, one row after the other from position 1, sets
the row pointers accordingly and leaves the scratch arrays clean. -/
theorem coalesce_spec (n nrows : Nat) (arow acol : Nat → Nat) (aelt : Nat → α)
    (firstrow nnza : Nat) (s : SparseState α)
    (hpos : ∀ t, 1 ≤ t → t ≤ nnza → firstrow ≤ arow t)
    (hcol : ∀ t, 1 ≤ t → t ≤ nnza → 1 ≤ acol t ∧ acol t ≤ n)
    (h1 : ∀ i, 1 ≤ i → i ≤ nrows + 1 → s.rowstr i = startOf arow acol aelt firstrow nnza i)
    (h2 : ∀ i, 1 ≤ i → i ≤ nrows →
      seg s.colidx s.a (startOf arow acol aelt firstrow nnza i)
        (rowEntries arow acol aelt firstrow nnza i).length
        = rowEntries arow acol aelt firstrow nnza i)
    (h3 : ∀ c, 1 ≤ c → c ≤ n → s.x c = 0 ∧ s.mark c = false) (h0 : s.nza = 0) :
    (sparseCoalesce nrows s).nza + 1 = newStart arow acol aelt firstrow nnza (nrows + 1) ∧
    (∀ i, 1 ≤ i → i ≤ nrows + 1 →
      (sparseCoalesce nrows s).rowstr i = newStart arow acol aelt firstrow nnza i) ∧
    (∀ i, 1 ≤ i → i ≤ nrows →
      seg (sparseCoalesce nrows s).colidx (sparseCoalesce nrows s).a
        (newStart arow acol aelt firstrow nnza i)
        (coalesceRow (rowEntries arow acol aelt firstrow nnza i)).length
        = coalesceRow (rowEntries arow acol aelt firstrow nnza i)) ∧
    (∀ c, 1 ≤ c → c ≤ n →
      (sparseCoalesce nrows s).x c = 0 ∧ (sparseCoalesce nrows s).mark c = false) := by
  have h := forUp_invariant rowBody
    (fun t (s2 : SparseState α) =>
      s2.nza + 1 = newStart arow acol aelt firstrow nnza (t + 1) ∧
      s2.jajp1 = startOf arow acol aelt firstrow nnza (t + 1) ∧
      (∀ i, 1 ≤ i → i ≤ t + 1 → s2.rowstr i = newStart arow acol aelt firstrow nnza i) ∧
      (∀ i, t + 1 < i → i ≤ nrows + 1 → s2.rowstr i = startOf arow acol aelt firstrow nnza i) ∧
      (∀ i, t + 1 ≤ i → i ≤ nrows →
        seg s2.colidx s2.a (startOf arow acol aelt firstrow nnza i)
          (rowEntries arow acol aelt firstrow nnza i).length
          = rowEntries arow acol aelt firstrow nnza i) ∧
      (∀ i, 1 ≤ i → i ≤ t →
        seg s2.colidx s2.a (newStart arow acol aelt firstrow nnza i)
          (coalesceRow (rowEntries arow acol aelt firstrow nnza i)).length
          = coalesceRow (rowEntries arow acol aelt firstrow nnza i)) ∧
      (∀ c, 1 ≤ c → c ≤ n → s2.x c = 0 ∧ s2.mark c = false)) 1 nrows
    { s with jajp1 := s.rowstr 1 }
    (by
      refine ⟨?_, ?_, ?_, ?_, ?_, ?_, h3⟩
      · show s.nza + 1 = _
        rw [h0, newStart_one arow acol aelt firstrow nnza hpos]
      · show s.rowstr 1 = _
        exact h1 1 (le_refl _) (by omega)
      · intro i hi1 hi2
        have : i = 1 := by omega
        subst this
        show s.rowstr 1 = _
        rw [h1 1 (le_refl _) (by omega), startOf_one arow acol aelt firstrow nnza hpos,
          newStart_one arow acol aelt firstrow nnza hpos]
      · intro i hi1 hi2
        exact h1 i (by omega) hi2
      · intro i hi1 hi2
        exact h2 i (by omega) hi2
      · intro i hi1 hi2
        omega)
    (by
      intro t s2 ht hP
      obtain ⟨pa, pb, pc, pd, pe, pf, pg⟩ := hP
      obtain ⟨q1, q2, q3, q4, q5, q6, q7⟩ := rowBody_spec (1 + t) s2
      have et : 1 + t = t + 1 := Nat.add_comm 1 t
      rw [et] at q1 q2 q3 q4 q5 q6 q7
      -- the entries read by this iteration are the triples of row `t+1`
      have hL : seg s2.colidx s2.a s2.jajp1 (s2.rowstr (t + 1 + 1) - s2.jajp1)
          = rowEntries arow acol aelt firstrow nnza (t + 1) := by
        rw [pb, pd (t + 1 + 1) (by omega) (by omega),
          startOf_succ arow acol aelt firstrow nnza (t + 1), Nat.add_sub_cancel_left]
        exact pe (t + 1) (le_refl _) (by omega)
      rw [hL] at q1 q4 q6 q7
      have hcl := row_clean (fun c => 1 ≤ c ∧ c ≤ n)
        (rowEntries arow acol aelt firstrow nnza (t + 1)) s2.x s2.mark
        (by
          intro e he
          obtain ⟨u, hu1, hu2, _, hu4⟩ := rowEntries_mem _ _ _ _ _ _ _ he
          rw [hu4]
          exact hcol u hu1 hu2)
        (fun c hc => pg c hc.1 hc.2)
      rw [hcl.1] at q1 q4
      rw [et]
      have hnew := newStart_succ arow acol aelt firstrow nnza (t + 1)
      have hle := newStart_le_startOf arow acol aelt firstrow nnza (t + 1 + 1)
      have hr : ∀ i, i ≠ t + 1 + 1 → (rowBody (t + 1) s2).rowstr i = s2.rowstr i := by
        intro i hi
        rw [q3, setAt_other _ _ hi]
      have hone : s2.rowstr 1 = 1 := by
        rw [pc 1 (le_refl _) (by omega), newStart_one arow acol aelt firstrow nnza hpos]
      have ha : (rowBody (t + 1) s2).nza + 1
          = newStart arow acol aelt firstrow nnza (t + 1 + 1) := by
        rw [q1, hnew]
        omega
      refine ⟨ha, ?_, ?_, ?_, ?_, ?_, ?_⟩
      · rw [q2]
        exact pd (t + 1 + 1) (by omega) (by omega)
      · intro i hi1 hi2
        by_cases hi : i = t + 1 + 1
        · rw [hi, q3, setAt_same, hone]
          exact ha
        · rw [hr i hi]
          exact pc i hi1 (by omega)
      · intro i hi1 hi2
        rw [hr i (by omega)]
        exact pd i (by omega) hi2
      · intro i hi1 hi2
        refine (seg_congr ?_).trans (pe i (by omega) hi2)
        intro k hk1 hk2
        have := startOf_mono arow acol aelt firstrow nnza (show t + 1 + 1 ≤ i by omega)
        exact q5 k (Or.inr (by omega))
      · intro i hi1 hi2
        by_cases hi : i = t + 1
        · rw [hi]
          have e : (coalesceRow (rowEntries arow acol aelt firstrow nnza (t + 1))).length
              = (rowBody (t + 1) s2).nza - s2.nza := by
            rw [q1, Nat.add_sub_cancel_left]
          have e2 : newStart arow acol aelt firstrow nnza (t + 1) = s2.nza + 1 := pa.symm
          rw [e, e2]
          exact q4
        · refine (seg_congr ?_).trans (pf i hi1 (by omega))
          intro k hk1 hk2
          have := newStart_mono arow acol aelt firstrow nnza (show i + 1 ≤ t + 1 by omega)
          have := newStart_succ arow acol aelt firstrow nnza i
          exact q5 k (Or.inl (by omega))
      · intro c hc1 hc2
        rw [q6, q7]
        exact hcl.2 c ⟨hc1, hc2⟩)
  obtain ⟨ra, _, rc, _, _, rf, rg⟩ := h
  exact ⟨ra, rc, rf, rg⟩

/-- The result of `sparse` on well-formed input: every triple has its row in
`[firstrow, lastrow]` and its column in `[1, n]`, and there are at most `n` rows. -/
theorem sparse_spec (n : Nat) (arow acol : Nat → Nat) (aelt : Nat → α)
    (firstrow lastrow nnza : Nat) (s : SparseState α)
    (hrow : ∀ t, 1 ≤ t → t ≤ nnza → firstrow ≤ arow t ∧ arow t ≤ lastrow)
    (hcol : ∀ t, 1 ≤ t → t ≤ nnza → 1 ≤ acol t ∧ acol t ≤ n)
    (hn : lastrow + 1 - firstrow ≤ n) :
    (sparse n arow acol aelt firstrow lastrow nnza s).nza + 1
      = newStart arow acol aelt firstrow nnza (lastrow + 1 - firstrow + 1) ∧
    (∀ i, 1 ≤ i → i ≤ lastrow + 1 - firstrow + 1 →
      (sparse n arow acol aelt firstrow lastrow nnza s).rowstr i
        = newStart arow acol aelt firstrow nnza i) ∧
    (∀ i, 1 ≤ i → i ≤ lastrow + 1 - firstrow →
      csrRow (sparse n arow acol aelt firstrow lastrow nnza s) i
        = coalesceRow (rowEntries arow acol aelt firstrow nnza i)) ∧
    (∀ c, 1 ≤ c → c ≤ n →
      (sparse n arow acol aelt firstrow lastrow nnza s).x c = 0 ∧
      (sparse n arow acol aelt firstrow lastrow nnza s).mark c = false) := by
  have hrow2 : ∀ t, 1 ≤ t → t ≤ nnza → arow t + 1 - firstrow ≤ lastrow + 1 - firstrow := by
    intro t h1 h2
    have := hrow t h1 h2
    omega
  have hpos : ∀ t, 1 ≤ t → t ≤ nnza → firstrow ≤ arow t := fun t h1 h2 => (hrow t h1 h2).1
  have hp := sparse_prepared n arow acol aelt firstrow nnza (lastrow + 1 - firstrow) s hpos
    hrow2 hn
  have hc := coalesce_spec n (lastrow + 1 - firstrow) arow acol aelt firstrow nnza _ hpos hcol
    hp.1 hp.2 (fun c h1 h2 => sparseZero_clean n _ c h1 h2) (sparseZero_nza n _)
  obtain ⟨c1, c2, c3, c4⟩ := hc
  refine ⟨c1, c2, ?_, c4⟩
  intro i hi1 hi2
  have := c3 i hi1 hi2
  unfold csrRow
  show seg (sparseCoalesce _ _).colidx (sparseCoalesce _ _).a ((sparseCoalesce _ _).rowstr i)
    ((sparseCoalesce _ _).rowstr (i + 1) - (sparseCoalesce _ _).rowstr i) = _
  rw [c2 i hi1 (by omega), c2 (i + 1) (by omega) (by omega), newStart_succ,
    Nat.add_sub_cancel_left]
  exact this

/-- Facts about the result of `sparse` that hold for every input. -/
theorem sparse_unconditional (n : Nat) (arow acol : Nat → Nat) (aelt : Nat → α)
    (firstrow lastrow nnza : Nat) (s : SparseState α) :
    (sparse n arow acol aelt firstrow lastrow nnza s).rowstr 1 = 1 ∧
    (sparse n arow acol aelt firstrow lastrow nnza s).rowstr (lastrow + 1 - firstrow + 1)
      = (sparse n arow acol aelt firstrow lastrow nnza s).nza + 1 ∧
    (∀ i, 1 ≤ i → i ≤ lastrow + 1 - firstrow →
      (sparse n arow acol aelt firstrow lastrow nnza s).rowstr i
        ≤ (sparse n arow acol aelt firstrow lastrow nnza s).rowstr (i + 1)) ∧
    (∀ i, 1 ≤ i → i ≤ lastrow + 1 - firstrow →
      ((csrRow (sparse n arow acol aelt firstrow lastrow nnza s) i).map Prod.fst).Nodup) := by
  apply coalesce_unconditional
  · rw [sparseZero_rowstr, sparseShift_rowstr, if_pos rfl]
  · exact sparseZero_nza n _

end CoalesceSpec

/-! ## `sparse`: the claims -/

section SparseClaims
variable {α : Type} [AddMonoid α] [DecidableEq α]

omit [AddMonoid α] [DecidableEq α] in
theorem mem_seg (colidx : Nat → Nat) (a : Nat → α) (lo len : Nat) (e : Nat × α) :
    e ∈ seg colidx a lo len ↔ ∃ k, lo ≤ k ∧ k < lo + len ∧ e = (colidx k, a k) := by
  unfold seg
  rw [List.mem_map]
  constructor
  · rintro ⟨k, hk, rfl⟩
    rw [List.mem_range'_1] at hk
    exact ⟨k, hk.1, hk.2, rfl⟩
  · rintro ⟨k, h1, h2, rfl⟩
    exact ⟨k, List.mem_range'_1.mpr ⟨h1, h2⟩, rfl⟩

omit [AddMonoid α] [DecidableEq α] in
/-- In a stored row without repeated columns, a column determines the position. -/
theorem seg_pos_unique (colidx : Nat → Nat) (a : Nat → α) (lo len : Nat)
    (hnd : ((seg colidx a lo len).map Prod.fst).Nodup) (k1 k2 : Nat)
    (h1 : lo ≤ k1 ∧ k1 < lo + len) (h2 : lo ≤ k2 ∧ k2 < lo + len)
    (h : colidx k1 = colidx k2) : k1 = k2 := by
  have e : (seg colidx a lo len).map Prod.fst = (List.range' lo len).map colidx := by
    simp [seg, List.map_map, Function.comp_def]
  rw [e] at hnd
  exact List.inj_on_of_nodup_map hnd (List.mem_range'_1.mpr h1) (List.mem_range'_1.mpr h2) h

omit [DecidableEq α] in
theorem tripleSum_succ (arow acol : Nat → Nat) (aelt : Nat → α) (m r c : Nat) :
    tripleSum arow acol aelt (m + 1) r c
      = tripleSum arow acol aelt m r c
        + (if arow (m + 1) = r ∧ acol (m + 1) = c then aelt (m + 1) else 0) := by
  unfold tripleSum
  rw [List.range'_concat, List.filter_append, List.map_append, List.sum_append]
  congr 1
  have e : 1 + 1 * m = m + 1 := by omega
  rw [e]
  by_cases h : arow (m + 1) = r ∧ acol (m + 1) = c
  · simp [List.filter_cons, h]
  · rw [if_neg h]
    simp only [List.filter_cons, List.filter_nil]
    rw [if_neg (by simpa using h)]
    rfl

omit [DecidableEq α] in
/-- The column sums of the triples of one row are the sums `S(r, c)`. -/
theorem colSum_rowEntries (arow acol : Nat → Nat) (aelt : Nat → α) (firstrow m r c : Nat)
    (hrow : ∀ t, 1 ≤ t → t ≤ m → firstrow ≤ arow t) (hr : firstrow ≤ r) :
    colSum (rowEntries arow acol aelt firstrow m (r + 1 - firstrow)) c
      = tripleSum arow acol aelt m r c := by
  induction m with
  | zero => simp [rowEntries, colSum, tripleSum]
  | succ m ih =>
    rw [rowEntries, colSum_append, tripleSum_succ,
      ih (fun t h1 h2 => hrow t h1 (by omega))]
    congr 1
    have hge := hrow (m + 1) (by omega) (le_refl _)
    by_cases h1 : arow (m + 1) = r
    · rw [if_pos (by rw [h1])]
      rw [colSum_cons, colSum_nil, add_zero]
      by_cases h2 : acol (m + 1) = c
      · rw [if_pos h2, if_pos ⟨h1, h2⟩]
      · rw [if_neg h2, if_neg (fun h => h2 h.2)]
    · rw [if_neg (by omega), colSum_nil, if_neg (fun h => h1 h.1)]

omit [DecidableEq α] in
theorem tripleSum_eq_zero_of_no_triple (arow acol : Nat → Nat) (aelt : Nat → α) (m r c : Nat)
    (h : ¬ ∃ t, 1 ≤ t ∧ t ≤ m ∧ arow t = r ∧ acol t = c) :
    tripleSum arow acol aelt m r c = 0 := by
  induction m with
  | zero => simp [tripleSum]
  | succ m ih =>
    rw [tripleSum_succ, ih, zero_add, if_neg]
    · intro hc
      exact h ⟨m + 1, by omega, le_refl _, hc.1, hc.2⟩
    · rintro ⟨t, h1, h2, h3, h4⟩
      exact h ⟨t, h1, by omega, h3, h4⟩

/-- C4: for triples with rows in `[firstrow, lastrow]` and columns in `[1, n]` (and
a row range that fits the arrays, `lastrow + 1 - firstrow <= n`), the CSR arrays
left by `sparse` represent the coalesced matrix: for the local row
`j = r + 1 - firstrow` of every row `r` and every column `c`, if the sum `S(r,c)`
of the input triples is not zero then exactly one position of row `j` holds
column `c`, with value `S(r,c)`; if `S(r,c) = 0` or no triple has that row and
column, no position of row `j` holds column `c`. -/
theorem sparse_represents_coalesced_matrix (n : Nat) (arow acol : Nat → Nat) (aelt : Nat → α)
    (firstrow lastrow nnza : Nat) (s : SparseState α)
    (hrow : ∀ t, 1 ≤ t → t ≤ nnza → firstrow ≤ arow t ∧ arow t ≤ lastrow)
    (hcol : ∀ t, 1 ≤ t → t ≤ nnza → 1 ≤ acol t ∧ acol t ≤ n)
    (hn : lastrow + 1 - firstrow ≤ n)
    (r c : Nat) (hr : firstrow ≤ r ∧ r ≤ lastrow) :
    (tripleSum arow acol aelt nnza r c ≠ 0 →
      ∃ k, ((sparse n arow acol aelt firstrow lastrow nnza s).rowstr (r + 1 - firstrow) ≤ k ∧
            k < (sparse n arow acol aelt firstrow lastrow nnza s).rowstr (r + 1 - firstrow + 1)) ∧
        (sparse n arow acol aelt firstrow lastrow nnza s).colidx k = c ∧
        (sparse n arow acol aelt firstrow lastrow nnza s).a k = tripleSum arow acol aelt nnza r c ∧
        ∀ k2, (sparse n arow acol aelt firstrow lastrow nnza s).rowstr (r + 1 - firstrow) ≤ k2 →
          k2 < (sparse n arow acol aelt firstrow lastrow nnza s).rowstr (r + 1 - firstrow + 1) →
          (sparse n arow acol aelt firstrow lastrow nnza s).colidx k2 = c → k2 = k) ∧
    ((tripleSum arow acol aelt nnza r c = 0 ∨
        ¬ ∃ t, 1 ≤ t ∧ t ≤ nnza ∧ arow t = r ∧ acol t = c) →
      ∀ k, (sparse n arow acol aelt firstrow lastrow nnza s).rowstr (r + 1 - firstrow) ≤ k →
        k < (sparse n arow acol aelt firstrow lastrow nnza s).rowstr (r + 1 - firstrow + 1) →
        (sparse n arow acol aelt firstrow lastrow nnza s).colidx k ≠ c) := by
  obtain ⟨_, _, hrowEq, _⟩ := sparse_spec n arow acol aelt firstrow lastrow nnza s
    hrow hcol hn
  obtain ⟨_, _, hmono, _⟩ := sparse_unconditional n arow acol aelt firstrow lastrow nnza s
  have hj1 : 1 ≤ r + 1 - firstrow := by omega
  have hj2 : r + 1 - firstrow ≤ lastrow + 1 - firstrow := by omega
  have hR := hrowEq _ hj1 hj2
  have hm := hmono _ hj1 hj2
  have hS := colSum_rowEntries arow acol aelt firstrow nnza r c
    (fun t h1 h2 => (hrow t h1 h2).1) hr.1
  generalize sparse n arow acol aelt firstrow lastrow nnza s = out at hR hm ⊢
  generalize r + 1 - firstrow = j at hR hm hS ⊢
  unfold csrRow at hR
  have hend : out.rowstr j + (out.rowstr (j + 1) - out.rowstr j) = out.rowstr (j + 1) := by
    omega
  constructor
  · intro hne
    have hmem : (c, tripleSum arow acol aelt nnza r c)
        ∈ coalesceRow (rowEntries arow acol aelt firstrow nnza j) := by
      rw [mem_coalesceRow, hS]
      exact ⟨rfl, hne⟩
    rw [← hR, mem_seg] at hmem
    obtain ⟨k, hk1, hk2, hk3⟩ := hmem
    rw [hend] at hk2
    rw [Prod.mk.injEq] at hk3
    refine ⟨k, ⟨hk1, hk2⟩, hk3.1.symm, hk3.2.symm, ?_⟩
    intro k2 h1 h2 h3
    have hnd := coalesceRow_nodup (rowEntries arow acol aelt firstrow nnza j)
    rw [← hR] at hnd
    apply seg_pos_unique _ _ _ _ hnd k2 k ⟨h1, by omega⟩ ⟨hk1, by omega⟩
    rw [h3, hk3.1]
  · intro hz k h1 h2 hc
    have hzero : tripleSum arow acol aelt nnza r c = 0 := by
      rcases hz with hz | hz
      · exact hz
      · exact tripleSum_eq_zero_of_no_triple _ _ _ _ _ _ hz
    have hmem : (c, out.a k) ∈ seg out.colidx out.a (out.rowstr j)
        (out.rowstr (j + 1) - out.rowstr j) := by
      rw [mem_seg]
      exact ⟨k, h1, by omega, by rw [hc]⟩
    rw [hR, mem_coalesceRow, hS, hzero] at hmem
    exact hmem.2 hmem.1

/-- C5: after `sparse`, for every input whatsoever (repeated `(row, col)` pairs
included), the column indices stored for a local row `j` in
`colidx[rowstr[j] .. rowstr[j+1]-1]` are pairwise distinct. -/
theorem sparse_row_columns_distinct (n : Nat) (arow acol : Nat → Nat) (aelt : Nat → α)
    (firstrow lastrow nnza : Nat) (s : SparseState α) (j : Nat)
    (hj : 1 ≤ j ∧ j ≤ lastrow + 1 - firstrow) (k1 k2 : Nat)
    (h1 : (sparse n arow acol aelt firstrow lastrow nnza s).rowstr j ≤ k1 ∧
      k1 < (sparse n arow acol aelt firstrow lastrow nnza s).rowstr (j + 1))
    (h2 : (sparse n arow acol aelt firstrow lastrow nnza s).rowstr j ≤ k2 ∧
      k2 < (sparse n arow acol aelt firstrow lastrow nnza s).rowstr (j + 1))
    (hne : k1 ≠ k2) :
    (sparse n arow acol aelt firstrow lastrow nnza s).colidx k1
      ≠ (sparse n arow acol aelt firstrow lastrow nnza s).colidx k2 := by
  obtain ⟨_, _, _, hnd⟩ := sparse_unconditional n arow acol aelt firstrow lastrow nnza s
  intro h
  apply hne
  exact seg_pos_unique _ _ _ _ (hnd j hj.1 hj.2) k1 k2 ⟨h1.1, by omega⟩ ⟨h2.1, by omega⟩ h

omit [AddMonoid α] [DecidableEq α] in
theorem sum_Icc_telescope (f : Nat → Nat) (m : Nat)
    (hmono : ∀ i, 1 ≤ i → i ≤ m → f i ≤ f (i + 1)) :
    ∑ j ∈ Finset.Icc 1 m, (f (j + 1) - f j) = f (m + 1) - f 1 := by
  induction m with
  | zero => simp
  | succ m ih =>
    rw [Finset.sum_Icc_succ_top (by omega), ih (fun i h1 h2 => hmono i h1 (by omega))]
    have h1 := hmono (m + 1) (by omega) (le_refl _)
    have h2 : f 1 ≤ f (m + 1) := by
      clear ih h1
      induction m with
      | zero => exact le_refl _
      | succ k ihk =>
        exact le_trans (ihk (fun i h1 h2 => hmono i h1 (by omega)))
          (hmono (k + 1) (by omega) (by omega))
    omega

/-- C6: after `sparse`, `rowstr[1] = 1`, `rowstr[j] <= rowstr[j+1]` for every local row
`j`, and the row counts `rowstr[j+1] - rowstr[j]` add up to `rowstr[nrows+1] - 1`, which
is the number `nza` of entries the coalescing pass wrote to `a` and `colidx`. -/
theorem sparse_rowstr_counts (n : Nat) (arow acol : Nat → Nat) (aelt : Nat → α)
    (firstrow lastrow nnza : Nat) (s : SparseState α) :
    (sparse n arow acol aelt firstrow lastrow nnza s).rowstr 1 = 1 ∧
    (∀ j, 1 ≤ j → j ≤ lastrow + 1 - firstrow →
      (sparse n arow acol aelt firstrow lastrow nnza s).rowstr j
        ≤ (sparse n arow acol aelt firstrow lastrow nnza s).rowstr (j + 1)) ∧
    ∑ j ∈ Finset.Icc 1 (lastrow + 1 - firstrow),
        ((sparse n arow acol aelt firstrow lastrow nnza s).rowstr (j + 1)
          - (sparse n arow acol aelt firstrow lastrow nnza s).rowstr j)
      = (sparse n arow acol aelt firstrow lastrow nnza s).rowstr (lastrow + 1 - firstrow + 1) - 1 ∧
    (sparse n arow acol aelt firstrow lastrow nnza s).rowstr (lastrow + 1 - firstrow + 1) - 1
      = (sparse n arow acol aelt firstrow lastrow nnza s).nza := by
  obtain ⟨h1, h2, h3, _⟩ := sparse_unconditional n arow acol aelt firstrow lastrow nnza s
  refine ⟨h1, h3, ?_, ?_⟩
  · rw [sum_Icc_telescope _ _ h3, h1]
  · rw [h2]
    rfl

end SparseClaims

theorem demo_rows_in_range : ∀ t, 1 ≤ t → t ≤ 7 → 1 ≤ demoRow t ∧ demoRow t ≤ 3 := by
  intro t h1 h2
  interval_cases t <;> decide

theorem demo_cols_in_range : ∀ t, 1 ≤ t → t ≤ 7 → 1 ≤ demoCol t ∧ demoCol t ≤ 3 := by
  intro t h1 h2
  interval_cases t <;> decide

/-- Witness of C4: in the example, row 2 and column 1 have the sum 7, stored once. -/
theorem sparse_represents_coalesced_matrix_witness :
    tripleSum demoRow demoCol demoElt 7 2 1 = 7 ∧
    ∃ k, ((sparse 3 demoRow demoCol demoElt 1 3 7 (SparseState.blank Int)).rowstr 2 ≤ k ∧
          k < (sparse 3 demoRow demoCol demoElt 1 3 7 (SparseState.blank Int)).rowstr 3) ∧
      (sparse 3 demoRow demoCol demoElt 1 3 7 (SparseState.blank Int)).colidx k = 1 ∧
      (sparse 3 demoRow demoCol demoElt 1 3 7 (SparseState.blank Int)).a k = 7 := by
  have h := (sparse_represents_coalesced_matrix 3 demoRow demoCol demoElt 1 3 7
    (SparseState.blank Int) demo_rows_in_range demo_cols_in_range (by decide) 2 1
    (by decide)).1 (by decide)
  obtain ⟨k, hk, hc, ha, _⟩ := h
  exact ⟨by decide, k, hk, hc, ha.trans (by decide)⟩

/-- Witness of C5: positions 2 and 3 of row 2 of the example hold different columns. -/
theorem sparse_row_columns_distinct_witness :
    (sparse 3 demoRow demoCol demoElt 1 3 7 (SparseState.blank Int)).colidx 2
      ≠ (sparse 3 demoRow demoCol demoElt 1 3 7 (SparseState.blank Int)).colidx 3 :=
  sparse_row_columns_distinct 3 demoRow demoCol demoElt 1 3 7 (SparseState.blank Int) 2
    (by decide) 2 3 (by decide) (by decide) (by decide)

/-! ## `sparse` is idempotent -/

section Idempotent
variable {α : Type} [AddMonoid α] [DecidableEq α]

omit [AddMonoid α] [DecidableEq α] in
theorem arrayOf_succ {β : Type} (l : List β) (d : β) (m : Nat) (h : m < l.length) :
    arrayOf l d (m + 1) = l[m] := by
  unfold arrayOf
  rw [if_neg (by omega), Nat.add_sub_cancel, List.getD_eq_getElem _ _ h]

omit [AddMonoid α] [DecidableEq α] in
/-- The triples of a row, read from the arrays that hold a list of triples. -/
theorem rowEntries_arrayOf (T : List (Nat × Nat × α)) (d : α) (firstrow j m : Nat)
    (hm : m ≤ T.length) :
    rowEntries (arrayOf (T.map (fun t => t.1)) 0) (arrayOf (T.map (fun t => t.2.1)) 0)
        (arrayOf (T.map (fun t => t.2.2)) d) firstrow m j
      = ((T.take m).filter (fun t => t.1 + 1 - firstrow = j)).map (fun t => (t.2.1, t.2.2)) := by
  induction m with
  | zero => simp [rowEntries]
  | succ m ih =>
    have hlt : m < T.length := by omega
    rw [rowEntries, ih (by omega), List.take_succ, List.getElem?_eq_getElem hlt]
    simp only [Option.toList, List.filter_append, List.map_append]
    congr 1
    rw [arrayOf_succ _ _ _ (by simpa using hlt), arrayOf_succ _ _ _ (by simpa using hlt),
      arrayOf_succ _ _ _ (by simpa using hlt)]
    simp only [List.getElem_map]
    by_cases h : T[m].1 + 1 - firstrow = j
    · simp [List.filter_cons, h]
    · simp [List.filter_cons, h]

omit [AddMonoid α] [DecidableEq α] in
theorem expandTriples_mem (s : SparseState α) (firstrow m : Nat) (t : Nat × Nat × α)
    (h : t ∈ expandTriples s firstrow m) :
    ∃ j, 1 ≤ j ∧ j ≤ m ∧ t.1 = j + firstrow - 1 ∧ (t.2.1, t.2.2) ∈ csrRow s j := by
  induction m with
  | zero => cases h
  | succ m ih =>
    rw [expandTriples, List.mem_append] at h
    rcases h with h | h
    · obtain ⟨j, h1, h2, h3, h4⟩ := ih h
      exact ⟨j, h1, by omega, h3, h4⟩
    · rw [List.mem_map] at h
      obtain ⟨e, he, rfl⟩ := h
      exact ⟨m + 1, by omega, le_refl _, rfl, he⟩

omit [AddMonoid α] [DecidableEq α] in
/-- The re-expanded triples of local row `j` are the stored row `j`. -/
theorem expandTriples_filter (s : SparseState α) (firstrow m j : Nat) :
    ((expandTriples s firstrow m).filter (fun t => t.1 + 1 - firstrow = j)).map
        (fun t => (t.2.1, t.2.2))
      = if 1 ≤ j ∧ j ≤ m then csrRow s j else [] := by
  induction m with
  | zero =>
    rw [if_neg (by omega)]
    rfl
  | succ m ih =>
    rw [expandTriples, List.filter_append, List.map_append, ih]
    by_cases hj : j = m + 1
    · subst hj
      rw [if_neg (by omega), if_pos (by omega), List.nil_append, List.filter_eq_self.mpr]
      · rw [List.map_map]
        conv_rhs => rw [← List.map_id (csrRow s (m + 1))]
        apply List.map_congr_left
        intro e _
        rfl
      · intro t ht
        rw [List.mem_map] at ht
        obtain ⟨e, _, rfl⟩ := ht
        simp only [decide_eq_true_eq]
        omega
    · have hnone : ((csrRow s (m + 1)).map (fun e => (m + 1 + firstrow - 1, e.1, e.2))).filter
          (fun t => t.1 + 1 - firstrow = j) = [] := by
        rw [List.filter_eq_nil_iff]
        intro t ht
        rw [List.mem_map] at ht
        obtain ⟨e, _, rfl⟩ := ht
        simp only [decide_eq_true_eq]
        omega
      rw [hnone, List.map_nil, List.append_nil]
      by_cases h : 1 ≤ j ∧ j ≤ m
      · rw [if_pos h, if_pos ⟨h.1, by omega⟩]
      · rw [if_neg h, if_neg (by omega)]

/-- A stored row is stored unchanged when it is compacted again. -/
theorem coalesceRow_idem (l : List (Nat × α)) : coalesceRow (coalesceRow l) = coalesceRow l := by
  apply coalesceRow_of_nodup _ (coalesceRow_nodup l)
  intro e he
  exact ((mem_coalesceRow l e.1 e.2).mp he).2

/-- C8: `sparse` is idempotent.  For well-formed input (rows in `[firstrow, lastrow]`,
columns in `[1, n]`, at most `n` rows), re-expanding the output of `sparse` into
triples in storage order and running `sparse` again, from any memory `s2`, yields
the same row pointers `rowstr[1 .. nrows+1]` and, row by row, the same
`(colidx, value)` entries: the rows are even equal as lists, so in particular equal
up to a permutation. -/
theorem sparse_idempotent (n : Nat) (arow acol : Nat → Nat) (aelt : Nat → α)
    (firstrow lastrow nnza : Nat) (s s2 : SparseState α)
    (hrow : ∀ t, 1 ≤ t → t ≤ nnza → firstrow ≤ arow t ∧ arow t ≤ lastrow)
    (hcol : ∀ t, 1 ≤ t → t ≤ nnza → 1 ≤ acol t ∧ acol t ≤ n)
    (hn : lastrow + 1 - firstrow ≤ n) :
    (∀ j, 1 ≤ j → j ≤ lastrow + 1 - firstrow + 1 →
      (sparseAgain n firstrow lastrow (sparse n arow acol aelt firstrow lastrow nnza s) s2).rowstr j
        = (sparse n arow acol aelt firstrow lastrow nnza s).rowstr j) ∧
    (∀ j, 1 ≤ j → j ≤ lastrow + 1 - firstrow →
      csrRow (sparseAgain n firstrow lastrow (sparse n arow acol aelt firstrow lastrow nnza s) s2) j
        = csrRow (sparse n arow acol aelt firstrow lastrow nnza s) j ∧
      (csrRow (sparseAgain n firstrow lastrow
          (sparse n arow acol aelt firstrow lastrow nnza s) s2) j).Perm
        (csrRow (sparse n arow acol aelt firstrow lastrow nnza s) j)) := by
  obtain ⟨_, hr1, hc1, _⟩ := sparse_spec n arow acol aelt firstrow lastrow nnza s hrow hcol hn
  have hpos : ∀ t, 1 ≤ t → t ≤ nnza → firstrow ≤ arow t := fun t h1 h2 => (hrow t h1 h2).1
  generalize sparse n arow acol aelt firstrow lastrow nnza s = out at hr1 hc1 ⊢
  unfold sparseAgain
  generalize hT : expandTriples out firstrow (lastrow + 1 - firstrow) = T
  -- every re-expanded triple lies in a stored row
  have hmemT : ∀ t ∈ T, ∃ j, 1 ≤ j ∧ j ≤ lastrow + 1 - firstrow ∧ t.1 = j + firstrow - 1 ∧
      (t.2.1, t.2.2) ∈ coalesceRow (rowEntries arow acol aelt firstrow nnza j) := by
    intro t ht
    rw [← hT] at ht
    obtain ⟨j, h1, h2, h3, h4⟩ := expandTriples_mem _ _ _ _ ht
    exact ⟨j, h1, h2, h3, by rw [← hc1 j h1 h2]; exact h4⟩
  have hget : ∀ u, 1 ≤ u → u ≤ T.length → ∃ t ∈ T,
      arrayOf (T.map (fun t => t.1)) 0 u = t.1 ∧
      arrayOf (T.map (fun t => t.2.1)) 0 u = t.2.1 := by
    intro u h1 h2
    obtain ⟨m, rfl⟩ : ∃ m, u = m + 1 := ⟨u - 1, by omega⟩
    have hlt : m < T.length := by omega
    refine ⟨T[m], List.getElem_mem _, ?_, ?_⟩
    · rw [arrayOf_succ _ _ _ (by simpa using hlt), List.getElem_map]
    · rw [arrayOf_succ _ _ _ (by simpa using hlt), List.getElem_map]
  have hrow2 : ∀ u, 1 ≤ u → u ≤ T.length →
      firstrow ≤ arrayOf (T.map (fun t => t.1)) 0 u ∧
      arrayOf (T.map (fun t => t.1)) 0 u ≤ lastrow := by
    intro u h1 h2
    obtain ⟨t, ht, e1, _⟩ := hget u h1 h2
    obtain ⟨j, hj1, hj2, hj3, _⟩ := hmemT t ht
    rw [e1, hj3]
    omega
  have hcol2 : ∀ u, 1 ≤ u → u ≤ T.length →
      1 ≤ arrayOf (T.map (fun t => t.2.1)) 0 u ∧
      arrayOf (T.map (fun t => t.2.1)) 0 u ≤ n := by
    intro u h1 h2
    obtain ⟨t, ht, _, e2⟩ := hget u h1 h2
    obtain ⟨j, _, _, _, hj4⟩ := hmemT t ht
    have hm := coalesceRow_col_mem _ _ _ hj4
    rw [List.mem_map] at hm
    obtain ⟨e, he, hfst⟩ := hm
    obtain ⟨v, hv1, hv2, _, hv4⟩ := rowEntries_mem _ _ _ _ _ _ _ he
    rw [e2, ← hfst, hv4]
    exact hcol v hv1 hv2
  obtain ⟨_, hr2, hc2, _⟩ := sparse_spec n (arrayOf (T.map (fun t => t.1)) 0)
    (arrayOf (T.map (fun t => t.2.1)) 0) (arrayOf (T.map (fun t => t.2.2)) 0)
    firstrow lastrow T.length s2 hrow2 hcol2 hn
  -- the rows of the second input are the stored rows of the first output
  have hre : ∀ j, rowEntries (arrayOf (T.map (fun t => t.1)) 0)
      (arrayOf (T.map (fun t => t.2.1)) 0) (arrayOf (T.map (fun t => t.2.2)) 0)
      firstrow T.length j
      = if 1 ≤ j ∧ j ≤ lastrow + 1 - firstrow
        then coalesceRow (rowEntries arow acol aelt firstrow nnza j) else [] := by
    intro j
    rw [rowEntries_arrayOf T 0 firstrow j T.length (le_refl _), List.take_length, ← hT,
      expandTriples_filter]
    by_cases h : 1 ≤ j ∧ j ≤ lastrow + 1 - firstrow
    · rw [if_pos h, if_pos h, hc1 j h.1 h.2]
    · rw [if_neg h, if_neg h]
  have hco : ∀ j, j ≤ lastrow + 1 - firstrow →
      coalesceRow (rowEntries (arrayOf (T.map (fun t => t.1)) 0)
        (arrayOf (T.map (fun t => t.2.1)) 0) (arrayOf (T.map (fun t => t.2.2)) 0)
        firstrow T.length j)
      = coalesceRow (rowEntries arow acol aelt firstrow nnza j) := by
    intro j hj
    rw [hre j]
    by_cases h : 1 ≤ j
    · rw [if_pos ⟨h, hj⟩, coalesceRow_idem]
    · have h0 : j = 0 := by omega
      rw [if_neg (by omega), h0, rowEntries_zero_row arow acol aelt firstrow nnza hpos]
  have hns : ∀ j, j ≤ lastrow + 1 - firstrow + 1 →
      newStart (arrayOf (T.map (fun t => t.1)) 0) (arrayOf (T.map (fun t => t.2.1)) 0)
        (arrayOf (T.map (fun t => t.2.2)) 0) firstrow T.length j
      = newStart arow acol aelt firstrow nnza j := by
    intro j
    induction j with
    | zero => intro _; rfl
    | succ j ih =>
      intro hj
      rw [newStart_succ, newStart_succ, ih (by omega), hco j (by omega)]
  constructor
  · intro j h1 h2
    rw [hr2 j h1 h2, hr1 j h1 h2, hns j h2]
  · intro j h1 h2
    have e : csrRow (sparse n (arrayOf (T.map (fun t => t.1)) 0)
        (arrayOf (T.map (fun t => t.2.1)) 0) (arrayOf (T.map (fun t => t.2.2)) 0)
        firstrow lastrow T.length s2) j = csrRow out j := by
      rw [hc2 j h1 h2, hc1 j h1 h2, hco j h2]
    exact ⟨e, e ▸ List.Perm.refl _⟩

/-- Witness of C8 on the example: row 2 stays `[(1, 7), (2, 9)]`. -/
theorem sparse_idempotent_witness :
    csrRow (sparseAgain 3 1 3 (sparse 3 demoRow demoCol demoElt 1 3 7 (SparseState.blank Int))
        (SparseState.blank Int)) 2
      = csrRow (sparse 3 demoRow demoCol demoElt 1 3 7 (SparseState.blank Int)) 2 :=
  ((sparse_idempotent 3 demoRow demoCol demoElt 1 3 7 (SparseState.blank Int)
    (SparseState.blank Int) demo_rows_in_range demo_cols_in_range (by decide)).2 2
    (by decide) (by decide)).1

end Idempotent

/-! ## `sprnvc` -/

theorem icnvrt_nonneg (x : ℚ) (ipwr2 : Nat) (hx : 0 ≤ x) : 0 ≤ icnvrt x ipwr2 := by
  unfold icnvrt
  apply Int.tdiv_nonneg
  · rw [Rat.num_nonneg]
    exact mul_nonneg (Nat.cast_nonneg _) hx
  · exact Int.ofNat_nonneg _

/-- Invariant rule for the rejection loop: a property kept by every iteration that
starts with `nzv < nz` holds when the loop ends, and then `nzv < nz` is false. -/
theorem sprnvcLoop_invariant (n nz nn1 : Nat) (rand : Nat → ℚ) (P : SprnvcState → Prop)
    (hstep : ∀ s, s.nzv < nz → P s → P (sprnvcStep n nn1 rand s))
    (fuel : Nat) (s out : SprnvcState) (h0 : P s)
    (h : sprnvcLoop n nz nn1 rand fuel s = some out) : P out ∧ ¬ out.nzv < nz := by
  induction fuel generalizing s with
  | zero =>
    unfold sprnvcLoop at h
    by_cases hc : s.nzv < nz
    · rw [if_pos hc] at h
      cases h
    · rw [if_neg hc] at h
      cases h
      exact ⟨h0, hc⟩
  | succ fuel ih =>
    unfold sprnvcLoop at h
    by_cases hc : s.nzv < nz
    · rw [if_pos hc] at h
      exact ih _ (hstep s hc h0) h
    · rw [if_neg hc] at h
      cases h
      exact ⟨h0, hc⟩

/-- More fuel does not change the result of the rejection loop. -/
theorem sprnvcLoop_mono (n nz nn1 : Nat) (rand : Nat → ℚ) (fuel : Nat) (s out : SprnvcState)
    (h : sprnvcLoop n nz nn1 rand fuel s = some out) :
    sprnvcLoop n nz nn1 rand (fuel + 1) s = some out := by
  induction fuel generalizing s with
  | zero =>
    unfold sprnvcLoop at h
    by_cases hc : s.nzv < nz
    · rw [if_pos hc] at h
      cases h
    · rw [if_neg hc] at h
      unfold sprnvcLoop
      rw [if_neg hc]
      exact h
  | succ fuel ih =>
    rw [sprnvcLoop] at h
    rw [sprnvcLoop]
    by_cases hc : s.nzv < nz
    · rw [if_pos hc] at h ⊢
      exact ih _ h
    · rw [if_neg hc] at h ⊢
      exact h

/-- The three outcomes of one iteration of the rejection loop. -/
theorem sprnvcStep_cases (n nn1 : Nat) (rand : Nat → ℚ) (s : SprnvcState) :
    (sprnvcStep n nn1 rand s = { s with pos := s.pos + 2 }) ∨
    (¬ (icnvrt (rand (s.pos + 1)) nn1 + 1 > (n : Int)) ∧
      s.mark (icnvrt (rand (s.pos + 1)) nn1 + 1).toNat = 0 ∧
      sprnvcStep n nn1 rand s =
        { s with mark := setAt s.mark (icnvrt (rand (s.pos + 1)) nn1 + 1).toNat 1,
                 nzrow := s.nzrow + 1,
                 nzloc := setAt s.nzloc (s.nzrow + 1) (icnvrt (rand (s.pos + 1)) nn1 + 1).toNat,
                 nzv := s.nzv + 1,
                 v := setAt s.v (s.nzv + 1) (rand s.pos),
                 iv := setAt s.iv (s.nzv + 1) (icnvrt (rand (s.pos + 1)) nn1 + 1).toNat,
                 pos := s.pos + 2 }) := by
  unfold sprnvcStep
  simp only []
  by_cases h1 : icnvrt (rand (s.pos + 1)) nn1 + 1 > (n : Int)
  · left
    rw [if_pos h1]
  · rw [if_neg h1]
    by_cases h2 : s.mark (icnvrt (rand (s.pos + 1)) nn1 + 1).toNat = 0
    · right
      rw [if_pos h2]
      exact ⟨h1, h2, rfl⟩
    · left
      rw [if_neg h2]

theorem sprnvcStep_inv (n nz nn1 : Nat) (rand : Nat → ℚ) (mark0 : Nat → Nat) (s : SprnvcState)
    (hlt : s.nzv < nz) (h : SprnvcInv n nz mark0 s) :
    SprnvcInv n nz mark0 (sprnvcStep n nn1 rand s) := by
  rcases sprnvcStep_cases n nn1 rand s with hs | ⟨h1, h2, hs⟩
  · rw [hs]
    exact h
  · rw [hs]
    obtain ⟨_, p2, p3, p4, p5⟩ := h
    generalize (icnvrt (rand (s.pos + 1)) nn1 + 1) = i at h1 h2
    have hin : i.toNat ≤ n := by
      rw [Int.toNat_le]
      omega
    refine ⟨?_, ?_, ?_, ?_, ?_⟩
    · show s.nzv + 1 ≤ nz
      omega
    · intro k hk1 hk2
      simp only [] at hk2 ⊢
      by_cases hk : k = s.nzv + 1
      · rw [hk, setAt_same, setAt_same]
        omega
      · rw [setAt_other _ _ hk, setAt_apply]
        split
        · omega
        · exact p2 k hk1 (by omega)
    · intro k1 k2 h11 h12 h21 h22 hne
      simp only [] at h12 h22 ⊢
      by_cases e1 : k1 = s.nzv + 1
      · have e2 : k2 ≠ s.nzv + 1 := by omega
        rw [e1, setAt_same, setAt_other _ _ e2]
        intro heq
        have := p2 k2 h21 (by omega)
        rw [← heq] at this
        exact this h2
      · rw [setAt_other _ _ e1]
        by_cases e2 : k2 = s.nzv + 1
        · rw [e2, setAt_same]
          intro heq
          have := p2 k1 h11 (by omega)
          rw [heq] at this
          exact this h2
        · rw [setAt_other _ _ e2]
          exact p3 k1 k2 h11 (by omega) h21 (by omega) hne
    · intro k hk1 hk2
      simp only [] at hk2 ⊢
      by_cases hk : k = s.nzv + 1
      · rw [hk, setAt_same]
        exact hin
      · rw [setAt_other _ _ hk]
        exact p4 k hk1 (by omega)
    · intro c hc
      simp only [] at hc ⊢
      rw [nzList_snoc, List.mem_append, List.mem_singleton]
      by_cases hci : c = i.toNat
      · exact Or.inr hci
      · rw [setAt_other _ _ hci] at hc
        exact Or.inl (p5 c hc)

/-- With draws that are not negative every recorded index is at least 1. -/
theorem sprnvcStep_pos (n nn1 : Nat) (rand : Nat → ℚ) (hrand : ∀ k, 0 ≤ rand k)
    (s : SprnvcState) (h : ∀ k, 1 ≤ k → k ≤ s.nzv → 1 ≤ s.iv k) :
    ∀ k, 1 ≤ k → k ≤ (sprnvcStep n nn1 rand s).nzv → 1 ≤ (sprnvcStep n nn1 rand s).iv k := by
  rcases sprnvcStep_cases n nn1 rand s with hs | ⟨_, _, hs⟩
  · rw [hs]
    exact h
  · rw [hs]
    intro k hk1 hk2
    simp only [] at hk2 ⊢
    by_cases hk : k = s.nzv + 1
    · rw [hk, setAt_same]
      have := icnvrt_nonneg (rand (s.pos + 1)) nn1 (hrand _)
      omega
    · rw [setAt_other _ _ hk]
      exact h k hk1 (by omega)

theorem sprnvcClear_spec (s : SprnvcState) :
    (sprnvcClear s).mark = clearAt 0 (nzList s.nzloc 1 s.nzrow) s.mark ∧
    (sprnvcClear s).iv = s.iv ∧ (sprnvcClear s).nzv = s.nzv ∧ (sprnvcClear s).v = s.v ∧
    (sprnvcClear s).pos = s.pos := by
  have key : ∀ (cnt lo : Nat) (s : SprnvcState),
      (forUp (fun ii (s : SprnvcState) => { s with mark := setAt s.mark (s.nzloc ii) 0 })
        lo cnt s).mark = clearAt 0 (nzList s.nzloc lo cnt) s.mark := by
    intro cnt
    induction cnt with
    | zero => intro lo s; rfl
    | succ m ih =>
      intro lo s
      rw [forUp_succ, ih, nzList_cons]
      rfl
  unfold sprnvcClear
  refine ⟨key _ _ _, ?_, ?_, ?_, ?_⟩
  · exact forUp_preserve _ SprnvcState.iv (by intro _ _; rfl) _ _ _
  · exact forUp_preserve _ SprnvcState.nzv (by intro _ _; rfl) _ _ _
  · exact forUp_preserve _ SprnvcState.v (by intro _ _; rfl) _ _ _
  · exact forUp_preserve _ SprnvcState.pos (by intro _ _; rfl) _ _ _

/-- What a call of `sprnvc` that returns has produced, whatever the scratch arrays
held on entry. -/
theorem sprnvc_spec (fuel n nz : Nat) (rand : Nat → ℚ) (s out : SprnvcState)
    (h : sprnvc fuel n nz rand s = some out) :
    out.nzv = nz ∧
    (∀ k1 k2, 1 ≤ k1 → k1 ≤ nz → 1 ≤ k2 → k2 ≤ nz → k1 ≠ k2 → out.iv k1 ≠ out.iv k2) ∧
    (∀ k, 1 ≤ k → k ≤ nz → out.iv k ≤ n) ∧
    ((∀ k, 0 ≤ rand k) → ∀ k, 1 ≤ k → k ≤ nz → 1 ≤ out.iv k) ∧
    (∀ c, s.mark c = 0 → out.mark c = 0) := by
  unfold sprnvc at h
  split at h
  · cases h
  · rename_i s1 hloop
    cases h
    obtain ⟨hinv, hend⟩ := sprnvcLoop_invariant n nz _ rand (SprnvcInv n nz s.mark)
      (fun t ht hP => sprnvcStep_inv n nz _ rand s.mark t ht hP) fuel
      { s with nzv := 0, nzrow := 0 } s1
      ⟨Nat.zero_le _, fun k h1 h2 => by have h3 : k ≤ 0 := h2; omega,
        fun k1 k2 h1 h2 => by have h3 : k1 ≤ 0 := h2; omega,
        fun k h1 h2 => by have h3 : k ≤ 0 := h2; omega,
        fun c hc => absurd rfl hc⟩ hloop
    obtain ⟨q1, _, q3, q4, q5⟩ := hinv
    obtain ⟨c1, c2, c3, _, _⟩ := sprnvcClear_spec s1
    have hnz : s1.nzv = nz := by omega
    rw [c2, c3]
    refine ⟨hnz, ?_, ?_, ?_, ?_⟩
    · intro k1 k2 h11 h12 h21 h22
      exact q3 k1 k2 h11 (by omega) h21 (by omega)
    · intro k h1 h2
      exact q4 k h1 (by omega)
    · intro hrand k h1 h2
      obtain ⟨hpos, _⟩ := sprnvcLoop_invariant n nz _ rand
        (fun t => ∀ k, 1 ≤ k → k ≤ t.nzv → 1 ≤ t.iv k)
        (fun t _ hP => sprnvcStep_pos n _ rand hrand t hP) fuel
        { s with nzv := 0, nzrow := 0 } s1
        (fun k h1 h2 => by have h3 : k ≤ 0 := h2; omega) hloop
      exact hpos k h1 (by omega)
    · intro c hc
      rw [c1, clearAt_apply]
      by_cases hm : c ∈ nzList s1.nzloc 1 s1.nzrow
      · rw [if_pos hm]
      · rw [if_neg hm]
        by_contra hne
        apply hm
        apply q5
        rw [hc]
        exact hne
theorem randlcState_odd (k : Nat) : randlcState k % 2 = 1 := by
  induction k with
  | zero => decide
  | succ k ih =>
    unfold randlcState
    have h : (2 : Nat) ∣ 2 ^ 46 := ⟨2 ^ 45, by norm_num⟩
    rw [Nat.mod_mod_of_dvd _ h, Nat.mul_mod, ih]

theorem randlcState_lt (k : Nat) : randlcState k < 2 ^ 46 := by
  cases k with
  | zero => decide
  | succ k =>
    unfold randlcState
    exact Nat.mod_lt _ (by norm_num)

/-- The values of the benchmark's generator lie strictly between 0 and 1. -/
theorem npbStream_range (k : Nat) : 0 < npbStream k ∧ npbStream k < 1 := by
  unfold npbStream
  have h1 : 0 < randlcState (k + 2) := by
    have := randlcState_odd (k + 2)
    omega
  have h2 := randlcState_lt (k + 2)
  constructor
  · apply div_pos
    · exact_mod_cast h1
    · norm_num
  · rw [div_lt_one (by norm_num)]
    exact_mod_cast h2

/-- C9: for `n >= 1`, `nz <= n`, a `mark` array that is zero on `[1, n]` on entry and
a stream of random values in `(0, 1)` on which `sprnvc` returns, exactly `nz` entries
are produced, every `iv[k]`, `1 <= k <= nz`, lies in `[1, n]`, and the `iv[k]` are
pairwise distinct.  (The proof uses neither `n >= 1`, `nz <= n` nor the clean marks.) -/
theorem sprnvc_distinct_indices (fuel n nz : Nat) (rand : Nat → ℚ) (s out : SprnvcState)
    (_hn : 1 ≤ n) (_hnz : nz ≤ n) (_hmark : ∀ c, 1 ≤ c → c ≤ n → s.mark c = 0)
    (hrand : ∀ k, 0 < rand k ∧ rand k < 1)
    (hret : sprnvc fuel n nz rand s = some out) :
    out.nzv = nz ∧
    (∀ k, 1 ≤ k → k ≤ nz → 1 ≤ out.iv k ∧ out.iv k ≤ n) ∧
    (∀ k1 k2, 1 ≤ k1 → k1 ≤ nz → 1 ≤ k2 → k2 ≤ nz → k1 ≠ k2 → out.iv k1 ≠ out.iv k2) := by
  obtain ⟨h1, h2, h3, h4, _⟩ := sprnvc_spec fuel n nz rand s out hret
  exact ⟨h1, fun k hk1 hk2 => ⟨h4 (fun j => le_of_lt (hrand j).1) k hk1 hk2, h3 k hk1 hk2⟩, h2⟩

/-- Witness of C9: 7 nonzeros out of `n = 1400` with the benchmark's seed; the call
returns after 10 attempts with 7 distinct indices in `[1, 1400]`. -/
theorem sprnvc_distinct_indices_witness :
    ∃ out, sprnvc 10 1400 7 npbStream SprnvcState.blank = some out ∧
      out.nzv = 7 ∧
      (∀ k, 1 ≤ k → k ≤ 7 → 1 ≤ out.iv k ∧ out.iv k ≤ 1400) ∧
      (∀ k1 k2, 1 ≤ k1 → k1 ≤ 7 → 1 ≤ k2 → k2 ≤ 7 → k1 ≠ k2 → out.iv k1 ≠ out.iv k2) := by
  have hsome : (sprnvc 10 1400 7 npbStream SprnvcState.blank).isSome = true := by decide!
  obtain ⟨out, hout⟩ := Option.isSome_iff_exists.mp hsome
  exact ⟨out, hout, sprnvc_distinct_indices 10 1400 7 npbStream SprnvcState.blank out
    (by decide) (by decide) (fun _ _ _ => rfl) npbStream_range hout⟩

/-- C10: if `mark[1..n]` is all zero when `sprnvc` is entered, it is all zero again
when `sprnvc` returns; so a second call with the same scratch arrays (and the
generator where the first call left it) starts from clean marks, and when it returns
it has again produced `nz` pairwise distinct indices and left the marks clean. -/
theorem sprnvc_marks_restored (fuel n nz : Nat) (rand : Nat → ℚ) (s out : SprnvcState)
    (hmark : ∀ c, 1 ≤ c → c ≤ n → s.mark c = 0)
    (hret : sprnvc fuel n nz rand s = some out) :
    (∀ c, 1 ≤ c → c ≤ n → out.mark c = 0) ∧
    ∀ fuel2 out2, sprnvc fuel2 n nz rand out = some out2 →
      out2.nzv = nz ∧
      (∀ k1 k2, 1 ≤ k1 → k1 ≤ nz → 1 ≤ k2 → k2 ≤ nz → k1 ≠ k2 → out2.iv k1 ≠ out2.iv k2) ∧
      (∀ c, 1 ≤ c → c ≤ n → out2.mark c = 0) := by
  obtain ⟨_, _, _, _, h5⟩ := sprnvc_spec fuel n nz rand s out hret
  have hclean : ∀ c, 1 ≤ c → c ≤ n → out.mark c = 0 := fun c h1 h2 => h5 c (hmark c h1 h2)
  refine ⟨hclean, ?_⟩
  intro fuel2 out2 hret2
  obtain ⟨g1, g2, _, _, g5⟩ := sprnvc_spec fuel2 n nz rand out out2 hret2
  exact ⟨g1, g2, fun c h1 h2 => g5 c (hclean c h1 h2)⟩

/-- Witness of C10: two calls in a row for 7 nonzeros out of 1400 with the
benchmark's seed; both return, and the second again yields 7 entries. -/
theorem sprnvc_marks_restored_witness :
    ∃ out out2, sprnvc 10 1400 7 npbStream SprnvcState.blank = some out ∧
      sprnvc 20 1400 7 npbStream out = some out2 ∧
      (∀ c, 1 ≤ c → c ≤ 1400 → out.mark c = 0) ∧ out2.nzv = 7 ∧
      (∀ k1 k2, 1 ≤ k1 → k1 ≤ 7 → 1 ≤ k2 → k2 ≤ 7 → k1 ≠ k2 → out2.iv k1 ≠ out2.iv k2) := by
  have hsome : ((sprnvc 10 1400 7 npbStream SprnvcState.blank).bind
      (fun out => sprnvc 20 1400 7 npbStream out)).isSome = true := by decide!
  obtain ⟨out2, hout2⟩ := Option.isSome_iff_exists.mp hsome
  obtain ⟨out, hout, hsec⟩ := Option.bind_eq_some.mp hout2
  have h := sprnvc_marks_restored 10 1400 7 npbStream SprnvcState.blank out
    (fun _ _ _ => rfl) hout
  exact ⟨out, out2, hout, hsec, h.1, (h.2 20 out2 hsec).1, (h.2 20 out2 hsec).2.1⟩

/-! ## `makea`: the stored column indices -/

theorem Run.bind_eq_ok {σ τ : Type} (r : Run σ) (f : σ → Run τ) (out : τ)
    (h : r.bind f = Run.ok out) : ∃ s, r = Run.ok s ∧ f s = Run.ok out := by
  cases r with
  | ok s => exact ⟨s, rfl, h⟩
  | exited => cases h
  | outOfFuel => cases h

/-- Invariant rule for loops whose body may end the run: a property kept by every
iteration that continues holds for the state the loop ends with. -/
theorem forUpRun_invariant {σ : Type} (body : Nat → σ → Run σ) (P : σ → Prop)
    (hstep : ∀ i s s2, P s → body i s = Run.ok s2 → P s2) (lo cnt : Nat) (s out : σ)
    (h0 : P s) (h : forUpRun body lo cnt s = Run.ok out) : P out := by
  induction cnt generalizing out with
  | zero =>
    cases h
    exact h0
  | succ m ih =>
    unfold forUpRun at h
    rw [forUp_succ_last] at h
    obtain ⟨mid, hmid, hbody⟩ := Run.bind_eq_ok _ _ _ h
    exact hstep _ mid out (ih mid hmid) hbody

theorem triplesInRange_append (firstrow lastrow firstcol lastcol : Nat) (s : MakeaState)
    (irow jcol : Nat) (val : ℚ) (h : TriplesInRange firstrow lastrow firstcol lastcol s)
    (hr : firstrow ≤ irow ∧ irow ≤ lastrow) (hc : firstcol ≤ jcol ∧ jcol ≤ lastcol) :
    TriplesInRange firstrow lastrow firstcol lastcol
      { s with nnza := s.nnza + 1, acol := setAt s.acol (s.nnza + 1) jcol,
               arow := setAt s.arow (s.nnza + 1) irow,
               aelt := setAt s.aelt (s.nnza + 1) val } := by
  intro t h1 h2
  simp only [] at h2 ⊢
  by_cases ht : t = s.nnza + 1
  · rw [ht, setAt_same, setAt_same]
    exact ⟨hr, hc⟩
  · rw [setAt_other _ _ ht, setAt_other _ _ ht]
    exact h t h1 (by omega)

theorem makeaInner_inv (nz firstrow lastrow firstcol lastcol jcol : Nat) (scale : ℚ)
    (hc : firstcol ≤ jcol ∧ jcol ≤ lastcol) (i : Nat) (s s2 : MakeaState)
    (h : TriplesInRange firstrow lastrow firstcol lastcol s)
    (hs : makeaInner nz firstrow lastrow jcol scale i s = Run.ok s2) :
    TriplesInRange firstrow lastrow firstcol lastcol s2 := by
  unfold makeaInner at hs
  split at hs
  · rename_i hr
    split at hs
    · cases hs
    · cases hs
      exact triplesInRange_append _ _ _ _ s _ _ _ h hr hc
  · cases hs
    exact h

theorem makeaColumn_inv (nz firstrow lastrow firstcol lastcol : Nat) (i : Nat)
    (s s2 : MakeaState) (h : TriplesInRange firstrow lastrow firstcol lastcol s)
    (hs : makeaColumn nz firstrow lastrow firstcol lastcol i s = Run.ok s2) :
    TriplesInRange firstrow lastrow firstcol lastcol s2 := by
  unfold makeaColumn at hs
  split at hs
  · rename_i hc
    exact forUpRun_invariant _ (TriplesInRange firstrow lastrow firstcol lastcol)
      (fun k t t2 ht hk => makeaInner_inv nz firstrow lastrow firstcol lastcol _ _ hc k t t2 ht hk)
      _ _ s s2 h hs
  · cases hs
    exact h

theorem makeaOuter_inv (fuel : Nat) (rand : Nat → ℚ) (ratio : ℚ)
    (n nz nonzer firstrow lastrow firstcol lastcol : Nat) (i : Nat) (s s2 : MakeaState)
    (h : TriplesInRange firstrow lastrow firstcol lastcol s)
    (hs : makeaOuter fuel rand ratio n nz nonzer firstrow lastrow firstcol lastcol i s
      = Run.ok s2) :
    TriplesInRange firstrow lastrow firstcol lastcol s2 := by
  unfold makeaOuter at hs
  split at hs
  · cases hs
  · rename_i g _
    obtain ⟨mid, hmid, hfin⟩ := Run.bind_eq_ok _ _ _ hs
    cases hfin
    have hm := forUpRun_invariant _ (TriplesInRange firstrow lastrow firstcol lastcol)
      (fun k t t2 ht hk => makeaColumn_inv nz firstrow lastrow firstcol lastcol k t t2 ht hk)
      _ _ _ mid (by exact fun t h1 h2 => h t h1 h2) hmid
    exact fun t h1 h2 => hm t h1 h2

theorem makeaDiag_inv (nz firstrow lastrow firstcol lastcol : Nat) (rcond shift : ℚ)
    (s out : MakeaState) (h : TriplesInRange firstrow lastrow firstcol lastcol s)
    (hs : forUpRun (makeaDiag nz firstcol lastcol rcond shift) firstrow
      (lastrow + 1 - firstrow) s = Run.ok out) :
    TriplesInRange firstrow lastrow firstcol lastcol out := by
  -- the loop index is carried along to know that it lies in `[firstrow, lastrow]`
  have key : ∀ cnt, cnt ≤ lastrow + 1 - firstrow → ∀ out,
      forUpRun (makeaDiag nz firstcol lastcol rcond shift) firstrow cnt s = Run.ok out →
      TriplesInRange firstrow lastrow firstcol lastcol out := by
    intro cnt
    induction cnt with
    | zero =>
      intro _ out ho
      cases ho
      exact h
    | succ m ih =>
      intro hm out ho
      unfold forUpRun at ho
      rw [forUp_succ_last] at ho
      obtain ⟨mid, hmid, hbody⟩ := Run.bind_eq_ok _ _ _ ho
      have hmidP := ih (by omega) mid hmid
      unfold makeaDiag at hbody
      split at hbody
      · rename_i hc
        split at hbody
        · cases hbody
        · cases hbody
          exact triplesInRange_append _ _ _ _ mid _ _ _ hmidP ⟨by omega, by omega⟩ hc
      · cases hbody
        exact hmidP
  exact key _ (le_refl _) out hs

/-- When `makea` returns, the triples handed to `sparse` are all in range, and the
arrays `a`, `colidx`, `rowstr` are those `sparse` has produced from them. -/
theorem makea_ok (fuel : Nat) (rand : Nat → ℚ) (cpow : ℚ → ℚ → ℚ)
    (n nz nonzer firstrow lastrow firstcol lastcol : Nat) (rcond shift : ℚ)
    (s out : MakeaState)
    (h : makea fuel rand cpow n nz nonzer firstrow lastrow firstcol lastcol rcond shift s
      = Run.ok out) :
    ∃ s2, TriplesInRange firstrow lastrow firstcol lastcol s2 ∧
      out.colidx = (makeaSparse n firstrow lastrow s2).colidx ∧
      out.rowstr = (makeaSparse n firstrow lastrow s2).rowstr ∧
      out.a = (makeaSparse n firstrow lastrow s2).a ∧
      out.nnza = s2.nnza ∧ out.arow = s2.arow ∧ out.acol = s2.acol ∧ out.aelt = s2.aelt := by
  unfold makea at h
  obtain ⟨s2, h2, hfin⟩ := Run.bind_eq_ok _ _ _ h
  obtain ⟨s1, h1, hdiag⟩ := Run.bind_eq_ok _ _ _ h2
  cases hfin
  have p1 : TriplesInRange firstrow lastrow firstcol lastcol s1 := by
    refine forUpRun_invariant _ (TriplesInRange firstrow lastrow firstcol lastcol)
      (fun i t t2 ht hk => makeaOuter_inv _ _ _ _ _ _ _ _ _ _ i t t2 ht hk) _ _ _ s1 ?_ h1
    intro t ht1 ht2
    have e : (forUp (fun i (s : MakeaState) => { s with colidx := setAt s.colidx (n + i) 0 })
        1 n { s with size := 1, nnza := 0 }).nnza = 0 :=
      forUp_preserve _ MakeaState.nnza (by intro _ _; rfl) _ _ _
    rw [e] at ht2
    omega
  have p2 := makeaDiag_inv nz firstrow lastrow firstcol lastcol rcond shift s1 s2 p1 hdiag
  exact ⟨s2, p2, rfl, rfl, rfl, rfl, rfl, rfl, rfl⟩

/-- A position between `f 1` and `f (m+1)` lies in one of the intervals
`[f j, f (j+1))`, `1 <= j <= m`. -/
theorem exists_row_of_pos (f : Nat → Nat) (m k : Nat) (h1 : f 1 ≤ k) (h2 : k < f (m + 1)) :
    ∃ j, 1 ≤ j ∧ j ≤ m ∧ f j ≤ k ∧ k < f (j + 1) := by
  induction m with
  | zero =>
    rw [Nat.zero_add] at h2
    omega
  | succ m ih =>
    by_cases hk : k < f (m + 1)
    · obtain ⟨j, hj1, hj2, hj3, hj4⟩ := ih hk
      exact ⟨j, hj1, by omega, hj3, hj4⟩
    · exact ⟨m + 1, by omega, le_refl _, by omega, h2⟩

/-- With `firstcol = 1` the shift of `main` leaves `colidx` as it is. -/
theorem shiftColidx_one (firstrow lastrow : Nat) (rowstr colidx : Nat → Nat) :
    shiftColidx firstrow lastrow 1 rowstr colidx = colidx := by
  have inner : ∀ (cnt lo : Nat) (c : Nat → Nat),
      forUp (fun k (colidx : Nat → Nat) => setAt colidx k (colidx k + 1 - 1)) lo cnt c = c := by
    intro cnt
    induction cnt with
    | zero => intro lo c; rfl
    | succ m ih =>
      intro lo c
      rw [forUp_succ, ih]
      funext k
      rw [setAt_apply]
      split
      · rename_i hk
        rw [hk, Nat.add_sub_cancel]
      · rfl
  unfold shiftColidx
  have outer : ∀ (cnt lo : Nat) (c : Nat → Nat),
      forUp (fun j (colidx : Nat → Nat) =>
        forUp (fun k (colidx : Nat → Nat) => setAt colidx k (colidx k + 1 - 1))
          (rowstr j) (rowstr (j + 1) - rowstr j) colidx) lo cnt c = c := by
    intro cnt
    induction cnt with
    | zero => intro lo c; rfl
    | succ m ih =>
      intro lo c
      rw [forUp_succ, inner, ih]
  exact outer _ _ _

/-- C7: when `makea` returns (with `firstcol = 1`, `lastcol = n`, a row range that
fits the arrays, `lastrow - firstrow + 1 <= n`, and whatever the random stream is),
every stored column index `colidx[k]`, `rowstr[1] <= k < rowstr[nrows+1]`, lies in
`[1, n]`, and it still does after the shift `colidx[k] - firstcol + 1` of `main`. -/
theorem makea_colidx_in_range (fuel : Nat) (rand : Nat → ℚ) (cpow : ℚ → ℚ → ℚ)
    (n nz nonzer firstrow lastrow : Nat) (rcond shift : ℚ) (s out : MakeaState)
    (hrows : lastrow + 1 - firstrow ≤ n)
    (h : makea fuel rand cpow n nz nonzer firstrow lastrow 1 n rcond shift s = Run.ok out)
    (k : Nat) (hk1 : out.rowstr 1 ≤ k) (hk2 : k < out.rowstr (lastrow + 1 - firstrow + 1)) :
    (1 ≤ out.colidx k ∧ out.colidx k ≤ n) ∧
    (1 ≤ shiftColidx firstrow lastrow 1 out.rowstr out.colidx k ∧
      shiftColidx firstrow lastrow 1 out.rowstr out.colidx k ≤ n) := by
  obtain ⟨s2, hin, hc, hr, _⟩ := makea_ok _ _ _ _ _ _ _ _ _ _ _ _ _ _ h
  have key : ∀ sp : SparseState ℚ,
      (∀ i, 1 ≤ i → i ≤ lastrow + 1 - firstrow →
        csrRow sp i = coalesceRow (rowEntries s2.arow s2.acol s2.aelt firstrow s2.nnza i)) →
      sp.rowstr 1 ≤ k → k < sp.rowstr (lastrow + 1 - firstrow + 1) →
      1 ≤ sp.colidx k ∧ sp.colidx k ≤ n := by
    intro sp hrowEq h1 h2
    obtain ⟨j, hj1, hj2, hj3, hj4⟩ := exists_row_of_pos sp.rowstr _ k h1 h2
    have hmem : (sp.colidx k, sp.a k) ∈ csrRow sp j := by
      unfold csrRow
      rw [mem_seg]
      exact ⟨k, hj3, by omega, rfl⟩
    rw [hrowEq j hj1 hj2] at hmem
    have hcm := coalesceRow_col_mem _ _ _ hmem
    rw [List.mem_map] at hcm
    obtain ⟨e, he, hfst⟩ := hcm
    obtain ⟨t, ht1, ht2, _, ht4⟩ := rowEntries_mem _ _ _ _ _ _ _ he
    rw [← hfst, ht4]
    exact (hin t ht1 ht2).2
  obtain ⟨_, _, hrowEq, _⟩ := sparse_spec n s2.arow s2.acol s2.aelt firstrow lastrow s2.nnza
    { a := s2.a, colidx := s2.colidx, rowstr := s2.rowstr, x := s2.v,
      mark := fun i => decide (s2.iv i ≠ 0), nzloc := fun i => s2.iv (n + i),
      nza := 0, nzrow := 0, jajp1 := 0 }
    (fun t h1 h2 => (hin t h1 h2).1) (fun t h1 h2 => (hin t h1 h2).2) hrows
  have main : 1 ≤ out.colidx k ∧ out.colidx k ≤ n := by
    rw [hr] at hk1 hk2
    rw [hc]
    exact key _ hrowEq hk1 hk2
  refine ⟨main, ?_⟩
  rw [shiftColidx_one]
  exact main

theorem Run.eq_ok_of_isOk {σ : Type} (r : Run σ) (d : σ) (h : r.isOk = true) :
    r = Run.ok (r.getD d) := by
  cases r with
  | ok s => rfl
  | exited => cases h
  | outOfFuel => cases h

/-- Witness of C7: the example run of `makea` returns, and position 5 of its
`colidx` holds a column in `[1, 4]`. -/
theorem makea_colidx_in_range_witness :
    demoMakea.isOk = true ∧
    (demoMakea.getD MakeaState.blank).rowstr 1 ≤ 5 ∧
    5 < (demoMakea.getD MakeaState.blank).rowstr (4 + 1 - 1 + 1) ∧
    (1 ≤ (demoMakea.getD MakeaState.blank).colidx 5 ∧
      (demoMakea.getD MakeaState.blank).colidx 5 ≤ 4) := by
  have hok : demoMakea.isOk = true := by decide!
  have h1 : (demoMakea.getD MakeaState.blank).rowstr 1 ≤ 5 := by decide!
  have h2 : 5 < (demoMakea.getD MakeaState.blank).rowstr (4 + 1 - 1 + 1) := by decide!
  exact ⟨hok, h1, h2,
    (makea_colidx_in_range 40 npbStream (fun _ _ => 1 / 2) 4 100 2 1 4 (1 / 10) 10
      MakeaState.blank (demoMakea.getD MakeaState.blank) (by decide)
      (Run.eq_ok_of_isOk demoMakea MakeaState.blank hok) 5 h1 h2).1⟩

/-! ## Adequacy of the fuel of the doubling loop, and the pair reduction of `main` -/

/-- The doubling loop of `sprnvc` ends by its own test within the fuel it is given:
the value returned is not less than `n`. -/
theorem nn1Loop_exit (n fuel nn1 : Nat) (h1 : 1 ≤ nn1) (h : n ≤ fuel + 2 * nn1) :
    n ≤ nn1Loop (fuel + 1) n nn1 := by
  induction fuel generalizing nn1 with
  | zero =>
    unfold nn1Loop
    split
    · omega
    · omega
  | succ f ih =>
    rw [nn1Loop]
    split
    · exact ih (2 * nn1) (by omega) (by omega)
    · omega

theorem published2_apply {α : Type} (v11 v12 : Nat → α) (order : List Nat) (buf : Nat → α)
    (w : Nat) (hw : w ∈ order) :
    published2 v11 v12 order buf (2 * w) = v11 w ∧
    published2 v11 v12 order buf (2 * w + 1) = v12 w := by
  induction order generalizing buf with
  | nil => cases hw
  | cons a l ih =>
    have hstep : published2 v11 v12 (a :: l) buf
        = published2 v11 v12 l (publish2 buf a (v11 a) (v12 a)) := rfl
    rw [hstep]
    by_cases hl : w ∈ l
    · exact ih _ hl
    · have hwa : w = a := by
        rcases List.mem_cons.mp hw with h | h
        · exact h
        · exact absurd h hl
      subst hwa
      have keep : ∀ (l : List Nat) (b : Nat → α), w ∉ l →
          published2 v11 v12 l b (2 * w) = b (2 * w) ∧
          published2 v11 v12 l b (2 * w + 1) = b (2 * w + 1) := by
        intro l
        induction l with
        | nil => intro b _; exact ⟨rfl, rfl⟩
        | cons c l ihl =>
          intro b hnot
          simp only [List.mem_cons, not_or] at hnot
          have hs : published2 v11 v12 (c :: l) b
              = published2 v11 v12 l (publish2 b c (v11 c) (v12 c)) := rfl
          rw [hs, (ihl _ hnot.2).1, (ihl _ hnot.2).2]
          unfold publish2
          have hne : w ≠ c := hnot.1
          rw [setAt_other _ _ (by omega), setAt_other _ _ (by omega),
            setAt_other _ _ (by omega), setAt_other _ _ (by omega)]
          exact ⟨rfl, rfl⟩
      rw [(keep l _ hl).1, (keep l _ hl).2]
      unfold publish2
      rw [setAt_other _ _ (by omega), setAt_same, setAt_same]
      exact ⟨rfl, rfl⟩

/-- The reduction of the pair `(norm_temp11, norm_temp12)` in `main`: once all workers
have published, every worker obtains the two sums. -/
theorem gather2_sum {α : Type} [AddCommMonoid α] (numtasks : Nat) (v11 v12 : Nat → α)
    (buf : Nat → α) (order : List Nat) (hall : ∀ w, w < numtasks → w ∈ order) (w : Nat)
    (hw : w < numtasks) :
    gather2 (published2 v11 v12 order buf) numtasks w (v11 w, v12 w)
      = (∑ i ∈ Finset.range numtasks, v11 i, ∑ i ∈ Finset.range numtasks, v12 i) := by
  have key : ∀ (m : Nat) (acc : α × α) (b : Nat → α),
      forUp (fun j (acc : α × α) =>
        if j ≠ w then (acc.1 + b (2 * j), acc.2 + b (2 * j + 1)) else acc) 0 m acc
      = (forUp (fun j (acc : α) => if j ≠ w then acc + b (2 * j) else acc) 0 m acc.1,
         forUp (fun j (acc : α) => if j ≠ w then acc + b (2 * j + 1) else acc) 0 m acc.2) := by
    intro m acc b
    induction m with
    | zero => rfl
    | succ m ih =>
      rw [forUp_succ_last, forUp_succ_last, forUp_succ_last, ih]
      by_cases h : 0 + m ≠ w
      · simp only [if_pos h]
      · simp only [if_neg h]
  unfold gather2
  rw [key]
  have e1 := gather_sum (fun j => published2 v11 v12 order buf (2 * j)) v11 numtasks w hw
    (fun j hj => (published2_apply v11 v12 order buf j (hall j hj)).1)
  have e2 := gather_sum (fun j => published2 v11 v12 order buf (2 * j + 1)) v12 numtasks w hw
    (fun j hj => (published2_apply v11 v12 order buf j (hall j hj)).2)
  unfold gather at e1 e2
  rw [e1, e2]

/-! ## The loop over the diagonal of `makea` -/

theorem triplesFrom_succ (s : MakeaState) (lo len : Nat) :
    triplesFrom s lo (len + 1)
      = triplesFrom s lo len ++ [(s.arow (lo + len), s.acol (lo + len), s.aelt (lo + len))] := by
  unfold triplesFrom
  rw [List.range'_concat, List.map_append]
  have e : lo + 1 * len = lo + len := by omega
  simp [e]

theorem triplesFrom_congr (s s2 : MakeaState) (lo len : Nat)
    (h : ∀ t, lo ≤ t → t < lo + len →
      s.arow t = s2.arow t ∧ s.acol t = s2.acol t ∧ s.aelt t = s2.aelt t) :
    triplesFrom s lo len = triplesFrom s2 lo len := by
  unfold triplesFrom
  apply List.map_congr_left
  intro t ht
  rw [List.mem_range'_1] at ht
  obtain ⟨h1, h2, h3⟩ := h t ht.1 ht.2
  rw [h1, h2, h3]

/-- When the ranges of rows and columns coincide, every index of the diagonal is owned. -/
theorem diagIndices_same (firstrow lastrow : Nat) :
    diagIndices firstrow lastrow firstrow lastrow
      = List.range' firstrow (lastrow + 1 - firstrow) := by
  unfold diagIndices
  rw [List.filter_eq_self]
  intro i hi
  rw [List.mem_range'_1] at hi
  simp only [decide_eq_true_eq]
  omega

/-- The loop over the diagonal: it appends, in increasing order of `i`, the triple
`(i, i, rcond - shift)` for each `i` of the loop that lies in `[firstcol, lastcol]`, and
leaves the triples stored before as they were. -/
theorem makeaDiag_loop (nz firstcol lastcol : Nat) (rcond shift : ℚ) (lo cnt : Nat)
    (s out : MakeaState)
    (h : forUpRun (makeaDiag nz firstcol lastcol rcond shift) lo cnt s = Run.ok out) :
    out.nnza = s.nnza
        + ((List.range' lo cnt).filter (fun i => firstcol ≤ i ∧ i ≤ lastcol)).length ∧
      triplesFrom out (s.nnza + 1) (out.nnza - s.nnza)
        = ((List.range' lo cnt).filter (fun i => firstcol ≤ i ∧ i ≤ lastcol)).map
            (fun i => (i, i, rcond - shift)) ∧
      (∀ t, t ≤ s.nnza →
        out.arow t = s.arow t ∧ out.acol t = s.acol t ∧ out.aelt t = s.aelt t) := by
  induction cnt generalizing out with
  | zero =>
    cases h
    refine ⟨by simp, ?_, fun t _ => ⟨rfl, rfl, rfl⟩⟩
    simp [triplesFrom]
  | succ m ih =>
    unfold forUpRun at h
    rw [forUp_succ_last] at h
    obtain ⟨mid, hmid, hbody⟩ := Run.bind_eq_ok _ _ _ h
    obtain ⟨i1, i2, i3⟩ := ih mid hmid
    have e : lo + 1 * m = lo + m := by omega
    rw [List.range'_concat, List.filter_append, e]
    unfold makeaDiag at hbody
    split at hbody
    · rename_i hc
      split at hbody
      · cases hbody
      · cases hbody
        have hf : List.filter (fun i => decide (firstcol ≤ i ∧ i ≤ lastcol)) [lo + m]
            = [lo + m] := by
          simp only [List.filter_cons, List.filter_nil]
          rw [if_pos (by simpa using ⟨hc.1, hc.2⟩)]
        rw [hf]
        refine ⟨?_, ?_, ?_⟩
        · simp only [List.length_append, List.length_singleton]
          omega
        · have e2 : mid.nnza + 1 - s.nnza = (mid.nnza - s.nnza) + 1 := by omega
          simp only [e2]
          rw [triplesFrom_succ, List.map_append, ← i2]
          have e3 : s.nnza + 1 + (mid.nnza - s.nnza) = mid.nnza + 1 := by omega
          simp only [e3, setAt_same, List.map_cons, List.map_nil]
          congr 1
          apply triplesFrom_congr
          intro t ht1 ht2
          have hne : t ≠ mid.nnza + 1 := by omega
          simp only [setAt_other _ _ hne, and_self]
        · intro t ht
          have hne : t ≠ mid.nnza + 1 := by omega
          simp only [setAt_other _ _ hne]
          exact i3 t ht
    · rename_i hc
      cases hbody
      have hf : List.filter (fun i => decide (firstcol ≤ i ∧ i ≤ lastcol)) [lo + m] = [] := by
        simp only [List.filter_cons, List.filter_nil]
        rw [if_neg (by simpa using fun h1 => by omega)]
      rw [hf, List.append_nil]
      exact ⟨i1, i2, i3⟩

/-- C11: when `makea` returns, its loop over the diagonal has appended, to the triples
`1 .. s1.nnza` left by the loop over the columns, exactly one triple
`(i, i, rcond - shift)` for each `i` of `[firstrow, lastrow]` lying in
`[firstcol, lastcol]`, in increasing order of `i`, leaving the earlier triples; when the
two ranges coincide `nnza` grows by `lastrow - firstrow + 1`. -/
theorem makea_diagonal_pass (fuel : Nat) (rand : Nat → ℚ) (cpow : ℚ → ℚ → ℚ)
    (n nz nonzer firstrow lastrow firstcol lastcol : Nat) (rcond shift : ℚ)
    (s out : MakeaState)
    (h : makea fuel rand cpow n nz nonzer firstrow lastrow firstcol lastcol rcond shift s
      = Run.ok out) :
    ∃ s1, makeaColumns fuel rand cpow n nz nonzer firstrow lastrow firstcol lastcol rcond s
        = Run.ok s1 ∧
      out.nnza = s1.nnza + (diagIndices firstrow lastrow firstcol lastcol).length ∧
      triplesFrom out (s1.nnza + 1) (out.nnza - s1.nnza)
        = (diagIndices firstrow lastrow firstcol lastcol).map
            (fun i => (i, i, rcond - shift)) ∧
      (∀ t, t ≤ s1.nnza →
        out.arow t = s1.arow t ∧ out.acol t = s1.acol t ∧ out.aelt t = s1.aelt t) ∧
      (firstrow = firstcol → lastrow = lastcol →
        out.nnza = s1.nnza + (lastrow + 1 - firstrow)) := by
  unfold makea at h
  obtain ⟨s2, h2, hfin⟩ := Run.bind_eq_ok _ _ _ h
  obtain ⟨s1, h1, hdiag⟩ := Run.bind_eq_ok _ _ _ h2
  cases hfin
  obtain ⟨d1, d2, d3⟩ := makeaDiag_loop nz firstcol lastcol rcond shift _ _ s1 s2 hdiag
  refine ⟨s1, h1, d1, d2, d3, ?_⟩
  intro hr hl
  subst hr
  subst hl
  have e := diagIndices_same firstrow lastrow
  unfold diagIndices at e
  change s2.nnza = _
  rw [d1, e, List.length_range']

/-- Instance of C11: the example run returns, and its four diagonal triples follow the 26
triples of the loop over the columns. -/
theorem makea_diagonal_pass_witness :
    ∃ s1, makeaColumns 40 npbStream (fun _ _ => 1 / 2) 4 100 2 1 4 1 4 (1 / 10)
          MakeaState.blank = Run.ok s1 ∧
      (demoMakea.getD MakeaState.blank).nnza = s1.nnza + (diagIndices 1 4 1 4).length ∧
      triplesFrom (demoMakea.getD MakeaState.blank) (s1.nnza + 1)
          ((demoMakea.getD MakeaState.blank).nnza - s1.nnza)
        = (diagIndices 1 4 1 4).map (fun i => (i, i, (1 / 10 : ℚ) - 10)) ∧
      (∀ t, t ≤ s1.nnza →
        (demoMakea.getD MakeaState.blank).arow t = s1.arow t ∧
        (demoMakea.getD MakeaState.blank).acol t = s1.acol t ∧
        (demoMakea.getD MakeaState.blank).aelt t = s1.aelt t) ∧
      (1 = 1 → 4 = 4 → (demoMakea.getD MakeaState.blank).nnza = s1.nnza + (4 + 1 - 1)) :=
  makea_diagonal_pass 40 npbStream (fun _ _ => 1 / 2) 4 100 2 1 4 1 4 (1 / 10) 10
    MakeaState.blank (demoMakea.getD MakeaState.blank)
    (Run.eq_ok_of_isOk demoMakea MakeaState.blank (by decide!))

/-! ## The capacity `nz` of the triple arrays -/

/-- A loop whose body never lowers a count does not lower it. -/
theorem forUpRun_mono {σ : Type} (size : σ → Nat) (B : Nat → σ → Run σ)
    (hmono : ∀ i s s2, B i s = Run.ok s2 → size s ≤ size s2)
    (lo cnt : Nat) (s s2 : σ) (h : forUpRun B lo cnt s = Run.ok s2) : size s ≤ size s2 := by
  induction cnt generalizing s2 with
  | zero =>
    cases h
    exact le_refl _
  | succ m ih =>
    unfold forUpRun at h
    rw [forUp_succ_last] at h
    obtain ⟨mid, hmid, hbody⟩ := Run.bind_eq_ok _ _ _ h
    exact le_trans (ih mid hmid) (hmono _ mid s2 hbody)

/-- Two loops whose bodies differ only in the capacity they enforce: where the loop with
the capacity `nz2` continues to `s2`, the loop with the capacity `nz` continues to the
same state if `size s2 ≤ nz` and exits otherwise. -/
theorem forUpRun_capacity {σ : Type} (size : σ → Nat) (B B2 : Nat → σ → Run σ) (nz : Nat)
    (hmono : ∀ i s s2, B2 i s = Run.ok s2 → size s ≤ size s2)
    (hB : ∀ i s s2, size s ≤ nz → B2 i s = Run.ok s2 →
      B i s = if size s2 ≤ nz then Run.ok s2 else Run.exited)
    (lo cnt : Nat) (s s2 : σ) (hs : size s ≤ nz) (h : forUpRun B2 lo cnt s = Run.ok s2) :
    forUpRun B lo cnt s = if size s2 ≤ nz then Run.ok s2 else Run.exited := by
  induction cnt generalizing s2 with
  | zero =>
    cases h
    rw [if_pos hs]
    rfl
  | succ m ih =>
    unfold forUpRun at h ⊢
    rw [forUp_succ_last] at h ⊢
    obtain ⟨mid, hmid, hbody⟩ := Run.bind_eq_ok _ _ _ h
    have i2 := ih mid hmid
    unfold forUpRun at i2
    rw [i2]
    by_cases hm : size mid ≤ nz
    · rw [if_pos hm]
      exact hB _ mid s2 hm hbody
    · rw [if_neg hm]
      have hle := hmono _ mid s2 hbody
      rw [if_neg (by omega)]
      rfl

theorem makeaInner_mono (nz firstrow lastrow jcol : Nat) (scale : ℚ) (i : Nat)
    (s s2 : MakeaState) (h : makeaInner nz firstrow lastrow jcol scale i s = Run.ok s2) :
    s.nnza ≤ s2.nnza := by
  unfold makeaInner at h
  split at h
  · split at h
    · cases h
    · cases h
      exact Nat.le_succ _
  · cases h
    exact le_refl _

theorem makeaInner_capacity (nz nz2 firstrow lastrow jcol : Nat) (scale : ℚ) (i : Nat)
    (s s2 : MakeaState) (_ : s.nnza ≤ nz)
    (h : makeaInner nz2 firstrow lastrow jcol scale i s = Run.ok s2) :
    makeaInner nz firstrow lastrow jcol scale i s
      = if s2.nnza ≤ nz then Run.ok s2 else Run.exited := by
  unfold makeaInner at h ⊢
  split at h
  · rename_i hc
    rw [if_pos hc]
    split at h
    · cases h
    · cases h
      by_cases hq : s.nnza + 1 > nz
      · rw [if_pos hq, if_neg (by simpa using hq)]
      · rw [if_neg hq, if_pos (by simpa using hq)]
  · rename_i hc
    cases h
    rw [if_neg hc, if_pos (by assumption)]

theorem makeaColumn_mono (nz firstrow lastrow firstcol lastcol : Nat) (i : Nat)
    (s s2 : MakeaState) (h : makeaColumn nz firstrow lastrow firstcol lastcol i s = Run.ok s2) :
    s.nnza ≤ s2.nnza := by
  unfold makeaColumn at h
  split at h
  · exact forUpRun_mono MakeaState.nnza _
      (fun k t t2 hk => makeaInner_mono _ _ _ _ _ k t t2 hk) _ _ s s2 h
  · cases h
    exact le_refl _

theorem makeaColumn_capacity (nz nz2 firstrow lastrow firstcol lastcol : Nat) (i : Nat)
    (s s2 : MakeaState) (hs : s.nnza ≤ nz)
    (h : makeaColumn nz2 firstrow lastrow firstcol lastcol i s = Run.ok s2) :
    makeaColumn nz firstrow lastrow firstcol lastcol i s
      = if s2.nnza ≤ nz then Run.ok s2 else Run.exited := by
  unfold makeaColumn at h ⊢
  split at h
  · rename_i hc
    rw [if_pos hc]
    exact forUpRun_capacity MakeaState.nnza _ _ nz
      (fun k t t2 hk => makeaInner_mono _ _ _ _ _ k t t2 hk)
      (fun k t t2 ht hk => makeaInner_capacity nz nz2 _ _ _ _ k t t2 ht hk) _ _ s s2 hs h
  · rename_i hc
    cases h
    rw [if_neg hc, if_pos hs]

theorem makeaOuter_mono (fuel : Nat) (rand : Nat → ℚ) (ratio : ℚ)
    (n nz nonzer firstrow lastrow firstcol lastcol : Nat) (i : Nat) (s s2 : MakeaState)
    (h : makeaOuter fuel rand ratio n nz nonzer firstrow lastrow firstcol lastcol i s
      = Run.ok s2) :
    s.nnza ≤ s2.nnza := by
  unfold makeaOuter at h
  split at h
  · cases h
  · obtain ⟨mid, hmid, hfin⟩ := Run.bind_eq_ok _ _ _ h
    cases hfin
    have hm := forUpRun_mono MakeaState.nnza
      (makeaColumn nz firstrow lastrow firstcol lastcol)
      (fun k t t2 hk => makeaColumn_mono _ _ _ _ _ k t t2 hk) _ _ _ mid hmid
    exact hm

theorem makeaOuter_capacity (fuel : Nat) (rand : Nat → ℚ) (ratio : ℚ)
    (n nz nz2 nonzer firstrow lastrow firstcol lastcol : Nat) (i : Nat) (s s2 : MakeaState)
    (hs : s.nnza ≤ nz)
    (h : makeaOuter fuel rand ratio n nz2 nonzer firstrow lastrow firstcol lastcol i s
      = Run.ok s2) :
    makeaOuter fuel rand ratio n nz nonzer firstrow lastrow firstcol lastcol i s
      = if s2.nnza ≤ nz then Run.ok s2 else Run.exited := by
  unfold makeaOuter at h ⊢
  split at h
  · cases h
  · rename_i g hg
    obtain ⟨mid, hmid, hfin⟩ := Run.bind_eq_ok _ _ _ h
    cases hfin
    have hc := forUpRun_capacity MakeaState.nnza _ _ nz
      (fun k t t2 hk => makeaColumn_mono nz2 firstrow lastrow firstcol lastcol k t t2 hk)
      (fun k t t2 ht hk =>
        makeaColumn_capacity nz nz2 firstrow lastrow firstcol lastcol k t t2 ht hk)
      _ _ _ mid (by exact hs) hmid
    simp only [hc]
    by_cases hq : mid.nnza ≤ nz
    · simp only [if_pos hq]
      rfl
    · simp only [if_neg hq]
      rfl

theorem makeaDiag_mono (nz firstcol lastcol : Nat) (rcond shift : ℚ) (i : Nat)
    (s s2 : MakeaState) (h : makeaDiag nz firstcol lastcol rcond shift i s = Run.ok s2) :
    s.nnza ≤ s2.nnza := by
  unfold makeaDiag at h
  split at h
  · split at h
    · cases h
    · cases h
      exact Nat.le_succ _
  · cases h
    exact le_refl _

theorem makeaDiag_capacity (nz nz2 firstcol lastcol : Nat) (rcond shift : ℚ) (i : Nat)
    (s s2 : MakeaState) (_ : s.nnza ≤ nz)
    (h : makeaDiag nz2 firstcol lastcol rcond shift i s = Run.ok s2) :
    makeaDiag nz firstcol lastcol rcond shift i s
      = if s2.nnza ≤ nz then Run.ok s2 else Run.exited := by
  unfold makeaDiag at h ⊢
  split at h
  · rename_i hc
    rw [if_pos hc]
    split at h
    · cases h
    · cases h
      by_cases hq : s.nnza + 1 > nz
      · rw [if_pos hq, if_neg (by simpa using hq)]
      · rw [if_neg hq, if_pos (by simpa using hq)]
  · rename_i hc
    cases h
    rw [if_neg hc, if_pos (by assumption)]

/-- The run of `makea` with the capacity `nz`, told from a run with any capacity `nz2`
that returns: the same result if the number of triples is at most `nz`, `exit(1)`
otherwise. -/
theorem makea_capacity (fuel : Nat) (rand : Nat → ℚ) (cpow : ℚ → ℚ → ℚ)
    (n nz nz2 nonzer firstrow lastrow firstcol lastcol : Nat) (rcond shift : ℚ)
    (s out2 : MakeaState)
    (h : makea fuel rand cpow n nz2 nonzer firstrow lastrow firstcol lastcol rcond shift s
      = Run.ok out2) :
    makea fuel rand cpow n nz nonzer firstrow lastrow firstcol lastcol rcond shift s
      = if out2.nnza ≤ nz then Run.ok out2 else Run.exited := by
  unfold makea at h ⊢
  obtain ⟨s2, h2, hfin⟩ := Run.bind_eq_ok _ _ _ h
  obtain ⟨s1, h1, hdiag⟩ := Run.bind_eq_ok _ _ _ h2
  cases hfin
  have e0 : (forUp (fun i (s : MakeaState) => { s with colidx := setAt s.colidx (n + i) 0 })
      1 n { s with size := 1, nnza := 0 }).nnza = 0 :=
    forUp_preserve _ MakeaState.nnza (by intro _ _; rfl) _ _ _
  have c1 := forUpRun_capacity MakeaState.nnza _ _ nz
    (fun k t t2 hk => makeaOuter_mono fuel rand (cpow rcond (1 / (n : ℚ))) n nz2 nonzer
      firstrow lastrow firstcol lastcol k t t2 hk)
    (fun k t t2 ht hk => makeaOuter_capacity fuel rand (cpow rcond (1 / (n : ℚ))) n nz nz2
      nonzer firstrow lastrow firstcol lastcol k t t2 ht hk)
    _ _ _ s1 (by rw [e0]; exact Nat.zero_le _) h1
  have m2 := forUpRun_mono MakeaState.nnza _
    (fun k t t2 hk => makeaDiag_mono nz2 firstcol lastcol rcond shift k t t2 hk) _ _ s1 s2 hdiag
  simp only [c1]
  by_cases hq : s1.nnza ≤ nz
  · have c2 := forUpRun_capacity MakeaState.nnza _ _ nz
      (fun k t t2 hk => makeaDiag_mono nz2 firstcol lastcol rcond shift k t t2 hk)
      (fun k t t2 ht hk => makeaDiag_capacity nz nz2 firstcol lastcol rcond shift k t t2 ht hk)
      _ _ s1 s2 hq hdiag
    simp only [if_pos hq, Run.bind, c2]
    by_cases hq2 : s2.nnza ≤ nz
    · simp only [if_pos hq2]
    · simp only [if_neg hq2]
  · have hq2 : ¬ s2.nnza ≤ nz := by omega
    simp only [if_neg hq, if_neg hq2, Run.bind]

theorem withinCapacity_append (nz : Nat) (s0 s : MakeaState) (r c : Nat) (e : ℚ)
    (h : WithinCapacity nz s0 s) (hq : ¬ s.nnza + 1 > nz) :
    WithinCapacity nz s0
      { s with nnza := s.nnza + 1, acol := setAt s.acol (s.nnza + 1) c,
               arow := setAt s.arow (s.nnza + 1) r, aelt := setAt s.aelt (s.nnza + 1) e } := by
  refine ⟨by simpa using hq, ?_⟩
  intro t ht
  have hne : t ≠ s.nnza + 1 := by omega
  simp only [setAt_other _ _ hne]
  exact h.2 t ht

theorem makeaInner_within (nz firstrow lastrow jcol : Nat) (scale : ℚ) (i : Nat)
    (s0 s s2 : MakeaState) (h : WithinCapacity nz s0 s)
    (hs : makeaInner nz firstrow lastrow jcol scale i s = Run.ok s2) :
    WithinCapacity nz s0 s2 := by
  unfold makeaInner at hs
  split at hs
  · split at hs
    · cases hs
    · rename_i hq
      cases hs
      exact withinCapacity_append nz s0 s _ _ _ h hq
  · cases hs
    exact h

theorem makeaColumn_within (nz firstrow lastrow firstcol lastcol : Nat) (i : Nat)
    (s0 s s2 : MakeaState) (h : WithinCapacity nz s0 s)
    (hs : makeaColumn nz firstrow lastrow firstcol lastcol i s = Run.ok s2) :
    WithinCapacity nz s0 s2 := by
  unfold makeaColumn at hs
  split at hs
  · exact forUpRun_invariant _ (WithinCapacity nz s0)
      (fun k t t2 ht hk => makeaInner_within _ _ _ _ _ k s0 t t2 ht hk) _ _ s s2 h hs
  · cases hs
    exact h

theorem makeaOuter_within (fuel : Nat) (rand : Nat → ℚ) (ratio : ℚ)
    (n nz nonzer firstrow lastrow firstcol lastcol : Nat) (i : Nat) (s0 s s2 : MakeaState)
    (h : WithinCapacity nz s0 s)
    (hs : makeaOuter fuel rand ratio n nz nonzer firstrow lastrow firstcol lastcol i s
      = Run.ok s2) :
    WithinCapacity nz s0 s2 := by
  unfold makeaOuter at hs
  split at hs
  · cases hs
  · rename_i g _
    obtain ⟨mid, hmid, hfin⟩ := Run.bind_eq_ok _ _ _ hs
    cases hfin
    have hm := forUpRun_invariant (makeaColumn nz firstrow lastrow firstcol lastcol)
      (WithinCapacity nz s0)
      (fun k t t2 ht hk => makeaColumn_within nz firstrow lastrow firstcol lastcol k s0 t t2 ht hk)
      _ _ _ mid (by exact ⟨h.1, h.2⟩) hmid
    exact ⟨hm.1, hm.2⟩

theorem makeaDiag_within (nz firstcol lastcol : Nat) (rcond shift : ℚ) (i : Nat)
    (s0 s s2 : MakeaState) (h : WithinCapacity nz s0 s)
    (hs : makeaDiag nz firstcol lastcol rcond shift i s = Run.ok s2) :
    WithinCapacity nz s0 s2 := by
  unfold makeaDiag at hs
  split at hs
  · split at hs
    · cases hs
    · rename_i hq
      cases hs
      exact withinCapacity_append nz s0 s _ _ _ h hq
  · cases hs
    exact h

/-- When `makea` returns, the count of triples is at most `nz` and no element of `arow`,
`acol`, `aelt` beyond index `nz` has been written. -/
theorem makea_within (fuel : Nat) (rand : Nat → ℚ) (cpow : ℚ → ℚ → ℚ)
    (n nz nonzer firstrow lastrow firstcol lastcol : Nat) (rcond shift : ℚ)
    (s out : MakeaState)
    (h : makea fuel rand cpow n nz nonzer firstrow lastrow firstcol lastcol rcond shift s
      = Run.ok out) :
    WithinCapacity nz s out := by
  unfold makea at h
  obtain ⟨s2, h2, hfin⟩ := Run.bind_eq_ok _ _ _ h
  obtain ⟨s1, h1, hdiag⟩ := Run.bind_eq_ok _ _ _ h2
  cases hfin
  have e0 : (forUp (fun i (s : MakeaState) => { s with colidx := setAt s.colidx (n + i) 0 })
      1 n { s with size := 1, nnza := 0 }).nnza = 0 :=
    forUp_preserve _ MakeaState.nnza (by intro _ _; rfl) _ _ _
  have e1 : (forUp (fun i (s : MakeaState) => { s with colidx := setAt s.colidx (n + i) 0 })
      1 n { s with size := 1, nnza := 0 }).arow = s.arow :=
    forUp_preserve _ MakeaState.arow (by intro _ _; rfl) _ _ _
  have e2 : (forUp (fun i (s : MakeaState) => { s with colidx := setAt s.colidx (n + i) 0 })
      1 n { s with size := 1, nnza := 0 }).acol = s.acol :=
    forUp_preserve _ MakeaState.acol (by intro _ _; rfl) _ _ _
  have e3 : (forUp (fun i (s : MakeaState) => { s with colidx := setAt s.colidx (n + i) 0 })
      1 n { s with size := 1, nnza := 0 }).aelt = s.aelt :=
    forUp_preserve _ MakeaState.aelt (by intro _ _; rfl) _ _ _
  have p1 : WithinCapacity nz s s1 := by
    refine forUpRun_invariant _ (WithinCapacity nz s)
      (fun i t t2 ht hk => makeaOuter_within _ _ _ _ _ _ _ _ _ _ i s t t2 ht hk) _ _ _ s1 ?_ h1
    refine ⟨by rw [e0]; exact Nat.zero_le _, ?_⟩
    intro t _
    rw [e1, e2, e3]
    exact ⟨rfl, rfl, rfl⟩
  have p2 : WithinCapacity nz s s2 :=
    forUpRun_invariant _ (WithinCapacity nz s)
      (fun i t t2 ht hk => makeaDiag_within nz firstcol lastcol rcond shift i s t t2 ht hk)
      _ _ s1 s2 p1 hdiag
  exact ⟨p2.1, p2.2⟩

/-- C12: `makea` with the capacity `nz` ends by `exit(1)` exactly when the number of
triples accepted (those of the loop over the columns plus those of the diagonal, as
counted by a run with any capacity `nz2` that returns) exceeds `nz`; and when it
returns, `nnza ≤ nz` and no element of `arow`, `acol`, `aelt` beyond index `nz` has been
written. -/
theorem makea_exit_iff_over_capacity (fuel : Nat) (rand : Nat → ℚ) (cpow : ℚ → ℚ → ℚ)
    (n nz nonzer firstrow lastrow firstcol lastcol : Nat) (rcond shift : ℚ)
    (s : MakeaState) :
    (∀ nz2 out2,
        makea fuel rand cpow n nz2 nonzer firstrow lastrow firstcol lastcol rcond shift s
          = Run.ok out2 →
        (makea fuel rand cpow n nz nonzer firstrow lastrow firstcol lastcol rcond shift s
          = Run.exited ↔ nz < out2.nnza)) ∧
      (∀ out,
        makea fuel rand cpow n nz nonzer firstrow lastrow firstcol lastcol rcond shift s
          = Run.ok out →
        out.nnza ≤ nz ∧
          ∀ t, nz < t →
            out.arow t = s.arow t ∧ out.acol t = s.acol t ∧ out.aelt t = s.aelt t) := by
  refine ⟨?_, ?_⟩
  · intro nz2 out2 h2
    rw [makea_capacity fuel rand cpow n nz nz2 nonzer firstrow lastrow firstcol lastcol rcond
      shift s out2 h2]
    by_cases hq : out2.nnza ≤ nz
    · rw [if_pos hq]
      constructor
      · intro h
        cases h
      · intro h
        omega
    · rw [if_neg hq]
      exact ⟨fun _ => by omega, fun _ => rfl⟩
  · intro out h
    exact makea_within fuel rand cpow n nz nonzer firstrow lastrow firstcol lastcol rcond
      shift s out h

/-- Instance of C12: the example matrix has 30 triples; with the capacity 100 `makea`
returns, with the capacity 29 it ends by `exit(1)`, with the capacity 30 it returns. -/
theorem makea_exit_iff_over_capacity_witness :
    (makea 40 npbStream (fun _ _ => 1 / 2) 4 29 2 1 4 1 4 (1 / 10) 10 MakeaState.blank
        = Run.exited ↔ 29 < (demoMakea.getD MakeaState.blank).nnza) ∧
      (makea 40 npbStream (fun _ _ => 1 / 2) 4 30 2 1 4 1 4 (1 / 10) 10 MakeaState.blank
        = Run.exited ↔ 30 < (demoMakea.getD MakeaState.blank).nnza) ∧
      (demoMakea.getD MakeaState.blank).nnza = 30 :=
  ⟨(makea_exit_iff_over_capacity 40 npbStream (fun _ _ => 1 / 2) 4 29 2 1 4 1 4 (1 / 10) 10
      MakeaState.blank).1 100 (demoMakea.getD MakeaState.blank)
      (Run.eq_ok_of_isOk demoMakea MakeaState.blank (by decide!)),
   (makea_exit_iff_over_capacity 40 npbStream (fun _ _ => 1 / 2) 4 30 2 1 4 1 4 (1 / 10) 10
      MakeaState.blank).1 100 (demoMakea.getD MakeaState.blank)
      (Run.eq_ok_of_isOk demoMakea MakeaState.blank (by decide!)),
   by decide!⟩

/-! ## The rows `makea` materialises and the partition of the rows -/

/-- C13, refuted as stated: with 2 workers and `NA = 4`, worker 0 owns the rows `[1, 2]`,
but its call of `makea` (with `firstrow = 1`, `lastrow = NA` as `main` sets them) stores
as last triple the diagonal triple of row 4. -/
theorem makea_row_outside_owned_partition :
    demoMakea.isOk = true ∧ beg (4 + 1 - 1) 2 0 = 1 ∧ end_ (4 + 1 - 1) 2 0 = 2 ∧
      ∃ t, 1 ≤ t ∧ t ≤ (demoMakea.getD MakeaState.blank).nnza ∧
        ¬ (beg (4 + 1 - 1) 2 0 ≤ (demoMakea.getD MakeaState.blank).arow t ∧
           (demoMakea.getD MakeaState.blank).arow t ≤ end_ (4 + 1 - 1) 2 0) :=
  ⟨by decide!, by decide, by decide, 30, by decide, by decide!, by decide!⟩

/-- C13, amended: every triple a call of `makea` materialises has its row in
`[firstrow, lastrow]`, the range the caller passes, which does not depend on the worker;
the rows `[beg_row, end_row]` a worker owns lie inside `[1, lastrow - firstrow + 1]` and
are all of them when there is one worker. -/
theorem makea_rows_in_passed_range (fuel : Nat) (rand : Nat → ℚ) (cpow : ℚ → ℚ → ℚ)
    (n nz nonzer firstrow lastrow firstcol lastcol : Nat) (rcond shift : ℚ)
    (s out : MakeaState) (numWorkers workerId : Nat)
    (h : makea fuel rand cpow n nz nonzer firstrow lastrow firstcol lastcol rcond shift s
      = Run.ok out)
    (hw : workerId < numWorkers) :
    (∀ t, 1 ≤ t → t ≤ out.nnza → firstrow ≤ out.arow t ∧ out.arow t ≤ lastrow) ∧
      1 ≤ beg (lastrow + 1 - firstrow) numWorkers workerId ∧
      end_ (lastrow + 1 - firstrow) numWorkers workerId ≤ lastrow + 1 - firstrow ∧
      (numWorkers = 1 →
        beg (lastrow + 1 - firstrow) numWorkers workerId = 1 ∧
        end_ (lastrow + 1 - firstrow) numWorkers workerId = lastrow + 1 - firstrow) := by
  obtain ⟨s2, hin, _, _, _, hn, harow, _, _⟩ :=
    makea_ok fuel rand cpow n nz nonzer firstrow lastrow firstcol lastcol rcond shift s out h
  refine ⟨?_, ?_, end_le_size hw, ?_⟩
  · intro t h1 h2
    rw [harow]
    rw [hn] at h2
    exact (hin t h1 h2).1
  · unfold beg
    omega
  · intro h1
    subst h1
    have h0 : workerId = 0 := by omega
    subst h0
    exact ⟨by simp [beg], end_of_last rfl⟩

/-- Instance of the amended C13 on the example run, for worker 0 of 2. -/
theorem makea_rows_in_passed_range_witness :
    (∀ t, 1 ≤ t → t ≤ (demoMakea.getD MakeaState.blank).nnza →
        1 ≤ (demoMakea.getD MakeaState.blank).arow t ∧
        (demoMakea.getD MakeaState.blank).arow t ≤ 4) ∧
      1 ≤ beg (4 + 1 - 1) 2 0 ∧ end_ (4 + 1 - 1) 2 0 ≤ 4 + 1 - 1 ∧
      (2 = 1 → beg (4 + 1 - 1) 2 0 = 1 ∧ end_ (4 + 1 - 1) 2 0 = 4 + 1 - 1) :=
  makea_rows_in_passed_range 40 npbStream (fun _ _ => 1 / 2) 4 100 2 1 4 1 4 (1 / 10) 10
    MakeaState.blank (demoMakea.getD MakeaState.blank) 2 0
    (Run.eq_ok_of_isOk demoMakea MakeaState.blank (by decide!)) (by decide)

/-! ## Phases: the workers of a phase in any order -/

theorem runPhase_nil {K : Type} (seg : Nat → Worker K → Worker K) (g : World K) :
    runPhase [] seg g = g := rfl

theorem runPhase_cons {K : Type} (seg : Nat → Worker K → Worker K) (a : Nat) (l : List Nat)
    (g : World K) : runPhase (a :: l) seg g = runPhase l seg (step seg a g) := rfl

theorem step_glob {K : Type} (seg : Nat → Worker K → Worker K) (u : Nat) (g : World K) :
    (step seg u g).glob = (seg u { glob := g.glob, node := g.node u }).glob := rfl

theorem step_node_same {K : Type} (seg : Nat → Worker K → Worker K) (u : Nat) (g : World K) :
    (step seg u g).node u = (seg u { glob := g.glob, node := g.node u }).node := by
  simp [step, setAt]

theorem step_node_other {K : Type} (seg : Nat → Worker K → Worker K) (u u2 : Nat)
    (g : World K) (h : u2 ≠ u) : (step seg u g).node u2 = g.node u2 := by
  simp [step, setAt, h]

/-- Freedom from races gives independence of the schedule: when the code of a phase keeps
to an ownership in which no element has two owners, then in whatever order the workers
`l` run, each leaves in its own memory and in the elements it owns what it would leave
running alone from the state at the barrier, and all other elements are untouched. -/
theorem runPhase_confined {K : Type} (ws : List Nat) (own : Nat → Fld → Nat → Prop)
    (seg : Nat → Worker K → Worker K) (hc : Confined ws own seg) (hd : OwnDisjoint ws own)
    (l : List Nat) (hl : ∀ u, u ∈ l → u ∈ ws) (hnd : l.Nodup) (g : World K) :
    (∀ u, u ∈ l →
        (runPhase l seg g).node u = (seg u { glob := g.glob, node := g.node u }).node ∧
        ∀ f j, own u f j →
          (runPhase l seg g).glob.get f j
            = (seg u { glob := g.glob, node := g.node u }).glob.get f j) ∧
      (∀ u, u ∉ l → (runPhase l seg g).node u = g.node u) ∧
      (∀ f j, (∀ u, u ∈ l → ¬ own u f j) →
        (runPhase l seg g).glob.get f j = g.glob.get f j) := by
  induction l generalizing g with
  | nil =>
    refine ⟨fun u hu => absurd hu (List.not_mem_nil u), fun _ _ => rfl, fun _ _ _ => rfl⟩
  | cons a l ih =>
    have ha : a ∈ ws := hl a (List.mem_cons_self a l)
    have hl2 : ∀ u, u ∈ l → u ∈ ws := fun u hu => hl u (List.mem_cons_of_mem a hu)
    have hnd2 := List.nodup_cons.mp hnd
    obtain ⟨i1, i2, i3⟩ := ih hl2 hnd2.2 (step seg a g)
    rw [runPhase_cons]
    refine ⟨?_, ?_, ?_⟩
    · intro u hu
      rcases List.mem_cons.mp hu with hua | hul
      · subst hua
        refine ⟨?_, ?_⟩
        · rw [i2 u hnd2.1, step_node_same]
        · intro f j hown
          rw [i3 f j ?_, step_glob]
          intro u2 hu2 hown2
          have hne : u ≠ u2 := fun e => hnd2.1 (e ▸ hu2)
          exact hd u ha u2 (hl2 u2 hu2) hne f j ⟨hown, hown2⟩
      · have hne : u ≠ a := fun e => hnd2.1 (e ▸ hul)
        obtain ⟨j1, j2⟩ := i1 u hul
        have hu : u ∈ ws := hl2 u hul
        have hdep := hc.2 u hu
          { glob := (step seg a g).glob, node := (step seg a g).node u }
          { glob := g.glob, node := g.node u } (step_node_other seg a u g hne)
          (by
            intro f j hfree
            rw [step_glob]
            exact hc.1 a ha _ f j (hfree a ha (fun e => hne e.symm)))
        refine ⟨j1.trans hdep.1, ?_⟩
        intro f j hown
        rw [j2 f j hown]
        exact hdep.2 f j hown
    · intro u hu
      rw [List.mem_cons, not_or] at hu
      rw [i2 u hu.2, step_node_other seg a u g hu.1]
    · intro f j hfree
      rw [i3 f j (fun u hu => hfree u (List.mem_cons_of_mem a hu)), step_glob]
      exact hc.1 a ha _ f j (hfree a (List.mem_cons_self a l))

/-! ## Loops over one array and loops that accumulate -/

/-- A loop whose `t`-th state is known in closed form. -/
theorem forUp_closed {σ : Type} (body : Nat → σ → σ) (F : Nat → σ) (lo cnt : Nat)
    (hstep : ∀ t, t < cnt → body (lo + t) (F t) = F (t + 1)) :
    forUp body lo cnt (F 0) = F cnt := by
  induction cnt with
  | zero => rfl
  | succ m ih =>
    rw [forUp_succ_last, ih (fun t ht => hstep t (by omega)), hstep m (by omega)]

theorem setAt_below {β : Type} (f old : Nat → β) (lo m : Nat) :
    setAt (fun k => if lo ≤ k ∧ k < lo + m then f k else old k) (lo + m) (f (lo + m))
      = fun k => if lo ≤ k ∧ k < lo + (m + 1) then f k else old k := by
  funext k
  unfold setAt
  by_cases hk : k = lo + m
  · subst hk
    simp
  · by_cases h2 : lo ≤ k ∧ k < lo + m
    · have h3 : lo ≤ k ∧ k < lo + (m + 1) := ⟨h2.1, by omega⟩
      simp [hk, h2, h3]
    · have h3 : ¬ (lo ≤ k ∧ k < lo + (m + 1)) := by omega
      simp [hk, h2, h3]

/-- A loop that stores into one array, element `j` at iteration `j`, a value that depends
on the array only through its element `j`: `rd` reads the array, `wr` replaces it. -/
theorem forUp_pointwise {σ β : Type} (body : Nat → σ → σ) (rd : σ → Nat → β)
    (wr : σ → (Nat → β) → σ) (val : σ → Nat → β)
    (hbody : ∀ j s, body j s = wr s (setAt (rd s) j (val s j)))
    (hrd : ∀ s f, rd (wr s f) = f)
    (hwr : ∀ s f f2, wr (wr s f) f2 = wr s f2)
    (hval : ∀ s f j, f j = rd s j → val (wr s f) j = val s j)
    (hid : ∀ s, wr s (rd s) = s)
    (lo cnt : Nat) (s : σ) :
    forUp body lo cnt s
      = wr s (fun k => if lo ≤ k ∧ k < lo + cnt then val s k else rd s k) := by
  have h := forUp_closed body
    (fun t => wr s (fun k => if lo ≤ k ∧ k < lo + t then val s k else rd s k)) lo cnt
    (by
      intro t _
      show body (lo + t) (wr s _) = wr s _
      rw [hbody, hrd, hwr, hval s _ (lo + t) (by simp), setAt_below])
  have h0 : wr s (fun k => if lo ≤ k ∧ k < lo + 0 then val s k else rd s k) = s := by
    have e : (fun k => if lo ≤ k ∧ k < lo + 0 then val s k else rd s k) = rd s := by
      funext k
      have : ¬ (lo ≤ k ∧ k < lo + 0) := by omega
      simp [this]
    rw [e, hid]
  simp only [h0] at h
  exact h

/-- A loop that adds a term to a scalar at each iteration, the terms not depending on the
scalar: `rd` reads the scalar, `wr` replaces it. -/
theorem forUp_accum {σ M : Type} [AddCommMonoid M] (body : Nat → σ → σ) (rd : σ → M)
    (wr : σ → M → σ) (t : σ → Nat → M)
    (hbody : ∀ j s, body j s = wr s (rd s + t s j))
    (hrd : ∀ s a, rd (wr s a) = a)
    (hwr : ∀ s a b, wr (wr s a) b = wr s b)
    (ht : ∀ s a j, t (wr s a) j = t s j)
    (hid : ∀ s, wr s (rd s) = s)
    (lo cnt : Nat) (s : σ) :
    forUp body lo cnt s = wr s (rd s + ∑ k ∈ Finset.Ico lo (lo + cnt), t s k) := by
  have h := forUp_closed body
    (fun m => wr s (rd s + ∑ k ∈ Finset.Ico lo (lo + m), t s k)) lo cnt
    (by
      intro m _
      show body (lo + m) (wr s _) = wr s _
      rw [hbody, hrd, hwr, ht, ← Nat.add_assoc, Finset.sum_Ico_succ_top (by omega), add_assoc])
  have h0 : wr s (rd s + ∑ k ∈ Finset.Ico lo (lo + 0), t s k) = s := by
    simp [hid]
  simp only [h0] at h
  exact h

/-- The sum a counted loop accumulates. -/
theorem forUp_sum {M : Type} [AddCommMonoid M] (f : Nat → M) (lo cnt : Nat) (acc : M) :
    forUp (fun k (acc : M) => acc + f k) lo cnt acc
      = acc + ∑ k ∈ Finset.Ico lo (lo + cnt), f k :=
  forUp_accum (fun k (acc : M) => acc + f k) (fun acc => acc) (fun _ a => a) (fun _ k => f k)
    (fun _ _ => rfl) (fun _ _ => rfl) (fun _ _ _ => rfl) (fun _ _ _ => rfl) (fun _ => rfl)
    lo cnt acc

/-- The indices of the loop `for (j = lo; j <= hi; j++)`. -/
theorem Ico_loop (lo hi : Nat) : Finset.Ico lo (lo + (hi + 1 - lo)) = Finset.Icc lo hi := by
  ext k
  simp only [Finset.mem_Ico, Finset.mem_Icc]
  omega

theorem loop_index_iff (lo hi k : Nat) :
    (lo ≤ k ∧ k < lo + (hi + 1 - lo)) ↔ (lo ≤ k ∧ k ≤ hi) := by
  omega

/-- The indices of the loop `for (k = lo; k < hi; k++)`. -/
theorem Ico_loop_lt (lo hi : Nat) : Finset.Ico lo (lo + (hi - lo)) = Finset.Ico lo hi := by
  ext k
  simp only [Finset.mem_Ico]
  omega

/-! ## What one worker's code does, in closed form -/

theorem onFirst_zero {β : Type} (lo : Nat) (f old : Nat → β) : onFirst lo 0 f old = old := by
  funext k
  have : ¬ (lo ≤ k ∧ k < lo + 0) := by omega
  simp [onFirst, this]

theorem onFirst_succ {β : Type} (lo t : Nat) (f old : Nat → β) :
    setAt (onFirst lo t f old) (lo + t) (f (lo + t)) = onFirst lo (t + 1) f old :=
  setAt_below f old lo t

theorem onFirst_loop {β : Type} (lo hi : Nat) (f old : Nat → β) :
    onFirst lo (hi + 1 - lo) f old = onRange lo hi f old := by
  funext k
  simp only [onFirst, onRange, loop_index_iff]

theorem onFirst_at {β : Type} (lo t : Nat) (f old : Nat → β) :
    onFirst lo t f old (lo + t) = old (lo + t) := by
  have : ¬ (lo ≤ lo + t ∧ lo + t < lo + t) := by omega
  simp [onFirst, this]

theorem onRange_in {β : Type} {lo hi k : Nat} (f old : Nat → β) (h : lo ≤ k ∧ k ≤ hi) :
    onRange lo hi f old k = f k := by
  simp [onRange, h]

theorem onRange_out {β : Type} {lo hi k : Nat} (f old : Nat → β) (h : ¬ (lo ≤ k ∧ k ≤ hi)) :
    onRange lo hi f old k = old k := by
  simp [onRange, h]

theorem cgInit_eq {K : Type} [Field K] (G : Globals) (u : Nat) (v : Worker K) :
    cgInit G u v =
      { glob := { v.glob with
          q := onRange (beg_naa G u) (end_naa G u) (fun _ => 0) v.glob.q,
          z := onRange (beg_naa G u) (end_naa G u) (fun _ => 0) v.glob.z,
          r := onRange (beg_naa G u) (end_naa G u) v.glob.x v.glob.r,
          p := onRange (beg_naa G u) (end_naa G u) v.glob.x v.glob.p,
          w := onRange (beg_naa G u) (end_naa G u) (fun _ => 0) v.glob.w,
          gnorm_temps := setAt v.glob.gnorm_temps u
            (∑ j ∈ Finset.Icc (beg_col G u) (end_col G u), v.glob.x j * v.glob.x j) },
        node := { v.node with
          rho := ∑ j ∈ Finset.Icc (beg_col G u) (end_col G u), v.glob.x j * v.glob.x j } } := by
  unfold cgInit
  have h1 := forUp_closed
    (fun j (s : Worker K) =>
      let s := { s with glob.q := setAt s.glob.q j 0 }
      let s := { s with glob.z := setAt s.glob.z j 0 }
      let xj := s.glob.x j
      let s := { s with glob.r := setAt s.glob.r j xj }
      let rj := s.glob.r j
      let s := { s with glob.p := setAt s.glob.p j rj }
      { s with glob.w := setAt s.glob.w j 0 })
    (fun t =>
      { glob := { v.glob with
          q := onFirst (beg_naa G u) t (fun _ => 0) v.glob.q,
          z := onFirst (beg_naa G u) t (fun _ => 0) v.glob.z,
          r := onFirst (beg_naa G u) t v.glob.x v.glob.r,
          p := onFirst (beg_naa G u) t v.glob.x v.glob.p,
          w := onFirst (beg_naa G u) t (fun _ => 0) v.glob.w },
        node := { v.node with rho := 0 } })
    (beg_naa G u) (end_naa G u + 1 - beg_naa G u)
    (by
      intro t _
      simp only [setAt_same]
      exact Worker.ext (GlobalMem.ext rfl rfl
        (onFirst_succ _ t (fun _ => (0 : K)) v.glob.z) (onFirst_succ _ t v.glob.x v.glob.p)
        (onFirst_succ _ t (fun _ => (0 : K)) v.glob.q) (onFirst_succ _ t v.glob.x v.glob.r)
        (onFirst_succ _ t (fun _ => (0 : K)) v.glob.w)) rfl)
  simp only [onFirst_zero] at h1
  have h2 := forUp_accum
    (fun j (s : Worker K) =>
      let t := s.glob.x j * s.glob.x j
      { s with node.rho := s.node.rho + t })
    (fun s => s.node.rho) (fun s a => { s with node.rho := a })
    (fun s j => s.glob.x j * s.glob.x j)
    (fun _ _ => rfl) (fun _ _ => rfl) (fun _ _ _ => rfl) (fun _ _ _ => rfl) (fun _ => rfl)
    (beg_col G u) (end_col G u + 1 - beg_col G u)
  simp only [h1, h2, Ico_loop, onFirst_loop, zero_add]

theorem cgSumRho_eq {K : Type} [Field K] (G : Globals) (u : Nat) (v : Worker K) :
    cgSumRho G u v
      = { v with node.rho := gather v.glob.gnorm_temps G.numtasks u v.node.rho } := rfl

theorem cgStart_eq {K : Type} [Field K] (G : Globals) (u : Nat) (v : Worker K) :
    cgStart G u v = { v with node.rho0 := v.node.rho, node.d := 0, node.rho := 0 } := rfl

/-- The inner loop of the product is the sum over the row. -/
theorem row_loop {K : Type} [Field K] (nd : NodeMem K) (vec : Nat → K) (j : Nat) :
    forUp (fun k (sum : K) => sum + nd.a k * vec (nd.colidx k)) (nd.rowstr j)
        (nd.rowstr (j + 1) - nd.rowstr j) 0
      = csrApply nd vec j := by
  rw [forUp_sum, Ico_loop_lt, zero_add]
  rfl

theorem cgMatVec_eq {K : Type} [Field K] (G : Globals) (u : Nat) (v : Worker K) :
    cgMatVec G u v
      = { v with glob.w :=
            onRange (beg_row G u) (end_row G u) (csrApply v.node v.glob.p) v.glob.w } := by
  unfold cgMatVec
  have h := forUp_pointwise
    (fun j (s : Worker K) =>
      let sum := forUp (fun k (sum : K) => sum + s.node.a k * s.glob.p (s.node.colidx k))
        (s.node.rowstr j) (s.node.rowstr (j + 1) - s.node.rowstr j) 0
      { s with glob.w := setAt s.glob.w j sum })
    (fun s => s.glob.w) (fun s f => { s with glob.w := f })
    (fun s j => csrApply s.node s.glob.p j)
    (fun j s => by simp only [row_loop]) (fun _ _ => rfl) (fun _ _ _ => rfl)
    (fun _ _ _ _ => rfl) (fun _ => rfl) (beg_row G u) (end_row G u + 1 - beg_row G u) v
  rw [h]
  exact congrArg (fun f => ({ v with glob.w := f } : Worker K)) (onFirst_loop _ _ _ _)

theorem cgResidualMatVec_eq {K : Type} [Field K] (G : Globals) (u : Nat) (v : Worker K) :
    cgResidualMatVec G u v
      = { glob := { v.glob with
            w := onRange (beg_row G u) (end_row G u) (csrApply v.node v.glob.z) v.glob.w },
          node := { v.node with sum := 0 } } := by
  unfold cgResidualMatVec
  have h := forUp_pointwise
    (fun j (s : Worker K) =>
      let d := forUp (fun k (d : K) => d + s.node.a k * s.glob.z (s.node.colidx k))
        (s.node.rowstr j) (s.node.rowstr (j + 1) - s.node.rowstr j) 0
      { s with glob.w := setAt s.glob.w j d })
    (fun s => s.glob.w) (fun s f => { s with glob.w := f })
    (fun s j => csrApply s.node s.glob.z j)
    (fun j s => by simp only [row_loop]) (fun _ _ => rfl) (fun _ _ _ => rfl)
    (fun _ _ _ _ => rfl) (fun _ => rfl) (beg_row G u) (end_row G u + 1 - beg_row G u)
    { v with node.sum := 0 }
  simp only [h]
  exact congrArg
    (fun f => ({ glob := { v.glob with w := f }, node := { v.node with sum := 0 } } : Worker K))
    (onFirst_loop _ _ _ _)

/-- The loop `for (j = lo; j <= hi; j++)` that stores into one array. -/
theorem forUp_range {σ β : Type} (body : Nat → σ → σ) (rd : σ → Nat → β)
    (wr : σ → (Nat → β) → σ) (val : σ → Nat → β)
    (hbody : ∀ j s, body j s = wr s (setAt (rd s) j (val s j)))
    (hrd : ∀ s f, rd (wr s f) = f)
    (hwr : ∀ s f f2, wr (wr s f) f2 = wr s f2)
    (hval : ∀ s f j, f j = rd s j → val (wr s f) j = val s j)
    (hid : ∀ s, wr s (rd s) = s)
    (lo hi : Nat) (s : σ) :
    forUp body lo (hi + 1 - lo) s = wr s (onRange lo hi (val s) (rd s)) := by
  rw [forUp_pointwise body rd wr val hbody hrd hwr hval hid]
  exact congrArg (wr s) (onFirst_loop lo hi (val s) (rd s))

/-- The loop `for (j = lo; j <= hi; j++)` that accumulates into a scalar. -/
theorem forUp_accum_range {σ M : Type} [AddCommMonoid M] (body : Nat → σ → σ) (rd : σ → M)
    (wr : σ → M → σ) (t : σ → Nat → M)
    (hbody : ∀ j s, body j s = wr s (rd s + t s j))
    (hrd : ∀ s a, rd (wr s a) = a)
    (hwr : ∀ s a b, wr (wr s a) b = wr s b)
    (ht : ∀ s a j, t (wr s a) j = t s j)
    (hid : ∀ s, wr s (rd s) = s)
    (lo hi : Nat) (s : σ) :
    forUp body lo (hi + 1 - lo) s = wr s (rd s + ∑ k ∈ Finset.Icc lo hi, t s k) := by
  rw [forUp_accum body rd wr t hbody hrd hwr ht hid, Ico_loop]

theorem sum_onRange {K : Type} [Field K] (lo hi : Nat) (f g old : Nat → K) :
    ∑ j ∈ Finset.Icc lo hi, f j * onRange lo hi g old j = ∑ j ∈ Finset.Icc lo hi, f j * g j := by
  apply Finset.sum_congr rfl
  intro j hj
  rw [onRange_in _ _ (Finset.mem_Icc.mp hj)]

theorem cgDot_eq {K : Type} [Field K] (G : Globals) (u : Nat) (v : Worker K) :
    cgDot G u v =
      { glob := { v.glob with
          q := onRange (beg_col G u) (end_col G u) v.glob.w v.glob.q,
          w := onRange (beg_col G u) (end_col G u) (fun _ => 0) v.glob.w,
          gnorm_temps := setAt v.glob.gnorm_temps u
            (v.node.d + ∑ j ∈ Finset.Icc (beg_col G u) (end_col G u), v.glob.p j * v.glob.w j) },
        node := { v.node with
          d := v.node.d
            + ∑ j ∈ Finset.Icc (beg_col G u) (end_col G u), v.glob.p j * v.glob.w j } } := by
  unfold cgDot
  have h1 := forUp_range
    (fun j (s : Worker K) =>
      let wj := s.glob.w j
      { s with glob.q := setAt s.glob.q j wj })
    (fun s => s.glob.q) (fun s f => { s with glob.q := f }) (fun s j => s.glob.w j)
    (fun _ _ => rfl) (fun _ _ => rfl) (fun _ _ _ => rfl) (fun _ _ _ _ => rfl) (fun _ => rfl)
    (beg_col G u) (end_col G u) v
  have h2 := forUp_range
    (fun j (s : Worker K) => { s with glob.w := setAt s.glob.w j 0 })
    (fun s => s.glob.w) (fun s f => { s with glob.w := f }) (fun _ _ => (0 : K))
    (fun _ _ => rfl) (fun _ _ => rfl) (fun _ _ _ => rfl) (fun _ _ _ _ => rfl) (fun _ => rfl)
    (beg_col G u) (end_col G u)
  have h3 := forUp_accum_range
    (fun j (s : Worker K) =>
      let t := s.glob.p j * s.glob.q j
      { s with node.d := s.node.d + t })
    (fun s => s.node.d) (fun s a => { s with node.d := a })
    (fun s j => s.glob.p j * s.glob.q j)
    (fun _ _ => rfl) (fun _ _ => rfl) (fun _ _ _ => rfl) (fun _ _ _ => rfl) (fun _ => rfl)
    (beg_col G u) (end_col G u)
  simp only [h1, h2, h3, sum_onRange]

theorem cgNorm_eq {K : Type} [Field K] (G : Globals) (u : Nat) (v : Worker K) :
    cgNorm G u v =
      { glob := { v.glob with
          gnorm_temps := setAt v.glob.gnorm_temps u
            (v.node.rho
              + ∑ j ∈ Finset.Icc (beg_col G u) (end_col G u), v.glob.r j * v.glob.r j) },
        node := { v.node with
          rho := v.node.rho
            + ∑ j ∈ Finset.Icc (beg_col G u) (end_col G u), v.glob.r j * v.glob.r j } } := by
  unfold cgNorm
  have h3 := forUp_accum_range
    (fun j (s : Worker K) =>
      let t := s.glob.r j * s.glob.r j
      { s with node.rho := s.node.rho + t })
    (fun s => s.node.rho) (fun s a => { s with node.rho := a })
    (fun s j => s.glob.r j * s.glob.r j)
    (fun _ _ => rfl) (fun _ _ => rfl) (fun _ _ _ => rfl) (fun _ _ _ => rfl) (fun _ => rfl)
    (beg_col G u) (end_col G u)
  simp only [h3]

theorem cgDirection_eq {K : Type} [Field K] (G : Globals) (u : Nat) (v : Worker K) :
    cgDirection G u v =
      { glob := { v.glob with
          p := onRange (beg_col G u) (end_col G u)
            (fun k => v.glob.r k
              + gather v.glob.gnorm_temps G.numtasks u v.node.rho / v.node.rho0 * v.glob.p k)
            v.glob.p },
        node := { v.node with
          rho := gather v.glob.gnorm_temps G.numtasks u v.node.rho,
          beta := gather v.glob.gnorm_temps G.numtasks u v.node.rho / v.node.rho0 } } := by
  unfold cgDirection
  have h1 := forUp_range
    (fun j (s : Worker K) =>
      let pj := s.glob.r j + s.node.beta * s.glob.p j
      { s with glob.p := setAt s.glob.p j pj })
    (fun s => s.glob.p) (fun s f => { s with glob.p := f })
    (fun s j => s.glob.r j + s.node.beta * s.glob.p j)
    (fun _ _ => rfl) (fun _ _ => rfl) (fun _ _ _ => rfl)
    (fun s f j hf => by
      show s.glob.r j + s.node.beta * f j = s.glob.r j + s.node.beta * s.glob.p j
      rw [hf])
    (fun _ => rfl)
    (beg_col G u) (end_col G u)
  simp only [h1, cgSumRho_eq]

theorem cgAxpy_eq {K : Type} [Field K] (G : Globals) (u : Nat) (v : Worker K) :
    cgAxpy G u v =
      { glob := { v.glob with
          z := onRange (beg_col G u) (end_col G u)
            (fun k => v.glob.z k
              + v.node.rho0 / gather v.glob.gnorm_temps G.numtasks u v.node.d * v.glob.p k)
            v.glob.z,
          r := onRange (beg_col G u) (end_col G u)
            (fun k => v.glob.r k
              - v.node.rho0 / gather v.glob.gnorm_temps G.numtasks u v.node.d * v.glob.q k)
            v.glob.r },
        node := { v.node with
          d := gather v.glob.gnorm_temps G.numtasks u v.node.d,
          alpha := v.node.rho0 / gather v.glob.gnorm_temps G.numtasks u v.node.d } } := by
  unfold cgAxpy
  have key : ∀ (s : Worker K) (lo hi : Nat),
      forUp (fun j (s : Worker K) =>
          let zj := s.glob.z j + s.node.alpha * s.glob.p j
          let s := { s with glob.z := setAt s.glob.z j zj }
          let rj := s.glob.r j - s.node.alpha * s.glob.q j
          { s with glob.r := setAt s.glob.r j rj }) lo (hi + 1 - lo) s
        = { s with
            glob.z := onRange lo hi (fun k => s.glob.z k + s.node.alpha * s.glob.p k) s.glob.z,
            glob.r := onRange lo hi (fun k => s.glob.r k - s.node.alpha * s.glob.q k) s.glob.r }
      := by
    intro s lo hi
    have h := forUp_closed
      (fun j (s : Worker K) =>
          let zj := s.glob.z j + s.node.alpha * s.glob.p j
          let s := { s with glob.z := setAt s.glob.z j zj }
          let rj := s.glob.r j - s.node.alpha * s.glob.q j
          { s with glob.r := setAt s.glob.r j rj })
      (fun t =>
        { s with
          glob.z := onFirst lo t (fun k => s.glob.z k + s.node.alpha * s.glob.p k) s.glob.z,
          glob.r := onFirst lo t (fun k => s.glob.r k - s.node.alpha * s.glob.q k) s.glob.r })
      lo (hi + 1 - lo)
      (by
        intro t _
        simp only [onFirst_at]
        exact Worker.ext (GlobalMem.ext rfl rfl
          (onFirst_succ lo t (fun k => s.glob.z k + s.node.alpha * s.glob.p k) s.glob.z) rfl rfl
          (onFirst_succ lo t (fun k => s.glob.r k - s.node.alpha * s.glob.q k) s.glob.r) rfl)
          rfl)
    simp only [onFirst_zero, onFirst_loop] at h
    exact h
  simp only [key]

theorem cgResidual_eq {K : Type} [Field K] (G : Globals) (u : Nat) (v : Worker K) :
    cgResidual G u v =
      { glob := { v.glob with
          r := onRange (beg_col G u) (end_col G u) v.glob.w v.glob.r,
          gnorm_temps := setAt v.glob.gnorm_temps u
            (v.node.sum + ∑ j ∈ Finset.Icc (beg_col G u) (end_col G u),
              (v.glob.x j - v.glob.w j) * (v.glob.x j - v.glob.w j)) },
        node := { v.node with
          sum := v.node.sum + ∑ j ∈ Finset.Icc (beg_col G u) (end_col G u),
            (v.glob.x j - v.glob.w j) * (v.glob.x j - v.glob.w j) } } := by
  unfold cgResidual
  have h1 := forUp_range
    (fun j (s : Worker K) =>
      let wj := s.glob.w j
      { s with glob.r := setAt s.glob.r j wj })
    (fun s => s.glob.r) (fun s f => { s with glob.r := f }) (fun s j => s.glob.w j)
    (fun _ _ => rfl) (fun _ _ => rfl) (fun _ _ _ => rfl) (fun _ _ _ _ => rfl) (fun _ => rfl)
    (beg_col G u) (end_col G u) v
  have h3 := forUp_accum_range
    (fun j (s : Worker K) =>
      let d := s.glob.x j - s.glob.r j
      { s with node.sum := s.node.sum + d * d })
    (fun s => s.node.sum) (fun s a => { s with node.sum := a })
    (fun s j => (s.glob.x j - s.glob.r j) * (s.glob.x j - s.glob.r j))
    (fun _ _ => rfl) (fun _ _ => rfl) (fun _ _ _ => rfl) (fun _ _ _ => rfl) (fun _ => rfl)
    (beg_col G u) (end_col G u)
  simp only [h1, h3]
  have e : ∑ j ∈ Finset.Icc (beg_col G u) (end_col G u),
        (v.glob.x j - onRange (beg_col G u) (end_col G u) v.glob.w v.glob.r j)
          * (v.glob.x j - onRange (beg_col G u) (end_col G u) v.glob.w v.glob.r j)
      = ∑ j ∈ Finset.Icc (beg_col G u) (end_col G u),
        (v.glob.x j - v.glob.w j) * (v.glob.x j - v.glob.w j) := by
    apply Finset.sum_congr rfl
    intro j hj
    rw [onRange_in _ _ (Finset.mem_Icc.mp hj)]
  simp only [e]

theorem cgRnorm_eq {K : Type} [Field K] (csqrt : K → K) (G : Globals) (u : Nat)
    (v : Worker K) :
    cgRnorm csqrt G u v =
      { v with
        node.sum := gather v.glob.gnorm_temps G.numtasks u v.node.sum,
        node.rnorm := csqrt (gather v.glob.gnorm_temps G.numtasks u v.node.sum) } := rfl

theorem mainSetX_eq {K : Type} [Field K] (NA : Nat) (G : Globals) (u : Nat) (v : Worker K) :
    mainSetX NA G u v =
      { glob := { v.glob with
          x := onRange (beg (NA + 1) G.numtasks u) (end_ (NA + 1) G.numtasks u) (fun _ => 1)
            v.glob.x },
        node := { v.node with zeta := 0 } } := by
  unfold mainSetX
  have h1 := forUp_range
    (fun i (s : Worker K) => { s with glob.x := setAt s.glob.x i 1 })
    (fun s => s.glob.x) (fun s f => { s with glob.x := f }) (fun _ _ => (1 : K))
    (fun _ _ => rfl) (fun _ _ => rfl) (fun _ _ _ => rfl) (fun _ _ _ _ => rfl) (fun _ => rfl)
    (beg (NA + 1) G.numtasks u) (end_ (NA + 1) G.numtasks u) v
  simp only [h1]

/-- The loop of `main` that accumulates `norm_temp11` and `norm_temp12`. -/
theorem norms_loop {K : Type} [Field K] (lo hi : Nat) (s : Worker K) :
    forUp (fun j (s : Worker K) =>
        let t := s.glob.x j * s.glob.z j
        let s := { s with node.norm_temp11 := s.node.norm_temp11 + t }
        let t := s.glob.z j * s.glob.z j
        { s with node.norm_temp12 := s.node.norm_temp12 + t }) lo (hi + 1 - lo) s
      = { s with
          node.norm_temp11 := s.node.norm_temp11 + ∑ j ∈ Finset.Icc lo hi, s.glob.x j * s.glob.z j,
          node.norm_temp12 := s.node.norm_temp12 + ∑ j ∈ Finset.Icc lo hi, s.glob.z j * s.glob.z j }
    := by
  have h := forUp_closed
    (fun j (s : Worker K) =>
        let t := s.glob.x j * s.glob.z j
        let s := { s with node.norm_temp11 := s.node.norm_temp11 + t }
        let t := s.glob.z j * s.glob.z j
        { s with node.norm_temp12 := s.node.norm_temp12 + t })
    (fun t =>
      { s with
        node.norm_temp11 :=
          s.node.norm_temp11 + ∑ j ∈ Finset.Ico lo (lo + t), s.glob.x j * s.glob.z j,
        node.norm_temp12 :=
          s.node.norm_temp12 + ∑ j ∈ Finset.Ico lo (lo + t), s.glob.z j * s.glob.z j })
    lo (hi + 1 - lo)
    (by
      intro t _
      have e : ∀ (a : K) (f : Nat → K),
          a + ∑ j ∈ Finset.Ico lo (lo + t), f j + f (lo + t)
            = a + ∑ j ∈ Finset.Ico lo (lo + (t + 1)), f j := by
        intro a f
        rw [← Nat.add_assoc, Finset.sum_Ico_succ_top (Nat.le_add_right lo t), add_assoc]
      exact Worker.ext rfl (NodeMem.ext rfl rfl rfl rfl rfl rfl rfl rfl rfl rfl rfl
        (e _ (fun j => s.glob.x j * s.glob.z j)) (e _ (fun j => s.glob.z j * s.glob.z j))))
  simp only [Nat.add_zero, Finset.Ico_self, Finset.sum_empty, add_zero, Ico_loop] at h
  exact h

theorem mainNorms_eq {K : Type} [Field K] (G : Globals) (u : Nat) (v : Worker K) :
    mainNorms G u v =
      { glob := { v.glob with
          gnorm_temps := publish2 v.glob.gnorm_temps u
            (∑ j ∈ Finset.Icc (beg_col G u) (end_col G u), v.glob.x j * v.glob.z j)
            (∑ j ∈ Finset.Icc (beg_col G u) (end_col G u), v.glob.z j * v.glob.z j) },
        node := { v.node with
          norm_temp11 := ∑ j ∈ Finset.Icc (beg_col G u) (end_col G u), v.glob.x j * v.glob.z j,
          norm_temp12 := ∑ j ∈ Finset.Icc (beg_col G u) (end_col G u), v.glob.z j * v.glob.z j } }
    := by
  unfold mainNorms
  simp only [norms_loop, zero_add]

theorem mainZeta_eq {K : Type} [Field K] (SHIFT : K) (csqrt : K → K) (G : Globals) (u : Nat)
    (v : Worker K) :
    mainZeta SHIFT csqrt G u v =
      { glob := { v.glob with
          x := onRange (beg_col G u) (end_col G u)
            (fun k => 1 / csqrt (gather2 v.glob.gnorm_temps G.numtasks u
                (v.node.norm_temp11, v.node.norm_temp12)).2 * v.glob.z k)
            v.glob.x },
        node := { v.node with
          norm_temp11 := (gather2 v.glob.gnorm_temps G.numtasks u
            (v.node.norm_temp11, v.node.norm_temp12)).1,
          norm_temp12 := 1 / csqrt (gather2 v.glob.gnorm_temps G.numtasks u
            (v.node.norm_temp11, v.node.norm_temp12)).2,
          zeta := SHIFT + 1 / (gather2 v.glob.gnorm_temps G.numtasks u
            (v.node.norm_temp11, v.node.norm_temp12)).1 } } := by
  unfold mainZeta
  have h1 := forUp_range
    (fun j (s : Worker K) =>
      let xj := s.node.norm_temp12 * s.glob.z j
      { s with glob.x := setAt s.glob.x j xj })
    (fun s => s.glob.x) (fun s f => { s with glob.x := f })
    (fun s j => s.node.norm_temp12 * s.glob.z j)
    (fun _ _ => rfl) (fun _ _ => rfl) (fun _ _ _ => rfl) (fun _ _ _ _ => rfl) (fun _ => rfl)
    (beg_col G u) (end_col G u)
  simp only [h1]

theorem mainWarmNorms_eq {K : Type} [Field K] (csqrt : K → K) (G : Globals) (u : Nat)
    (v : Worker K) :
    mainWarmNorms csqrt G u v =
      { glob := { v.glob with
          x := onRange (beg_col G u) (end_col G u)
            (fun k => 1 / csqrt (∑ j ∈ Finset.Icc (beg_col G u) (end_col G u),
                v.glob.z j * v.glob.z j) * v.glob.z k)
            v.glob.x },
        node := { v.node with
          norm_temp11 := ∑ j ∈ Finset.Icc (beg_col G u) (end_col G u), v.glob.x j * v.glob.z j,
          norm_temp12 := 1 / csqrt (∑ j ∈ Finset.Icc (beg_col G u) (end_col G u),
            v.glob.z j * v.glob.z j) } } := by
  unfold mainWarmNorms
  have h1 := forUp_range
    (fun j (s : Worker K) =>
      let xj := s.node.norm_temp12 * s.glob.z j
      { s with glob.x := setAt s.glob.x j xj })
    (fun s => s.glob.x) (fun s f => { s with glob.x := f })
    (fun s j => s.node.norm_temp12 * s.glob.z j)
    (fun _ _ => rfl) (fun _ _ => rfl) (fun _ _ _ => rfl) (fun _ _ _ _ => rfl) (fun _ => rfl)
    (beg_col G u) (end_col G u)
  simp only [norms_loop, h1, zero_add]

/-! ## The product phase -/

/-- C16: the code of the product phase (lines 533-540) run by worker `workrank` leaves in
`w[j]`, for every row `j` of `[beg_row, end_row]`, the sum of `a[k]*p[colidx[k]]` over
`rowstr[j] <= k < rowstr[j+1]`; it leaves the other elements of `w`, the vectors `p`,
`x`, `z`, `q`, `r`, the buffer `gnorm_temps` and the worker's own memory (the matrix `a`,
`colidx`, `rowstr` and the scalars) as they were. -/
theorem matvec_phase_rows {K : Type} [Field K] (G : Globals) (workrank : Nat) (s : Worker K) :
    (∀ j, beg_row G workrank ≤ j → j ≤ end_row G workrank →
        (cgMatVec G workrank s).glob.w j
          = ∑ k ∈ Finset.Ico (s.node.rowstr j) (s.node.rowstr (j + 1)),
              s.node.a k * s.glob.p (s.node.colidx k)) ∧
      (∀ j, ¬ (beg_row G workrank ≤ j ∧ j ≤ end_row G workrank) →
        (cgMatVec G workrank s).glob.w j = s.glob.w j) ∧
      (cgMatVec G workrank s).glob.p = s.glob.p ∧
      (cgMatVec G workrank s).node.a = s.node.a ∧
      (cgMatVec G workrank s).node.colidx = s.node.colidx ∧
      (cgMatVec G workrank s).node.rowstr = s.node.rowstr ∧
      (cgMatVec G workrank s).node = s.node ∧
      (cgMatVec G workrank s).glob.x = s.glob.x ∧
      (cgMatVec G workrank s).glob.z = s.glob.z ∧
      (cgMatVec G workrank s).glob.q = s.glob.q ∧
      (cgMatVec G workrank s).glob.r = s.glob.r ∧
      (cgMatVec G workrank s).glob.gnorm_temps = s.glob.gnorm_temps := by
  rw [cgMatVec_eq]
  refine ⟨?_, ?_, rfl, rfl, rfl, rfl, rfl, rfl, rfl, rfl, rfl, rfl⟩
  · intro j h1 h2
    exact onRange_in _ _ ⟨h1, h2⟩
  · intro j h
    exact onRange_out _ _ h

/-! ## Ownership in the phases of the solver -/

/-- Two workers of a partition share no index. -/
theorem ranges_disjoint {size numtasks u u2 j : Nat} (hu : u < numtasks) (hu2 : u2 < numtasks)
    (hne : u ≠ u2) :
    ¬ ((beg size numtasks u ≤ j ∧ j ≤ end_ size numtasks u) ∧
       (beg size numtasks u2 ≤ j ∧ j ≤ end_ size numtasks u2)) := by
  intro h
  rcases Nat.lt_or_gt_of_ne hne with h1 | h1
  · have := @end_lt_beg_of_lt size _ _ _ h1 hu2
    omega
  · have := @end_lt_beg_of_lt size _ _ _ h1 hu
    omega

theorem ownRanges_disjoint (arrs : Fld → Prop) (size numtasks : Nat)
    (slot : Nat → Nat → Prop) (hslot : ∀ u u2 j, slot u j → slot u2 j → u = u2) :
    OwnDisjoint (List.range numtasks)
      (ownRanges arrs (beg size numtasks) (end_ size numtasks) slot) := by
  intro u hu u2 hu2 hne f j h
  rw [List.mem_range] at hu hu2
  cases f with
  | gnorm_temps => exact hne (hslot u u2 j h.1 h.2)
  | x => exact ranges_disjoint hu hu2 hne ⟨h.1.2, h.2.2⟩
  | z => exact ranges_disjoint hu hu2 hne ⟨h.1.2, h.2.2⟩
  | p => exact ranges_disjoint hu hu2 hne ⟨h.1.2, h.2.2⟩
  | q => exact ranges_disjoint hu hu2 hne ⟨h.1.2, h.2.2⟩
  | r => exact ranges_disjoint hu hu2 hne ⟨h.1.2, h.2.2⟩
  | w => exact ranges_disjoint hu hu2 hne ⟨h.1.2, h.2.2⟩

/-- Code that keeps to an ownership, followed by code that keeps to it, keeps to it. -/
theorem Confined.comp {K : Type} {ws : List Nat} {own : Nat → Fld → Nat → Prop}
    {f g : Nat → Worker K → Worker K} (hf : Confined ws own f) (hg : Confined ws own g) :
    Confined ws own (fun u s => g u (f u s)) := by
  refine ⟨?_, ?_⟩
  · intro u hu v fl j hn
    show (g u (f u v)).glob.get fl j = _
    rw [hg.1 u hu _ fl j hn, hf.1 u hu _ fl j hn]
  · intro u hu v v2 hnode hfree
    obtain ⟨f1, f2⟩ := hf.2 u hu v v2 hnode hfree
    refine hg.2 u hu (f u v) (f u v2) f1 ?_
    intro fl j hfr
    by_cases ho : own u fl j
    · exact f2 fl j ho
    · rw [hf.1 u hu v fl j ho, hf.1 u hu v2 fl j ho]
      exact hfree fl j hfr

/-- Code that writes no element of the global memory and reads only elements nobody
owns keeps to the ownership. -/
theorem confined_of_reader {K : Type} (ws : List Nat) (own : Nat → Fld → Nat → Prop)
    (hd : OwnDisjoint ws own) (seg : Nat → Worker K → Worker K)
    (reads : Fld → Nat → Prop)
    (hfree : ∀ f j, reads f j → ∀ u, u ∈ ws → ¬ own u f j)
    (hglob : ∀ u v, (seg u v).glob = v.glob)
    (hnode : ∀ u (v v2 : Worker K), v.node = v2.node →
      (∀ f j, reads f j → v.glob.get f j = v2.glob.get f j) → (seg u v).node = (seg u v2).node) :
    Confined ws own seg := by
  refine ⟨?_, ?_⟩
  · intro u _ v f j _
    rw [hglob]
  · intro u hu v v2 hn hfr
    refine ⟨hnode u v v2 hn (fun f j hr => hfr f j (fun u2 hu2 _ => hfree f j hr u2 hu2)), ?_⟩
    intro f j ho
    rw [hglob, hglob]
    exact hfr f j (fun u2 hu2 hne ho2 => hd u hu u2 hu2 (fun e => hne e.symm) f j ⟨ho, ho2⟩)

/-- In the hypotheses of `Confined`, an array nobody owns is the same in both memories. -/
theorem free_array {K : Type} {ws : List Nat} {arrs : Fld → Prop} {lo hi : Nat → Nat}
    {slot : Nat → Nat → Prop} {u : Nat} {v v2 : Worker K}
    (hfr : ∀ f j, (∀ u2, u2 ∈ ws → u2 ≠ u → ¬ ownRanges arrs lo hi slot u2 f j) →
      v.glob.get f j = v2.glob.get f j)
    (f : Fld) (hne : f ≠ Fld.gnorm_temps) (hf : ¬ arrs f) : v.glob.get f = v2.glob.get f := by
  funext j
  apply hfr f j
  intro u2 _ _ h
  cases f with
  | gnorm_temps => exact hne rfl
  | x => exact hf h.1
  | z => exact hf h.1
  | p => exact hf h.1
  | q => exact hf h.1
  | r => exact hf h.1
  | w => exact hf h.1

/-- In the hypotheses of `Confined`, the elements a worker owns are the same in both
memories. -/
theorem own_elements {K : Type} {numtasks size : Nat} {arrs : Fld → Prop}
    {slot : Nat → Nat → Prop} {u : Nat} (hu : u < numtasks) {v v2 : Worker K}
    (hfr : ∀ f j, (∀ u2, u2 ∈ List.range numtasks → u2 ≠ u →
        ¬ ownRanges arrs (beg size numtasks) (end_ size numtasks) slot u2 f j) →
      v.glob.get f j = v2.glob.get f j)
    (f : Fld) (hne : f ≠ Fld.gnorm_temps) (j : Nat)
    (hj : beg size numtasks u ≤ j ∧ j ≤ end_ size numtasks u) :
    v.glob.get f j = v2.glob.get f j := by
  apply hfr f j
  intro u2 hu2 hne2 h
  rw [List.mem_range] at hu2
  have hd := @ranges_disjoint size numtasks u u2 j hu hu2 (fun e => hne2 e.symm)
  cases f with
  | gnorm_temps => exact hne rfl
  | x => exact hd ⟨hj, h.2⟩
  | z => exact hd ⟨hj, h.2⟩
  | p => exact hd ⟨hj, h.2⟩
  | q => exact hd ⟨hj, h.2⟩
  | r => exact hd ⟨hj, h.2⟩
  | w => exact hd ⟨hj, h.2⟩

/-- In the hypotheses of `Confined`, the buffer is the same in both memories when
nobody owns an element of it. -/
theorem free_buffer {K : Type} {ws : List Nat} {arrs : Fld → Prop} {lo hi : Nat → Nat}
    {u : Nat} {v v2 : Worker K}
    (hfr : ∀ f j, (∀ u2, u2 ∈ ws → u2 ≠ u → ¬ ownRanges arrs lo hi (fun _ _ => False) u2 f j) →
      v.glob.get f j = v2.glob.get f j) :
    v.glob.gnorm_temps = v2.glob.gnorm_temps := by
  funext j
  exact hfr Fld.gnorm_temps j (fun _ _ _ h => h)

theorem cgInit_confined {K : Type} [Field K] (G : Globals) (arrs : Fld → Prop)
    (hx : ¬ arrs Fld.x) (hz : arrs Fld.z) (hp : arrs Fld.p) (hq : arrs Fld.q)
    (hr : arrs Fld.r) (hw : arrs Fld.w) :
    Confined (K := K) (List.range G.numtasks)
      (ownRanges arrs (beg (G.naa + 1) G.numtasks) (end_ (G.naa + 1) G.numtasks)
        (fun u j => j = u))
      (cgInit G) := by
  refine ⟨?_, ?_⟩
  · intro u _ v f j hn
    rw [cgInit_eq]
    cases f with
    | gnorm_temps => exact setAt_other _ _ hn
    | x => rfl
    | z => exact onRange_out (fun _ => (0 : K)) v.glob.z (fun h => hn ⟨hz, h⟩)
    | p => exact onRange_out _ _ (fun h => hn ⟨hp, h⟩)
    | q => exact onRange_out (fun _ => (0 : K)) v.glob.q (fun h => hn ⟨hq, h⟩)
    | r => exact onRange_out _ _ (fun h => hn ⟨hr, h⟩)
    | w => exact onRange_out (fun _ => (0 : K)) v.glob.w (fun h => hn ⟨hw, h⟩)
  · intro u hu v v2 hnode hfr
    have ex : v.glob.x = v2.glob.x := free_array hfr Fld.x (by simp) hx
    rw [cgInit_eq, cgInit_eq]
    simp only [ex, hnode]
    refine ⟨trivial, ?_⟩
    intro f j ho
    cases f with
    | gnorm_temps =>
      have e : j = u := ho
      subst e
      show setAt _ _ _ _ = setAt _ _ _ _
      rw [setAt_same, setAt_same]
    | x => exact absurd ho.1 hx
    | z => exact (onRange_in (fun _ => (0 : K)) _ ho.2).trans (onRange_in (fun _ => (0 : K)) _ ho.2).symm
    | p => exact (onRange_in _ _ ho.2).trans (onRange_in _ _ ho.2).symm
    | q => exact (onRange_in (fun _ => (0 : K)) _ ho.2).trans (onRange_in (fun _ => (0 : K)) _ ho.2).symm
    | r => exact (onRange_in _ _ ho.2).trans (onRange_in _ _ ho.2).symm
    | w => exact (onRange_in (fun _ => (0 : K)) _ ho.2).trans (onRange_in (fun _ => (0 : K)) _ ho.2).symm

/-- The partial sums over the ranges of the workers add up to the sum over `[1, size]`. -/
theorem sum_partition {M : Type} [AddCommMonoid M] (size numtasks : Nat) (hn : 1 ≤ numtasks)
    (f : Nat → M) :
    ∑ u ∈ Finset.range numtasks,
        ∑ j ∈ Finset.Icc (beg size numtasks u) (end_ size numtasks u), f j
      = ∑ j ∈ Finset.Icc 1 size, f j := by
  rw [← Finset.sum_biUnion]
  · apply Finset.sum_congr _ (fun _ _ => rfl)
    ext j
    simp only [Finset.mem_biUnion, Finset.mem_range, Finset.mem_Icc]
    constructor
    · rintro ⟨u, hu, hb, he⟩
      have h1 : 1 ≤ beg size numtasks u := by unfold beg; omega
      have h2 := @end_le_size size _ _ hu
      omega
    · rintro ⟨h1, h2⟩
      exact exists_owner hn h1 h2
  · intro u hu u2 hu2 hne
    rw [Function.onFun, Finset.disjoint_left]
    intro j hj hj2
    rw [Finset.mem_Icc] at hj hj2
    exact ranges_disjoint (Finset.mem_range.mp hu) (Finset.mem_range.mp hu2) hne ⟨hj, hj2⟩

/-- What a phase leaves, for code that keeps to an ownership by ranges of a partition:
each worker's own memory and the elements it owns are as if it had run alone from the
state at the barrier; nothing else changes. -/
theorem phase_result {K : Type} (numtasks size : Nat) (arrs : Fld → Prop)
    (slot : Nat → Nat → Prop) (hslot : ∀ u u2 j, slot u j → slot u2 j → u = u2)
    (seg : Nat → Worker K → Worker K)
    (hc : Confined (List.range numtasks)
      (ownRanges arrs (beg size numtasks) (end_ size numtasks) slot) seg)
    (order : List Nat) (hperm : order.Perm (List.range numtasks)) (g : World K) :
    (∀ u, u < numtasks →
        (runPhase order seg g).node u = (seg u { glob := g.glob, node := g.node u }).node) ∧
      (∀ u, numtasks ≤ u → (runPhase order seg g).node u = g.node u) ∧
      (∀ f, f ≠ Fld.gnorm_temps → ∀ u, u < numtasks → ∀ j,
        beg size numtasks u ≤ j → j ≤ end_ size numtasks u →
        (runPhase order seg g).glob.get f j
          = (seg u { glob := g.glob, node := g.node u }).glob.get f j) ∧
      (∀ f, f ≠ Fld.gnorm_temps → ¬ arrs f →
        (runPhase order seg g).glob.get f = g.glob.get f) ∧
      (∀ u, u < numtasks → ∀ j, slot u j →
        (runPhase order seg g).glob.gnorm_temps j
          = (seg u { glob := g.glob, node := g.node u }).glob.gnorm_temps j) ∧
      (∀ j, (∀ u, u < numtasks → ¬ slot u j) →
        (runPhase order seg g).glob.gnorm_temps j = g.glob.gnorm_temps j) := by
  have hmem : ∀ u, u ∈ order ↔ u < numtasks := fun u =>
    (hperm.mem_iff).trans List.mem_range
  have hnd : order.Nodup := (hperm.nodup_iff).mpr (List.nodup_range numtasks)
  obtain ⟨r1, r2, r3⟩ := runPhase_confined (List.range numtasks) _ seg hc
    (ownRanges_disjoint arrs size numtasks slot hslot) order
    (fun u hu => List.mem_range.mpr ((hmem u).mp hu)) hnd g
  refine ⟨fun u hu => (r1 u ((hmem u).mpr hu)).1, fun u hu => r2 u (fun h => ?_), ?_, ?_, ?_, ?_⟩
  · have := (hmem u).mp h
    omega
  · intro f hf u hu j h1 h2
    by_cases ha : arrs f
    · refine (r1 u ((hmem u).mpr hu)).2 f j ?_
      cases f with
      | gnorm_temps => exact absurd rfl hf
      | x => exact ⟨ha, h1, h2⟩
      | z => exact ⟨ha, h1, h2⟩
      | p => exact ⟨ha, h1, h2⟩
      | q => exact ⟨ha, h1, h2⟩
      | r => exact ⟨ha, h1, h2⟩
      | w => exact ⟨ha, h1, h2⟩
    · have hno : ∀ u2, ¬ ownRanges arrs (beg size numtasks) (end_ size numtasks) slot u2 f j := by
        intro u2 h
        cases f with
        | gnorm_temps => exact absurd rfl hf
        | x => exact ha h.1
        | z => exact ha h.1
        | p => exact ha h.1
        | q => exact ha h.1
        | r => exact ha h.1
        | w => exact ha h.1
      rw [r3 f j (fun u2 _ => hno u2)]
      exact (hc.1 u (List.mem_range.mpr hu) { glob := g.glob, node := g.node u } f j (hno u)).symm
  · intro f hf ha
    funext j
    refine r3 f j ?_
    intro u2 _ h
    cases f with
    | gnorm_temps => exact absurd rfl hf
    | x => exact ha h.1
    | z => exact ha h.1
    | p => exact ha h.1
    | q => exact ha h.1
    | r => exact ha h.1
    | w => exact ha h.1
  · intro u hu j hs
    exact (r1 u ((hmem u).mpr hu)).2 Fld.gnorm_temps j hs
  · intro j hs
    exact r3 Fld.gnorm_temps j (fun u hu => hs u ((hmem u).mp hu))

/-! ## Running programs -/

theorem exec_nil {K : Type} (sched : Nat → List Nat) (k : Nat)
    (pending : Nat → Worker K → Worker K) (g : World K) :
    exec sched k pending [] g = runPhase (sched k) pending g := rfl

theorem exec_run {K : Type} (sched : Nat → List Nat) (k : Nat)
    (pending f : Nat → Worker K → Worker K) (rest : List (Instr K)) (g : World K) :
    exec sched k pending (Instr.run f :: rest) g
      = exec sched k (fun u s => f u (pending u s)) rest g := rfl

theorem exec_barrier {K : Type} (sched : Nat → List Nat) (k : Nat)
    (pending : Nat → Worker K → Worker K) (rest : List (Instr K)) (g : World K) :
    exec sched k pending (Instr.barrier :: rest) g
      = exec sched (k + 1) (fun _ s => s) rest (runPhase (sched k) pending g) := rfl

/-! ## The initialisation of `conj_grad` -/

/-- The phase of lines 470-495 on all workers, in any order. -/
theorem init_phase {K : Type} [Field K] (G : Globals) (hn : 1 ≤ G.numtasks)
    (order : List Nat) (hperm : order.Perm (List.range G.numtasks)) (g out : World K)
    (hout : out = runPhase order (cgInit G) g) :
    (∀ u, u < G.numtasks → out.node u = { g.node u with
        rho := ∑ j ∈ Finset.Icc (beg_col G u) (end_col G u), g.glob.x j * g.glob.x j }) ∧
      (∀ u, G.numtasks ≤ u → out.node u = g.node u) ∧
      (∀ u, u < G.numtasks → out.glob.gnorm_temps u
        = ∑ j ∈ Finset.Icc (beg_col G u) (end_col G u), g.glob.x j * g.glob.x j) ∧
      out.glob.x = g.glob.x ∧
      (∀ j, 1 ≤ j → j ≤ G.naa + 1 →
        out.glob.q j = 0 ∧ out.glob.z j = 0 ∧ out.glob.r j = g.glob.x j ∧
        out.glob.p j = g.glob.x j ∧ out.glob.w j = 0) := by
  subst hout
  obtain ⟨r1, r2, r3, r4, r5, _⟩ := phase_result G.numtasks (G.naa + 1) (fun f => f ≠ Fld.x)
    (fun u j => j = u) (fun u u2 j h h2 => h.symm.trans h2) (cgInit G)
    (cgInit_confined G _ (fun h => h rfl) (by intro h; cases h) (by intro h; cases h)
      (by intro h; cases h) (by intro h; cases h) (by intro h; cases h))
    order hperm g
  refine ⟨?_, r2, ?_, ?_, ?_⟩
  · intro u hu
    rw [r1 u hu, cgInit_eq]
  · intro u hu
    rw [r5 u hu u rfl, cgInit_eq]
    exact setAt_same _ _ _
  · exact r4 Fld.x (by intro h; cases h) (fun h => h rfl)
  · intro j h1 h2
    obtain ⟨u, hu, hb, he⟩ := @exists_owner (G.naa + 1) G.numtasks hn j h1 h2
    have hq := r3 Fld.q (by intro h; cases h) u hu j hb he
    have hz := r3 Fld.z (by intro h; cases h) u hu j hb he
    have hr := r3 Fld.r (by intro h; cases h) u hu j hb he
    have hp := r3 Fld.p (by intro h; cases h) u hu j hb he
    have hw := r3 Fld.w (by intro h; cases h) u hu j hb he
    rw [cgInit_eq] at hq hz hr hp hw
    refine ⟨hq.trans ?_, hz.trans ?_, hr.trans ?_, hp.trans ?_, hw.trans ?_⟩
    · exact onRange_in (fun _ => (0 : K)) _ ⟨hb, he⟩
    · exact onRange_in (fun _ => (0 : K)) _ ⟨hb, he⟩
    · exact onRange_in _ _ ⟨hb, he⟩
    · exact onRange_in _ _ ⟨hb, he⟩
    · exact onRange_in (fun _ => (0 : K)) _ ⟨hb, he⟩

/-- A phase whose code writes no element of the global memory: the global memory is
unchanged and each worker's memory is what its code leaves from the state at the
barrier. -/
theorem reader_phase {K : Type} (seg : Nat → Worker K → Worker K)
    (hglob : ∀ u v, (seg u v).glob = v.glob) (order : List Nat) (hnd : order.Nodup)
    (g : World K) :
    (runPhase order seg g).glob = g.glob ∧
      (∀ u, u ∈ order →
        (runPhase order seg g).node u = (seg u { glob := g.glob, node := g.node u }).node) ∧
      (∀ u, u ∉ order → (runPhase order seg g).node u = g.node u) := by
  induction order generalizing g with
  | nil => exact ⟨rfl, fun u hu => absurd hu (List.not_mem_nil u), fun _ _ => rfl⟩
  | cons a l ih =>
    have hnd2 := List.nodup_cons.mp hnd
    obtain ⟨i1, i2, i3⟩ := ih hnd2.2 (step seg a g)
    have eg : (step seg a g).glob = g.glob := by rw [step_glob, hglob]
    rw [runPhase_cons]
    refine ⟨i1.trans eg, ?_, ?_⟩
    · intro u hu
      rcases List.mem_cons.mp hu with hua | hul
      · subst hua
        rw [i3 u hnd2.1, step_node_same]
      · have hne : u ≠ a := fun e => hnd2.1 (e ▸ hul)
        rw [i2 u hul, eg, step_node_other seg a u g hne]
    · intro u hu
      rw [List.mem_cons, not_or] at hu
      rw [i3 u hu.2, step_node_other seg a u g hu.1]

theorem perm_range_mem {order : List Nat} {n : Nat} (h : order.Perm (List.range n)) (u : Nat) :
    u ∈ order ↔ u < n :=
  (h.mem_iff).trans List.mem_range

theorem perm_range_nodup {order : List Nat} {n : Nat} (h : order.Perm (List.range n)) :
    order.Nodup :=
  (h.nodup_iff).mpr (List.nodup_range n)

/-- C15: after the initialisation of `conj_grad` (lines 470-495) has run on all workers,
in any order, and after the barrier each worker has summed the buffer (lines 499-502),
again in any order: `q[j] = z[j] = w[j] = 0` and `r[j] = p[j] = x[j]` for every `j` of
`[1, N]`, `x` is unchanged, and the `rho` of every worker is the sum of `x[j]*x[j]` over
`[1, N]`; here `N = naa = lastcol - firstcol + 1`, as `main` sets them. -/
theorem init_phase_and_reduction {K : Type} [Field K] (G : Globals) (hn : 1 ≤ G.numtasks)
    (hcol : G.lastcol + 1 - G.firstcol = G.naa) (sched : Nat → List Nat)
    (h0 : (sched 0).Perm (List.range G.numtasks))
    (h1 : (sched 1).Perm (List.range G.numtasks)) (g : World K) :
    (runProg sched [Instr.run (cgInit G), Instr.barrier, Instr.run (cgSumRho G)] g).glob.x
        = g.glob.x ∧
      (∀ j, 1 ≤ j → j ≤ G.naa →
        (runProg sched [Instr.run (cgInit G), Instr.barrier, Instr.run (cgSumRho G)] g).glob.q j
          = 0 ∧
        (runProg sched [Instr.run (cgInit G), Instr.barrier, Instr.run (cgSumRho G)] g).glob.z j
          = 0 ∧
        (runProg sched [Instr.run (cgInit G), Instr.barrier, Instr.run (cgSumRho G)] g).glob.w j
          = 0 ∧
        (runProg sched [Instr.run (cgInit G), Instr.barrier, Instr.run (cgSumRho G)] g).glob.r j
          = g.glob.x j ∧
        (runProg sched [Instr.run (cgInit G), Instr.barrier, Instr.run (cgSumRho G)] g).glob.p j
          = g.glob.x j) ∧
      (∀ u, u < G.numtasks →
        ((runProg sched [Instr.run (cgInit G), Instr.barrier, Instr.run (cgSumRho G)] g).node
            u).rho
          = ∑ j ∈ Finset.Icc 1 G.naa, g.glob.x j * g.glob.x j) := by
  have e : runProg sched [Instr.run (cgInit G), Instr.barrier, Instr.run (cgSumRho G)] g
      = runPhase (sched 1) (cgSumRho G) (runPhase (sched 0) (cgInit G) g) := rfl
  rw [e]
  obtain ⟨a1, _, a3, a4, a5⟩ := init_phase G hn (sched 0) h0 g _ rfl
  obtain ⟨b1, b2, _⟩ := reader_phase (cgSumRho G) (fun _ _ => rfl) (sched 1)
    (perm_range_nodup h1) (runPhase (sched 0) (cgInit G) g)
  refine ⟨by rw [b1, a4], ?_, ?_⟩
  · intro j hj1 hj2
    rw [b1]
    obtain ⟨c1, c2, c3, c4, c5⟩ := a5 j hj1 (by omega)
    exact ⟨c1, c2, c5, c3, c4⟩
  · intro u hu
    rw [b2 u ((perm_range_mem h1 u).mpr hu), cgSumRho_eq]
    show gather _ _ _ _ = _
    rw [a1 u hu]
    have hs := gather_sum (runPhase (sched 0) (cgInit G) g).glob.gnorm_temps
      (fun u => ∑ j ∈ Finset.Icc (beg_col G u) (end_col G u), g.glob.x j * g.glob.x j)
      G.numtasks u hu (fun i hi => a3 i hi)
    rw [← hcol]
    exact hs.trans (sum_partition (G.lastcol + 1 - G.firstcol) G.numtasks hn
      (fun j => g.glob.x j * g.glob.x j))

/-- Instance of C15: three columns on two workers, worker 1 first in both phases. -/
theorem init_phase_and_reduction_witness :
    (runProg (fun _ => [1, 0])
        [Instr.run (cgInit (mainGlobals 3 2)), Instr.barrier,
          Instr.run (cgSumRho (mainGlobals 3 2))] demoWorld).glob.x = demoWorld.glob.x ∧
      (∀ j, 1 ≤ j → j ≤ (mainGlobals 3 2).naa →
        (runProg (fun _ => [1, 0])
          [Instr.run (cgInit (mainGlobals 3 2)), Instr.barrier,
            Instr.run (cgSumRho (mainGlobals 3 2))] demoWorld).glob.q j = 0 ∧
        (runProg (fun _ => [1, 0])
          [Instr.run (cgInit (mainGlobals 3 2)), Instr.barrier,
            Instr.run (cgSumRho (mainGlobals 3 2))] demoWorld).glob.z j = 0 ∧
        (runProg (fun _ => [1, 0])
          [Instr.run (cgInit (mainGlobals 3 2)), Instr.barrier,
            Instr.run (cgSumRho (mainGlobals 3 2))] demoWorld).glob.w j = 0 ∧
        (runProg (fun _ => [1, 0])
          [Instr.run (cgInit (mainGlobals 3 2)), Instr.barrier,
            Instr.run (cgSumRho (mainGlobals 3 2))] demoWorld).glob.r j = demoWorld.glob.x j ∧
        (runProg (fun _ => [1, 0])
          [Instr.run (cgInit (mainGlobals 3 2)), Instr.barrier,
            Instr.run (cgSumRho (mainGlobals 3 2))] demoWorld).glob.p j = demoWorld.glob.x j) ∧
      (∀ u, u < (mainGlobals 3 2).numtasks →
        ((runProg (fun _ => [1, 0])
          [Instr.run (cgInit (mainGlobals 3 2)), Instr.barrier,
            Instr.run (cgSumRho (mainGlobals 3 2))] demoWorld).node u).rho
          = ∑ j ∈ Finset.Icc 1 (mainGlobals 3 2).naa, demoWorld.glob.x j * demoWorld.glob.x j) :=
  init_phase_and_reduction (mainGlobals 3 2) (by decide) (by decide) (fun _ => [1, 0])
    (List.Perm.swap 0 1 []) (List.Perm.swap 0 1 []) demoWorld

/-! ## The timed iteration after `conj_grad` -/

theorem setAt_self {β : Type} (f : Nat → β) (i : Nat) : setAt f i (f i) = f := by
  funext k
  unfold setAt
  split
  · rename_i h
    rw [h]
  · rfl

theorem step_id {K : Type} (u : Nat) (g : World K) : step (fun _ s => s) u g = g := by
  unfold step
  simp only [setAt_self]

/-- A phase in which no worker has any code changes nothing. -/
theorem runPhase_id {K : Type} (order : List Nat) (g : World K) :
    runPhase order (fun _ s => s) g = g := by
  induction order generalizing g with
  | nil => rfl
  | cons a l ih => rw [runPhase_cons, step_id, ih]

/-- Induction over the workers of a phase in the order they run: `P done` holds of the
state once the workers `done` have run. -/
theorem runPhase_progress {K : Type} (seg : Nat → Worker K → Worker K)
    (P : List Nat → World K → Prop)
    (hstep : ∀ done a s, a ∉ done → P done s → P (done ++ [a]) (step seg a s))
    (order done : List Nat) (hnd : (done ++ order).Nodup) (g : World K) (h0 : P done g) :
    P (done ++ order) (runPhase order seg g) := by
  induction order generalizing done g with
  | nil =>
    rw [List.append_nil]
    exact h0
  | cons a l ih =>
    have ha : a ∉ done := by
      intro h
      have := List.nodup_append.mp hnd
      exact this.2.2 h (List.mem_cons_self a l)
    have e : done ++ a :: l = (done ++ [a]) ++ l := by simp
    rw [runPhase_cons, e]
    exact ih (done ++ [a]) (by rw [← e]; exact hnd) _ (hstep done a g ha h0)

/-- The sums of `main` over the buffer, when the slots of all workers hold their pairs. -/
theorem gather2_of_slots {α : Type} [AddCommMonoid α] (numtasks : Nat) (v11 v12 : Nat → α)
    (buf : Nat → α) (w : Nat) (hw : w < numtasks)
    (hbuf : ∀ j, j < numtasks → buf (2 * j) = v11 j ∧ buf (2 * j + 1) = v12 j) :
    gather2 buf numtasks w (v11 w, v12 w)
      = (∑ i ∈ Finset.range numtasks, v11 i, ∑ i ∈ Finset.range numtasks, v12 i) := by
  have key : ∀ (m : Nat) (acc : α × α),
      forUp (fun j (acc : α × α) =>
        if j ≠ w then (acc.1 + buf (2 * j), acc.2 + buf (2 * j + 1)) else acc) 0 m acc
      = (forUp (fun j (acc : α) => if j ≠ w then acc + buf (2 * j) else acc) 0 m acc.1,
         forUp (fun j (acc : α) => if j ≠ w then acc + buf (2 * j + 1) else acc) 0 m acc.2) := by
    intro m acc
    induction m with
    | zero => rfl
    | succ m ih =>
      rw [forUp_succ_last, forUp_succ_last, forUp_succ_last, ih]
      by_cases h : 0 + m ≠ w
      · simp only [if_pos h]
      · simp only [if_neg h]
  unfold gather2
  rw [key]
  have e1 := gather_sum (fun j => buf (2 * j)) v11 numtasks w hw (fun j hj => (hbuf j hj).1)
  have e2 := gather_sum (fun j => buf (2 * j + 1)) v12 numtasks w hw (fun j hj => (hbuf j hj).2)
  unfold gather at e1 e2
  rw [e1, e2]

theorem publish2_other {α : Type} (buf : Nat → α) (a u : Nat) (t11 t12 : α) (h : u ≠ a) :
    publish2 buf a t11 t12 (2 * u) = buf (2 * u) ∧
    publish2 buf a t11 t12 (2 * u + 1) = buf (2 * u + 1) := by
  unfold publish2
  rw [setAt_other _ _ (by omega), setAt_other _ _ (by omega), setAt_other _ _ (by omega),
    setAt_other _ _ (by omega)]
  exact ⟨rfl, rfl⟩

theorem publish2_same {α : Type} (buf : Nat → α) (a : Nat) (t11 t12 : α) :
    publish2 buf a t11 t12 (2 * a) = t11 ∧ publish2 buf a t11 t12 (2 * a + 1) = t12 := by
  unfold publish2
  rw [setAt_other _ _ (by omega), setAt_same, setAt_same]
  exact ⟨rfl, rfl⟩

/-- The phase from the last barrier of `conj_grad` to the barrier of line 338, on all
workers in any order: whatever the sums of lines 711-714 read, the vectors are unchanged
and every worker ends with its partial norms, in its memory and in its two slots. -/
theorem norms_phase {K : Type} [Field K] (csqrt : K → K) (G : Globals) (order : List Nat)
    (hnd : order.Nodup) (g : World K) :
    (runPhase order (fun u s => mainNorms G u (cgRnorm csqrt G u s)) g).glob.x = g.glob.x ∧
      (runPhase order (fun u s => mainNorms G u (cgRnorm csqrt G u s)) g).glob.z = g.glob.z ∧
      (∀ u, u ∈ order →
        (runPhase order (fun u s => mainNorms G u (cgRnorm csqrt G u s)) g).glob.gnorm_temps
            (2 * u)
          = ∑ j ∈ Finset.Icc (beg_col G u) (end_col G u), g.glob.x j * g.glob.z j ∧
        (runPhase order (fun u s => mainNorms G u (cgRnorm csqrt G u s)) g).glob.gnorm_temps
            (2 * u + 1)
          = ∑ j ∈ Finset.Icc (beg_col G u) (end_col G u), g.glob.z j * g.glob.z j ∧
        ((runPhase order (fun u s => mainNorms G u (cgRnorm csqrt G u s)) g).node
            u).norm_temp11
          = ∑ j ∈ Finset.Icc (beg_col G u) (end_col G u), g.glob.x j * g.glob.z j ∧
        ((runPhase order (fun u s => mainNorms G u (cgRnorm csqrt G u s)) g).node
            u).norm_temp12
          = ∑ j ∈ Finset.Icc (beg_col G u) (end_col G u), g.glob.z j * g.glob.z j) := by
  have h := runPhase_progress (fun u s => mainNorms G u (cgRnorm csqrt G u s))
    (fun done s => s.glob.x = g.glob.x ∧ s.glob.z = g.glob.z ∧
      ∀ u, u ∈ done →
        s.glob.gnorm_temps (2 * u)
          = ∑ j ∈ Finset.Icc (beg_col G u) (end_col G u), g.glob.x j * g.glob.z j ∧
        s.glob.gnorm_temps (2 * u + 1)
          = ∑ j ∈ Finset.Icc (beg_col G u) (end_col G u), g.glob.z j * g.glob.z j ∧
        (s.node u).norm_temp11
          = ∑ j ∈ Finset.Icc (beg_col G u) (end_col G u), g.glob.x j * g.glob.z j ∧
        (s.node u).norm_temp12
          = ∑ j ∈ Finset.Icc (beg_col G u) (end_col G u), g.glob.z j * g.glob.z j)
    (by
      intro done a s ha ⟨hx, hz, hs⟩
      have eg : (step (fun u s => mainNorms G u (cgRnorm csqrt G u s)) a s).glob
          = { s.glob with
              gnorm_temps := publish2 s.glob.gnorm_temps a
                (∑ j ∈ Finset.Icc (beg_col G a) (end_col G a), s.glob.x j * s.glob.z j)
                (∑ j ∈ Finset.Icc (beg_col G a) (end_col G a), s.glob.z j * s.glob.z j) } := by
        rw [step_glob, mainNorms_eq, cgRnorm_eq]
      refine ⟨by rw [eg]; exact hx, by rw [eg]; exact hz, ?_⟩
      intro u hu
      rcases List.mem_append.mp hu with hd | hn
      · have hne : u ≠ a := fun e => ha (e ▸ hd)
        obtain ⟨s1, s2, s3, s4⟩ := hs u hd
        rw [eg, step_node_other _ a u s hne]
        show publish2 _ _ _ _ _ = _ ∧ publish2 _ _ _ _ _ = _ ∧ _
        rw [(publish2_other _ a u _ _ hne).1, (publish2_other _ a u _ _ hne).2]
        exact ⟨s1, s2, s3, s4⟩
      · have hua : u = a := by simpa using hn
        subst hua
        rw [eg, step_node_same, mainNorms_eq, cgRnorm_eq]
        show publish2 _ _ _ _ _ = _ ∧ publish2 _ _ _ _ _ = _ ∧ _
        rw [(publish2_same _ u _ _).1, (publish2_same _ u _ _).2, hx, hz]
        exact ⟨rfl, rfl, rfl, rfl⟩)
    order [] (by simpa using hnd) g ⟨rfl, rfl, fun u hu => absurd hu (List.not_mem_nil u)⟩
  simp only [List.nil_append] at h
  exact h

/-- A program cut at one of its barriers: the part after the barrier runs from the state
the part before it leaves. -/
theorem exec_append_barrier {K : Type} (sched : Nat → List Nat) (A B : List (Instr K))
    (k : Nat) (pending : Nat → Worker K → Worker K) (g : World K) :
    exec sched k pending (A ++ Instr.barrier :: B) g
      = exec sched (k + barriers A + 1) (fun _ s => s) B (exec sched k pending A g) := by
  induction A generalizing k pending g with
  | nil => rfl
  | cons i A ih =>
    cases i with
    | run f =>
      show exec sched k (fun u s => f u (pending u s)) (A ++ Instr.barrier :: B) g = _
      rw [ih]
      rfl
    | barrier =>
      show exec sched (k + 1) (fun _ s => s) (A ++ Instr.barrier :: B)
        (runPhase (sched k) pending g) = _
      rw [ih]
      have e : k + 1 + barriers A + 1 = k + barriers (Instr.barrier :: A) + 1 := by
        show k + 1 + barriers A + 1 = k + (barriers A + 1) + 1
        omega
      rw [e]
      rfl

theorem conj_grad_cut {K : Type} [Field K] (csqrt : K → K) (G : Globals) :
    conj_grad csqrt G = cgBody G ++ Instr.barrier :: [Instr.run (cgRnorm csqrt G)] := by
  unfold conj_grad cgBody
  simp

/-- A timed iteration is `conj_grad` up to its last barrier, the barrier, and the tail. -/
theorem mainIteration_cut {K : Type} [Field K] (SHIFT : K) (csqrt : K → K) (G : Globals) :
    mainIteration SHIFT csqrt G = cgBody G ++ Instr.barrier :: iterationTail SHIFT csqrt G := by
  unfold mainIteration iterationTail
  rw [conj_grad_cut]
  simp

theorem mainZeta_confined {K : Type} [Field K] (SHIFT : K) (csqrt : K → K) (G : Globals)
    (arrs : Fld → Prop) (hx : arrs Fld.x) (hz : ¬ arrs Fld.z) :
    Confined (K := K) (List.range G.numtasks)
      (ownRanges arrs (beg (G.lastcol + 1 - G.firstcol) G.numtasks)
        (end_ (G.lastcol + 1 - G.firstcol) G.numtasks) (fun _ _ => False))
      (mainZeta SHIFT csqrt G) := by
  refine ⟨?_, ?_⟩
  · intro u _ v f j hn
    rw [mainZeta_eq]
    cases f with
    | gnorm_temps => rfl
    | x =>
      simp only [GlobalMem.get]
      exact onRange_out _ _ (fun h => hn ⟨hx, h⟩)
    | z => rfl
    | p => rfl
    | q => rfl
    | r => rfl
    | w => rfl
  · intro u hu v v2 hnode hfr
    have hu2 : u < G.numtasks := List.mem_range.mp hu
    have ez : v.glob.z = v2.glob.z := free_array hfr Fld.z (by simp) hz
    have eb : v.glob.gnorm_temps = v2.glob.gnorm_temps := free_buffer hfr
    rw [mainZeta_eq, mainZeta_eq]
    simp only [ez, eb, hnode]
    refine ⟨trivial, ?_⟩
    intro f j ho
    cases f with
    | gnorm_temps => exact absurd ho id
    | x =>
      have hj : beg_col G u ≤ j ∧ j ≤ end_col G u := ho.2
      simp only [GlobalMem.get]
      rw [onRange_in _ _ hj, onRange_in _ _ hj]
    | z => exact absurd ho.1 hz
    | p => exact own_elements hu2 hfr Fld.p (by simp) j ho.2
    | q => exact own_elements hu2 hfr Fld.q (by simp) j ho.2
    | r => exact own_elements hu2 hfr Fld.r (by simp) j ho.2
    | w => exact own_elements hu2 hfr Fld.w (by simp) j ho.2

/-- The run of the tail of a timed iteration, phase by phase. -/
theorem iterationTail_run {K : Type} [Field K] (SHIFT : K) (csqrt : K → K) (G : Globals)
    (sched : Nat → List Nat) (g : World K) :
    runProg sched (iterationTail SHIFT csqrt G) g
      = runPhase (sched 1) (mainZeta SHIFT csqrt G)
          (runPhase (sched 0) (fun u s => mainNorms G u (cgRnorm csqrt G u s)) g) := by
  show runPhase (sched 2) (fun _ s => s) _ = _
  rw [runPhase_id]

/-- The sum of the squares of a vector that is not zero is not zero. -/
theorem sum_sq_ne_zero {K : Type} [LinearOrderedField K] (N : Nat) (z : Nat → K)
    (h : ∃ j, 1 ≤ j ∧ j ≤ N ∧ z j ≠ 0) : ∑ j ∈ Finset.Icc 1 N, z j * z j ≠ 0 := by
  obtain ⟨j, h1, h2, hz⟩ := h
  intro h0
  have hnn : ∀ i ∈ Finset.Icc 1 N, 0 ≤ z i * z i := fun i _ => mul_self_nonneg (z i)
  have := (Finset.sum_eq_zero_iff_of_nonneg hnn).mp h0 j (Finset.mem_Icc.mpr ⟨h1, h2⟩)
  exact hz (mul_self_eq_zero.mp this)

/-- C18: in a timed iteration, from the last barrier of `conj_grad` on, with `z` the
vector `conj_grad` has left and `x` its argument, for any order of the workers in each
phase: every worker computes `zeta = SHIFT + 1 / (sum of x[j]*z[j])` and the new `x` is
`x[j] = z[j] / sqrt(sum of z[j]*z[j])` for every `j` of `[1, N]`, the sums being over
`[1, N]`, `N = lastcol - firstcol + 1`; so the new `x` has Euclidean norm 1 when `z` is
not the zero vector (`csqrt` being a square root of that sum). -/
theorem timed_iteration_zeta_and_x {K : Type} [LinearOrderedField K] (SHIFT : K)
    (csqrt : K → K) (G : Globals) (hn : 1 ≤ G.numtasks) (sched : Nat → List Nat)
    (h0 : (sched 0).Perm (List.range G.numtasks))
    (h1 : (sched 1).Perm (List.range G.numtasks)) (g : World K) :
    (∀ u, u < G.numtasks →
        ((runProg sched (iterationTail SHIFT csqrt G) g).node u).zeta
          = SHIFT + 1 / ∑ j ∈ Finset.Icc 1 (G.lastcol + 1 - G.firstcol),
              g.glob.x j * g.glob.z j) ∧
      (∀ j, 1 ≤ j → j ≤ G.lastcol + 1 - G.firstcol →
        (runProg sched (iterationTail SHIFT csqrt G) g).glob.x j
          = g.glob.z j / csqrt (∑ i ∈ Finset.Icc 1 (G.lastcol + 1 - G.firstcol),
              g.glob.z i * g.glob.z i)) ∧
      ((∃ j, 1 ≤ j ∧ j ≤ G.lastcol + 1 - G.firstcol ∧ g.glob.z j ≠ 0) →
        csqrt (∑ i ∈ Finset.Icc 1 (G.lastcol + 1 - G.firstcol), g.glob.z i * g.glob.z i)
            * csqrt (∑ i ∈ Finset.Icc 1 (G.lastcol + 1 - G.firstcol), g.glob.z i * g.glob.z i)
          = ∑ i ∈ Finset.Icc 1 (G.lastcol + 1 - G.firstcol), g.glob.z i * g.glob.z i →
        ∑ j ∈ Finset.Icc 1 (G.lastcol + 1 - G.firstcol),
            (runProg sched (iterationTail SHIFT csqrt G) g).glob.x j
              * (runProg sched (iterationTail SHIFT csqrt G) g).glob.x j = 1) := by
  rw [iterationTail_run]
  obtain ⟨a1, a2, a3⟩ := norms_phase csqrt G (sched 0) (perm_range_nodup h0) g
  obtain ⟨r1, _, r3, _, _, _⟩ := phase_result G.numtasks (G.lastcol + 1 - G.firstcol)
    (fun f => f = Fld.x) (fun _ _ => False) (fun _ _ _ h => absurd h id)
    (mainZeta SHIFT csqrt G)
    (mainZeta_confined SHIFT csqrt G _ rfl (by intro h; cases h)) (sched 1) h1
    (runPhase (sched 0) (fun u s => mainNorms G u (cgRnorm csqrt G u s)) g)
  -- the two sums every worker obtains from the buffer
  have hg : ∀ u, u < G.numtasks →
      gather2 (runPhase (sched 0) (fun u s => mainNorms G u (cgRnorm csqrt G u s)) g).glob.gnorm_temps
          G.numtasks u
          (((runPhase (sched 0) (fun u s => mainNorms G u (cgRnorm csqrt G u s)) g).node
              u).norm_temp11,
           ((runPhase (sched 0) (fun u s => mainNorms G u (cgRnorm csqrt G u s)) g).node
              u).norm_temp12)
        = (∑ j ∈ Finset.Icc 1 (G.lastcol + 1 - G.firstcol), g.glob.x j * g.glob.z j,
           ∑ j ∈ Finset.Icc 1 (G.lastcol + 1 - G.firstcol), g.glob.z j * g.glob.z j) := by
    intro u hu
    obtain ⟨_, _, s3, s4⟩ := a3 u ((perm_range_mem h0 u).mpr hu)
    rw [s3, s4]
    have hs := gather2_of_slots G.numtasks
      (fun u => ∑ j ∈ Finset.Icc (beg_col G u) (end_col G u), g.glob.x j * g.glob.z j)
      (fun u => ∑ j ∈ Finset.Icc (beg_col G u) (end_col G u), g.glob.z j * g.glob.z j)
      (runPhase (sched 0) (fun u s => mainNorms G u (cgRnorm csqrt G u s)) g).glob.gnorm_temps
      u hu
      (fun i hi => ⟨(a3 i ((perm_range_mem h0 i).mpr hi)).1,
        (a3 i ((perm_range_mem h0 i).mpr hi)).2.1⟩)
    rw [hs]
    exact Prod.ext
      (sum_partition (G.lastcol + 1 - G.firstcol) G.numtasks hn (fun j => g.glob.x j * g.glob.z j))
      (sum_partition (G.lastcol + 1 - G.firstcol) G.numtasks hn (fun j => g.glob.z j * g.glob.z j))
  have hxj : ∀ j, 1 ≤ j → j ≤ G.lastcol + 1 - G.firstcol →
      (runPhase (sched 1) (mainZeta SHIFT csqrt G)
        (runPhase (sched 0) (fun u s => mainNorms G u (cgRnorm csqrt G u s)) g)).glob.x j
        = g.glob.z j / csqrt (∑ i ∈ Finset.Icc 1 (G.lastcol + 1 - G.firstcol),
            g.glob.z i * g.glob.z i) := by
    intro j hj1 hj2
    obtain ⟨u, hu, hb, he⟩ := @exists_owner (G.lastcol + 1 - G.firstcol) G.numtasks hn j hj1 hj2
    have hx := r3 Fld.x (by intro h; cases h) u hu j hb he
    rw [mainZeta_eq] at hx
    simp only [GlobalMem.get] at hx
    have hj : beg_col G u ≤ j ∧ j ≤ end_col G u := ⟨hb, he⟩
    rw [onRange_in _ _ hj, hg u hu, a2] at hx
    rw [hx, one_div_mul_eq_div]
  refine ⟨?_, hxj, ?_⟩
  · intro u hu
    rw [r1 u hu, mainZeta_eq]
    show SHIFT + 1 / (gather2 _ _ _ _).1 = _
    rw [hg u hu]
  · intro hz hs
    have hne := sum_sq_ne_zero _ g.glob.z hz
    have e : ∀ j ∈ Finset.Icc 1 (G.lastcol + 1 - G.firstcol),
        (runPhase (sched 1) (mainZeta SHIFT csqrt G)
          (runPhase (sched 0) (fun u s => mainNorms G u (cgRnorm csqrt G u s)) g)).glob.x j
          * (runPhase (sched 1) (mainZeta SHIFT csqrt G)
          (runPhase (sched 0) (fun u s => mainNorms G u (cgRnorm csqrt G u s)) g)).glob.x j
        = g.glob.z j * g.glob.z j / (∑ i ∈ Finset.Icc 1 (G.lastcol + 1 - G.firstcol),
            g.glob.z i * g.glob.z i) := by
      intro j hj
      rw [Finset.mem_Icc] at hj
      rw [hxj j hj.1 hj.2, div_mul_div_comm, hs]
    rw [Finset.sum_congr rfl e, ← Finset.sum_div, div_self hne]

/-- Instance of C18: `z = (3, 4, 12)` and `x = (1, 1, 1)` on two workers with `SHIFT = 10`,
worker 1 first in both phases: `zeta = 10 + 1/19` on worker 0 and the new `x` has norm 1. -/
theorem timed_iteration_zeta_and_x_witness :
    ((runProg (fun _ => [1, 0]) (iterationTail 10 demoSqrt (mainGlobals 3 2))
        demoTailWorld).node 0).zeta = 10 + 1 / 19 ∧
      ∑ j ∈ Finset.Icc 1 ((mainGlobals 3 2).lastcol + 1 - (mainGlobals 3 2).firstcol),
        (runProg (fun _ => [1, 0]) (iterationTail 10 demoSqrt (mainGlobals 3 2))
            demoTailWorld).glob.x j
          * (runProg (fun _ => [1, 0]) (iterationTail 10 demoSqrt (mainGlobals 3 2))
            demoTailWorld).glob.x j = 1 :=
  ⟨((timed_iteration_zeta_and_x 10 demoSqrt (mainGlobals 3 2) (by decide) (fun _ => [1, 0])
      (List.Perm.swap 0 1 []) (List.Perm.swap 0 1 []) demoTailWorld).1 0 (by decide)).trans
      (by decide!),
   (timed_iteration_zeta_and_x 10 demoSqrt (mainGlobals 3 2) (by decide) (fun _ => [1, 0])
      (List.Perm.swap 0 1 []) (List.Perm.swap 0 1 []) demoTailWorld).2.2
      ⟨1, by decide, by decide, by decide!⟩ (by decide!)⟩

/-! ## The phases of an iteration keep to an ownership -/

theorem csrApply_congr {K : Type} [Field K] (nd nd2 : NodeMem K) (vec : Nat → K)
    (ha : nd.a = nd2.a) (hc : nd.colidx = nd2.colidx) (hr : nd.rowstr = nd2.rowstr) :
    csrApply nd vec = csrApply nd2 vec := by
  funext j
  unfold csrApply
  rw [ha, hc, hr]

theorem cgMatVec_confined {K : Type} [Field K] (G : Globals) (arrs : Fld → Prop)
    (hw : arrs Fld.w) (hp : ¬ arrs Fld.p) :
    Confined (K := K) (List.range G.numtasks)
      (ownRanges arrs (beg (G.lastrow + 1 - G.firstrow) G.numtasks)
        (end_ (G.lastrow + 1 - G.firstrow) G.numtasks) (fun _ _ => False))
      (cgMatVec G) := by
  refine ⟨?_, ?_⟩
  · intro u _ v f j hn
    rw [cgMatVec_eq]
    cases f with
    | gnorm_temps => rfl
    | x => rfl
    | z => rfl
    | p => rfl
    | q => rfl
    | r => rfl
    | w =>
      simp only [GlobalMem.get]
      exact onRange_out _ _ (fun h => hn ⟨hw, h⟩)
  · intro u hu v v2 hnode hfr
    have hu2 : u < G.numtasks := List.mem_range.mp hu
    have ep : v.glob.p = v2.glob.p := free_array hfr Fld.p (by simp) hp
    rw [cgMatVec_eq, cgMatVec_eq]
    simp only [ep, hnode]
    refine ⟨trivial, ?_⟩
    intro f j ho
    cases f with
    | gnorm_temps => exact absurd ho id
    | x => exact own_elements hu2 hfr Fld.x (by simp) j ho.2
    | z => exact own_elements hu2 hfr Fld.z (by simp) j ho.2
    | p => exact absurd ho.1 hp
    | q => exact own_elements hu2 hfr Fld.q (by simp) j ho.2
    | r => exact own_elements hu2 hfr Fld.r (by simp) j ho.2
    | w =>
      have hj : beg_row G u ≤ j ∧ j ≤ end_row G u := ho.2
      simp only [GlobalMem.get]
      rw [onRange_in _ _ hj, onRange_in _ _ hj]

theorem cgResidualMatVec_confined {K : Type} [Field K] (G : Globals) (arrs : Fld → Prop)
    (hw : arrs Fld.w) (hz : ¬ arrs Fld.z) :
    Confined (K := K) (List.range G.numtasks)
      (ownRanges arrs (beg (G.lastrow + 1 - G.firstrow) G.numtasks)
        (end_ (G.lastrow + 1 - G.firstrow) G.numtasks) (fun _ _ => False))
      (cgResidualMatVec G) := by
  refine ⟨?_, ?_⟩
  · intro u _ v f j hn
    rw [cgResidualMatVec_eq]
    cases f with
    | gnorm_temps => rfl
    | x => rfl
    | z => rfl
    | p => rfl
    | q => rfl
    | r => rfl
    | w =>
      simp only [GlobalMem.get]
      exact onRange_out _ _ (fun h => hn ⟨hw, h⟩)
  · intro u hu v v2 hnode hfr
    have hu2 : u < G.numtasks := List.mem_range.mp hu
    have ez : v.glob.z = v2.glob.z := free_array hfr Fld.z (by simp) hz
    rw [cgResidualMatVec_eq, cgResidualMatVec_eq]
    simp only [ez, hnode]
    refine ⟨trivial, ?_⟩
    intro f j ho
    cases f with
    | gnorm_temps => exact absurd ho id
    | x => exact own_elements hu2 hfr Fld.x (by simp) j ho.2
    | z => exact absurd ho.1 hz
    | p => exact own_elements hu2 hfr Fld.p (by simp) j ho.2
    | q => exact own_elements hu2 hfr Fld.q (by simp) j ho.2
    | r => exact own_elements hu2 hfr Fld.r (by simp) j ho.2
    | w =>
      have hj : beg_row G u ≤ j ∧ j ≤ end_row G u := ho.2
      simp only [GlobalMem.get]
      rw [onRange_in _ _ hj, onRange_in _ _ hj]

theorem sum_congr_range {K : Type} [Field K] {lo hi : Nat} (f f2 : Nat → K)
    (h : ∀ j, lo ≤ j ∧ j ≤ hi → f j = f2 j) :
    ∑ j ∈ Finset.Icc lo hi, f j = ∑ j ∈ Finset.Icc lo hi, f2 j :=
  Finset.sum_congr rfl (fun j hj => h j (Finset.mem_Icc.mp hj))

theorem cgDot_confined {K : Type} [Field K] (G : Globals) (arrs : Fld → Prop)
    (hq : arrs Fld.q) (hw : arrs Fld.w) (hp : ¬ arrs Fld.p) :
    Confined (K := K) (List.range G.numtasks)
      (ownRanges arrs (beg (G.lastcol + 1 - G.firstcol) G.numtasks)
        (end_ (G.lastcol + 1 - G.firstcol) G.numtasks) (fun u j => j = u))
      (cgDot G) := by
  refine ⟨?_, ?_⟩
  · intro u _ v f j hn
    rw [cgDot_eq]
    cases f with
    | gnorm_temps => exact setAt_other _ _ hn
    | x => rfl
    | z => rfl
    | p => rfl
    | q =>
      simp only [GlobalMem.get]
      exact onRange_out _ _ (fun h => hn ⟨hq, h⟩)
    | r => rfl
    | w =>
      simp only [GlobalMem.get]
      exact onRange_out (fun _ => (0 : K)) _ (fun h => hn ⟨hw, h⟩)
  · intro u hu v v2 hnode hfr
    have hu2 : u < G.numtasks := List.mem_range.mp hu
    have ep : v.glob.p = v2.glob.p := free_array hfr Fld.p (by simp) hp
    have ew : ∀ j, beg_col G u ≤ j ∧ j ≤ end_col G u → v.glob.w j = v2.glob.w j :=
      fun j hj => own_elements hu2 hfr Fld.w (by simp) j hj
    have es : ∑ j ∈ Finset.Icc (beg_col G u) (end_col G u), v.glob.p j * v.glob.w j
        = ∑ j ∈ Finset.Icc (beg_col G u) (end_col G u), v2.glob.p j * v2.glob.w j :=
      sum_congr_range _ _ (fun j hj => by rw [ep, ew j hj])
    rw [cgDot_eq, cgDot_eq]
    simp only [es, hnode]
    refine ⟨trivial, ?_⟩
    intro f j ho
    cases f with
    | gnorm_temps =>
      have e : j = u := ho
      subst e
      show setAt _ _ _ _ = setAt _ _ _ _
      rw [setAt_same, setAt_same]
    | x => exact own_elements hu2 hfr Fld.x (by simp) j ho.2
    | z => exact own_elements hu2 hfr Fld.z (by simp) j ho.2
    | p => exact absurd ho.1 hp
    | q =>
      have hj : beg_col G u ≤ j ∧ j ≤ end_col G u := ho.2
      simp only [GlobalMem.get]
      rw [onRange_in _ _ hj, onRange_in _ _ hj]
      exact ew j hj
    | r => exact own_elements hu2 hfr Fld.r (by simp) j ho.2
    | w =>
      have hj : beg_col G u ≤ j ∧ j ≤ end_col G u := ho.2
      simp only [GlobalMem.get]
      rw [onRange_in (fun _ => (0 : K)) _ hj, onRange_in (fun _ => (0 : K)) _ hj]

theorem cgAxpy_confined {K : Type} [Field K] (G : Globals) (arrs : Fld → Prop)
    (hz : arrs Fld.z) (hr : arrs Fld.r) (hp : ¬ arrs Fld.p) (hq : ¬ arrs Fld.q) :
    Confined (K := K) (List.range G.numtasks)
      (ownRanges arrs (beg (G.lastcol + 1 - G.firstcol) G.numtasks)
        (end_ (G.lastcol + 1 - G.firstcol) G.numtasks) (fun _ _ => False))
      (cgAxpy G) := by
  refine ⟨?_, ?_⟩
  · intro u _ v f j hn
    rw [cgAxpy_eq]
    cases f with
    | gnorm_temps => rfl
    | x => rfl
    | z =>
      simp only [GlobalMem.get]
      exact onRange_out _ _ (fun h => hn ⟨hz, h⟩)
    | p => rfl
    | q => rfl
    | r =>
      simp only [GlobalMem.get]
      exact onRange_out _ _ (fun h => hn ⟨hr, h⟩)
    | w => rfl
  · intro u hu v v2 hnode hfr
    have hu2 : u < G.numtasks := List.mem_range.mp hu
    have ep : v.glob.p = v2.glob.p := free_array hfr Fld.p (by simp) hp
    have eq : v.glob.q = v2.glob.q := free_array hfr Fld.q (by simp) hq
    have eb : v.glob.gnorm_temps = v2.glob.gnorm_temps := free_buffer hfr
    have ez : ∀ j, beg_col G u ≤ j ∧ j ≤ end_col G u → v.glob.z j = v2.glob.z j :=
      fun j hj => own_elements hu2 hfr Fld.z (by simp) j hj
    have er : ∀ j, beg_col G u ≤ j ∧ j ≤ end_col G u → v.glob.r j = v2.glob.r j :=
      fun j hj => own_elements hu2 hfr Fld.r (by simp) j hj
    rw [cgAxpy_eq, cgAxpy_eq]
    simp only [ep, eq, eb, hnode]
    refine ⟨trivial, ?_⟩
    intro f j ho
    cases f with
    | gnorm_temps => exact absurd ho id
    | x => exact own_elements hu2 hfr Fld.x (by simp) j ho.2
    | z =>
      have hj : beg_col G u ≤ j ∧ j ≤ end_col G u := ho.2
      simp only [GlobalMem.get]
      rw [onRange_in _ _ hj, onRange_in _ _ hj, ez j hj]
    | p => exact absurd ho.1 hp
    | q => exact absurd ho.1 hq
    | r =>
      have hj : beg_col G u ≤ j ∧ j ≤ end_col G u := ho.2
      simp only [GlobalMem.get]
      rw [onRange_in _ _ hj, onRange_in _ _ hj, er j hj]
    | w => exact own_elements hu2 hfr Fld.w (by simp) j ho.2

theorem cgNorm_confined {K : Type} [Field K] (G : Globals) (arrs : Fld → Prop)
    (hr : ¬ arrs Fld.r) :
    Confined (K := K) (List.range G.numtasks)
      (ownRanges arrs (beg (G.lastcol + 1 - G.firstcol) G.numtasks)
        (end_ (G.lastcol + 1 - G.firstcol) G.numtasks) (fun u j => j = u))
      (cgNorm G) := by
  refine ⟨?_, ?_⟩
  · intro u _ v f j hn
    rw [cgNorm_eq]
    cases f with
    | gnorm_temps => exact setAt_other _ _ hn
    | x => rfl
    | z => rfl
    | p => rfl
    | q => rfl
    | r => rfl
    | w => rfl
  · intro u hu v v2 hnode hfr
    have hu2 : u < G.numtasks := List.mem_range.mp hu
    have er : v.glob.r = v2.glob.r := free_array hfr Fld.r (by simp) hr
    rw [cgNorm_eq, cgNorm_eq]
    simp only [er, hnode]
    refine ⟨trivial, ?_⟩
    intro f j ho
    cases f with
    | gnorm_temps =>
      have e : j = u := ho
      subst e
      show setAt _ _ _ _ = setAt _ _ _ _
      rw [setAt_same, setAt_same]
    | x => exact own_elements hu2 hfr Fld.x (by simp) j ho.2
    | z => exact own_elements hu2 hfr Fld.z (by simp) j ho.2
    | p => exact own_elements hu2 hfr Fld.p (by simp) j ho.2
    | q => exact own_elements hu2 hfr Fld.q (by simp) j ho.2
    | r => exact absurd ho.1 hr
    | w => exact own_elements hu2 hfr Fld.w (by simp) j ho.2

theorem cgDirection_confined {K : Type} [Field K] (G : Globals) (arrs : Fld → Prop)
    (hp : arrs Fld.p) (hr : ¬ arrs Fld.r) :
    Confined (K := K) (List.range G.numtasks)
      (ownRanges arrs (beg (G.lastcol + 1 - G.firstcol) G.numtasks)
        (end_ (G.lastcol + 1 - G.firstcol) G.numtasks) (fun _ _ => False))
      (cgDirection G) := by
  refine ⟨?_, ?_⟩
  · intro u _ v f j hn
    rw [cgDirection_eq]
    cases f with
    | gnorm_temps => rfl
    | x => rfl
    | z => rfl
    | p =>
      simp only [GlobalMem.get]
      exact onRange_out _ _ (fun h => hn ⟨hp, h⟩)
    | q => rfl
    | r => rfl
    | w => rfl
  · intro u hu v v2 hnode hfr
    have hu2 : u < G.numtasks := List.mem_range.mp hu
    have er : v.glob.r = v2.glob.r := free_array hfr Fld.r (by simp) hr
    have eb : v.glob.gnorm_temps = v2.glob.gnorm_temps := free_buffer hfr
    have ep : ∀ j, beg_col G u ≤ j ∧ j ≤ end_col G u → v.glob.p j = v2.glob.p j :=
      fun j hj => own_elements hu2 hfr Fld.p (by simp) j hj
    rw [cgDirection_eq, cgDirection_eq]
    simp only [er, eb, hnode]
    refine ⟨trivial, ?_⟩
    intro f j ho
    cases f with
    | gnorm_temps => exact absurd ho id
    | x => exact own_elements hu2 hfr Fld.x (by simp) j ho.2
    | z => exact own_elements hu2 hfr Fld.z (by simp) j ho.2
    | p =>
      have hj : beg_col G u ≤ j ∧ j ≤ end_col G u := ho.2
      simp only [GlobalMem.get]
      rw [onRange_in _ _ hj, onRange_in _ _ hj, ep j hj]
    | q => exact own_elements hu2 hfr Fld.q (by simp) j ho.2
    | r => exact absurd ho.1 hr
    | w => exact own_elements hu2 hfr Fld.w (by simp) j ho.2

theorem cgResidual_confined {K : Type} [Field K] (G : Globals) (arrs : Fld → Prop)
    (hr : arrs Fld.r) (hw : ¬ arrs Fld.w) (hx : ¬ arrs Fld.x) :
    Confined (K := K) (List.range G.numtasks)
      (ownRanges arrs (beg (G.lastcol + 1 - G.firstcol) G.numtasks)
        (end_ (G.lastcol + 1 - G.firstcol) G.numtasks) (fun u j => j = u))
      (cgResidual G) := by
  refine ⟨?_, ?_⟩
  · intro u _ v f j hn
    rw [cgResidual_eq]
    cases f with
    | gnorm_temps => exact setAt_other _ _ hn
    | x => rfl
    | z => rfl
    | p => rfl
    | q => rfl
    | r =>
      simp only [GlobalMem.get]
      exact onRange_out _ _ (fun h => hn ⟨hr, h⟩)
    | w => rfl
  · intro u hu v v2 hnode hfr
    have hu2 : u < G.numtasks := List.mem_range.mp hu
    have ew : v.glob.w = v2.glob.w := free_array hfr Fld.w (by simp) hw
    have ex : v.glob.x = v2.glob.x := free_array hfr Fld.x (by simp) hx
    rw [cgResidual_eq, cgResidual_eq]
    simp only [ew, ex, hnode]
    refine ⟨trivial, ?_⟩
    intro f j ho
    cases f with
    | gnorm_temps =>
      have e : j = u := ho
      subst e
      show setAt _ _ _ _ = setAt _ _ _ _
      rw [setAt_same, setAt_same]
    | x => exact absurd ho.1 hx
    | z => exact own_elements hu2 hfr Fld.z (by simp) j ho.2
    | p => exact own_elements hu2 hfr Fld.p (by simp) j ho.2
    | q => exact own_elements hu2 hfr Fld.q (by simp) j ho.2
    | r =>
      have hj : beg_col G u ≤ j ∧ j ≤ end_col G u := ho.2
      simp only [GlobalMem.get]
      rw [onRange_in _ _ hj, onRange_in _ _ hj]
    | w => exact absurd ho.1 hw

theorem cgStart_confined {K : Type} [Field K] (G : Globals) (size : Nat) (arrs : Fld → Prop)
    (slot : Nat → Nat → Prop) (hslot : ∀ u u2 j, slot u j → slot u2 j → u = u2) :
    Confined (K := K) (List.range G.numtasks)
      (ownRanges arrs (beg size G.numtasks) (end_ size G.numtasks) slot) (cgStart G) :=
  confined_of_reader _ _ (ownRanges_disjoint arrs size G.numtasks slot hslot) (cgStart G)
    (fun _ _ => False) (fun _ _ h => absurd h id) (fun _ _ => rfl)
    (fun u v v2 hn _ => by rw [cgStart_eq, cgStart_eq, hn])

/-! ## The phases of an iteration, on all workers in any order -/

/-- A phase leaves the elements outside `[1, size]` of every vector as they were. -/
theorem phase_result_outside {K : Type} (numtasks size : Nat) (arrs : Fld → Prop)
    (slot : Nat → Nat → Prop) (hslot : ∀ u u2 j, slot u j → slot u2 j → u = u2)
    (seg : Nat → Worker K → Worker K)
    (hc : Confined (List.range numtasks)
      (ownRanges arrs (beg size numtasks) (end_ size numtasks) slot) seg)
    (order : List Nat) (hperm : order.Perm (List.range numtasks)) (g : World K)
    (f : Fld) (hf : f ≠ Fld.gnorm_temps) (j : Nat) (hj : ¬ (1 ≤ j ∧ j ≤ size)) :
    (runPhase order seg g).glob.get f j = g.glob.get f j := by
  obtain ⟨_, _, r3⟩ := runPhase_confined (List.range numtasks) _ seg hc
    (ownRanges_disjoint arrs size numtasks slot hslot) order
    (fun u hu => List.mem_range.mpr ((perm_range_mem hperm u).mp hu))
    (perm_range_nodup hperm) g
  refine r3 f j ?_
  intro u hu h
  have hu2 : u < numtasks := (perm_range_mem hperm u).mp hu
  have h1 : 1 ≤ beg size numtasks u := by unfold beg; omega
  have h2 := @end_le_size size _ _ hu2
  cases f with
  | gnorm_temps => exact hf rfl
  | x => exact hj ⟨by have := h.2.1; omega, by have := h.2.2; omega⟩
  | z => exact hj ⟨by have := h.2.1; omega, by have := h.2.2; omega⟩
  | p => exact hj ⟨by have := h.2.1; omega, by have := h.2.2; omega⟩
  | q => exact hj ⟨by have := h.2.1; omega, by have := h.2.2; omega⟩
  | r => exact hj ⟨by have := h.2.1; omega, by have := h.2.2; omega⟩
  | w => exact hj ⟨by have := h.2.1; omega, by have := h.2.2; omega⟩

/-- An array that holds `val j` on the range of every worker and is unchanged outside
`[1, size]` is the array with `val` on `[1, size]`. -/
theorem phase_array {β : Type} (numtasks size : Nat) (hn : 1 ≤ numtasks)
    (outf gf val : Nat → β)
    (hin : ∀ u, u < numtasks → ∀ j, beg size numtasks u ≤ j → j ≤ end_ size numtasks u →
      outf j = val j)
    (hout : ∀ j, ¬ (1 ≤ j ∧ j ≤ size) → outf j = gf j) :
    outf = onRange 1 size val gf := by
  funext j
  by_cases hj : 1 ≤ j ∧ j ≤ size
  · obtain ⟨u, hu, hb, he⟩ := @exists_owner size numtasks hn j hj.1 hj.2
    rw [onRange_in _ _ hj]
    exact hin u hu j hb he
  · rw [onRange_out _ _ hj]
    exact hout j hj

/-- The product phase (lines 533-540) on all workers: `w = A*p` on `[1, N]`, where every
worker holds the matrix `mat`; nothing else changes. -/
theorem matvec_phase {K : Type} [Field K] (G : Globals) (hn : 1 ≤ G.numtasks)
    (order : List Nat) (hperm : order.Perm (List.range G.numtasks)) (mat : NodeMem K)
    (g : World K)
    (hmat : ∀ u, u < G.numtasks → (g.node u).a = mat.a ∧ (g.node u).colidx = mat.colidx ∧
      (g.node u).rowstr = mat.rowstr) :
    runPhase order (cgMatVec G) g
      = { g with glob.w :=
            onRange 1 (G.lastrow + 1 - G.firstrow) (csrApply mat g.glob.p) g.glob.w } := by
  have hc := cgMatVec_confined (K := K) G (fun f => f = Fld.w) rfl (by intro h; cases h)
  obtain ⟨r1, r2, r3, r4, _, r6⟩ := phase_result G.numtasks (G.lastrow + 1 - G.firstrow)
    (fun f => f = Fld.w) (fun _ _ => False) (fun _ _ _ h => absurd h id) (cgMatVec G) hc
    order hperm g
  have ro := phase_result_outside G.numtasks (G.lastrow + 1 - G.firstrow)
    (fun f => f = Fld.w) (fun _ _ => False) (fun _ _ _ h => absurd h id) (cgMatVec G) hc
    order hperm g
  refine World.ext (GlobalMem.ext ?_ ?_ ?_ ?_ ?_ ?_ ?_) ?_
  · funext j
    exact r6 j (fun _ _ h => h)
  · exact r4 Fld.x (by intro h; cases h) (by intro h; cases h)
  · exact r4 Fld.z (by intro h; cases h) (by intro h; cases h)
  · exact r4 Fld.p (by intro h; cases h) (by intro h; cases h)
  · exact r4 Fld.q (by intro h; cases h) (by intro h; cases h)
  · exact r4 Fld.r (by intro h; cases h) (by intro h; cases h)
  · refine phase_array G.numtasks _ hn _ _ _ ?_ (fun j hj => ro Fld.w (by intro h; cases h) j hj)
    intro u hu j hb he
    have h := r3 Fld.w (by intro h; cases h) u hu j hb he
    rw [cgMatVec_eq] at h
    simp only [GlobalMem.get] at h
    have hj : beg_row G u ≤ j ∧ j ≤ end_row G u := ⟨hb, he⟩
    rw [onRange_in _ _ hj] at h
    rw [h]
    exact congrFun (csrApply_congr _ _ _ (hmat u hu).1 (hmat u hu).2.1 (hmat u hu).2.2) j
  · funext u
    by_cases hu : u < G.numtasks
    · rw [r1 u hu, cgMatVec_eq]
    · exact r2 u (by omega)

theorem onWorkers_in {β : Type} {numtasks u : Nat} (f old : Nat → β) (h : u < numtasks) :
    onWorkers numtasks f old u = f u := by
  simp [onWorkers, h]

theorem onWorkers_out {β : Type} {numtasks u : Nat} (f old : Nat → β) (h : ¬ u < numtasks) :
    onWorkers numtasks f old u = old u := by
  simp [onWorkers, h]

theorem GlobalMem.ext_get {K : Type} (m m2 : GlobalMem K)
    (h : ∀ f j, m.get f j = m2.get f j) : m = m2 :=
  GlobalMem.ext (funext (h Fld.gnorm_temps)) (funext (h Fld.x)) (funext (h Fld.z))
    (funext (h Fld.p)) (funext (h Fld.q)) (funext (h Fld.r)) (funext (h Fld.w))

/-- The range of a worker lies in `[1, size]`. -/
theorem range_within {size numtasks u j : Nat} (hu : u < numtasks)
    (hb : beg size numtasks u ≤ j) (he : j ≤ end_ size numtasks u) : 1 ≤ j ∧ j ≤ size := by
  have h1 : 1 ≤ beg size numtasks u := by unfold beg; omega
  have h2 := @end_le_size size _ _ hu
  omega

/-- The state a phase leaves, put together from what each worker's code does alone, for
code that does not write the buffer. -/
theorem phase_assemble {K : Type} (numtasks size : Nat) (hn : 1 ≤ numtasks)
    (arrs : Fld → Prop) (seg : Nat → Worker K → Worker K)
    (hc : Confined (List.range numtasks)
      (ownRanges arrs (beg size numtasks) (end_ size numtasks) (fun _ _ => False)) seg)
    (order : List Nat) (hperm : order.Perm (List.range numtasks)) (g : World K)
    (tglob : GlobalMem K) (tnode : Nat → NodeMem K)
    (hnode : ∀ u, u < numtasks → (seg u { glob := g.glob, node := g.node u }).node = tnode u)
    (hnode2 : ∀ u, numtasks ≤ u → tnode u = g.node u)
    (harr : ∀ f, f ≠ Fld.gnorm_temps → ∀ u, u < numtasks → ∀ j,
      beg size numtasks u ≤ j → j ≤ end_ size numtasks u →
      (seg u { glob := g.glob, node := g.node u }).glob.get f j = tglob.get f j)
    (hout : ∀ f, f ≠ Fld.gnorm_temps → ∀ j, ¬ (1 ≤ j ∧ j ≤ size) →
      tglob.get f j = g.glob.get f j)
    (hbuf : tglob.gnorm_temps = g.glob.gnorm_temps) :
    runPhase order seg g = { glob := tglob, node := tnode } := by
  obtain ⟨r1, r2, r3, _, _, r6⟩ := phase_result numtasks size arrs (fun _ _ => False)
    (fun _ _ _ h => absurd h id) seg hc order hperm g
  have ro := phase_result_outside numtasks size arrs (fun _ _ => False)
    (fun _ _ _ h => absurd h id) seg hc order hperm g
  refine World.ext (GlobalMem.ext_get _ _ ?_) ?_
  · intro f j
    by_cases hf : f = Fld.gnorm_temps
    · subst hf
      show (runPhase order seg g).glob.gnorm_temps j = tglob.gnorm_temps j
      rw [r6 j (fun _ _ h => h), hbuf]
    · by_cases hj : 1 ≤ j ∧ j ≤ size
      · obtain ⟨u, hu, hb, he⟩ := @exists_owner size numtasks hn j hj.1 hj.2
        rw [r3 f hf u hu j hb he]
        exact harr f hf u hu j hb he
      · rw [ro f hf j hj, hout f hf j hj]
  · funext u
    by_cases hu : u < numtasks
    · rw [r1 u hu]
      exact hnode u hu
    · rw [r2 u (by omega)]
      exact (hnode2 u (by omega)).symm

/-- The state a phase leaves, for code in which each worker writes its slot of the
buffer. -/
theorem phase_assemble_slot {K : Type} (numtasks size : Nat) (hn : 1 ≤ numtasks)
    (arrs : Fld → Prop) (seg : Nat → Worker K → Worker K)
    (hc : Confined (List.range numtasks)
      (ownRanges arrs (beg size numtasks) (end_ size numtasks) (fun u j => j = u)) seg)
    (order : List Nat) (hperm : order.Perm (List.range numtasks)) (g : World K)
    (tglob : GlobalMem K) (tnode : Nat → NodeMem K)
    (hnode : ∀ u, u < numtasks → (seg u { glob := g.glob, node := g.node u }).node = tnode u)
    (hnode2 : ∀ u, numtasks ≤ u → tnode u = g.node u)
    (harr : ∀ f, f ≠ Fld.gnorm_temps → ∀ u, u < numtasks → ∀ j,
      beg size numtasks u ≤ j → j ≤ end_ size numtasks u →
      (seg u { glob := g.glob, node := g.node u }).glob.get f j = tglob.get f j)
    (hout : ∀ f, f ≠ Fld.gnorm_temps → ∀ j, ¬ (1 ≤ j ∧ j ≤ size) →
      tglob.get f j = g.glob.get f j)
    (hbuf : ∀ u, u < numtasks →
      (seg u { glob := g.glob, node := g.node u }).glob.gnorm_temps u = tglob.gnorm_temps u)
    (hbuf2 : ∀ j, numtasks ≤ j → tglob.gnorm_temps j = g.glob.gnorm_temps j) :
    runPhase order seg g = { glob := tglob, node := tnode } := by
  obtain ⟨r1, r2, r3, _, r5, r6⟩ := phase_result numtasks size arrs (fun u j => j = u)
    (fun u u2 j h h2 => h.symm.trans h2) seg hc order hperm g
  have ro := phase_result_outside numtasks size arrs (fun u j => j = u)
    (fun u u2 j h h2 => h.symm.trans h2) seg hc order hperm g
  refine World.ext (GlobalMem.ext_get _ _ ?_) ?_
  · intro f j
    by_cases hf : f = Fld.gnorm_temps
    · subst hf
      show (runPhase order seg g).glob.gnorm_temps j = tglob.gnorm_temps j
      by_cases hj : j < numtasks
      · rw [r5 j hj j rfl]
        exact hbuf j hj
      · rw [r6 j (fun u hu h => hj (h ▸ hu)), hbuf2 j (by omega)]
    · by_cases hj : 1 ≤ j ∧ j ≤ size
      · obtain ⟨u, hu, hb, he⟩ := @exists_owner size numtasks hn j hj.1 hj.2
        rw [r3 f hf u hu j hb he]
        exact harr f hf u hu j hb he
      · rw [ro f hf j hj, hout f hf j hj]
  · funext u
    by_cases hu : u < numtasks
    · rw [r1 u hu]
      exact hnode u hu
    · rw [r2 u (by omega)]
      exact (hnode2 u (by omega)).symm

/-! ## Class table and verification: theorems -/

theorem selectClass_known (NA NONZER NITER : Int) (SHIFT zv0 : ℚ)
    (h : (selectClass NA NONZER NITER SHIFT zv0).class_npb ≠ 'U') :
    selectClass NA NONZER NITER SHIFT zv0 ∈ classRows := by
  unfold selectClass at h ⊢
  unfold classRows
  split_ifs at h ⊢ <;> first | (exact absurd rfl h) | simp

theorem verified_known (class_npb : Char) (zeta zeta_verify_value : ℚ) (h : class_npb ≠ 'U') :
    verified class_npb zeta zeta_verify_value = true ↔ |zeta - zeta_verify_value| ≤ 1.0e-10 := by
  unfold verified epsilon
  rw [if_pos h]
  split_ifs with h2
  · exact ⟨fun _ => h2, fun _ => rfl⟩
  · exact ⟨fun h3 => absurd h3 (by simp), fun h3 => absurd h3 h2⟩

/-- C21, as the code has it: class S with `zeta = 8.5971775083648`: the relative error
against `8.5971775078648` is at most `1e-10`, and `verified` is `FALSE`, because the
absolute error `5e-10` is what the code compares with `epsilon`. -/
theorem verified_false_within_relative_error :
    selectClass 1400 7 15 10.0 0 = { class_npb := 'S', zeta_verify_value := 8.5971775078648 } ∧
      |(8.5971775083648 : ℚ) - 8.5971775078648| / |(8.5971775078648 : ℚ)| ≤ 1.0e-10 ∧
      verified (selectClass 1400 7 15 10.0 0).class_npb 8.5971775083648
        (selectClass 1400 7 15 10.0 0).zeta_verify_value = false := by
  decide!

/-- C21 (amended): for every known class (the chain of lines 144-168 selects a class other
than `U`, one of the eight rows of the table) and every final `zeta`, worker 0 ends with
`verified = TRUE` if and only if the absolute error `|zeta - zeta_verify_value|` against the
reference value of the class is at most `1e-10`. -/
theorem verified_iff_absolute_error (NA NONZER NITER : Int) (SHIFT zv0 zeta : ℚ)
    (hknown : (selectClass NA NONZER NITER SHIFT zv0).class_npb ≠ 'U') :
    selectClass NA NONZER NITER SHIFT zv0 ∈ classRows ∧
      ∃ flag, mainFinish (selectClass NA NONZER NITER SHIFT zv0) zeta
          = Run.ok { verified := flag, status := 0 } ∧
        (flag = true ↔
          |zeta - (selectClass NA NONZER NITER SHIFT zv0).zeta_verify_value| ≤ 1.0e-10) :=
  ⟨selectClass_known NA NONZER NITER SHIFT zv0 hknown, _, rfl, verified_known _ _ _ hknown⟩

theorem verified_iff_absolute_error_witness :
    (selectClass 1400 7 15 10.0 0).class_npb ≠ 'U' ∧
      selectClass 1400 7 15 10.0 0 ∈ classRows ∧
      ∃ flag, mainFinish (selectClass 1400 7 15 10.0 0) 8.5971775078648
          = Run.ok { verified := flag, status := 0 } ∧
        (flag = true ↔
          |(8.5971775078648 : ℚ) - (selectClass 1400 7 15 10.0 0).zeta_verify_value| ≤ 1.0e-10) :=
  ⟨by decide!, verified_iff_absolute_error 1400 7 15 10.0 0 8.5971775078648 (by decide!)⟩

theorem classConds_exclusive (NA NONZER NITER : Int) (SHIFT : ℚ) :
    (classConds NA NONZER NITER SHIFT).count true ≤ 1 := by
  unfold classConds
  by_cases h1 : NA = 1400
  · subst h1; simp [List.count_cons]; split_ifs <;> simp
  by_cases h2 : NA = 7000
  · subst h2; simp [List.count_cons]; split_ifs <;> simp
  by_cases h3 : NA = 14000
  · subst h3; simp [List.count_cons]; split_ifs <;> simp
  by_cases h4 : NA = 75000
  · subst h4; simp [List.count_cons]; split_ifs <;> simp
  by_cases h5 : NA = 150000
  · subst h5; simp [List.count_cons]; split_ifs <;> simp
  by_cases h6 : NA = 1500000
  · subst h6; simp [List.count_cons]; split_ifs <;> simp
  by_cases h7 : NA = 9000000
  · subst h7; simp [List.count_cons]; split_ifs <;> simp
  by_cases h8 : NA = 54000000
  · subst h8; simp [List.count_cons]; split_ifs <;> simp
  simp [List.count_cons, h1, h2, h3, h4, h5, h6, h7, h8]

theorem selectClass_row (NA NONZER NITER : Int) (SHIFT zv0 : ℚ) (k : Nat) (hk : k < 8)
    (h : (classConds NA NONZER NITER SHIFT).getD k false = true) :
    some (selectClass NA NONZER NITER SHIFT zv0) = classRows.get? k := by
  unfold classConds at h
  unfold selectClass classRows
  interval_cases k <;> simp only [List.getD_cons_zero, List.getD_cons_succ, decide_eq_true_eq] at h
    <;> (obtain ⟨a, b, c, d⟩ := h; subst a; subst b; subst c; subst d; norm_num)

theorem selectClass_unknown (NA NONZER NITER : Int) (SHIFT zv0 : ℚ)
    (h : ∀ b, b ∈ classConds NA NONZER NITER SHIFT → b = false) :
    selectClass NA NONZER NITER SHIFT zv0 = { class_npb := 'U', zeta_verify_value := zv0 } := by
  unfold classConds at h
  simp only [List.mem_cons, List.mem_singleton, forall_eq_or_imp, forall_eq,
    decide_eq_false_iff_not, List.not_mem_nil, false_implies, implies_true, and_true] at h
  obtain ⟨h1, h2, h3, h4, h5, h6, h7, h8⟩ := h
  unfold selectClass
  rw [if_neg h1, if_neg h2, if_neg h3, if_neg h4, if_neg h5, if_neg h6, if_neg h7, if_neg h8]

/-- C22: the class is a function of `(NA, NONZER, NITER, SHIFT)`: at most one of the eight
conditions of the chain holds, the condition number `k` selects the row number `k` of the
table, the tuple `(1400, 7, 15, 10.0)` selects class S with the reference value
`8.5971775078648`, a tuple that meets no condition selects class `U`, for which `verified`
is `FALSE` for every `zeta`; and whatever the class and `zeta`, the end of `main` returns
0 (the run is not aborted). -/
theorem class_selection (NA NONZER NITER : Int) (SHIFT zv0 : ℚ) :
    (classConds NA NONZER NITER SHIFT).count true ≤ 1 ∧
      (∀ k, k < 8 → (classConds NA NONZER NITER SHIFT).getD k false = true →
        some (selectClass NA NONZER NITER SHIFT zv0) = classRows.get? k) ∧
      selectClass 1400 7 15 10.0 zv0
        = { class_npb := 'S', zeta_verify_value := 8.5971775078648 } ∧
      ((∀ b, b ∈ classConds NA NONZER NITER SHIFT → b = false) →
        (selectClass NA NONZER NITER SHIFT zv0).class_npb = 'U' ∧
        ∀ zeta, mainFinish (selectClass NA NONZER NITER SHIFT zv0) zeta
          = Run.ok { verified := false, status := 0 }) ∧
      (∀ zeta, ∃ flag, mainFinish (selectClass NA NONZER NITER SHIFT zv0) zeta
          = Run.ok { verified := flag, status := 0 }) := by
  refine ⟨classConds_exclusive NA NONZER NITER SHIFT,
    fun k hk h => selectClass_row NA NONZER NITER SHIFT zv0 k hk h, ?_, ?_,
    fun zeta => ⟨_, rfl⟩⟩
  · unfold selectClass
    norm_num
  · intro h
    rw [selectClass_unknown NA NONZER NITER SHIFT zv0 h]
    exact ⟨rfl, fun zeta => rfl⟩

/-! ## `vecset` -/

/-- The loop of `vecset` (lines 1046-1051) in closed form. -/
theorem vecset_loop (v : Nat → ℚ) (iv : Nat → Nat) (nzv i : Nat) (val : ℚ) (t : Nat) :
    ∀ s, s = forUp (fun k (s : VecState) =>
        if s.iv k = i then { s with v := setAt s.v k val, set := true } else s) 1 t
        { v := v, iv := iv, nzv := nzv, set := false } →
      s.iv = iv ∧ s.nzv = nzv ∧
      (∀ k, s.v k = if 1 ≤ k ∧ k ≤ t ∧ iv k = i then val else v k) ∧
      (s.set = true ↔ ∃ k, 1 ≤ k ∧ k ≤ t ∧ iv k = i) := by
  induction t with
  | zero =>
    intro s hs
    subst hs
    refine ⟨rfl, rfl, fun k => ?_, ?_⟩
    · rw [if_neg (by omega)]
      rfl
    · constructor
      · intro h
        exact absurd h (by simp [forUp_zero])
      · rintro ⟨k, h1, h2, _⟩
        omega
  | succ m ih =>
    intro s hs
    rw [forUp_succ_last] at hs
    obtain ⟨i1, i2, i3, i4⟩ := ih _ rfl
    generalize forUp (fun k (s : VecState) =>
        if s.iv k = i then { s with v := setAt s.v k val, set := true } else s) 1 m
        { v := v, iv := iv, nzv := nzv, set := false } = s0 at hs i1 i2 i3 i4
    subst hs
    by_cases hc : s0.iv (1 + m) = i
    · simp only [hc, if_true]
      have hc2 : iv (1 + m) = i := by rw [← i1]; exact hc
      refine ⟨i1, i2, fun k => ?_, ?_⟩
      · by_cases hk : k = 1 + m
        · subst hk
          rw [setAt_same, if_pos ⟨by omega, by omega, hc2⟩]
        · rw [setAt_other _ _ hk, i3 k]
          by_cases hk2 : 1 ≤ k ∧ k ≤ m ∧ iv k = i
          · rw [if_pos hk2, if_pos ⟨hk2.1, by omega, hk2.2.2⟩]
          · rw [if_neg hk2, if_neg]
            rintro ⟨a, b, c⟩
            exact hk2 ⟨a, by omega, c⟩
      · exact ⟨fun _ => ⟨1 + m, by omega, by omega, hc2⟩, fun _ => trivial⟩
    · simp only [hc, if_false]
      have hc2 : iv (1 + m) ≠ i := by rw [← i1]; exact hc
      refine ⟨i1, i2, fun k => ?_, ?_⟩
      · rw [i3 k]
        by_cases hk2 : 1 ≤ k ∧ k ≤ m ∧ iv k = i
        · rw [if_pos hk2, if_pos ⟨hk2.1, by omega, hk2.2.2⟩]
        · rw [if_neg hk2, if_neg]
          rintro ⟨a, b, c⟩
          by_cases hk : k = 1 + m
          · subst hk
            exact hc2 c
          · exact hk2 ⟨a, by omega, c⟩
      · rw [i4]
        constructor
        · rintro ⟨k, a, b, c⟩
          exact ⟨k, a, by omega, c⟩
        · rintro ⟨k, a, b, c⟩
          by_cases hk : k = 1 + m
          · subst hk
            exact absurd c hc2
          · exact ⟨k, a, by omega, c⟩

/-- The result of `vecset` when the index is present. -/
theorem vecset_present (v : Nat → ℚ) (iv : Nat → Nat) (nzv i : Nat) (val : ℚ)
    (h : ∃ k, 1 ≤ k ∧ k ≤ nzv ∧ iv k = i) :
    (vecset v iv nzv i val).iv = iv ∧ (vecset v iv nzv i val).nzv = nzv ∧
      ∀ k, (vecset v iv nzv i val).v k = if 1 ≤ k ∧ k ≤ nzv ∧ iv k = i then val else v k := by
  obtain ⟨i1, i2, i3, i4⟩ := vecset_loop v iv nzv i val nzv _ rfl
  have hset := i4.mpr h
  unfold vecset
  simp only [hset, Bool.true_eq_false, if_false]
  exact ⟨i1, i2, i3⟩

/-- The result of `vecset` when the index is absent. -/
theorem vecset_absent (v : Nat → ℚ) (iv : Nat → Nat) (nzv i : Nat) (val : ℚ)
    (h : ¬ ∃ k, 1 ≤ k ∧ k ≤ nzv ∧ iv k = i) :
    (vecset v iv nzv i val).iv = setAt iv (nzv + 1) i ∧
      (vecset v iv nzv i val).nzv = nzv + 1 ∧
      (vecset v iv nzv i val).v = setAt v (nzv + 1) val := by
  obtain ⟨i1, i2, i3, i4⟩ := vecset_loop v iv nzv i val nzv _ rfl
  have hset : (forUp (fun k (s : VecState) =>
        if s.iv k = i then { s with v := setAt s.v k val, set := true } else s) 1 nzv
        { v := v, iv := iv, nzv := nzv, set := false }).set = false := by
    cases hb : (forUp (fun k (s : VecState) =>
        if s.iv k = i then { s with v := setAt s.v k val, set := true } else s) 1 nzv
        { v := v, iv := iv, nzv := nzv, set := false }).set with
    | false => rfl
    | true => exact absurd (i4.mp hb) h
  have hv : (forUp (fun k (s : VecState) =>
        if s.iv k = i then { s with v := setAt s.v k val, set := true } else s) 1 nzv
        { v := v, iv := iv, nzv := nzv, set := false }).v = v := by
    funext k
    rw [i3 k, if_neg]
    rintro ⟨a, b, c⟩
    exact h ⟨k, a, b, c⟩
  unfold vecset
  simp only [hset, if_true]
  rw [i1, i2, hv]
  exact ⟨rfl, rfl, rfl⟩

/-- C30: for every sparse vector `(v, iv)` with `nzv` entries, every index `i` and value
`val`, after `vecset(n, v, iv, &nzv, i, val)`: some entry `k` of `[1, nzv']` has
`iv[k] = i`; every entry of `[1, nzv']` with `iv[k] = i` has `v[k] = val`; `nzv' = nzv` if
`i` was present and `nzv' = nzv + 1` otherwise; the entries of `[1, nzv]` keep their
index, and those with `iv[k] != i` keep their value; so pairwise distinct indices stay
pairwise distinct. -/
theorem vecset_spec (v : Nat → ℚ) (iv : Nat → Nat) (nzv i : Nat) (val : ℚ) :
    (∃ k, 1 ≤ k ∧ k ≤ (vecset v iv nzv i val).nzv ∧ (vecset v iv nzv i val).iv k = i) ∧
      (∀ k, 1 ≤ k → k ≤ (vecset v iv nzv i val).nzv → (vecset v iv nzv i val).iv k = i →
        (vecset v iv nzv i val).v k = val) ∧
      ((∃ k, 1 ≤ k ∧ k ≤ nzv ∧ iv k = i) → (vecset v iv nzv i val).nzv = nzv) ∧
      ((¬ ∃ k, 1 ≤ k ∧ k ≤ nzv ∧ iv k = i) → (vecset v iv nzv i val).nzv = nzv + 1) ∧
      (∀ k, 1 ≤ k → k ≤ nzv → (vecset v iv nzv i val).iv k = iv k ∧
        (iv k ≠ i → (vecset v iv nzv i val).v k = v k)) ∧
      ((∀ k1 k2, 1 ≤ k1 → k1 ≤ nzv → 1 ≤ k2 → k2 ≤ nzv → k1 ≠ k2 → iv k1 ≠ iv k2) →
        ∀ k1 k2, 1 ≤ k1 → k1 ≤ (vecset v iv nzv i val).nzv → 1 ≤ k2 →
          k2 ≤ (vecset v iv nzv i val).nzv → k1 ≠ k2 →
          (vecset v iv nzv i val).iv k1 ≠ (vecset v iv nzv i val).iv k2) := by
  by_cases h : ∃ k, 1 ≤ k ∧ k ≤ nzv ∧ iv k = i
  · obtain ⟨e1, e2, e3⟩ := vecset_present v iv nzv i val h
    rw [e1, e2]
    refine ⟨h, ?_, fun _ => rfl, fun h2 => absurd h h2, ?_, fun hd => hd⟩
    · intro k h1 h2 h3
      rw [e3 k, if_pos ⟨h1, h2, h3⟩]
    · intro k h1 h2
      refine ⟨rfl, fun h3 => ?_⟩
      rw [e3 k, if_neg]
      rintro ⟨_, _, c⟩
      exact h3 c
  · obtain ⟨e1, e2, e3⟩ := vecset_absent v iv nzv i val h
    rw [e1, e2, e3]
    refine ⟨⟨nzv + 1, by omega, le_refl _, setAt_same _ _ _⟩, ?_, fun h2 => absurd h2 h,
      fun _ => rfl, ?_, ?_⟩
    · intro k h1 h2 h3
      by_cases hk : k = nzv + 1
      · subst hk
        exact setAt_same _ _ _
      · rw [setAt_other _ _ hk] at h3
        exact absurd ⟨k, h1, by omega, h3⟩ h
    · intro k h1 h2
      have hk : k ≠ nzv + 1 := by omega
      exact ⟨setAt_other _ _ hk, fun _ => setAt_other _ _ hk⟩
    · intro hd k1 k2 a1 a2 b1 b2 hne
      by_cases hk1 : k1 = nzv + 1
      · have hk2 : k2 ≠ nzv + 1 := fun e => hne (hk1.trans e.symm)
        rw [hk1, setAt_same, setAt_other _ _ hk2]
        intro e
        exact h ⟨k2, b1, by omega, e.symm⟩
      · rw [setAt_other _ _ hk1]
        by_cases hk2 : k2 = nzv + 1
        · rw [hk2, setAt_same]
          intro e
          exact h ⟨k1, a1, by omega, e⟩
        · rw [setAt_other _ _ hk2]
          exact hd k1 k2 a1 (by omega) b1 (by omega) hne

/-! ## The scratch arrays of `sparse` after every row -/

section Scratch
variable {α : Type} [AddMonoid α] [DecidableEq α]

/-- For one column `c`: when every mark of `c` is recorded and a nonzero `x[c]` is
marked, the same holds after the accumulation loop, whatever the other columns hold. -/
theorem scanRow_column (l : List (Nat × α)) (c : Nat) :
    ∀ (x : Nat → α) (mark : Nat → Bool) (nzl : List Nat),
      (mark c = true → c ∈ nzl) → (x c ≠ 0 → mark c = true) →
      ((scanRow l x mark nzl).2.1 c = true → c ∈ (scanRow l x mark nzl).2.2) ∧
        ((scanRow l x mark nzl).1 c ≠ 0 → (scanRow l x mark nzl).2.1 c = true) := by
  induction l with
  | nil =>
    intro x mark nzl h1 h2
    exact ⟨h1, h2⟩
  | cons e l ih =>
    intro x mark nzl h1 h2
    by_cases hc : mark e.1 = false ∧ setAt x e.1 (x e.1 + e.2) e.1 ≠ 0
    · rw [scanRow_cons_pos e l x mark nzl hc]
      apply ih
      · intro hm
        by_cases hce : c = e.1
        · subst hce
          exact List.mem_append_right _ (List.mem_singleton.mpr rfl)
        · rw [setAt_other _ _ hce] at hm
          exact List.mem_append_left _ (h1 hm)
      · intro hx
        by_cases hce : c = e.1
        · subst hce
          exact setAt_same _ _ _
        · rw [setAt_other _ _ hce] at hx
          rw [setAt_other _ _ hce]
          exact h2 hx
    · rw [scanRow_cons_neg e l x mark nzl hc]
      apply ih _ _ _ h1
      intro hx
      by_cases hce : c = e.1
      · subst hce
        cases hm : mark e.1 with
        | true => rfl
        | false => exact absurd ⟨hm, hx⟩ hc
      · rw [setAt_other _ _ hce] at hx
        exact h2 hx

/-- A column that is clean before a row is clean after it, for every content of the
arrays. -/
theorem rowBody_clean (j : Nat) (s : SparseState α) (c : Nat)
    (h : s.x c = 0 ∧ s.mark c = false) :
    (rowBody j s).x c = 0 ∧ (rowBody j s).mark c = false := by
  obtain ⟨_, _, _, _, _, hx, hm⟩ := rowBody_spec j s
  have hcol := scanRow_column (seg s.colidx s.a s.jajp1 (s.rowstr (j + 1) - s.jajp1)) c
    s.x s.mark [] (fun hm2 => absurd hm2 (by rw [h.2]; simp)) (fun hx2 => absurd h.1 hx2)
  rw [hx, hm, clearAt_apply, clearAt_apply]
  by_cases hmem :
      c ∈ (scanRow (seg s.colidx s.a s.jajp1 (s.rowstr (j + 1) - s.jajp1)) s.x s.mark []).2.2
  · rw [if_pos hmem, if_pos hmem]
    exact ⟨rfl, rfl⟩
  · rw [if_neg hmem, if_neg hmem]
    have hmf : (scanRow (seg s.colidx s.a s.jajp1 (s.rowstr (j + 1) - s.jajp1))
        s.x s.mark []).2.1 c = false := by
      rw [Bool.eq_false_iff]
      exact fun hm2 => hmem (hcol.1 hm2)
    refine ⟨?_, hmf⟩
    by_contra hne
    have := hcol.2 hne
    rw [hmf] at this
    cases this

/-- C29: in the coalescing pass of `sparse` (lines 920-960) the scratch state is restored
after every row: with `prep` the state when the loop over the rows starts (after lines
920-927), after the rows `1 .. t`, for every `t` up to `nrows`, `mark[i] = FALSE` and
`x[i] = 0.0` for every `i` of `[1, n]`; and so it is when `sparse` returns.  This holds
for every input and every initial content of the arrays. -/
theorem sparse_scratch_restored (n : Nat) (arow acol : Nat → Nat) (aelt : Nat → α)
    (firstrow lastrow nnza : Nat) (s : SparseState α) :
    (∀ t i, 1 ≤ i → i ≤ n →
      (forUp rowBody 1 t
        { sparseZero n (sparseShift (lastrow + 1 - firstrow)
            (sparseBucket arow acol aelt firstrow nnza
              (sparsePrefix (lastrow + 1 - firstrow)
                (sparseCount arow firstrow nnza (sparseClear n s))))) with
          jajp1 := (sparseZero n (sparseShift (lastrow + 1 - firstrow)
            (sparseBucket arow acol aelt firstrow nnza
              (sparsePrefix (lastrow + 1 - firstrow)
                (sparseCount arow firstrow nnza (sparseClear n s)))))).rowstr 1 }).mark i
          = false ∧
      (forUp rowBody 1 t
        { sparseZero n (sparseShift (lastrow + 1 - firstrow)
            (sparseBucket arow acol aelt firstrow nnza
              (sparsePrefix (lastrow + 1 - firstrow)
                (sparseCount arow firstrow nnza (sparseClear n s))))) with
          jajp1 := (sparseZero n (sparseShift (lastrow + 1 - firstrow)
            (sparseBucket arow acol aelt firstrow nnza
              (sparsePrefix (lastrow + 1 - firstrow)
                (sparseCount arow firstrow nnza (sparseClear n s)))))).rowstr 1 }).x i = 0) ∧
      (sparse n arow acol aelt firstrow lastrow nnza s
        = forUp rowBody 1 (lastrow + 1 - firstrow)
          { sparseZero n (sparseShift (lastrow + 1 - firstrow)
              (sparseBucket arow acol aelt firstrow nnza
                (sparsePrefix (lastrow + 1 - firstrow)
                  (sparseCount arow firstrow nnza (sparseClear n s))))) with
            jajp1 := (sparseZero n (sparseShift (lastrow + 1 - firstrow)
              (sparseBucket arow acol aelt firstrow nnza
                (sparsePrefix (lastrow + 1 - firstrow)
                  (sparseCount arow firstrow nnza (sparseClear n s)))))).rowstr 1 }) ∧
      (∀ i, 1 ≤ i → i ≤ n →
        (sparse n arow acol aelt firstrow lastrow nnza s).mark i = false ∧
        (sparse n arow acol aelt firstrow lastrow nnza s).x i = 0) := by
  have key : ∀ t i, 1 ≤ i → i ≤ n →
      (forUp rowBody 1 t
        { sparseZero n (sparseShift (lastrow + 1 - firstrow)
            (sparseBucket arow acol aelt firstrow nnza
              (sparsePrefix (lastrow + 1 - firstrow)
                (sparseCount arow firstrow nnza (sparseClear n s))))) with
          jajp1 := (sparseZero n (sparseShift (lastrow + 1 - firstrow)
            (sparseBucket arow acol aelt firstrow nnza
              (sparsePrefix (lastrow + 1 - firstrow)
                (sparseCount arow firstrow nnza (sparseClear n s)))))).rowstr 1 }).mark i
          = false ∧
      (forUp rowBody 1 t
        { sparseZero n (sparseShift (lastrow + 1 - firstrow)
            (sparseBucket arow acol aelt firstrow nnza
              (sparsePrefix (lastrow + 1 - firstrow)
                (sparseCount arow firstrow nnza (sparseClear n s))))) with
          jajp1 := (sparseZero n (sparseShift (lastrow + 1 - firstrow)
            (sparseBucket arow acol aelt firstrow nnza
              (sparsePrefix (lastrow + 1 - firstrow)
                (sparseCount arow firstrow nnza (sparseClear n s)))))).rowstr 1 }).x i = 0 := by
    intro t i h1 h2
    induction t with
    | zero =>
      have hz := sparseZero_clean n (sparseShift (lastrow + 1 - firstrow)
        (sparseBucket arow acol aelt firstrow nnza
          (sparsePrefix (lastrow + 1 - firstrow)
            (sparseCount arow firstrow nnza (sparseClear n s))))) i h1 h2
      exact ⟨hz.2, hz.1⟩
    | succ m ih =>
      rw [forUp_succ_last]
      have := rowBody_clean (1 + m) _ i ⟨ih.2, ih.1⟩
      exact ⟨this.2, this.1⟩
  exact ⟨key, rfl, fun i h1 h2 => key (lastrow + 1 - firstrow) i h1 h2⟩

end Scratch

/-! ## The triples `makea` emits, column by column -/

theorem triplesFrom_length (s : MakeaState) (lo len : Nat) :
    (triplesFrom s lo len).length = len := by
  simp [triplesFrom]

theorem triplesFrom_add (s : MakeaState) (lo a b : Nat) :
    triplesFrom s lo (a + b) = triplesFrom s lo a ++ triplesFrom s (lo + a) b := by
  unfold triplesFrom
  rw [← List.map_append]
  congr 1
  have := List.range'_append lo a b 1
  rw [Nat.one_mul, Nat.add_comm b a] at this
  exact this.symm

/-- Storing one more triple appends it to the list of the triples. -/
theorem triplesFrom_push (s : MakeaState) (r c : Nat) (e : ℚ) :
    triplesFrom
        { s with nnza := s.nnza + 1, acol := setAt s.acol (s.nnza + 1) c,
                 arow := setAt s.arow (s.nnza + 1) r, aelt := setAt s.aelt (s.nnza + 1) e }
        1 (s.nnza + 1)
      = triplesFrom s 1 s.nnza ++ [(r, c, e)] := by
  rw [triplesFrom_succ]
  have e1 : 1 + s.nnza = s.nnza + 1 := by omega
  simp only [e1, setAt_same]
  congr 1
  apply triplesFrom_congr
  intro t _ ht2
  have hne : t ≠ s.nnza + 1 := by omega
  simp only [setAt_other _ _ hne, and_self]

/-- A part of the list of the triples, read at its positions. -/
theorem triplesFrom_of_split (s : MakeaState) (A B C : List (Nat × Nat × ℚ))
    (h : triplesFrom s 1 s.nnza = A ++ B ++ C) :
    triplesFrom s (A.length + 1) B.length = B := by
  have hlen : s.nnza = A.length + (B.length + C.length) := by
    have := congrArg List.length h
    rw [triplesFrom_length] at this
    simp only [List.length_append] at this
    omega
  rw [hlen, triplesFrom_add, triplesFrom_add, List.append_assoc] at h
  have h1 := (List.append_inj h (triplesFrom_length _ _ _)).2
  have h2 := (List.append_inj h1 (triplesFrom_length _ _ _)).1
  rw [Nat.add_comm 1 A.length] at h2
  exact h2

/-- A loop whose iterations append blocks to a list kept in the state appends the
blocks of all its iterations, in order. -/
theorem forUpRun_blocks {σ β : Type} (body : Nat → σ → Run σ) (T : σ → List β)
    (I : σ → Prop) (blk : Nat → List β)
    (hstep : ∀ i s s2, I s → body i s = Run.ok s2 → I s2 ∧ T s2 = T s ++ blk i)
    (lo cnt : Nat) (s out : σ) (h0 : I s) (h : forUpRun body lo cnt s = Run.ok out) :
    I out ∧ T out = T s ++ (List.range' lo cnt).flatMap blk := by
  induction cnt generalizing out with
  | zero =>
    cases h
    exact ⟨h0, by simp⟩
  | succ m ih =>
    unfold forUpRun at h
    rw [forUp_succ_last] at h
    obtain ⟨mid, hmid, hbody⟩ := Run.bind_eq_ok _ _ _ h
    obtain ⟨i1, i2⟩ := ih mid hmid
    obtain ⟨j1, j2⟩ := hstep _ mid out i1 hbody
    refine ⟨j1, ?_⟩
    rw [j2, i2, List.range'_concat, List.flatMap_append, List.append_assoc]
    simp

/-- The loop over `ivelt1` (lines 796-808) appends, for each entry `b` whose index is a
row of the range, the triple `(iv[b], jcol, v[b] * scale)`. -/
theorem makeaInner_blocks (nz firstrow lastrow jcol : Nat) (scale : ℚ) (lo cnt : Nat)
    (s out : MakeaState)
    (h : forUpRun (makeaInner nz firstrow lastrow jcol scale) lo cnt s = Run.ok out) :
    (out.iv = s.iv ∧ out.v = s.v ∧ out.nzv = s.nzv ∧ out.size = s.size ∧ out.pos = s.pos ∧
        out.colidx = s.colidx ∧ out.a = s.a ∧ out.rowstr = s.rowstr) ∧
      triplesFrom out 1 out.nnza = triplesFrom s 1 s.nnza ++
        (List.range' lo cnt).flatMap (fun b =>
          if firstrow ≤ s.iv b ∧ s.iv b ≤ lastrow then [(s.iv b, jcol, s.v b * scale)]
          else []) := by
  refine forUpRun_blocks (makeaInner nz firstrow lastrow jcol scale)
    (fun t => triplesFrom t 1 t.nnza)
    (fun t => t.iv = s.iv ∧ t.v = s.v ∧ t.nzv = s.nzv ∧ t.size = s.size ∧ t.pos = s.pos ∧
        t.colidx = s.colidx ∧ t.a = s.a ∧ t.rowstr = s.rowstr) _ ?_ lo cnt s out
    ⟨rfl, rfl, rfl, rfl, rfl, rfl, rfl, rfl⟩ h
  intro i t t2 hI hb
  unfold makeaInner at hb
  obtain ⟨e1, e2, e3, e4, e5, e6, e7, e8⟩ := hI
  split at hb
  · rename_i hc
    split at hb
    · cases hb
    · cases hb
      refine ⟨⟨e1, e2, e3, e4, e5, e6, e7, e8⟩, ?_⟩
      rw [e1] at hc
      simp only []
      rw [if_pos ⟨hc.1, hc.2⟩, ← e1, ← e2]
      exact triplesFrom_push t _ _ _
  · rename_i hc
    cases hb
    refine ⟨⟨e1, e2, e3, e4, e5, e6, e7, e8⟩, ?_⟩
    rw [e1] at hc
    simp only []
    rw [if_neg (fun hh => hc ⟨hh.1, hh.2⟩), List.append_nil]

/-- The triples of one generated vector `(v, iv)` with `nzv` entries and scale factor
`size` (lines 791-810): for each entry `a` whose index is a column of the range, in
order, and each entry `b` whose index is a row of the range, in order, the triple
`(iv[b], iv[a], v[b] * (size * v[a]))`. -/
theorem makeaColumn_blocks (nz firstrow lastrow firstcol lastcol : Nat) (lo cnt : Nat)
    (s out : MakeaState)
    (h : forUpRun (makeaColumn nz firstrow lastrow firstcol lastcol) lo cnt s = Run.ok out) :
    (out.iv = s.iv ∧ out.v = s.v ∧ out.nzv = s.nzv ∧ out.size = s.size ∧ out.pos = s.pos ∧
        out.colidx = s.colidx ∧ out.a = s.a ∧ out.rowstr = s.rowstr) ∧
      triplesFrom out 1 out.nnza = triplesFrom s 1 s.nnza ++
        (List.range' lo cnt).flatMap (fun a =>
          if firstcol ≤ s.iv a ∧ s.iv a ≤ lastcol then
            (List.range' 1 s.nzv).flatMap (fun b =>
              if firstrow ≤ s.iv b ∧ s.iv b ≤ lastrow then
                [(s.iv b, s.iv a, s.v b * (s.size * s.v a))]
              else [])
          else []) := by
  refine forUpRun_blocks (makeaColumn nz firstrow lastrow firstcol lastcol)
    (fun t => triplesFrom t 1 t.nnza)
    (fun t => t.iv = s.iv ∧ t.v = s.v ∧ t.nzv = s.nzv ∧ t.size = s.size ∧ t.pos = s.pos ∧
        t.colidx = s.colidx ∧ t.a = s.a ∧ t.rowstr = s.rowstr) _ ?_ lo cnt s out
    ⟨rfl, rfl, rfl, rfl, rfl, rfl, rfl, rfl⟩ h
  intro i t t2 hI hb
  unfold makeaColumn at hb
  obtain ⟨e1, e2, e3, e4, e5, e6, e7, e8⟩ := hI
  split at hb
  · rename_i hc
    obtain ⟨⟨f1, f2, f3, f4, f5, f6, f7, f8⟩, hT⟩ := makeaInner_blocks _ _ _ _ _ _ _ _ _ hb
    refine ⟨⟨f1.trans e1, f2.trans e2, f3.trans e3, f4.trans e4, f5.trans e5, f6.trans e6,
      f7.trans e7, f8.trans e8⟩, ?_⟩
    rw [e1] at hc
    simp only []
    rw [if_pos ⟨hc.1, hc.2⟩, hT, e1, e2, e3, e4]
  · rename_i hc
    cases hb
    refine ⟨⟨e1, e2, e3, e4, e5, e6, e7, e8⟩, ?_⟩
    rw [e1] at hc
    simp only []
    rw [if_neg (fun hh => hc ⟨hh.1, hh.2⟩), List.append_nil]

theorem forUpRun_succ {σ : Type} (body : Nat → σ → Run σ) (lo m : Nat) (s : σ) :
    forUpRun body lo (m + 1) s = (forUpRun body lo m s).bind (body (lo + m)) := by
  unfold forUpRun
  rw [forUp_succ_last]

/-- A loop that ends normally has ended normally after each of its iterations. -/
theorem forUpRun_split {σ : Type} (body : Nat → σ → Run σ) (lo a b : Nat) (s out : σ)
    (h : forUpRun body lo (a + b) s = Run.ok out) :
    ∃ mid, forUpRun body lo a s = Run.ok mid ∧ forUpRun body (lo + a) b mid = Run.ok out := by
  induction b generalizing out with
  | zero => exact ⟨out, h, rfl⟩
  | succ m ih =>
    rw [← Nat.add_assoc, forUpRun_succ] at h
    obtain ⟨s1, h1, hbody⟩ := Run.bind_eq_ok _ _ _ h
    obtain ⟨mid, hm1, hm2⟩ := ih s1 h1
    refine ⟨mid, hm1, ?_⟩
    rw [forUpRun_succ, hm2, Nat.add_assoc]
    exact hbody

theorem makeaStart_fields (n : Nat) (s : MakeaState) :
    (makeaStart n s).size = 1 ∧ (makeaStart n s).nnza = 0 :=
  ⟨forUp_preserve _ MakeaState.size (by intro _ _; rfl) _ _ _,
    forUp_preserve _ MakeaState.nnza (by intro _ _; rfl) _ _ _⟩

/-- One iteration of the loop over `iouter` (lines 788-812): the vector it generates is
the result of `sprnvc` and `vecset`, its triples are appended with the scale factor
`size` of the start of the iteration, and `size` is multiplied by `ratio`. -/
theorem makeaOuter_block (fuel : Nat) (rand : Nat → ℚ) (ratio : ℚ)
    (n nz nonzer firstrow lastrow firstcol lastcol : Nat) (iouter : Nat) (s s2 : MakeaState)
    (h : makeaOuter fuel rand ratio n nz nonzer firstrow lastrow firstcol lastcol iouter s
      = Run.ok s2) :
    s2.size = s.size * ratio ∧
      triplesFrom s2 1 s2.nnza = triplesFrom s 1 s.nnza ++
        vecTriples firstrow lastrow firstcol lastcol s2.v s2.iv s2.nzv s.size ∧
      ∃ g, sprnvc fuel n nonzer rand
          { v := s.v, iv := s.iv, nzloc := s.colidx, mark := fun i => s.colidx (n + i),
            nzv := 0, nzrow := 0, pos := s.pos } = some g ∧
        s2.v = (vecset g.v g.iv nonzer iouter (1 / 2)).v ∧
        s2.iv = (vecset g.v g.iv nonzer iouter (1 / 2)).iv ∧
        s2.nzv = (vecset g.v g.iv nonzer iouter (1 / 2)).nzv := by
  unfold makeaOuter at h
  split at h
  · cases h
  · rename_i g hg
    obtain ⟨mid, hmid, hfin⟩ := Run.bind_eq_ok _ _ _ h
    cases hfin
    obtain ⟨⟨f1, f2, f3, f4, _, _, _, _⟩, hT⟩ := makeaColumn_blocks _ _ _ _ _ _ _ _ _ hmid
    simp only [] at f1 f2 f3 f4 hT
    refine ⟨by simp only [f4], ?_, g, hg, f2, f1, f3⟩
    show triplesFrom mid 1 mid.nnza = triplesFrom s 1 s.nnza ++
      vecTriples firstrow lastrow firstcol lastcol mid.v mid.iv mid.nzv s.size
    rw [hT, f1, f2, f3]
    rfl

/-- After `m` iterations of the loop over `iouter`, `size` is `ratio^m`. -/
theorem makeaOuter_size (fuel : Nat) (rand : Nat → ℚ) (ratio : ℚ)
    (n nz nonzer firstrow lastrow firstcol lastcol : Nat) (m : Nat) (s out : MakeaState)
    (h : forUpRun (makeaOuter fuel rand ratio n nz nonzer firstrow lastrow firstcol lastcol)
      1 m s = Run.ok out) :
    out.size = s.size * ratio ^ m := by
  induction m generalizing out with
  | zero =>
    cases h
    simp
  | succ k ih =>
    rw [forUpRun_succ] at h
    obtain ⟨mid, hmid, hbody⟩ := Run.bind_eq_ok _ _ _ h
    rw [(makeaOuter_block _ _ _ _ _ _ _ _ _ _ _ _ _ hbody).1, ih mid hmid, pow_succ, mul_assoc]

/-- The triples stored are never overwritten by the later iterations over `iouter`. -/
theorem makeaOuter_keeps (fuel : Nat) (rand : Nat → ℚ) (ratio : ℚ)
    (n nz nonzer firstrow lastrow firstcol lastcol : Nat) (lo cnt : Nat) (s out : MakeaState)
    (h : forUpRun (makeaOuter fuel rand ratio n nz nonzer firstrow lastrow firstcol lastcol)
      lo cnt s = Run.ok out) :
    ∃ C, triplesFrom out 1 out.nnza = triplesFrom s 1 s.nnza ++ C := by
  refine forUpRun_invariant _ (fun t => ∃ C, triplesFrom t 1 t.nnza = triplesFrom s 1 s.nnza ++ C)
    ?_ lo cnt s out ⟨[], by simp⟩ h
  rintro i t t2 ⟨C, hC⟩ hb
  refine ⟨C ++ vecTriples firstrow lastrow firstcol lastcol t2.v t2.iv t2.nzv t.size, ?_⟩
  rw [(makeaOuter_block _ _ _ _ _ _ _ _ _ _ _ _ _ hb).2.1, hC, List.append_assoc]

theorem vecTriples_comm (firstrow lastrow firstcol lastcol : Nat) (v : Nat → ℚ)
    (iv : Nat → Nat) (nzv : Nat) (size : ℚ) :
    vecTriples firstrow lastrow firstcol lastcol v iv nzv size
      = (List.range' 1 nzv).flatMap (fun ivelt =>
          if firstcol ≤ iv ivelt ∧ iv ivelt ≤ lastcol then
            (List.range' 1 nzv).flatMap (fun ivelt1 =>
              if firstrow ≤ iv ivelt1 ∧ iv ivelt1 ≤ lastrow then
                [(iv ivelt1, iv ivelt, v ivelt1 * v ivelt * size)]
              else [])
          else []) := by
  unfold vecTriples
  have e : ∀ a b : Nat, v b * (size * v a) = v b * v a * size := fun a b => by ring
  simp only [e]

/-- C28: in the outer iteration `iouter` (`1 <= iouter <= n`) of a run of the loop over
the columns of `makea` that ends normally, with `s1` the state when the iteration starts
and `s2` the state when it ends: the scale factor `size` is `ratio^(iouter-1)` with
`ratio = pow(rcond, 1/n)`; the vector `(v, iv)` of the iteration is the result of `sprnvc`
and `vecset`; the triples the iteration emits are, for the entries `ivelt` with a column
index in range and the entries `ivelt1` with a row index in range, exactly the triples
`(iv[ivelt1], iv[ivelt], v[ivelt1] * v[ivelt] * ratio^(iouter-1))`; and they are still
there when the loop has ended. -/
theorem makea_scale_geometric (fuel : Nat) (rand : Nat → ℚ) (cpow : ℚ → ℚ → ℚ)
    (n nz nonzer firstrow lastrow firstcol lastcol : Nat) (rcond : ℚ) (s out : MakeaState)
    (h : makeaColumns fuel rand cpow n nz nonzer firstrow lastrow firstcol lastcol rcond s
      = Run.ok out)
    (iouter : Nat) (h1 : 1 ≤ iouter) (h2 : iouter ≤ n) :
    ∃ s1 s2 g,
      forUpRun (makeaOuter fuel rand (cpow rcond (1 / (n : ℚ))) n nz nonzer firstrow lastrow
          firstcol lastcol) 1 (iouter - 1) (makeaStart n s) = Run.ok s1 ∧
        makeaOuter fuel rand (cpow rcond (1 / (n : ℚ))) n nz nonzer firstrow lastrow firstcol
          lastcol iouter s1 = Run.ok s2 ∧
        s1.size = cpow rcond (1 / (n : ℚ)) ^ (iouter - 1) ∧
        sprnvc fuel n nonzer rand
          { v := s1.v, iv := s1.iv, nzloc := s1.colidx, mark := fun i => s1.colidx (n + i),
            nzv := 0, nzrow := 0, pos := s1.pos } = some g ∧
        s2.v = (vecset g.v g.iv nonzer iouter (1 / 2)).v ∧
        s2.iv = (vecset g.v g.iv nonzer iouter (1 / 2)).iv ∧
        s2.nzv = (vecset g.v g.iv nonzer iouter (1 / 2)).nzv ∧
        triplesFrom s2 (s1.nnza + 1) (s2.nnza - s1.nnza)
          = (List.range' 1 s2.nzv).flatMap (fun ivelt =>
              if firstcol ≤ s2.iv ivelt ∧ s2.iv ivelt ≤ lastcol then
                (List.range' 1 s2.nzv).flatMap (fun ivelt1 =>
                  if firstrow ≤ s2.iv ivelt1 ∧ s2.iv ivelt1 ≤ lastrow then
                    [(s2.iv ivelt1, s2.iv ivelt,
                      s2.v ivelt1 * s2.v ivelt * cpow rcond (1 / (n : ℚ)) ^ (iouter - 1))]
                  else [])
              else []) ∧
        triplesFrom out (s1.nnza + 1) (s2.nnza - s1.nnza)
          = triplesFrom s2 (s1.nnza + 1) (s2.nnza - s1.nnza) := by
  have hsplit : n = (iouter - 1) + (1 + (n - iouter)) := by omega
  have h0 : forUpRun (makeaOuter fuel rand (cpow rcond (1 / (n : ℚ))) n nz nonzer firstrow
      lastrow firstcol lastcol) 1 ((iouter - 1) + (1 + (n - iouter))) (makeaStart n s)
      = Run.ok out := by
    rw [← hsplit]
    exact h
  obtain ⟨s1, hs1, hrest⟩ := forUpRun_split _ _ _ _ _ _ h0
  obtain ⟨s2, hs2, hrest2⟩ := forUpRun_split _ _ _ _ _ _ hrest
  have hbody : makeaOuter fuel rand (cpow rcond (1 / (n : ℚ))) n nz nonzer firstrow lastrow
      firstcol lastcol iouter s1 = Run.ok s2 := by
    have e : 1 + (iouter - 1) = iouter := by omega
    rw [forUpRun_succ, e] at hs2
    exact hs2
  obtain ⟨_, hT, g, hg, g1, g2, g3⟩ := makeaOuter_block _ _ _ _ _ _ _ _ _ _ _ _ _ hbody
  have hsize := makeaOuter_size _ _ _ _ _ _ _ _ _ _ _ _ _ hs1
  rw [(makeaStart_fields n s).1, one_mul] at hsize
  obtain ⟨C, hC⟩ := makeaOuter_keeps _ _ _ _ _ _ _ _ _ _ _ _ _ _ hrest2
  rw [hsize, vecTriples_comm] at hT
  have hlen : s2.nnza - s1.nnza = ((List.range' 1 s2.nzv).flatMap (fun ivelt =>
      if firstcol ≤ s2.iv ivelt ∧ s2.iv ivelt ≤ lastcol then
        (List.range' 1 s2.nzv).flatMap (fun ivelt1 =>
          if firstrow ≤ s2.iv ivelt1 ∧ s2.iv ivelt1 ≤ lastrow then
            [(s2.iv ivelt1, s2.iv ivelt,
              s2.v ivelt1 * s2.v ivelt * cpow rcond (1 / (n : ℚ)) ^ (iouter - 1))]
          else [])
      else [])).length := by
    have := congrArg List.length hT
    rw [triplesFrom_length, List.length_append, triplesFrom_length] at this
    omega
  have hA : (triplesFrom s1 1 s1.nnza).length = s1.nnza := triplesFrom_length _ _ _
  have e2 := triplesFrom_of_split s2 (triplesFrom s1 1 s1.nnza) _ []
    (by rw [List.append_nil]; exact hT)
  rw [hA, ← hlen] at e2
  have e3 := triplesFrom_of_split out (triplesFrom s1 1 s1.nnza) _ C
    (by rw [hC, hT])
  rw [hA, ← hlen] at e3
  exact ⟨s1, s2, g, hs1, hbody, hsize, hg, g1, g2, g3, e2, e3.trans e2.symm⟩

theorem makea_scale_geometric_witness :
    ∃ s1 s2 g,
      forUpRun (makeaOuter 40 npbStream ((fun _ _ => 1 / 2 : ℚ → ℚ → ℚ) (1 / 10) (1 / ((4 : Nat) : ℚ)))
          4 100 2 1 4 1 4) 1 (2 - 1) (makeaStart 4 MakeaState.blank) = Run.ok s1 ∧
        makeaOuter 40 npbStream ((fun _ _ => 1 / 2 : ℚ → ℚ → ℚ) (1 / 10) (1 / ((4 : Nat) : ℚ)))
          4 100 2 1 4 1 4 2 s1 = Run.ok s2 ∧
        s1.size = (fun _ _ => 1 / 2 : ℚ → ℚ → ℚ) (1 / 10) (1 / ((4 : Nat) : ℚ)) ^ (2 - 1) ∧
        sprnvc 40 4 2 npbStream
          { v := s1.v, iv := s1.iv, nzloc := s1.colidx, mark := fun i => s1.colidx (4 + i),
            nzv := 0, nzrow := 0, pos := s1.pos } = some g ∧
        s2.v = (vecset g.v g.iv 2 2 (1 / 2)).v ∧
        s2.iv = (vecset g.v g.iv 2 2 (1 / 2)).iv ∧
        s2.nzv = (vecset g.v g.iv 2 2 (1 / 2)).nzv ∧
        triplesFrom s2 (s1.nnza + 1) (s2.nnza - s1.nnza)
          = (List.range' 1 s2.nzv).flatMap (fun ivelt =>
              if 1 ≤ s2.iv ivelt ∧ s2.iv ivelt ≤ 4 then
                (List.range' 1 s2.nzv).flatMap (fun ivelt1 =>
                  if 1 ≤ s2.iv ivelt1 ∧ s2.iv ivelt1 ≤ 4 then
                    [(s2.iv ivelt1, s2.iv ivelt,
                      s2.v ivelt1 * s2.v ivelt *
                        (fun _ _ => 1 / 2 : ℚ → ℚ → ℚ) (1 / 10) (1 / ((4 : Nat) : ℚ)) ^ (2 - 1))]
                  else [])
              else []) ∧
        triplesFrom (demoColumns.getD MakeaState.blank) (s1.nnza + 1) (s2.nnza - s1.nnza)
          = triplesFrom s2 (s1.nnza + 1) (s2.nnza - s1.nnza) :=
  makea_scale_geometric 40 npbStream (fun _ _ => 1 / 2) 4 100 2 1 4 1 4 (1 / 10)
    MakeaState.blank (demoColumns.getD MakeaState.blank)
    (Run.eq_ok_of_isOk demoColumns MakeaState.blank (by decide!)) 2 (by decide) (by decide)

/-! ## The matrix of `makea` is symmetric -/

theorem listSum_append (A B : List (Nat × Nat × ℚ)) (r c : Nat) :
    listSum (A ++ B) r c = listSum A r c + listSum B r c := by
  unfold listSum
  rw [List.filter_append, List.map_append, List.sum_append]

theorem listSum_nil (r c : Nat) : listSum [] r c = 0 := rfl

theorem listSum_eq_indicator (T : List (Nat × Nat × ℚ)) (r c : Nat) :
    listSum T r c = (T.map (fun t => if t.1 = r ∧ t.2.1 = c then t.2.2 else 0)).sum := by
  induction T with
  | nil => rfl
  | cons t T ih =>
    have e : listSum (t :: T) r c = listSum [t] r c + listSum T r c :=
      listSum_append [t] T r c
    rw [e, ih, List.map_cons, List.sum_cons]
    congr 1
    unfold listSum
    by_cases h : t.1 = r ∧ t.2.1 = c
    · simp [h]
    · simp [h]

theorem sum_map_flatMap {β : Type} (L : List β) (F : β → List (Nat × Nat × ℚ))
    (ind : Nat × Nat × ℚ → ℚ) :
    ((L.flatMap F).map ind).sum = (L.map (fun a => ((F a).map ind).sum)).sum := by
  induction L with
  | nil => rfl
  | cons a L ih =>
    rw [List.flatMap_cons, List.map_append, List.sum_append, ih, List.map_cons, List.sum_cons]

/-- The sum of the triples of a generated vector at `(r, c)`, as a double sum. -/
theorem listSum_vecTriples (firstrow lastrow firstcol lastcol : Nat) (v : Nat → ℚ)
    (iv : Nat → Nat) (nzv : Nat) (size : ℚ) (r c : Nat) :
    listSum (vecTriples firstrow lastrow firstcol lastcol v iv nzv size) r c
      = ∑ a ∈ (List.range' 1 nzv).toFinset, ∑ b ∈ (List.range' 1 nzv).toFinset,
          if (firstcol ≤ iv a ∧ iv a ≤ lastcol) ∧ (firstrow ≤ iv b ∧ iv b ≤ lastrow) ∧
              iv b = r ∧ iv a = c then v b * (size * v a) else 0 := by
  have hnd : (List.range' 1 nzv).Nodup := List.nodup_range' 1 nzv
  rw [listSum_eq_indicator, vecTriples, sum_map_flatMap, List.sum_toFinset _ hnd]
  congr 1
  apply List.map_congr_left
  intro a _
  by_cases hp : firstcol ≤ iv a ∧ iv a ≤ lastcol
  · rw [if_pos hp, sum_map_flatMap, List.sum_toFinset _ hnd]
    congr 1
    apply List.map_congr_left
    intro b _
    by_cases hq : firstrow ≤ iv b ∧ iv b ≤ lastrow
    · rw [if_pos hq]
      by_cases hrc : iv b = r ∧ iv a = c
      · rw [if_pos ⟨hp, hq, hrc⟩]
        simp [hrc]
      · rw [if_neg (fun hh => hrc hh.2.2)]
        simp [hrc]
    · rw [if_neg hq, if_neg (fun hh => hq hh.2.1)]
      rfl
  · rw [if_neg hp]
    simp only [List.map_nil, List.sum_nil]
    symm
    apply Finset.sum_eq_zero
    intro b _
    rw [if_neg (fun hh => hp hh.1)]

/-- With equal ranges of rows and columns, the triples of a generated vector sum to
the same value at `(r, c)` and at `(c, r)`. -/
theorem listSum_vecTriples_symm (firstrow lastrow : Nat) (v : Nat → ℚ)
    (iv : Nat → Nat) (nzv : Nat) (size : ℚ) (r c : Nat) :
    listSum (vecTriples firstrow lastrow firstrow lastrow v iv nzv size) r c
      = listSum (vecTriples firstrow lastrow firstrow lastrow v iv nzv size) c r := by
  rw [listSum_vecTriples, listSum_vecTriples, Finset.sum_comm]
  apply Finset.sum_congr rfl
  intro b _
  apply Finset.sum_congr rfl
  intro a _
  by_cases h : (firstrow ≤ iv a ∧ iv a ≤ lastrow) ∧ (firstrow ≤ iv b ∧ iv b ≤ lastrow) ∧
      iv b = r ∧ iv a = c
  · rw [if_pos h, if_pos ⟨h.2.1, h.1, h.2.2.2, h.2.2.1⟩]
    ring
  · rw [if_neg h, if_neg (fun hh => h ⟨hh.2.1, hh.1, hh.2.2.2, hh.2.2.1⟩)]

theorem listSum_diag_symm (D : List Nat) (e : ℚ) (r c : Nat) :
    listSum (D.map (fun i => (i, i, e))) r c = listSum (D.map (fun i => (i, i, e))) c r := by
  rw [listSum_eq_indicator, listSum_eq_indicator, List.map_map, List.map_map]
  congr 1
  apply List.map_congr_left
  intro i _
  simp only [Function.comp]
  by_cases h : i = r ∧ i = c
  · rw [if_pos h, if_pos ⟨h.2, h.1⟩]
  · rw [if_neg h, if_neg (fun hh => h ⟨hh.2, hh.1⟩)]

theorem tripleSum_eq_listSum (s : MakeaState) (r c : Nat) :
    tripleSum s.arow s.acol s.aelt s.nnza r c = listSum (triplesFrom s 1 s.nnza) r c := by
  unfold tripleSum listSum triplesFrom
  rw [List.filter_map, List.map_map]
  rfl

/-- The loop over the columns of `makea`, with equal ranges of rows and columns, keeps
the sums of the triples symmetric. -/
theorem makeaOuter_symm (fuel : Nat) (rand : Nat → ℚ) (ratio : ℚ)
    (n nz nonzer firstrow lastrow : Nat) (lo cnt : Nat) (s out : MakeaState)
    (hs : ∀ r c, listSum (triplesFrom s 1 s.nnza) r c = listSum (triplesFrom s 1 s.nnza) c r)
    (h : forUpRun (makeaOuter fuel rand ratio n nz nonzer firstrow lastrow firstrow lastrow)
      lo cnt s = Run.ok out) :
    ∀ r c, listSum (triplesFrom out 1 out.nnza) r c
      = listSum (triplesFrom out 1 out.nnza) c r := by
  refine forUpRun_invariant _
    (fun t => ∀ r c, listSum (triplesFrom t 1 t.nnza) r c = listSum (triplesFrom t 1 t.nnza) c r)
    ?_ lo cnt s out hs h
  intro i t t2 ht hb r c
  rw [(makeaOuter_block _ _ _ _ _ _ _ _ _ _ _ _ _ hb).2.1, listSum_append, listSum_append,
    ht r c, listSum_vecTriples_symm]

/-- The loop over the diagonal keeps the sums of the triples symmetric. -/
theorem makeaDiag_symm (nz firstcol lastcol : Nat) (rcond shift : ℚ) (lo cnt : Nat)
    (s out : MakeaState)
    (hs : ∀ r c, listSum (triplesFrom s 1 s.nnza) r c = listSum (triplesFrom s 1 s.nnza) c r)
    (h : forUpRun (makeaDiag nz firstcol lastcol rcond shift) lo cnt s = Run.ok out) :
    ∀ r c, listSum (triplesFrom out 1 out.nnza) r c
      = listSum (triplesFrom out 1 out.nnza) c r := by
  obtain ⟨i1, i2, i3⟩ := makeaDiag_loop nz firstcol lastcol rcond shift lo cnt s out h
  have hT : triplesFrom out 1 out.nnza = triplesFrom s 1 s.nnza ++
      ((List.range' lo cnt).filter (fun i => firstcol ≤ i ∧ i ≤ lastcol)).map
        (fun i => (i, i, rcond - shift)) := by
    have e : out.nnza = s.nnza + (out.nnza - s.nnza) := by omega
    rw [e, triplesFrom_add, Nat.add_comm 1 s.nnza, i2]
    congr 1
    apply triplesFrom_congr
    intro t _ ht2
    exact i3 t (by omega)
  intro r c
  rw [hT, listSum_append, listSum_append, hs r c, listSum_diag_symm]

/-- The matrix element read from the arrays `sparse` leaves is the sum of the triples
of that row and column. -/
theorem csrEntry_sparse (n : Nat) (arow acol : Nat → Nat) (aelt : Nat → ℚ)
    (firstrow lastrow nnza : Nat) (s : SparseState ℚ)
    (hrow : ∀ t, 1 ≤ t → t ≤ nnza → firstrow ≤ arow t ∧ arow t ≤ lastrow)
    (hcol : ∀ t, 1 ≤ t → t ≤ nnza → 1 ≤ acol t ∧ acol t ≤ n)
    (hn : lastrow + 1 - firstrow ≤ n) (i j : Nat) :
    csrEntry (sparse n arow acol aelt firstrow lastrow nnza s).rowstr
        (sparse n arow acol aelt firstrow lastrow nnza s).colidx
        (sparse n arow acol aelt firstrow lastrow nnza s).a firstrow lastrow i j
      = if firstrow ≤ i ∧ i ≤ lastrow then tripleSum arow acol aelt nnza i j else 0 := by
  unfold csrEntry
  by_cases hi : firstrow ≤ i ∧ i ≤ lastrow
  · rw [if_pos hi, if_pos hi]
    obtain ⟨_, _, hrowEq, _⟩ := sparse_spec n arow acol aelt firstrow lastrow nnza s
      hrow hcol hn
    have hR := hrowEq (i + 1 - firstrow) (by omega) (by omega)
    have hS := colSum_rowEntries arow acol aelt firstrow nnza i j
      (fun t h1 h2 => (hrow t h1 h2).1) hi.1
    unfold csrRow at hR
    rw [hR]
    cases hf : (coalesceRow (rowEntries arow acol aelt firstrow nnza (i + 1 - firstrow))).find?
        (fun e => e.1 = j) with
    | none =>
      show (0 : ℚ) = _
      by_contra hne
      have hmem : (j, tripleSum arow acol aelt nnza i j)
          ∈ coalesceRow (rowEntries arow acol aelt firstrow nnza (i + 1 - firstrow)) := by
        rw [mem_coalesceRow, hS]
        exact ⟨rfl, fun h0 => hne h0.symm⟩
      have := List.find?_eq_none.mp hf _ hmem
      simp at this
    | some e =>
      show e.2 = _
      have hmem := List.mem_of_find?_eq_some hf
      have hp := List.find?_some hf
      simp only [decide_eq_true_eq] at hp
      have hmem2 : (e.1, e.2)
          ∈ coalesceRow (rowEntries arow acol aelt firstrow nnza (i + 1 - firstrow)) := hmem
      rw [mem_coalesceRow, hp, hS] at hmem2
      exact hmem2.1
  · rw [if_neg hi, if_neg hi]

/-- The parts of a run of `makea` that returns: the loop over the columns ends with a
state `s1`, the loop over the diagonal with a state `s2` whose triples are in range, and
the arrays returned are those `sparse` makes of the triples of `s2`. -/
theorem makea_parts (fuel : Nat) (rand : Nat → ℚ) (cpow : ℚ → ℚ → ℚ)
    (n nz nonzer firstrow lastrow firstcol lastcol : Nat) (rcond shift : ℚ)
    (s out : MakeaState)
    (h : makea fuel rand cpow n nz nonzer firstrow lastrow firstcol lastcol rcond shift s
      = Run.ok out) :
    ∃ s1 s2,
      forUpRun (makeaOuter fuel rand (cpow rcond (1 / (n : ℚ))) n nz nonzer firstrow lastrow
          firstcol lastcol) 1 n (makeaStart n s) = Run.ok s1 ∧
        forUpRun (makeaDiag nz firstcol lastcol rcond shift) firstrow (lastrow + 1 - firstrow) s1
          = Run.ok s2 ∧
        TriplesInRange firstrow lastrow firstcol lastcol s2 ∧
        out.colidx = (makeaSparse n firstrow lastrow s2).colidx ∧
        out.rowstr = (makeaSparse n firstrow lastrow s2).rowstr ∧
        out.a = (makeaSparse n firstrow lastrow s2).a := by
  unfold makea at h
  obtain ⟨s2, h2, hfin⟩ := Run.bind_eq_ok _ _ _ h
  obtain ⟨s1, hs1, hdiag⟩ := Run.bind_eq_ok _ _ _ h2
  cases hfin
  have p1 : TriplesInRange firstrow lastrow firstcol lastcol s1 := by
    refine forUpRun_invariant _ (TriplesInRange firstrow lastrow firstcol lastcol)
      (fun i t t2 ht hk => makeaOuter_inv _ _ _ _ _ _ _ _ _ _ i t t2 ht hk) _ _ _ s1 ?_ hs1
    intro t ht1 ht2
    have e := (makeaStart_fields n s).2
    unfold makeaStart at e
    rw [e] at ht2
    omega
  have p2 := makeaDiag_inv nz firstrow lastrow firstcol lastcol rcond shift s1 s2 p1 hdiag
  exact ⟨s1, s2, hs1, hdiag, p2, rfl, rfl, rfl⟩

/-- C27: the matrix `makea` generates is symmetric: when `firstrow = firstcol` and
`lastrow = lastcol` (a range inside `[1, n]`, the declared size of the arrays), for every
random stream, fuel and `pow` on which `makea` returns, the matrix `A` its CSR output
`(rowstr, colidx, a)` represents satisfies `A[i][j] = A[j][i]` for all `i`, `j`, over
exact arithmetic; `A[i][j]` is the value stored for `(i, j)`, or 0 if none is. -/
theorem makea_symmetric (fuel : Nat) (rand : Nat → ℚ) (cpow : ℚ → ℚ → ℚ)
    (n nz nonzer firstrow lastrow firstcol lastcol : Nat) (rcond shift : ℚ)
    (s out : MakeaState)
    (h : makea fuel rand cpow n nz nonzer firstrow lastrow firstcol lastcol rcond shift s
      = Run.ok out)
    (hfc : firstrow = firstcol) (hlc : lastrow = lastcol)
    (h1 : 1 ≤ firstrow) (h2 : lastrow ≤ n) (i j : Nat) :
    csrEntry out.rowstr out.colidx out.a firstrow lastrow i j
      = csrEntry out.rowstr out.colidx out.a firstrow lastrow j i := by
  subst hfc
  subst hlc
  obtain ⟨s1, s2, hs1, hdiag, hin, hc, hr, ha⟩ := makea_parts _ _ _ _ _ _ _ _ _ _ _ _ _ _ h
  have e0 := (makeaStart_fields n s).2
  have p1 := makeaOuter_symm _ _ _ _ _ _ _ _ _ _ (makeaStart n s) s1
    (by intro r c; rw [e0]; rfl) hs1
  have p2 := makeaDiag_symm _ _ _ _ _ _ _ s1 s2 p1 hdiag
  have hrow : ∀ t, 1 ≤ t → t ≤ s2.nnza → firstrow ≤ s2.arow t ∧ s2.arow t ≤ lastrow :=
    fun t a b => (hin t a b).1
  have hcol : ∀ t, 1 ≤ t → t ≤ s2.nnza → 1 ≤ s2.acol t ∧ s2.acol t ≤ n := by
    intro t a b
    have := (hin t a b).2
    omega
  have key : ∀ i j, csrEntry out.rowstr out.colidx out.a firstrow lastrow i j
      = if firstrow ≤ i ∧ i ≤ lastrow then tripleSum s2.arow s2.acol s2.aelt s2.nnza i j
        else 0 := by
    intro i j
    rw [hc, hr, ha]
    exact csrEntry_sparse n s2.arow s2.acol s2.aelt firstrow lastrow s2.nnza _ hrow hcol
      (by omega) i j
  have hzero : ∀ r c, ¬ (firstrow ≤ c ∧ c ≤ lastrow) →
      tripleSum s2.arow s2.acol s2.aelt s2.nnza r c = 0 := by
    intro r c hc2
    apply tripleSum_eq_zero_of_no_triple
    rintro ⟨t, a, b, _, d⟩
    have := (hin t a b).2
    rw [d] at this
    exact hc2 this
  rw [key i j, key j i]
  by_cases hi : firstrow ≤ i ∧ i ≤ lastrow
  · by_cases hj : firstrow ≤ j ∧ j ≤ lastrow
    · rw [if_pos hi, if_pos hj, tripleSum_eq_listSum, tripleSum_eq_listSum, p2 i j]
    · rw [if_pos hi, if_neg hj, hzero i j hj]
  · by_cases hj : firstrow ≤ j ∧ j ≤ lastrow
    · rw [if_neg hi, if_pos hj, hzero j i hi]
    · rw [if_neg hi, if_neg hj]

theorem makea_symmetric_witness :
    (1 = 1) ∧ (4 = 4) ∧
      csrEntry (demoMakea.getD MakeaState.blank).rowstr (demoMakea.getD MakeaState.blank).colidx
          (demoMakea.getD MakeaState.blank).a 1 4 1 2
        = csrEntry (demoMakea.getD MakeaState.blank).rowstr
          (demoMakea.getD MakeaState.blank).colidx (demoMakea.getD MakeaState.blank).a 1 4 2 1 :=
  ⟨rfl, rfl, makea_symmetric 40 npbStream (fun _ _ => 1 / 2) 4 100 2 1 4 1 4 (1 / 10) 10
    MakeaState.blank (demoMakea.getD MakeaState.blank)
    (Run.eq_ok_of_isOk demoMakea MakeaState.blank (by decide!)) rfl rfl (by decide) (by decide)
    1 2⟩

/-! ## Programs as lists of phases -/

theorem exec_eq_runPhases {K : Type} (sched : Nat → List Nat) (prog : List (Instr K)) :
    ∀ (k : Nat) (pending : Nat → Worker K → Worker K) (g : World K),
      exec sched k pending prog g = runPhases sched k (phasesFrom pending prog) g := by
  induction prog with
  | nil => intro k pending g; rfl
  | cons i rest ih =>
    intro k pending g
    cases i with
    | run f => exact ih k _ g
    | barrier => exact ih (k + 1) _ _

theorem runPhases_append {K : Type} (sched : Nat → List Nat)
    (A B : List (Nat → Worker K → Worker K)) :
    ∀ (k : Nat) (g : World K),
      runPhases sched k (A ++ B) g = runPhases sched (k + A.length) B (runPhases sched k A g) := by
  induction A with
  | nil => intro k g; rfl
  | cons f A ih =>
    intro k g
    show runPhases sched (k + 1) (A ++ B) _ = _
    rw [ih]
    have e : k + 1 + A.length = k + (f :: A).length := by
      simp only [List.length_cons]; omega
    rw [e]
    rfl

/-- The phases of an iteration of the loop of `conj_grad` followed by more code. -/
theorem phasesFrom_iteration {K : Type} [Field K] (G : Globals)
    (pending : Nat → Worker K → Worker K) (rest : List (Instr K)) :
    phasesFrom pending (cgIteration G ++ rest)
      = (fun u s => cgStart G u (pending u s)) :: cgMatVec G :: cgDot G :: cgAxpy G
          :: cgNorm G :: phasesFrom (cgDirection G) rest := rfl

/-! ## The phases of `conj_grad` on all workers, in closed form -/

/-- The phase of lines 585-607 on all workers: `q = w` and `w = 0` on `[1, N]`, and every
worker has added its part of `p.q` to its `d` and stored it in its slot. -/
theorem dot_phase {K : Type} [Field K] (G : Globals) (hn : 1 ≤ G.numtasks)
    (order : List Nat) (hperm : order.Perm (List.range G.numtasks)) (g : World K) :
    runPhase order (cgDot G) g
      = { glob := { g.glob with
            q := onRange 1 (G.lastcol + 1 - G.firstcol) g.glob.w g.glob.q,
            w := onRange 1 (G.lastcol + 1 - G.firstcol) (fun _ => 0) g.glob.w,
            gnorm_temps := onWorkers G.numtasks
              (fun u => (g.node u).d
                + ∑ j ∈ Finset.Icc (beg_col G u) (end_col G u), g.glob.p j * g.glob.w j)
              g.glob.gnorm_temps },
          node := onWorkers G.numtasks
            (fun u => { g.node u with
              d := (g.node u).d
                + ∑ j ∈ Finset.Icc (beg_col G u) (end_col G u), g.glob.p j * g.glob.w j })
            g.node } := by
  have hc := cgDot_confined (K := K) G (fun f => f = Fld.q ∨ f = Fld.w) (Or.inl rfl)
    (Or.inr rfl) (by rintro (h | h) <;> cases h)
  refine phase_assemble_slot G.numtasks (G.lastcol + 1 - G.firstcol) hn _ (cgDot G) hc
    order hperm g _ _ ?_ ?_ ?_ ?_ ?_ ?_
  · intro u hu
    rw [cgDot_eq, onWorkers_in _ _ hu]
  · intro u hu
    exact onWorkers_out _ _ (Nat.not_lt.mpr hu)
  · intro f hf u hu j hb he
    have hj : beg_col G u ≤ j ∧ j ≤ end_col G u := ⟨hb, he⟩
    have hj2 := range_within hu hb he
    rw [cgDot_eq]
    cases f with
    | gnorm_temps => exact absurd rfl hf
    | x => rfl
    | z => rfl
    | p => rfl
    | q =>
      simp only [GlobalMem.get]
      rw [onRange_in _ _ hj, onRange_in _ _ hj2]
    | r => rfl
    | w =>
      simp only [GlobalMem.get]
      rw [onRange_in (fun _ => (0 : K)) _ hj, onRange_in (fun _ => (0 : K)) _ hj2]
  · intro f hf j hj
    cases f with
    | gnorm_temps => exact absurd rfl hf
    | x => rfl
    | z => rfl
    | p => rfl
    | q =>
      simp only [GlobalMem.get]
      rw [onRange_out _ _ hj]
    | r => rfl
    | w =>
      simp only [GlobalMem.get]
      rw [onRange_out (fun _ => (0 : K)) _ hj]
  · intro u hu
    rw [cgDot_eq]
    simp only []
    rw [setAt_same, onWorkers_in _ _ hu]
  · intro j hj
    dsimp only
    exact onWorkers_out _ _ (Nat.not_lt.mpr hj)

/-- The phase of lines 611-634 on all workers, when the reduction gives every worker the
same `d` and `alpha`: `z = z + alpha*p` and `r = r - alpha*q` on `[1, N]`. -/
theorem axpy_phase {K : Type} [Field K] (G : Globals) (hn : 1 ≤ G.numtasks)
    (order : List Nat) (hperm : order.Perm (List.range G.numtasks)) (g : World K)
    (d alpha : K)
    (hd : ∀ u, u < G.numtasks → gather g.glob.gnorm_temps G.numtasks u (g.node u).d = d)
    (ha : ∀ u, u < G.numtasks → (g.node u).rho0 / d = alpha) :
    runPhase order (cgAxpy G) g
      = { glob := { g.glob with
            z := onRange 1 (G.lastcol + 1 - G.firstcol)
              (fun k => g.glob.z k + alpha * g.glob.p k) g.glob.z,
            r := onRange 1 (G.lastcol + 1 - G.firstcol)
              (fun k => g.glob.r k - alpha * g.glob.q k) g.glob.r },
          node := onWorkers G.numtasks
            (fun u => { g.node u with d := d, alpha := alpha }) g.node } := by
  have hc := cgAxpy_confined (K := K) G (fun f => f = Fld.z ∨ f = Fld.r) (Or.inl rfl)
    (Or.inr rfl) (by rintro (h | h) <;> cases h) (by rintro (h | h) <;> cases h)
  refine phase_assemble G.numtasks (G.lastcol + 1 - G.firstcol) hn _ (cgAxpy G) hc
    order hperm g _ _ ?_ ?_ ?_ ?_ ?_
  · intro u hu
    rw [cgAxpy_eq, onWorkers_in _ _ hu]
    dsimp only
    rw [hd u hu, ha u hu]
  · intro u hu
    exact onWorkers_out _ _ (Nat.not_lt.mpr hu)
  · intro f hf u hu j hb he
    have hj : beg_col G u ≤ j ∧ j ≤ end_col G u := ⟨hb, he⟩
    have hj2 := range_within hu hb he
    rw [cgAxpy_eq]
    dsimp only
    rw [hd u hu, ha u hu]
    cases f with
    | gnorm_temps => exact absurd rfl hf
    | x => rfl
    | z =>
      simp only [GlobalMem.get]
      rw [onRange_in _ _ hj, onRange_in _ _ hj2]
    | p => rfl
    | q => rfl
    | r =>
      simp only [GlobalMem.get]
      rw [onRange_in _ _ hj, onRange_in _ _ hj2]
    | w => rfl
  · intro f hf j hj
    cases f with
    | gnorm_temps => exact absurd rfl hf
    | x => rfl
    | z =>
      simp only [GlobalMem.get]
      rw [onRange_out _ _ hj]
    | p => rfl
    | q => rfl
    | r =>
      simp only [GlobalMem.get]
      rw [onRange_out _ _ hj]
    | w => rfl
  · rfl

/-- The phase of lines 643-649 on all workers: every worker has added its part of `r.r`
to its `rho` and stored it in its slot. -/
theorem rho_phase {K : Type} [Field K] (G : Globals) (hn : 1 ≤ G.numtasks)
    (order : List Nat) (hperm : order.Perm (List.range G.numtasks)) (g : World K) :
    runPhase order (cgNorm G) g
      = { glob := { g.glob with
            gnorm_temps := onWorkers G.numtasks
              (fun u => (g.node u).rho
                + ∑ j ∈ Finset.Icc (beg_col G u) (end_col G u), g.glob.r j * g.glob.r j)
              g.glob.gnorm_temps },
          node := onWorkers G.numtasks
            (fun u => { g.node u with
              rho := (g.node u).rho
                + ∑ j ∈ Finset.Icc (beg_col G u) (end_col G u), g.glob.r j * g.glob.r j })
            g.node } := by
  have hc := cgNorm_confined (K := K) G (fun _ => False) (fun h => h)
  refine phase_assemble_slot G.numtasks (G.lastcol + 1 - G.firstcol) hn _ (cgNorm G) hc
    order hperm g _ _ ?_ ?_ ?_ ?_ ?_ ?_
  · intro u hu
    rw [cgNorm_eq, onWorkers_in _ _ hu]
  · intro u hu
    exact onWorkers_out _ _ (Nat.not_lt.mpr hu)
  · intro f hf u hu j hb he
    rw [cgNorm_eq]
    cases f with
    | gnorm_temps => exact absurd rfl hf
    | x => rfl
    | z => rfl
    | p => rfl
    | q => rfl
    | r => rfl
    | w => rfl
  · intro f hf j hj
    cases f with
    | gnorm_temps => exact absurd rfl hf
    | x => rfl
    | z => rfl
    | p => rfl
    | q => rfl
    | r => rfl
    | w => rfl
  · intro u hu
    rw [cgNorm_eq]
    dsimp only
    rw [setAt_same, onWorkers_in _ _ hu]
  · intro j hj
    dsimp only
    exact onWorkers_out _ _ (Nat.not_lt.mpr hj)

/-- The phase of lines 692-707 on all workers: `r = w` on `[1, N]`, and every worker has
added its part of the sum of `(x[j] - w[j])^2` to its `sum` and stored it in its slot. -/
theorem residual_phase {K : Type} [Field K] (G : Globals) (hn : 1 ≤ G.numtasks)
    (order : List Nat) (hperm : order.Perm (List.range G.numtasks)) (g : World K) :
    runPhase order (cgResidual G) g
      = { glob := { g.glob with
            r := onRange 1 (G.lastcol + 1 - G.firstcol) g.glob.w g.glob.r,
            gnorm_temps := onWorkers G.numtasks
              (fun u => (g.node u).sum
                + ∑ j ∈ Finset.Icc (beg_col G u) (end_col G u),
                    (g.glob.x j - g.glob.w j) * (g.glob.x j - g.glob.w j))
              g.glob.gnorm_temps },
          node := onWorkers G.numtasks
            (fun u => { g.node u with
              sum := (g.node u).sum
                + ∑ j ∈ Finset.Icc (beg_col G u) (end_col G u),
                    (g.glob.x j - g.glob.w j) * (g.glob.x j - g.glob.w j) })
            g.node } := by
  have hc := cgResidual_confined (K := K) G (fun f => f = Fld.r) rfl
    (by intro h; cases h) (by intro h; cases h)
  refine phase_assemble_slot G.numtasks (G.lastcol + 1 - G.firstcol) hn _ (cgResidual G) hc
    order hperm g _ _ ?_ ?_ ?_ ?_ ?_ ?_
  · intro u hu
    rw [cgResidual_eq, onWorkers_in _ _ hu]
  · intro u hu
    exact onWorkers_out _ _ (Nat.not_lt.mpr hu)
  · intro f hf u hu j hb he
    have hj : beg_col G u ≤ j ∧ j ≤ end_col G u := ⟨hb, he⟩
    have hj2 := range_within hu hb he
    rw [cgResidual_eq]
    cases f with
    | gnorm_temps => exact absurd rfl hf
    | x => rfl
    | z => rfl
    | p => rfl
    | q => rfl
    | r =>
      simp only [GlobalMem.get]
      rw [onRange_in _ _ hj, onRange_in _ _ hj2]
    | w => rfl
  · intro f hf j hj
    cases f with
    | gnorm_temps => exact absurd rfl hf
    | x => rfl
    | z => rfl
    | p => rfl
    | q => rfl
    | r =>
      simp only [GlobalMem.get]
      rw [onRange_out _ _ hj]
    | w => rfl
  · intro u hu
    rw [cgResidual_eq]
    dsimp only
    rw [setAt_same, onWorkers_in _ _ hu]
  · intro j hj
    dsimp only
    exact onWorkers_out _ _ (Nat.not_lt.mpr hj)

/-- A phase whose code writes no element of the global memory, as an equation. -/
theorem reader_phase_eq {K : Type} (numtasks : Nat) (seg : Nat → Worker K → Worker K)
    (hglob : ∀ u v, (seg u v).glob = v.glob) (order : List Nat)
    (hperm : order.Perm (List.range numtasks)) (g : World K) :
    runPhase order seg g
      = { glob := g.glob,
          node := onWorkers numtasks
            (fun u => (seg u { glob := g.glob, node := g.node u }).node) g.node } := by
  obtain ⟨r1, r2, r3⟩ := reader_phase seg hglob order (perm_range_nodup hperm) g
  refine World.ext r1 ?_
  funext u
  by_cases hu : u < numtasks
  · rw [r2 u ((perm_range_mem hperm u).mpr hu)]
    dsimp only
    rw [onWorkers_in _ _ hu]
  · rw [r3 u (fun h => hu ((perm_range_mem hperm u).mp h))]
    dsimp only
    rw [onWorkers_out _ _ hu]

/-- The phase of lines 470-495 on all workers, as an equation. -/
theorem init_phase_eq {K : Type} [Field K] (G : Globals) (hn : 1 ≤ G.numtasks)
    (order : List Nat) (hperm : order.Perm (List.range G.numtasks)) (g : World K) :
    runPhase order (cgInit G) g
      = { glob := { g.glob with
            q := onRange 1 (G.naa + 1) (fun _ => 0) g.glob.q,
            z := onRange 1 (G.naa + 1) (fun _ => 0) g.glob.z,
            r := onRange 1 (G.naa + 1) g.glob.x g.glob.r,
            p := onRange 1 (G.naa + 1) g.glob.x g.glob.p,
            w := onRange 1 (G.naa + 1) (fun _ => 0) g.glob.w,
            gnorm_temps := onWorkers G.numtasks
              (fun u => ∑ j ∈ Finset.Icc (beg_col G u) (end_col G u), g.glob.x j * g.glob.x j)
              g.glob.gnorm_temps },
          node := onWorkers G.numtasks
            (fun u => { g.node u with
              rho := ∑ j ∈ Finset.Icc (beg_col G u) (end_col G u), g.glob.x j * g.glob.x j })
            g.node } := by
  have hc := cgInit_confined (K := K) G (fun f => f ≠ Fld.x) (fun h => h rfl)
    (by intro h; cases h) (by intro h; cases h) (by intro h; cases h) (by intro h; cases h)
    (by intro h; cases h)
  refine phase_assemble_slot G.numtasks (G.naa + 1) hn _ (cgInit G) hc
    order hperm g _ _ ?_ ?_ ?_ ?_ ?_ ?_
  · intro u hu
    rw [cgInit_eq, onWorkers_in _ _ hu]
  · intro u hu
    exact onWorkers_out _ _ (Nat.not_lt.mpr hu)
  · intro f hf u hu j hb he
    have hj : beg_naa G u ≤ j ∧ j ≤ end_naa G u := ⟨hb, he⟩
    have hj2 := range_within hu hb he
    rw [cgInit_eq]
    cases f with
    | gnorm_temps => exact absurd rfl hf
    | x => rfl
    | z =>
      simp only [GlobalMem.get]
      rw [onRange_in (fun _ => (0 : K)) _ hj, onRange_in (fun _ => (0 : K)) _ hj2]
    | p =>
      simp only [GlobalMem.get]
      rw [onRange_in _ _ hj, onRange_in _ _ hj2]
    | q =>
      simp only [GlobalMem.get]
      rw [onRange_in (fun _ => (0 : K)) _ hj, onRange_in (fun _ => (0 : K)) _ hj2]
    | r =>
      simp only [GlobalMem.get]
      rw [onRange_in _ _ hj, onRange_in _ _ hj2]
    | w =>
      simp only [GlobalMem.get]
      rw [onRange_in (fun _ => (0 : K)) _ hj, onRange_in (fun _ => (0 : K)) _ hj2]
  · intro f hf j hj
    cases f with
    | gnorm_temps => exact absurd rfl hf
    | x => rfl
    | z =>
      simp only [GlobalMem.get]
      rw [onRange_out (fun _ => (0 : K)) _ hj]
    | p =>
      simp only [GlobalMem.get]
      rw [onRange_out _ _ hj]
    | q =>
      simp only [GlobalMem.get]
      rw [onRange_out (fun _ => (0 : K)) _ hj]
    | r =>
      simp only [GlobalMem.get]
      rw [onRange_out _ _ hj]
    | w =>
      simp only [GlobalMem.get]
      rw [onRange_out (fun _ => (0 : K)) _ hj]
  · intro u hu
    rw [cgInit_eq]
    dsimp only
    rw [setAt_same, onWorkers_in _ _ hu]
  · intro j hj
    dsimp only
    exact onWorkers_out _ _ (Nat.not_lt.mpr hj)

/-- The code of lines 653-670 followed by code `cont` that works on the worker's own
memory and on `w` only: the phase on all workers, when the reduction gives every worker
the same `rho` and `beta`. -/
theorem direction_phase {K : Type} [Field K] (G : Globals) (hn : 1 ≤ G.numtasks)
    (order : List Nat) (hperm : order.Perm (List.range G.numtasks)) (g : World K)
    (rho beta : K)
    (hrho : ∀ u, u < G.numtasks →
      gather g.glob.gnorm_temps G.numtasks u (g.node u).rho = rho)
    (hb : ∀ u, u < G.numtasks → rho / (g.node u).rho0 = beta) :
    runPhase order (cgDirection G) g
      = { glob := { g.glob with
            p := onRange 1 (G.lastcol + 1 - G.firstcol)
              (fun k => g.glob.r k + beta * g.glob.p k) g.glob.p },
          node := onWorkers G.numtasks
            (fun u => { g.node u with rho := rho, beta := beta }) g.node } := by
  have hc := cgDirection_confined (K := K) G (fun f => f = Fld.p) rfl (by intro h; cases h)
  refine phase_assemble G.numtasks (G.lastcol + 1 - G.firstcol) hn _ (cgDirection G) hc
    order hperm g _ _ ?_ ?_ ?_ ?_ ?_
  · intro u hu
    rw [cgDirection_eq, onWorkers_in _ _ hu]
    dsimp only
    rw [hrho u hu, hb u hu]
  · intro u hu
    exact onWorkers_out _ _ (Nat.not_lt.mpr hu)
  · intro f hf u hu j hb2 he
    have hj : beg_col G u ≤ j ∧ j ≤ end_col G u := ⟨hb2, he⟩
    have hj2 := range_within hu hb2 he
    rw [cgDirection_eq]
    dsimp only
    rw [hrho u hu, hb u hu]
    cases f with
    | gnorm_temps => exact absurd rfl hf
    | x => rfl
    | z => rfl
    | p =>
      simp only [GlobalMem.get]
      rw [onRange_in _ _ hj, onRange_in _ _ hj2]
    | q => rfl
    | r => rfl
    | w => rfl
  · intro f hf j hj
    cases f with
    | gnorm_temps => exact absurd rfl hf
    | x => rfl
    | z => rfl
    | p =>
      simp only [GlobalMem.get]
      rw [onRange_out _ _ hj]
    | q => rfl
    | r => rfl
    | w => rfl
  · rfl

/-- The end of an iteration and the head of the next (lines 653-670, then 510-515) on all
workers. -/
theorem direction_start_phase {K : Type} [Field K] (G : Globals) (hn : 1 ≤ G.numtasks)
    (order : List Nat) (hperm : order.Perm (List.range G.numtasks)) (g : World K)
    (rho beta : K)
    (hrho : ∀ u, u < G.numtasks →
      gather g.glob.gnorm_temps G.numtasks u (g.node u).rho = rho)
    (hb : ∀ u, u < G.numtasks → rho / (g.node u).rho0 = beta) :
    runPhase order (fun u s => cgStart G u (cgDirection G u s)) g
      = { glob := { g.glob with
            p := onRange 1 (G.lastcol + 1 - G.firstcol)
              (fun k => g.glob.r k + beta * g.glob.p k) g.glob.p },
          node := onWorkers G.numtasks
            (fun u => { g.node u with rho0 := rho, d := 0, rho := 0, beta := beta })
            g.node } := by
  have hc1 := cgDirection_confined (K := K) G (fun f => f = Fld.p) rfl (by intro h; cases h)
  have hc := Confined.comp hc1 (cgStart_confined (K := K) G (G.lastcol + 1 - G.firstcol)
    (fun f => f = Fld.p) (fun _ _ => False) (fun _ _ _ h => absurd h id))
  refine phase_assemble G.numtasks (G.lastcol + 1 - G.firstcol) hn _ _ hc
    order hperm g _ _ ?_ ?_ ?_ ?_ ?_
  · intro u hu
    rw [cgDirection_eq, cgStart_eq, onWorkers_in _ _ hu]
    dsimp only
    rw [hrho u hu, hb u hu]
  · intro u hu
    exact onWorkers_out _ _ (Nat.not_lt.mpr hu)
  · intro f hf u hu j hb2 he
    have hj : beg_col G u ≤ j ∧ j ≤ end_col G u := ⟨hb2, he⟩
    have hj2 := range_within hu hb2 he
    rw [cgDirection_eq, cgStart_eq]
    dsimp only
    rw [hrho u hu, hb u hu]
    cases f with
    | gnorm_temps => exact absurd rfl hf
    | x => rfl
    | z => rfl
    | p =>
      simp only [GlobalMem.get]
      rw [onRange_in _ _ hj, onRange_in _ _ hj2]
    | q => rfl
    | r => rfl
    | w => rfl
  · intro f hf j hj
    cases f with
    | gnorm_temps => exact absurd rfl hf
    | x => rfl
    | z => rfl
    | p =>
      simp only [GlobalMem.get]
      rw [onRange_out _ _ hj]
    | q => rfl
    | r => rfl
    | w => rfl
  · rfl

/-- The end of the last iteration and the product `A*z` (lines 653-670, then 678-688) on
all workers, every worker holding the matrix `mat`. -/
theorem direction_residual_phase {K : Type} [Field K] (G : Globals) (hn : 1 ≤ G.numtasks)
    (hrc : G.lastrow + 1 - G.firstrow = G.lastcol + 1 - G.firstcol)
    (order : List Nat) (hperm : order.Perm (List.range G.numtasks)) (mat : NodeMem K)
    (g : World K)
    (hmat : ∀ u, u < G.numtasks → (g.node u).a = mat.a ∧ (g.node u).colidx = mat.colidx ∧
      (g.node u).rowstr = mat.rowstr)
    (rho beta : K)
    (hrho : ∀ u, u < G.numtasks →
      gather g.glob.gnorm_temps G.numtasks u (g.node u).rho = rho)
    (hb : ∀ u, u < G.numtasks → rho / (g.node u).rho0 = beta) :
    runPhase order (fun u s => cgResidualMatVec G u (cgDirection G u s)) g
      = { glob := { g.glob with
            p := onRange 1 (G.lastcol + 1 - G.firstcol)
              (fun k => g.glob.r k + beta * g.glob.p k) g.glob.p,
            w := onRange 1 (G.lastcol + 1 - G.firstcol) (csrApply mat g.glob.z) g.glob.w },
          node := onWorkers G.numtasks
            (fun u => { g.node u with rho := rho, beta := beta, sum := 0 }) g.node } := by
  have hc1 := cgDirection_confined (K := K) G (fun f => f = Fld.p ∨ f = Fld.w) (Or.inl rfl)
    (by rintro (h | h) <;> cases h)
  have hc2 := cgResidualMatVec_confined (K := K) G (fun f => f = Fld.p ∨ f = Fld.w)
    (Or.inr rfl) (by rintro (h | h) <;> cases h)
  rw [hrc] at hc2
  have hc := Confined.comp hc1 hc2
  have hbr : ∀ u, beg_row G u = beg_col G u := fun u => by
    unfold beg_row beg_col; rw [hrc]
  have her : ∀ u, end_row G u = end_col G u := fun u => by
    unfold end_row end_col; rw [hrc]
  refine phase_assemble G.numtasks (G.lastcol + 1 - G.firstcol) hn _ _ hc
    order hperm g _ _ ?_ ?_ ?_ ?_ ?_
  · intro u hu
    rw [cgDirection_eq, cgResidualMatVec_eq, onWorkers_in _ _ hu]
    dsimp only
    rw [hrho u hu, hb u hu]
  · intro u hu
    exact onWorkers_out _ _ (Nat.not_lt.mpr hu)
  · intro f hf u hu j hb2 he
    have hj : beg_col G u ≤ j ∧ j ≤ end_col G u := ⟨hb2, he⟩
    have hj2 := range_within hu hb2 he
    rw [cgDirection_eq, cgResidualMatVec_eq]
    dsimp only
    rw [hrho u hu, hb u hu, hbr u, her u]
    cases f with
    | gnorm_temps => exact absurd rfl hf
    | x => rfl
    | z => rfl
    | p =>
      simp only [GlobalMem.get]
      rw [onRange_in _ _ hj, onRange_in _ _ hj2]
    | q => rfl
    | r => rfl
    | w =>
      simp only [GlobalMem.get]
      rw [onRange_in _ _ hj, onRange_in _ _ hj2]
      exact congrFun (csrApply_congr _ mat _ (hmat u hu).1 (hmat u hu).2.1
        (hmat u hu).2.2) j
  · intro f hf j hj
    cases f with
    | gnorm_temps => exact absurd rfl hf
    | x => rfl
    | z => rfl
    | p =>
      simp only [GlobalMem.get]
      rw [onRange_out _ _ hj]
    | q => rfl
    | r => rfl
    | w =>
      simp only [GlobalMem.get]
      rw [onRange_out _ _ hj]
  · rfl

/-! ## One iteration of the solver on all workers -/

theorem onRange_congr {β : Type} (lo hi : Nat) (f f2 old : Nat → β)
    (h : ∀ k, lo ≤ k ∧ k ≤ hi → f k = f2 k) : onRange lo hi f old = onRange lo hi f2 old := by
  funext k
  by_cases hk : lo ≤ k ∧ k ≤ hi
  · rw [onRange_in _ _ hk, onRange_in _ _ hk, h k hk]
  · rw [onRange_out _ _ hk, onRange_out _ _ hk]

/-- The reduction over the slots, when every worker holds its part of a sum over the
partition of `[1, size]`. -/
theorem gather_partition {K : Type} [Field K] (size numtasks : Nat) (hn : 1 ≤ numtasks)
    (buf : Nat → K) (f : Nat → K) (own : K) (u : Nat) (hu : u < numtasks)
    (hbuf : ∀ i, i < numtasks →
      buf i = ∑ j ∈ Finset.Icc (beg size numtasks i) (end_ size numtasks i), f j)
    (hown : own = ∑ j ∈ Finset.Icc (beg size numtasks u) (end_ size numtasks u), f j) :
    gather buf numtasks u own = ∑ j ∈ Finset.Icc 1 size, f j := by
  rw [hown, ← sum_partition size numtasks hn f]
  exact gather_sum buf
    (fun i => ∑ j ∈ Finset.Icc (beg size numtasks i) (end_ size numtasks i), f j)
    numtasks u hu hbuf

/-- Lines 533-649 of an iteration (the phases of the product, of `p.q`, of the updates of
`z` and `r`, and of `r.r`) take the state at the barrier of line 530 to the state at the
barrier of line 651. -/
theorem iteration_body {K : Type} [Field K] (G : Globals) (hn : 1 ≤ G.numtasks)
    (hrc : G.lastrow + 1 - G.firstrow = G.lastcol + 1 - G.firstcol)
    (o1 o2 o3 o4 : List Nat) (h1 : o1.Perm (List.range G.numtasks))
    (h2 : o2.Perm (List.range G.numtasks)) (h3 : o3.Perm (List.range G.numtasks))
    (h4 : o4.Perm (List.range G.numtasks))
    (mat : NodeMem K) (x : Nat → K) (c : CgVecs K) (g : World K)
    (hg : HeadInv G mat x c g) :
    NormInv G mat x c
      (runPhase o4 (cgNorm G) (runPhase o3 (cgAxpy G) (runPhase o2 (cgDot G)
        (runPhase o1 (cgMatVec G) g)))) := by
  obtain ⟨ex, ez, er, ep, hnode⟩ := hg
  -- the product
  have e1 := matvec_phase G hn o1 h1 mat g (fun u hu => (hnode u hu).1)
  rw [hrc] at e1
  have a1 : (runPhase o1 (cgMatVec G) g).glob.x = x ∧
      (runPhase o1 (cgMatVec G) g).glob.z = c.z ∧
      (runPhase o1 (cgMatVec G) g).glob.r = c.r ∧
      (runPhase o1 (cgMatVec G) g).glob.p = c.p ∧
      (runPhase o1 (cgMatVec G) g).glob.w
        = onRange 1 (G.lastcol + 1 - G.firstcol) (csrApply mat c.p) g.glob.w ∧
      (runPhase o1 (cgMatVec G) g).node = g.node := by
    rw [e1]
    exact ⟨ex, ez, er, ep, by rw [← ep], rfl⟩
  clear e1
  generalize runPhase o1 (cgMatVec G) g = g1 at a1 ⊢
  obtain ⟨x1, z1, r1, p1, w1, n1⟩ := a1
  -- the dot product
  have e2 := dot_phase G hn o2 h2 g1
  have hD : ∀ u, u < G.numtasks →
      (g1.node u).d + ∑ j ∈ Finset.Icc (beg_col G u) (end_col G u), g1.glob.p j * g1.glob.w j
      = ∑ j ∈ Finset.Icc (beg_col G u) (end_col G u), c.p j * csrApply mat c.p j := by
    intro u hu
    rw [n1, (hnode u hu).2.2.1, zero_add, p1, w1]
    apply sum_congr_range
    intro j hj
    rw [onRange_in _ _ (range_within hu hj.1 hj.2)]
  have a2 : (runPhase o2 (cgDot G) g1).glob.x = x ∧
      (runPhase o2 (cgDot G) g1).glob.z = c.z ∧
      (runPhase o2 (cgDot G) g1).glob.r = c.r ∧
      (runPhase o2 (cgDot G) g1).glob.p = c.p ∧
      (∀ k, 1 ≤ k ∧ k ≤ G.lastcol + 1 - G.firstcol →
        (runPhase o2 (cgDot G) g1).glob.q k = csrApply mat c.p k) ∧
      ∀ u, u < G.numtasks →
        (runPhase o2 (cgDot G) g1).glob.gnorm_temps u
          = ∑ j ∈ Finset.Icc (beg_col G u) (end_col G u), c.p j * csrApply mat c.p j ∧
        ((runPhase o2 (cgDot G) g1).node u).d
          = ∑ j ∈ Finset.Icc (beg_col G u) (end_col G u), c.p j * csrApply mat c.p j ∧
        ((runPhase o2 (cgDot G) g1).node u).a = mat.a ∧
        ((runPhase o2 (cgDot G) g1).node u).colidx = mat.colidx ∧
        ((runPhase o2 (cgDot G) g1).node u).rowstr = mat.rowstr ∧
        ((runPhase o2 (cgDot G) g1).node u).rho0 = c.rho ∧
        ((runPhase o2 (cgDot G) g1).node u).rho = 0 := by
    rw [e2]
    refine ⟨x1, z1, r1, p1, ?_, ?_⟩
    · intro k hk
      dsimp only
      rw [onRange_in _ _ hk, w1, onRange_in _ _ hk]
    · intro u hu
      dsimp only
      rw [onWorkers_in _ _ hu, onWorkers_in _ _ hu, hD u hu]
      dsimp only
      rw [n1]
      exact ⟨rfl, rfl, (hnode u hu).1.1, (hnode u hu).1.2.1, (hnode u hu).1.2.2,
        (hnode u hu).2.1, (hnode u hu).2.2.2⟩
  clear e2 hD
  generalize runPhase o2 (cgDot G) g1 = g2 at a2 ⊢
  obtain ⟨x2, z2, r2, p2, q2, n2⟩ := a2
  -- the updates of z and r
  have e3 := axpy_phase G hn o3 h3 g2
    (∑ j ∈ Finset.Icc 1 (G.lastcol + 1 - G.firstcol), c.p j * csrApply mat c.p j)
    (c.rho / ∑ j ∈ Finset.Icc 1 (G.lastcol + 1 - G.firstcol), c.p j * csrApply mat c.p j)
    (fun u hu => gather_partition (G.lastcol + 1 - G.firstcol) G.numtasks hn _
      (fun j => c.p j * csrApply mat c.p j) _ u hu (fun i hi => (n2 i hi).1) (n2 u hu).2.1)
    (fun u hu => by rw [(n2 u hu).2.2.2.2.2.1])
  have a3 : (runPhase o3 (cgAxpy G) g2).glob.x = x ∧
      (runPhase o3 (cgAxpy G) g2).glob.z
        = (specIteration mat (G.lastcol + 1 - G.firstcol) c).z ∧
      (runPhase o3 (cgAxpy G) g2).glob.r
        = (specIteration mat (G.lastcol + 1 - G.firstcol) c).r ∧
      (runPhase o3 (cgAxpy G) g2).glob.p = c.p ∧
      ∀ u, u < G.numtasks →
        ((runPhase o3 (cgAxpy G) g2).node u).a = mat.a ∧
        ((runPhase o3 (cgAxpy G) g2).node u).colidx = mat.colidx ∧
        ((runPhase o3 (cgAxpy G) g2).node u).rowstr = mat.rowstr ∧
        ((runPhase o3 (cgAxpy G) g2).node u).rho0 = c.rho ∧
        ((runPhase o3 (cgAxpy G) g2).node u).rho = 0 := by
    rw [e3]
    refine ⟨x2, ?_, ?_, p2, ?_⟩
    · dsimp only
      rw [z2, p2]
      rfl
    · dsimp only
      rw [r2]
      show _ = onRange 1 (G.lastcol + 1 - G.firstcol) _ c.r
      apply onRange_congr
      intro k hk
      rw [q2 k hk]
    · intro u hu
      dsimp only
      rw [onWorkers_in _ _ hu]
      exact ⟨(n2 u hu).2.2.1, (n2 u hu).2.2.2.1, (n2 u hu).2.2.2.2.1,
        (n2 u hu).2.2.2.2.2.1, (n2 u hu).2.2.2.2.2.2⟩
  clear e3
  generalize runPhase o3 (cgAxpy G) g2 = g3 at a3 ⊢
  obtain ⟨x3, z3, r3, p3, n3⟩ := a3
  -- the sum r.r
  rw [rho_phase G hn o4 h4 g3]
  refine ⟨x3, z3, r3, p3, ?_⟩
  intro u hu
  dsimp only
  rw [onWorkers_in _ _ hu, onWorkers_in _ _ hu]
  dsimp only
  rw [(n3 u hu).2.2.2.2, zero_add, r3]
  exact ⟨⟨(n3 u hu).1, (n3 u hu).2.1, (n3 u hu).2.2.1⟩, (n3 u hu).2.2.2.1, rfl, rfl⟩

/-- The reduction of `rho` at the barrier of line 651 gives every worker the `rho` of the
end of the iteration. -/
theorem normInv_gather {K : Type} [Field K] (G : Globals) (hn : 1 ≤ G.numtasks)
    (mat : NodeMem K) (x : Nat → K) (c : CgVecs K) (g : World K)
    (hg : NormInv G mat x c g) (u : Nat) (hu : u < G.numtasks) :
    gather g.glob.gnorm_temps G.numtasks u (g.node u).rho
      = (specIteration mat (G.lastcol + 1 - G.firstcol) c).rho :=
  gather_partition (G.lastcol + 1 - G.firstcol) G.numtasks hn _
    (fun j => (specIteration mat (G.lastcol + 1 - G.firstcol) c).r j
      * (specIteration mat (G.lastcol + 1 - G.firstcol) c).r j) _ u hu
    (fun i hi => (hg.2.2.2.2 i hi).2.2.1) (hg.2.2.2.2 u hu).2.2.2

/-- The end of an iteration and the head of the next take the state at the barrier of
line 651 to the state at the barrier of line 530 of the next iteration. -/
theorem iteration_next {K : Type} [Field K] (G : Globals) (hn : 1 ≤ G.numtasks)
    (order : List Nat) (hperm : order.Perm (List.range G.numtasks))
    (mat : NodeMem K) (x : Nat → K) (c : CgVecs K) (g : World K)
    (hg : NormInv G mat x c g) :
    HeadInv G mat x (specIteration mat (G.lastcol + 1 - G.firstcol) c)
      (runPhase order (fun u s => cgStart G u (cgDirection G u s)) g) := by
  have hgat := normInv_gather G hn mat x c g hg
  obtain ⟨ex, ez, er, ep, hnode⟩ := hg
  rw [direction_start_phase G hn order hperm g
    (specIteration mat (G.lastcol + 1 - G.firstcol) c).rho
    ((specIteration mat (G.lastcol + 1 - G.firstcol) c).rho / c.rho) hgat
    (fun u hu => by rw [(hnode u hu).2.1])]
  refine ⟨ex, ez, er, ?_, ?_⟩
  · dsimp only
    rw [er, ep]
    rfl
  · intro u hu
    dsimp only
    rw [onWorkers_in _ _ hu]
    exact ⟨(hnode u hu).1, rfl, rfl, rfl⟩

/-- The end of the iteration, alone: the state after it. -/
theorem iteration_done {K : Type} [Field K] (G : Globals) (hn : 1 ≤ G.numtasks)
    (order : List Nat) (hperm : order.Perm (List.range G.numtasks))
    (mat : NodeMem K) (x : Nat → K) (c : CgVecs K) (g : World K)
    (hg : NormInv G mat x c g) :
    (runPhase order (cgDirection G) g).glob.x = x ∧
      (runPhase order (cgDirection G) g).glob.z
        = (specIteration mat (G.lastcol + 1 - G.firstcol) c).z ∧
      (runPhase order (cgDirection G) g).glob.r
        = (specIteration mat (G.lastcol + 1 - G.firstcol) c).r ∧
      (runPhase order (cgDirection G) g).glob.p
        = (specIteration mat (G.lastcol + 1 - G.firstcol) c).p ∧
      ∀ u, u < G.numtasks →
        ((runPhase order (cgDirection G) g).node u).rho
          = (specIteration mat (G.lastcol + 1 - G.firstcol) c).rho := by
  have hgat := normInv_gather G hn mat x c g hg
  obtain ⟨ex, ez, er, ep, hnode⟩ := hg
  rw [direction_phase G hn order hperm g
    (specIteration mat (G.lastcol + 1 - G.firstcol) c).rho
    ((specIteration mat (G.lastcol + 1 - G.firstcol) c).rho / c.rho) hgat
    (fun u hu => by rw [(hnode u hu).2.1])]
  refine ⟨ex, ez, er, ?_, ?_⟩
  · dsimp only
    rw [er, ep]
    rfl
  · intro u hu
    dsimp only
    rw [onWorkers_in _ _ hu]

/-- The end of the last iteration and the product `A*z`: the state at the barrier of
line 690. -/
theorem iteration_last {K : Type} [Field K] (G : Globals) (hn : 1 ≤ G.numtasks)
    (hrc : G.lastrow + 1 - G.firstrow = G.lastcol + 1 - G.firstcol)
    (order : List Nat) (hperm : order.Perm (List.range G.numtasks))
    (mat : NodeMem K) (x : Nat → K) (c : CgVecs K) (g : World K)
    (hg : NormInv G mat x c g) :
    (runPhase order (fun u s => cgResidualMatVec G u (cgDirection G u s)) g).glob.x = x ∧
      (runPhase order (fun u s => cgResidualMatVec G u (cgDirection G u s)) g).glob.z
        = (specIteration mat (G.lastcol + 1 - G.firstcol) c).z ∧
      (runPhase order (fun u s => cgResidualMatVec G u (cgDirection G u s)) g).glob.p
        = (specIteration mat (G.lastcol + 1 - G.firstcol) c).p ∧
      (runPhase order (fun u s => cgResidualMatVec G u (cgDirection G u s)) g).glob.w
        = onRange 1 (G.lastcol + 1 - G.firstcol)
            (csrApply mat (specIteration mat (G.lastcol + 1 - G.firstcol) c).z) g.glob.w ∧
      ∀ u, u < G.numtasks →
        ((runPhase order (fun u s => cgResidualMatVec G u (cgDirection G u s)) g).node u).rho
          = (specIteration mat (G.lastcol + 1 - G.firstcol) c).rho ∧
        ((runPhase order (fun u s => cgResidualMatVec G u (cgDirection G u s)) g).node u).sum
          = 0 := by
  have hgat := normInv_gather G hn mat x c g hg
  obtain ⟨ex, ez, er, ep, hnode⟩ := hg
  rw [direction_residual_phase G hn hrc order hperm mat g (fun u hu => (hnode u hu).1)
    (specIteration mat (G.lastcol + 1 - G.firstcol) c).rho
    ((specIteration mat (G.lastcol + 1 - G.firstcol) c).rho / c.rho) hgat
    (fun u hu => by rw [(hnode u hu).2.1])]
  refine ⟨ex, ez, ?_, ?_, ?_⟩
  · dsimp only
    rw [er, ep]
    rfl
  · dsimp only
    rw [ez]
  · intro u hu
    dsimp only
    rw [onWorkers_in _ _ hu]
    exact ⟨rfl, rfl⟩

/-- The initialisation and the head of the first iteration (lines 470-515) take a state
in which every worker holds the matrix `mat` to the state at the barrier of line 530. -/
theorem init_head {K : Type} [Field K] (G : Globals) (hn : 1 ≤ G.numtasks)
    (o0 o1 : List Nat) (h0 : o0.Perm (List.range G.numtasks))
    (h1 : o1.Perm (List.range G.numtasks)) (mat : NodeMem K) (g : World K)
    (hmat : ∀ u, u < G.numtasks → (g.node u).a = mat.a ∧ (g.node u).colidx = mat.colidx ∧
      (g.node u).rowstr = mat.rowstr) :
    HeadInv G mat g.glob.x
      (specInit (G.naa + 1) (G.lastcol + 1 - G.firstcol) g.glob.x g.glob.z g.glob.r g.glob.p)
      (runPhase o1 (fun u s => cgStart G u (cgSumRho G u s)) (runPhase o0 (cgInit G) g)) := by
  rw [init_phase_eq G hn o0 h0 g,
    reader_phase_eq G.numtasks (fun u s => cgStart G u (cgSumRho G u s)) (fun _ _ => rfl)
      o1 h1]
  refine ⟨rfl, rfl, rfl, rfl, ?_⟩
  intro u hu
  dsimp only
  rw [onWorkers_in _ _ hu]
  rw [cgSumRho_eq, cgStart_eq]
  dsimp only
  rw [onWorkers_in _ _ hu]
  refine ⟨hmat u hu, ?_, rfl, rfl⟩
  exact gather_partition (G.lastcol + 1 - G.firstcol) G.numtasks hn _
    (fun j => g.glob.x j * g.glob.x j) _ u hu (fun i hi => onWorkers_in _ _ hi) rfl

/-! ## The run of the loop of `conj_grad` -/

theorem phasesFrom_append_barrier {K : Type} (A B : List (Instr K)) :
    ∀ pending : Nat → Worker K → Worker K,
      phasesFrom pending (A ++ Instr.barrier :: B)
        = phasesFrom pending A ++ phasesFrom (fun _ s => s) B := by
  induction A with
  | nil => intro pending; rfl
  | cons i A ih =>
    intro pending
    cases i with
    | run f => exact ih _
    | barrier =>
      show pending :: phasesFrom _ (A ++ Instr.barrier :: B) = pending :: _
      rw [ih]
      rfl

theorem phasesFrom_loop_succ {K : Type} [Field K] (G : Globals)
    (pending : Nat → Worker K → Worker K) (lo m : Nat) (rest : List (Instr K)) :
    phasesFrom pending (loopProg (fun _ => cgIteration G) lo (m + 1) ++ rest)
      = (fun u s => cgStart G u (pending u s)) :: cgMatVec G :: cgDot G :: cgAxpy G
          :: cgNorm G
          :: phasesFrom (cgDirection G) (loopProg (fun _ => cgIteration G) (lo + 1) m ++ rest) := by
  show phasesFrom pending ((cgIteration G ++ loopProg (fun _ => cgIteration G) (lo + 1) m)
    ++ rest) = _
  rw [List.append_assoc, phasesFrom_iteration]

/-- The iterations of the loop of `conj_grad` but the end of the last one: from the state
at the barrier of line 651 of an iteration, `m` times the end of the iteration and the
next iteration up to that barrier. -/
theorem loop_run {K : Type} [Field K] (G : Globals) (hn : 1 ≤ G.numtasks)
    (hrc : G.lastrow + 1 - G.firstrow = G.lastcol + 1 - G.firstcol)
    (sched : Nat → List Nat) (hs : ∀ k, (sched k).Perm (List.range G.numtasks))
    (mat : NodeMem K) (x : Nat → K) (rest : List (Instr K)) (m : Nat) :
    ∀ (lo k : Nat) (c : CgVecs K) (g : World K), NormInv G mat x c g →
      ∃ k2 g2, NormInv G mat x ((specIteration mat (G.lastcol + 1 - G.firstcol))^[m] c) g2 ∧
        runPhases sched k
            (phasesFrom (cgDirection G) (loopProg (fun _ => cgIteration G) lo m ++ rest)) g
          = runPhases sched k2 (phasesFrom (cgDirection G) rest) g2 := by
  induction m with
  | zero =>
    intro lo k c g hg
    exact ⟨k, g, hg, rfl⟩
  | succ m ih =>
    intro lo k c g hg
    have hh := iteration_next G hn (sched k) (hs k) mat x c g hg
    have hb := iteration_body G hn hrc (sched (k + 1)) (sched (k + 1 + 1))
      (sched (k + 1 + 1 + 1)) (sched (k + 1 + 1 + 1 + 1)) (hs _) (hs _) (hs _) (hs _)
      mat x _ _ hh
    obtain ⟨k2, g2, hg2, hrun⟩ := ih (lo + 1) (k + 1 + 1 + 1 + 1 + 1) _ _ hb
    refine ⟨k2, g2, ?_, ?_⟩
    · rw [Function.iterate_succ_apply]
      exact hg2
    · rw [phasesFrom_loop_succ]
      exact hrun

/-- The run of `conj_grad` from its start to the barrier of line 651 of its iteration
`m + 1`, followed by more code. -/
theorem cg_run {K : Type} [Field K] (G : Globals) (hn : 1 ≤ G.numtasks)
    (hrc : G.lastrow + 1 - G.firstrow = G.lastcol + 1 - G.firstcol)
    (sched : Nat → List Nat) (hs : ∀ k, (sched k).Perm (List.range G.numtasks))
    (mat : NodeMem K) (rest : List (Instr K)) (m k : Nat) (g : World K)
    (hmat : ∀ u, u < G.numtasks → (g.node u).a = mat.a ∧ (g.node u).colidx = mat.colidx ∧
      (g.node u).rowstr = mat.rowstr) :
    ∃ k2 g2,
      NormInv G mat g.glob.x
        ((specIteration mat (G.lastcol + 1 - G.firstcol))^[m]
          (specInit (G.naa + 1) (G.lastcol + 1 - G.firstcol) g.glob.x g.glob.z g.glob.r
            g.glob.p)) g2 ∧
        runPhases sched k (phasesFrom (fun _ s => s)
            ([Instr.run (cgInit G), Instr.barrier, Instr.run (cgSumRho G)]
              ++ loopProg (fun _ => cgIteration G) 1 (m + 1) ++ rest)) g
          = runPhases sched k2 (phasesFrom (cgDirection G) rest) g2 := by
  have hh := init_head G hn (sched k) (sched (k + 1)) (hs _) (hs _) mat g hmat
  have hb := iteration_body G hn hrc (sched (k + 1 + 1)) (sched (k + 1 + 1 + 1))
    (sched (k + 1 + 1 + 1 + 1)) (sched (k + 1 + 1 + 1 + 1 + 1)) (hs _) (hs _) (hs _) (hs _)
    mat _ _ _ hh
  obtain ⟨k2, g2, hg2, hrun⟩ := loop_run G hn hrc sched hs mat g.glob.x rest m (1 + 1)
    (k + 1 + 1 + 1 + 1 + 1 + 1) _ _ hb
  refine ⟨k2, g2, hg2, ?_⟩
  rw [← hrun]
  have e : phasesFrom (fun _ s => s)
      ([Instr.run (cgInit G), Instr.barrier, Instr.run (cgSumRho G)]
        ++ loopProg (fun _ => cgIteration G) 1 (m + 1) ++ rest)
      = cgInit G :: phasesFrom (cgSumRho G)
          (loopProg (fun _ => cgIteration G) 1 (m + 1) ++ rest) := rfl
  rw [e, phasesFrom_loop_succ]
  rfl

/-! ## The end of `conj_grad` -/

/-- A phase leaves an array that its code never writes as it was. -/
theorem runPhase_frame {K β : Type} (proj : GlobalMem K → β)
    (seg : Nat → Worker K → Worker K) (h : ∀ u v, proj (seg u v).glob = proj v.glob)
    (order : List Nat) (g : World K) :
    proj (runPhase order seg g).glob = proj g.glob := by
  induction order generalizing g with
  | nil => rfl
  | cons a l ih =>
    rw [runPhase_cons, ih, step_glob, h]

/-- A phase leaves the part of a worker's memory that its code never changes as it
was. -/
theorem runPhase_node_frame {K β : Type} (proj : NodeMem K → β)
    (seg : Nat → Worker K → Worker K) (h : ∀ u v, proj (seg u v).node = proj v.node)
    (order : List Nat) (g : World K) (u : Nat) :
    proj ((runPhase order seg g).node u) = proj (g.node u) := by
  induction order generalizing g with
  | nil => rfl
  | cons a l ih =>
    rw [runPhase_cons, ih]
    by_cases hu : u = a
    · subst hu
      rw [step_node_same, h]
    · rw [step_node_other seg a u g hu]

/-- From the barrier of line 651 of the last iteration to the barrier of line 709: the
end of the iteration, the product `A*z` and the residual. -/
theorem tail_run {K : Type} [Field K] (G : Globals) (hn : 1 ≤ G.numtasks)
    (hrc : G.lastrow + 1 - G.firstrow = G.lastcol + 1 - G.firstcol)
    (o1 o2 : List Nat) (h1 : o1.Perm (List.range G.numtasks))
    (h2 : o2.Perm (List.range G.numtasks))
    (mat : NodeMem K) (x : Nat → K) (c : CgVecs K) (g : World K)
    (hg : NormInv G mat x c g) :
    (runPhase o2 (cgResidual G)
        (runPhase o1 (fun u s => cgResidualMatVec G u (cgDirection G u s)) g)).glob.x = x ∧
      (runPhase o2 (cgResidual G)
        (runPhase o1 (fun u s => cgResidualMatVec G u (cgDirection G u s)) g)).glob.z
        = (specIteration mat (G.lastcol + 1 - G.firstcol) c).z ∧
      (runPhase o2 (cgResidual G)
        (runPhase o1 (fun u s => cgResidualMatVec G u (cgDirection G u s)) g)).glob.p
        = (specIteration mat (G.lastcol + 1 - G.firstcol) c).p ∧
      (runPhase o2 (cgResidual G)
        (runPhase o1 (fun u s => cgResidualMatVec G u (cgDirection G u s)) g)).glob.r
        = onRange 1 (G.lastcol + 1 - G.firstcol)
            (csrApply mat (specIteration mat (G.lastcol + 1 - G.firstcol) c).z)
            (specIteration mat (G.lastcol + 1 - G.firstcol) c).r ∧
      ∀ u, u < G.numtasks →
        ((runPhase o2 (cgResidual G)
          (runPhase o1 (fun u s => cgResidualMatVec G u (cgDirection G u s)) g)).node u).rho
          = (specIteration mat (G.lastcol + 1 - G.firstcol) c).rho ∧
        (((runPhase o2 (cgResidual G)
          (runPhase o1 (fun u s => cgResidualMatVec G u (cgDirection G u s)) g)).node u).a
            = mat.a ∧
          ((runPhase o2 (cgResidual G)
            (runPhase o1 (fun u s => cgResidualMatVec G u (cgDirection G u s)) g)).node
              u).colidx = mat.colidx ∧
          ((runPhase o2 (cgResidual G)
            (runPhase o1 (fun u s => cgResidualMatVec G u (cgDirection G u s)) g)).node
              u).rowstr = mat.rowstr) ∧
        (runPhase o2 (cgResidual G)
          (runPhase o1 (fun u s => cgResidualMatVec G u (cgDirection G u s)) g)).glob.gnorm_temps
            u
          = ∑ j ∈ Finset.Icc (beg_col G u) (end_col G u),
              (x j - csrApply mat (specIteration mat (G.lastcol + 1 - G.firstcol) c).z j)
                * (x j - csrApply mat (specIteration mat (G.lastcol + 1 - G.firstcol) c).z j) ∧
        ((runPhase o2 (cgResidual G)
          (runPhase o1 (fun u s => cgResidualMatVec G u (cgDirection G u s)) g)).node u).sum
          = ∑ j ∈ Finset.Icc (beg_col G u) (end_col G u),
              (x j - csrApply mat (specIteration mat (G.lastcol + 1 - G.firstcol) c).z j)
                * (x j - csrApply mat (specIteration mat (G.lastcol + 1 - G.firstcol) c).z j) := by
  have hmat : ∀ u, u < G.numtasks →
      ((runPhase o1 (fun u s => cgResidualMatVec G u (cgDirection G u s)) g).node u).a = mat.a ∧
      ((runPhase o1 (fun u s => cgResidualMatVec G u (cgDirection G u s)) g).node u).colidx
        = mat.colidx ∧
      ((runPhase o1 (fun u s => cgResidualMatVec G u (cgDirection G u s)) g).node u).rowstr
        = mat.rowstr := by
    intro u hu
    have e1 := runPhase_node_frame (fun nd : NodeMem K => (nd.a, nd.colidx, nd.rowstr))
      (fun u s => cgResidualMatVec G u (cgDirection G u s))
      (fun u v => by dsimp only; rw [cgDirection_eq, cgResidualMatVec_eq]) o1 g u
    simp only [Prod.mk.injEq] at e1
    obtain ⟨f1, f2, f3⟩ := e1
    rw [f1, f2, f3]
    exact (hg.2.2.2.2 u hu).1
  have hr1 : (runPhase o1 (fun u s => cgResidualMatVec G u (cgDirection G u s)) g).glob.r
      = (specIteration mat (G.lastcol + 1 - G.firstcol) c).r := by
    have e1 := runPhase_frame (fun m : GlobalMem K => m.r)
      (fun u s => cgResidualMatVec G u (cgDirection G u s))
      (fun u v => by dsimp only; rw [cgDirection_eq, cgResidualMatVec_eq]) o1 g
    exact e1.trans hg.2.2.1
  obtain ⟨x1, z1, p1, w1, n1⟩ := iteration_last G hn hrc o1 h1 mat x c g hg
  generalize runPhase o1 (fun u s => cgResidualMatVec G u (cgDirection G u s)) g = g1
    at x1 z1 p1 w1 n1 hmat hr1 ⊢
  rw [residual_phase G hn o2 h2 g1]
  have hS : ∀ u, u < G.numtasks →
      (g1.node u).sum + ∑ j ∈ Finset.Icc (beg_col G u) (end_col G u),
        (g1.glob.x j - g1.glob.w j) * (g1.glob.x j - g1.glob.w j)
      = ∑ j ∈ Finset.Icc (beg_col G u) (end_col G u),
          (x j - csrApply mat (specIteration mat (G.lastcol + 1 - G.firstcol) c).z j)
            * (x j - csrApply mat (specIteration mat (G.lastcol + 1 - G.firstcol) c).z j) := by
    intro u hu
    rw [(n1 u hu).2, zero_add, x1, w1]
    apply sum_congr_range
    intro j hj
    rw [onRange_in _ _ (range_within hu hj.1 hj.2)]
  refine ⟨x1, z1, p1, ?_, ?_⟩
  · dsimp only
    rw [w1, hr1]
    apply onRange_congr
    intro k hk
    rw [onRange_in _ _ hk]
  · intro u hu
    dsimp only
    rw [onWorkers_in _ _ hu, onWorkers_in _ _ hu]
    dsimp only
    rw [hS u hu]
    exact ⟨(n1 u hu).1, hmat u hu, rfl, rfl⟩

/-- C14: `conj_grad` is its initialisation, exactly `cgitmax = 25` iterations of its loop
(a list of code without any exit) and the residual norm; and for workers that hold the
same matrix, run in any order inside each phase: after the iteration `m` (for every
`m >= 1`) the vectors `z`, `r`, `p` and every worker's `rho` are the result of applying `m`
times, to the state the initialisation leaves, the map of the specification (`q = A*p`;
`d = p.q`; `alpha = rho/d`; `z + alpha*p`; `r - alpha*q`; `rho' = r.r`; `beta = rho'/rho`;
`r + beta*p`, over `[1, N]`, in exact arithmetic); and when `conj_grad` returns, `z`, `p`
and every worker's `rho` are those of the 25th iteration. -/
theorem conj_grad_iterations {K : Type} [Field K] (csqrt : K → K) (G : Globals)
    (hn : 1 ≤ G.numtasks)
    (hrc : G.lastrow + 1 - G.firstrow = G.lastcol + 1 - G.firstcol)
    (sched : Nat → List Nat) (hs : ∀ k, (sched k).Perm (List.range G.numtasks))
    (mat : NodeMem K) (g : World K)
    (hmat : ∀ u, u < G.numtasks → (g.node u).a = mat.a ∧ (g.node u).colidx = mat.colidx ∧
      (g.node u).rowstr = mat.rowstr) :
    (cgitmax = 25 ∧
      conj_grad csqrt G = cgPrefix G cgitmax
        ++ [Instr.run (cgResidualMatVec G), Instr.barrier, Instr.run (cgResidual G),
            Instr.barrier, Instr.run (cgRnorm csqrt G)]) ∧
      (∀ m, 1 ≤ m →
        (runProg sched (cgPrefix G m) g).glob.z
          = ((specIteration mat (G.lastcol + 1 - G.firstcol))^[m]
              (specInit (G.naa + 1) (G.lastcol + 1 - G.firstcol) g.glob.x g.glob.z g.glob.r
                g.glob.p)).z ∧
        (runProg sched (cgPrefix G m) g).glob.r
          = ((specIteration mat (G.lastcol + 1 - G.firstcol))^[m]
              (specInit (G.naa + 1) (G.lastcol + 1 - G.firstcol) g.glob.x g.glob.z g.glob.r
                g.glob.p)).r ∧
        (runProg sched (cgPrefix G m) g).glob.p
          = ((specIteration mat (G.lastcol + 1 - G.firstcol))^[m]
              (specInit (G.naa + 1) (G.lastcol + 1 - G.firstcol) g.glob.x g.glob.z g.glob.r
                g.glob.p)).p ∧
        ∀ u, u < G.numtasks →
          ((runProg sched (cgPrefix G m) g).node u).rho
            = ((specIteration mat (G.lastcol + 1 - G.firstcol))^[m]
                (specInit (G.naa + 1) (G.lastcol + 1 - G.firstcol) g.glob.x g.glob.z g.glob.r
                  g.glob.p)).rho) ∧
      ((runProg sched (conj_grad csqrt G) g).glob.z
          = ((specIteration mat (G.lastcol + 1 - G.firstcol))^[25]
              (specInit (G.naa + 1) (G.lastcol + 1 - G.firstcol) g.glob.x g.glob.z g.glob.r
                g.glob.p)).z ∧
        (runProg sched (conj_grad csqrt G) g).glob.p
          = ((specIteration mat (G.lastcol + 1 - G.firstcol))^[25]
              (specInit (G.naa + 1) (G.lastcol + 1 - G.firstcol) g.glob.x g.glob.z g.glob.r
                g.glob.p)).p ∧
        ∀ u, u < G.numtasks →
          ((runProg sched (conj_grad csqrt G) g).node u).rho
            = ((specIteration mat (G.lastcol + 1 - G.firstcol))^[25]
                (specInit (G.naa + 1) (G.lastcol + 1 - G.firstcol) g.glob.x g.glob.z g.glob.r
                  g.glob.p)).rho) := by
  refine ⟨⟨rfl, ?_⟩, ?_, ?_⟩
  · unfold conj_grad cgPrefix
    rfl
  · intro m hm
    obtain ⟨m2, rfl⟩ : ∃ m2, m = m2 + 1 := ⟨m - 1, by omega⟩
    obtain ⟨k2, g2, hg2, hrun⟩ := cg_run G hn hrc sched hs mat [] m2 0 g hmat
    have e : runProg sched (cgPrefix G (m2 + 1)) g = runPhase (sched k2) (cgDirection G) g2 := by
      unfold runProg cgPrefix
      rw [exec_eq_runPhases]
      rw [List.append_nil] at hrun
      rw [hrun]
      rfl
    rw [e, Function.iterate_succ_apply']
    obtain ⟨_, d2, d3, d4, d5⟩ := iteration_done G hn (sched k2) (hs k2) mat _ _ g2 hg2
    exact ⟨d2, d3, d4, d5⟩
  · obtain ⟨k2, g2, hg2, hrun⟩ := cg_run G hn hrc sched hs mat
      [Instr.run (cgResidualMatVec G), Instr.barrier, Instr.run (cgResidual G),
        Instr.barrier, Instr.run (cgRnorm csqrt G)] 24 0 g hmat
    have e : runProg sched (conj_grad csqrt G) g
        = runPhase (sched (k2 + 1 + 1)) (cgRnorm csqrt G)
            (runPhase (sched (k2 + 1)) (cgResidual G)
              (runPhase (sched k2) (fun u s => cgResidualMatVec G u (cgDirection G u s)) g2)) := by
      unfold runProg conj_grad
      rw [exec_eq_runPhases]
      have e24 : cgitmax = 24 + 1 := rfl
      rw [e24, hrun]
      rfl
    rw [e]
    obtain ⟨_, t2, t3, _, t5⟩ := tail_run G hn hrc (sched k2) (sched (k2 + 1)) (hs _) (hs _)
      mat _ _ g2 hg2
    have f1 := runPhase_frame (fun m : GlobalMem K => m.z) (cgRnorm csqrt G)
      (fun _ _ => rfl) (sched (k2 + 1 + 1))
      (runPhase (sched (k2 + 1)) (cgResidual G)
        (runPhase (sched k2) (fun u s => cgResidualMatVec G u (cgDirection G u s)) g2))
    have f2 := runPhase_frame (fun m : GlobalMem K => m.p) (cgRnorm csqrt G)
      (fun _ _ => rfl) (sched (k2 + 1 + 1))
      (runPhase (sched (k2 + 1)) (cgResidual G)
        (runPhase (sched k2) (fun u s => cgResidualMatVec G u (cgDirection G u s)) g2))
    have f3 := fun u => runPhase_node_frame (fun nd : NodeMem K => nd.rho) (cgRnorm csqrt G)
      (fun _ _ => rfl) (sched (k2 + 1 + 1))
      (runPhase (sched (k2 + 1)) (cgResidual G)
        (runPhase (sched k2) (fun u s => cgResidualMatVec G u (cgDirection G u s)) g2)) u
    rw [f1, f2]
    refine ⟨t2, t3, ?_⟩
    intro u hu
    rw [f3 u]
    exact (t5 u hu).1

theorem conj_grad_iterations_witness :
    (runProg (fun _ => [1, 0]) (conj_grad demoSqrt (mainGlobals 3 2)) demoWorld).glob.z
      = ((specIteration demoNode ((mainGlobals 3 2).lastcol + 1 - (mainGlobals 3 2).firstcol))^[25]
          (specInit ((mainGlobals 3 2).naa + 1)
            ((mainGlobals 3 2).lastcol + 1 - (mainGlobals 3 2).firstcol) demoWorld.glob.x
            demoWorld.glob.z demoWorld.glob.r demoWorld.glob.p)).z :=
  (conj_grad_iterations demoSqrt (mainGlobals 3 2) (by decide) (by decide) (fun _ => [1, 0])
    (fun _ => List.Perm.swap 0 1 []) demoNode demoWorld (fun _ _ => ⟨rfl, rfl, rfl⟩)).2.2.1

/-! ## The outer iterations of `main` -/

/-- The phase of lines 340-365 on all workers, when the reduction gives every worker the
same pair of sums. -/
theorem zeta_phase {K : Type} [Field K] (SHIFT : K) (csqrt : K → K) (G : Globals)
    (hn : 1 ≤ G.numtasks) (order : List Nat) (hperm : order.Perm (List.range G.numtasks))
    (g : World K) (s11 s12 : K)
    (hg2 : ∀ u, u < G.numtasks →
      gather2 g.glob.gnorm_temps G.numtasks u ((g.node u).norm_temp11, (g.node u).norm_temp12)
        = (s11, s12)) :
    runPhase order (mainZeta SHIFT csqrt G) g
      = { glob := { g.glob with
            x := onRange 1 (G.lastcol + 1 - G.firstcol)
              (fun k => 1 / csqrt s12 * g.glob.z k) g.glob.x },
          node := onWorkers G.numtasks
            (fun u => { g.node u with
              norm_temp11 := s11, norm_temp12 := 1 / csqrt s12, zeta := SHIFT + 1 / s11 })
            g.node } := by
  have hc := mainZeta_confined (K := K) SHIFT csqrt G (fun f => f = Fld.x) rfl
    (by intro h; cases h)
  refine phase_assemble G.numtasks (G.lastcol + 1 - G.firstcol) hn _ _ hc
    order hperm g _ _ ?_ ?_ ?_ ?_ ?_
  · intro u hu
    rw [mainZeta_eq, onWorkers_in _ _ hu]
    dsimp only
    rw [hg2 u hu]
  · intro u hu
    exact onWorkers_out _ _ (Nat.not_lt.mpr hu)
  · intro f hf u hu j hb he
    have hj : beg_col G u ≤ j ∧ j ≤ end_col G u := ⟨hb, he⟩
    have hj2 := range_within hu hb he
    rw [mainZeta_eq]
    dsimp only
    rw [hg2 u hu]
    cases f with
    | gnorm_temps => exact absurd rfl hf
    | x =>
      simp only [GlobalMem.get]
      rw [onRange_in _ _ hj, onRange_in _ _ hj2]
    | z => rfl
    | p => rfl
    | q => rfl
    | r => rfl
    | w => rfl
  · intro f hf j hj
    cases f with
    | gnorm_temps => exact absurd rfl hf
    | x =>
      simp only [GlobalMem.get]
      rw [onRange_out _ _ hj]
    | z => rfl
    | p => rfl
    | q => rfl
    | r => rfl
    | w => rfl
  · rfl

/-- The end of an outer iteration, from the barrier of line 709 on (lines 711-719 of
`conj_grad`, then 317-365 of `main`): `zeta` on every worker and the new `x`. -/
theorem zeta_run {K : Type} [Field K] (SHIFT : K) (csqrt : K → K) (G : Globals)
    (hn : 1 ≤ G.numtasks) (o1 o2 : List Nat) (h1 : o1.Perm (List.range G.numtasks))
    (h2 : o2.Perm (List.range G.numtasks)) (g : World K) :
    (runPhase o2 (mainZeta SHIFT csqrt G)
        (runPhase o1 (fun u s => mainNorms G u (cgRnorm csqrt G u s)) g)).glob.x
      = onRange 1 (G.lastcol + 1 - G.firstcol)
          (fun k => 1 / csqrt (∑ i ∈ Finset.Icc 1 (G.lastcol + 1 - G.firstcol),
            g.glob.z i * g.glob.z i) * g.glob.z k) g.glob.x ∧
      (runPhase o2 (mainZeta SHIFT csqrt G)
        (runPhase o1 (fun u s => mainNorms G u (cgRnorm csqrt G u s)) g)).glob.z = g.glob.z ∧
      (runPhase o2 (mainZeta SHIFT csqrt G)
        (runPhase o1 (fun u s => mainNorms G u (cgRnorm csqrt G u s)) g)).glob.r = g.glob.r ∧
      (runPhase o2 (mainZeta SHIFT csqrt G)
        (runPhase o1 (fun u s => mainNorms G u (cgRnorm csqrt G u s)) g)).glob.p = g.glob.p ∧
      ∀ u, u < G.numtasks →
        ((runPhase o2 (mainZeta SHIFT csqrt G)
          (runPhase o1 (fun u s => mainNorms G u (cgRnorm csqrt G u s)) g)).node u).zeta
          = SHIFT + 1 / ∑ j ∈ Finset.Icc 1 (G.lastcol + 1 - G.firstcol),
              g.glob.x j * g.glob.z j ∧
        ((runPhase o2 (mainZeta SHIFT csqrt G)
          (runPhase o1 (fun u s => mainNorms G u (cgRnorm csqrt G u s)) g)).node u).a
          = (g.node u).a ∧
        ((runPhase o2 (mainZeta SHIFT csqrt G)
          (runPhase o1 (fun u s => mainNorms G u (cgRnorm csqrt G u s)) g)).node u).colidx
          = (g.node u).colidx ∧
        ((runPhase o2 (mainZeta SHIFT csqrt G)
          (runPhase o1 (fun u s => mainNorms G u (cgRnorm csqrt G u s)) g)).node u).rowstr
          = (g.node u).rowstr := by
  obtain ⟨a1, a2, a3⟩ := norms_phase csqrt G o1 (perm_range_nodup h1) g
  have fr := runPhase_frame (fun m : GlobalMem K => m.r)
    (fun u s => mainNorms G u (cgRnorm csqrt G u s))
    (fun u v => by dsimp only; rw [cgRnorm_eq, mainNorms_eq]) o1 g
  have fp := runPhase_frame (fun m : GlobalMem K => m.p)
    (fun u s => mainNorms G u (cgRnorm csqrt G u s))
    (fun u v => by dsimp only; rw [cgRnorm_eq, mainNorms_eq]) o1 g
  have fm := fun u => runPhase_node_frame (fun nd : NodeMem K => (nd.a, nd.colidx, nd.rowstr))
    (fun u s => mainNorms G u (cgRnorm csqrt G u s))
    (fun u v => by dsimp only; rw [cgRnorm_eq, mainNorms_eq]) o1 g u
  have hg : ∀ u, u < G.numtasks →
      gather2 (runPhase o1 (fun u s => mainNorms G u (cgRnorm csqrt G u s)) g).glob.gnorm_temps
          G.numtasks u
          (((runPhase o1 (fun u s => mainNorms G u (cgRnorm csqrt G u s)) g).node
              u).norm_temp11,
           ((runPhase o1 (fun u s => mainNorms G u (cgRnorm csqrt G u s)) g).node
              u).norm_temp12)
        = (∑ j ∈ Finset.Icc 1 (G.lastcol + 1 - G.firstcol), g.glob.x j * g.glob.z j,
           ∑ j ∈ Finset.Icc 1 (G.lastcol + 1 - G.firstcol), g.glob.z j * g.glob.z j) := by
    intro u hu
    obtain ⟨_, _, s3, s4⟩ := a3 u ((perm_range_mem h1 u).mpr hu)
    rw [s3, s4]
    have hs := gather2_of_slots G.numtasks
      (fun u => ∑ j ∈ Finset.Icc (beg_col G u) (end_col G u), g.glob.x j * g.glob.z j)
      (fun u => ∑ j ∈ Finset.Icc (beg_col G u) (end_col G u), g.glob.z j * g.glob.z j)
      (runPhase o1 (fun u s => mainNorms G u (cgRnorm csqrt G u s)) g).glob.gnorm_temps
      u hu
      (fun i hi => ⟨(a3 i ((perm_range_mem h1 i).mpr hi)).1,
        (a3 i ((perm_range_mem h1 i).mpr hi)).2.1⟩)
    rw [hs]
    exact Prod.ext
      (sum_partition (G.lastcol + 1 - G.firstcol) G.numtasks hn (fun j => g.glob.x j * g.glob.z j))
      (sum_partition (G.lastcol + 1 - G.firstcol) G.numtasks hn (fun j => g.glob.z j * g.glob.z j))
  generalize runPhase o1 (fun u s => mainNorms G u (cgRnorm csqrt G u s)) g = g1
    at a1 a2 fr fp fm hg ⊢
  rw [zeta_phase SHIFT csqrt G hn o2 h2 g1 _ _ hg]
  refine ⟨?_, a2, fr, fp, ?_⟩
  · dsimp only
    rw [a1, a2]
  · intro u hu
    dsimp only
    rw [onWorkers_in _ _ hu]
    have := fm u
    simp only [Prod.mk.injEq] at this
    exact ⟨rfl, this.1, this.2.1, this.2.2⟩

/-- One outer iteration (lines 304-368), followed by more code: from a state at a barrier
in which every worker holds the matrix `mat`, it leaves the state the specification
gives. -/
theorem outer_step {K : Type} [Field K] (SHIFT : K) (csqrt : K → K) (G : Globals)
    (hn : 1 ≤ G.numtasks)
    (hrc : G.lastrow + 1 - G.firstrow = G.lastcol + 1 - G.firstcol)
    (sched : Nat → List Nat) (hs : ∀ k, (sched k).Perm (List.range G.numtasks))
    (mat : NodeMem K) (rest : List (Instr K)) (k : Nat) (g : World K) (zeta0 : K)
    (hmat : ∀ u, u < G.numtasks → (g.node u).a = mat.a ∧ (g.node u).colidx = mat.colidx ∧
      (g.node u).rowstr = mat.rowstr) :
    ∃ k2 g2,
      OuterInv G mat
        (specOuter mat (G.naa + 1) (G.lastcol + 1 - G.firstcol) SHIFT csqrt
          { x := g.glob.x, z := g.glob.z, r := g.glob.r, p := g.glob.p, zeta := zeta0 }) g2 ∧
        runPhases sched k (phasesFrom (fun _ s => s) (mainIteration SHIFT csqrt G ++ rest)) g
          = runPhases sched k2 (phasesFrom (fun _ s => s) rest) g2 := by
  have e : mainIteration SHIFT csqrt G ++ rest
      = [Instr.run (cgInit G), Instr.barrier, Instr.run (cgSumRho G)]
          ++ loopProg (fun _ => cgIteration G) 1 (24 + 1)
          ++ ([Instr.run (cgResidualMatVec G), Instr.barrier, Instr.run (cgResidual G),
                Instr.barrier, Instr.run (cgRnorm csqrt G), Instr.run (mainNorms G),
                Instr.barrier, Instr.run (mainZeta SHIFT csqrt G), Instr.barrier] ++ rest) := by
    unfold mainIteration conj_grad
    rw [show cgitmax = 24 + 1 from rfl]
    simp only [List.append_assoc, List.cons_append, List.nil_append]
  obtain ⟨k2, g2, hg2, hrun⟩ := cg_run G hn hrc sched hs mat
    ([Instr.run (cgResidualMatVec G), Instr.barrier, Instr.run (cgResidual G),
      Instr.barrier, Instr.run (cgRnorm csqrt G), Instr.run (mainNorms G),
      Instr.barrier, Instr.run (mainZeta SHIFT csqrt G), Instr.barrier] ++ rest) 24 k g hmat
  obtain ⟨t1, t2, t3, t4, t5⟩ := tail_run G hn hrc (sched k2) (sched (k2 + 1)) (hs _) (hs _)
    mat _ _ g2 hg2
  obtain ⟨z1, z2, z3, z4, z5⟩ := zeta_run SHIFT csqrt G hn (sched (k2 + 1 + 1))
    (sched (k2 + 1 + 1 + 1)) (hs _) (hs _)
    (runPhase (sched (k2 + 1)) (cgResidual G)
      (runPhase (sched k2) (fun u s => cgResidualMatVec G u (cgDirection G u s)) g2))
  refine ⟨k2 + 1 + 1 + 1 + 1,
    runPhase (sched (k2 + 1 + 1 + 1)) (mainZeta SHIFT csqrt G)
      (runPhase (sched (k2 + 1 + 1)) (fun u s => mainNorms G u (cgRnorm csqrt G u s))
        (runPhase (sched (k2 + 1)) (cgResidual G)
          (runPhase (sched k2) (fun u s => cgResidualMatVec G u (cgDirection G u s)) g2))),
    ?_, ?_⟩
  · have hc : (specIteration mat (G.lastcol + 1 - G.firstcol))^[cgitmax]
        (specInit (G.naa + 1) (G.lastcol + 1 - G.firstcol) g.glob.x g.glob.z g.glob.r g.glob.p)
        = specIteration mat (G.lastcol + 1 - G.firstcol)
            ((specIteration mat (G.lastcol + 1 - G.firstcol))^[24]
              (specInit (G.naa + 1) (G.lastcol + 1 - G.firstcol) g.glob.x g.glob.z g.glob.r
                g.glob.p)) :=
      Function.iterate_succ_apply' _ 24 _
    unfold OuterInv specOuter
    dsimp only
    rw [hc]
    refine ⟨?_, ?_, ?_, ?_, ?_⟩
    · rw [z1, t1, t2]
    · rw [z2, t2]
    · rw [z3, t4]
    · rw [z4, t3]
    · intro u hu
      obtain ⟨y1, y2, y3, y4⟩ := z5 u hu
      rw [y1, y2, y3, y4, t1, t2]
      exact ⟨(t5 u hu).2.1, rfl⟩
  · rw [e, hrun]
    rfl

/-- The outer iterations: `it` times the body of the loop of lines 304-368, from a state
at a barrier. -/
theorem outer_run {K : Type} [Field K] (SHIFT : K) (csqrt : K → K) (G : Globals)
    (hn : 1 ≤ G.numtasks)
    (hrc : G.lastrow + 1 - G.firstrow = G.lastcol + 1 - G.firstcol)
    (sched : Nat → List Nat) (hs : ∀ k, (sched k).Perm (List.range G.numtasks))
    (mat : NodeMem K) (rest : List (Instr K)) (it : Nat) :
    ∀ (lo k : Nat) (s : OuterVecs K) (g : World K), OuterInv G mat s g →
      ∃ k2 g2,
        OuterInv G mat
          ((specOuter mat (G.naa + 1) (G.lastcol + 1 - G.firstcol) SHIFT csqrt)^[it] s) g2 ∧
          runPhases sched k (phasesFrom (fun _ s => s)
              (loopProg (fun _ => mainIteration SHIFT csqrt G) lo it ++ rest)) g
            = runPhases sched k2 (phasesFrom (fun _ s => s) rest) g2 := by
  induction it with
  | zero =>
    intro lo k s g hg
    exact ⟨k, g, hg, rfl⟩
  | succ m ih =>
    intro lo k s g hg
    obtain ⟨ex, ez, er, ep, hnode⟩ := hg
    obtain ⟨k1, g1, hg1, hrun1⟩ := outer_step SHIFT csqrt G hn hrc sched hs mat
      (loopProg (fun _ => mainIteration SHIFT csqrt G) (lo + 1) m ++ rest) k g s.zeta
      (fun u hu => (hnode u hu).1)
    have es : ({ x := g.glob.x, z := g.glob.z, r := g.glob.r, p := g.glob.p, zeta := s.zeta }
        : OuterVecs K) = s := by
      rw [ex, ez, er, ep]
    rw [es] at hg1
    obtain ⟨k2, g2, hg2, hrun2⟩ := ih (lo + 1) k1 _ g1 hg1
    refine ⟨k2, g2, ?_, ?_⟩
    · rw [Function.iterate_succ_apply]
      exact hg2
    · rw [← hrun2, ← hrun1]
      show runPhases sched k (phasesFrom (fun _ s => s)
        ((mainIteration SHIFT csqrt G ++ loopProg (fun _ => mainIteration SHIFT csqrt G)
          (lo + 1) m) ++ rest)) g = _
      rw [List.append_assoc]

/-- The `zeta` of every worker after `it >= 1` outer iterations is the `zeta` of the
specification. -/
theorem outer_zeta {K : Type} [Field K] (SHIFT : K) (csqrt : K → K) (G : Globals)
    (hn : 1 ≤ G.numtasks)
    (hrc : G.lastrow + 1 - G.firstrow = G.lastcol + 1 - G.firstcol)
    (sched : Nat → List Nat) (hs : ∀ k, (sched k).Perm (List.range G.numtasks))
    (mat : NodeMem K) (g : World K)
    (hmat : ∀ u, u < G.numtasks → (g.node u).a = mat.a ∧ (g.node u).colidx = mat.colidx ∧
      (g.node u).rowstr = mat.rowstr)
    (it : Nat) (hit : 1 ≤ it) (u : Nat) (hu : u < G.numtasks) :
    ((runProg sched (loopProg (fun _ => mainIteration SHIFT csqrt G) 1 it) g).node u).zeta
      = ((specOuter mat (G.naa + 1) (G.lastcol + 1 - G.firstcol) SHIFT csqrt)^[it]
          { x := g.glob.x, z := g.glob.z, r := g.glob.r, p := g.glob.p, zeta := 0 }).zeta := by
  obtain ⟨m, rfl⟩ : ∃ m, it = m + 1 := ⟨it - 1, by omega⟩
  obtain ⟨k1, g1, hg1, hrun1⟩ := outer_step SHIFT csqrt G hn hrc sched hs mat
    (loopProg (fun _ => mainIteration SHIFT csqrt G) (1 + 1) m ++ []) 0 g 0 hmat
  obtain ⟨k2, g2, hg2, hrun2⟩ := outer_run SHIFT csqrt G hn hrc sched hs mat [] m (1 + 1) k1
    _ g1 hg1
  have e : runProg sched (loopProg (fun _ => mainIteration SHIFT csqrt G) 1 (m + 1)) g = g2 := by
    unfold runProg
    rw [exec_eq_runPhases]
    have e1 : loopProg (fun _ => mainIteration SHIFT csqrt G) 1 (m + 1)
        = mainIteration SHIFT csqrt G
          ++ (loopProg (fun _ => mainIteration SHIFT csqrt G) (1 + 1) m ++ []) := by
      rw [List.append_nil]
      rfl
    rw [e1, hrun1, hrun2]
    show runPhase (sched k2) (fun _ s => s) g2 = g2
    exact runPhase_id _ _
  rw [e, Function.iterate_succ_apply]
  exact (hg2.2.2.2.2 u hu).2

/-- C24: partitioning does not change the result: over exact arithmetic, for every number
of workers `numtasks >= 1`, every order of the workers inside each phase, every matrix (held
by all workers) and every state at the barrier before the timed loop (start vector `x`),
the `zeta` every worker holds after each timed outer iteration `it` is the `zeta` of the
specification for that matrix and start vector, hence equals the `zeta` of the run with 1
worker. -/
theorem zeta_independent_of_partition {K : Type} [Field K] (SHIFT : K) (csqrt : K → K)
    (NA numtasks : Nat) (hn : 1 ≤ numtasks)
    (sched : Nat → List Nat) (hs : ∀ k, (sched k).Perm (List.range numtasks))
    (mat : NodeMem K) (g : World K)
    (hmat : ∀ u, u < numtasks → (g.node u).a = mat.a ∧ (g.node u).colidx = mat.colidx ∧
      (g.node u).rowstr = mat.rowstr)
    (it : Nat) (hit : 1 ≤ it) (u : Nat) (hu : u < numtasks) :
    ((runProg sched
        (loopProg (fun _ => mainIteration SHIFT csqrt (mainGlobals NA numtasks)) 1 it) g).node
          u).zeta
        = ((specOuter mat (NA + 1) (NA + 1 - 1) SHIFT csqrt)^[it]
            { x := g.glob.x, z := g.glob.z, r := g.glob.r, p := g.glob.p, zeta := 0 }).zeta ∧
      ((runProg sched
        (loopProg (fun _ => mainIteration SHIFT csqrt (mainGlobals NA numtasks)) 1 it) g).node
          u).zeta
        = ((runProg (fun _ => [0])
            (loopProg (fun _ => mainIteration SHIFT csqrt (mainGlobals NA 1)) 1 it) g).node
              0).zeta := by
  have h1 := outer_zeta SHIFT csqrt (mainGlobals NA numtasks) hn rfl sched hs mat g hmat it hit
    u hu
  have h2 := outer_zeta SHIFT csqrt (mainGlobals NA 1) (le_refl 1) rfl (fun _ => [0])
    (fun _ => List.Perm.refl _) mat g
    (fun v hv => by
      have hv0 : v = 0 := by
        have : v < 1 := hv
        omega
      subst hv0
      exact hmat 0 (by omega))
    it hit 0 Nat.zero_lt_one
  exact ⟨h1, h1.trans h2.symm⟩

theorem zeta_independent_of_partition_witness :
    ((runProg (fun _ => [2, 0, 3, 1])
        (loopProg (fun _ => mainIteration 10 demoSqrt (mainGlobals 3 4)) 1 2) demoWorld).node
          3).zeta
      = ((runProg (fun _ => [0])
          (loopProg (fun _ => mainIteration 10 demoSqrt (mainGlobals 3 1)) 1 2) demoWorld).node
            0).zeta :=
  (zeta_independent_of_partition 10 demoSqrt 3 4 (by decide) (fun _ => [2, 0, 3, 1])
    (fun _ => (by decide : List.Perm [2, 0, 3, 1] (List.range 4))) demoNode demoWorld (fun _ _ => ⟨rfl, rfl, rfl⟩) 2 (by decide) 3
    (by decide)).2

/-! ## Every phase of `conj_grad` keeps to an ownership -/

theorem cgSumRho_confined {K : Type} [Field K] (G : Globals) (size : Nat) (arrs : Fld → Prop) :
    Confined (K := K) (List.range G.numtasks)
      (ownRanges arrs (beg size G.numtasks) (end_ size G.numtasks) (fun _ _ => False))
      (cgSumRho G) :=
  confined_of_reader _ _
    (ownRanges_disjoint arrs size G.numtasks (fun _ _ => False) (fun _ _ _ h => absurd h id))
    (cgSumRho G) (fun f _ => f = Fld.gnorm_temps)
    (fun f j hf u _ ho => by subst hf; exact ho)
    (fun _ _ => rfl)
    (fun u v v2 hn hg => by
      have e : v.glob.gnorm_temps = v2.glob.gnorm_temps :=
        funext (fun j => hg Fld.gnorm_temps j rfl)
      rw [cgSumRho_eq, cgSumRho_eq]
      dsimp only
      rw [hn, e])

theorem cgRnorm_confined {K : Type} [Field K] (csqrt : K → K) (G : Globals) (size : Nat)
    (arrs : Fld → Prop) :
    Confined (K := K) (List.range G.numtasks)
      (ownRanges arrs (beg size G.numtasks) (end_ size G.numtasks) (fun _ _ => False))
      (cgRnorm csqrt G) :=
  confined_of_reader _ _
    (ownRanges_disjoint arrs size G.numtasks (fun _ _ => False) (fun _ _ _ h => absurd h id))
    (cgRnorm csqrt G) (fun f _ => f = Fld.gnorm_temps)
    (fun f j hf u _ ho => by subst hf; exact ho)
    (fun _ _ => rfl)
    (fun u v v2 hn hg => by
      have e : v.glob.gnorm_temps = v2.glob.gnorm_temps :=
        funext (fun j => hg Fld.gnorm_temps j rfl)
      rw [cgRnorm_eq, cgRnorm_eq]
      dsimp only
      rw [hn, e])

/-- The phases of the loop of `conj_grad` followed by more code. -/
theorem mem_phases_loop {K : Type} [Field K] (G : Globals) (rest : List (Instr K))
    (ph : Nat → Worker K → Worker K) (m : Nat) :
    ∀ (lo : Nat) (pending : Nat → Worker K → Worker K),
      ph ∈ phasesFrom pending (loopProg (fun _ => cgIteration G) lo (m + 1) ++ rest) →
      ph = (fun u s => cgStart G u (pending u s)) ∨
        ph ∈ [cgMatVec G, cgDot G, cgAxpy G, cgNorm G,
              fun u s => cgStart G u (cgDirection G u s)] ∨
        ph ∈ phasesFrom (cgDirection G) rest := by
  induction m with
  | zero =>
    intro lo pending h
    rw [phasesFrom_loop_succ] at h
    simp only [List.mem_cons] at h
    rcases h with h | h | h | h | h | h
    · exact Or.inl h
    · exact Or.inr (Or.inl (by simp [h]))
    · exact Or.inr (Or.inl (by simp [h]))
    · exact Or.inr (Or.inl (by simp [h]))
    · exact Or.inr (Or.inl (by simp [h]))
    · exact Or.inr (Or.inr h)
  | succ m ih =>
    intro lo pending h
    rw [phasesFrom_loop_succ] at h
    simp only [List.mem_cons] at h
    rcases h with h | h | h | h | h | h
    · exact Or.inl h
    · exact Or.inr (Or.inl (by simp [h]))
    · exact Or.inr (Or.inl (by simp [h]))
    · exact Or.inr (Or.inl (by simp [h]))
    · exact Or.inr (Or.inl (by simp [h]))
    · rcases ih (lo + 1) (cgDirection G) h with h2 | h2 | h2
      · exact Or.inr (Or.inl (by simp [h2]))
      · exact Or.inr (Or.inl h2)
      · exact Or.inr (Or.inr h2)

/-- C26: the phases of `conj_grad` (the code between two consecutive barriers) are, in any
execution: the initialisation; the first reduction with the head of the first iteration;
the product `q = A*p` alone; `p.q`; the updates of `z` and `r`; `r.r`; the end of an
iteration with the head of the next; the end of the last iteration with the product
`A*z`; the residual; the last reduction.  Each is free of races for an ownership by
ranges: in the phase of a product the vector it reads (`p`, respectively `z`) is owned by
nobody, so its last write lies before the barrier that starts the phase, and `w` is
written by the owner of the row only and read by nobody else, its readers (`cgDot`,
`cgResidual`) being in the phase after the next barrier.  No worker reads an element of
`p`, `z` or `w` that another worker writes in the same phase. -/
theorem conj_grad_barrier_ordering {K : Type} [Field K] (csqrt : K → K) (G : Globals)
    (hrc : G.lastrow + 1 - G.firstrow = G.lastcol + 1 - G.firstcol) :
    (∀ ph, ph ∈ phasesFrom (fun _ s => s) (conj_grad csqrt G) →
        ph ∈ [cgInit G, fun u s => cgStart G u (cgSumRho G u s), cgMatVec G, cgDot G, cgAxpy G,
              cgNorm G, fun u s => cgStart G u (cgDirection G u s),
              fun u s => cgResidualMatVec G u (cgDirection G u s), cgResidual G,
              cgRnorm csqrt G]) ∧
      KeepsTo (K := K) G.numtasks (G.naa + 1) (fun f => f ≠ Fld.x) (fun u j => j = u)
        (cgInit G) ∧
      KeepsTo (K := K) G.numtasks (G.lastcol + 1 - G.firstcol) (fun _ => False)
        (fun _ _ => False) (fun u s => cgStart G u (cgSumRho G u s)) ∧
      KeepsTo (K := K) G.numtasks (G.lastrow + 1 - G.firstrow) (fun f => f = Fld.w)
        (fun _ _ => False) (cgMatVec G) ∧
      KeepsTo (K := K) G.numtasks (G.lastcol + 1 - G.firstcol) (fun f => f = Fld.q ∨ f = Fld.w)
        (fun u j => j = u) (cgDot G) ∧
      KeepsTo (K := K) G.numtasks (G.lastcol + 1 - G.firstcol) (fun f => f = Fld.z ∨ f = Fld.r)
        (fun _ _ => False) (cgAxpy G) ∧
      KeepsTo (K := K) G.numtasks (G.lastcol + 1 - G.firstcol) (fun _ => False)
        (fun u j => j = u) (cgNorm G) ∧
      KeepsTo (K := K) G.numtasks (G.lastcol + 1 - G.firstcol) (fun f => f = Fld.p)
        (fun _ _ => False) (fun u s => cgStart G u (cgDirection G u s)) ∧
      KeepsTo (K := K) G.numtasks (G.lastcol + 1 - G.firstcol) (fun f => f = Fld.p ∨ f = Fld.w)
        (fun _ _ => False) (fun u s => cgResidualMatVec G u (cgDirection G u s)) ∧
      KeepsTo (K := K) G.numtasks (G.lastcol + 1 - G.firstcol) (fun f => f = Fld.r)
        (fun u j => j = u) (cgResidual G) ∧
      KeepsTo (K := K) G.numtasks (G.lastcol + 1 - G.firstcol) (fun _ => False)
        (fun _ _ => False) (cgRnorm csqrt G) := by
  have hno : ∀ (u u2 j : Nat), False → False → u = u2 := fun _ _ _ h => absurd h id
  have hsl : ∀ (u u2 j : Nat), j = u → j = u2 → u = u2 := fun _ _ _ h h2 => h.symm.trans h2
  refine ⟨?_, ⟨ownRanges_disjoint _ _ _ _ hsl, ?_⟩, ⟨ownRanges_disjoint _ _ _ _ hno, ?_⟩,
    ⟨ownRanges_disjoint _ _ _ _ hno, ?_⟩, ⟨ownRanges_disjoint _ _ _ _ hsl, ?_⟩,
    ⟨ownRanges_disjoint _ _ _ _ hno, ?_⟩, ⟨ownRanges_disjoint _ _ _ _ hsl, ?_⟩,
    ⟨ownRanges_disjoint _ _ _ _ hno, ?_⟩, ⟨ownRanges_disjoint _ _ _ _ hno, ?_⟩,
    ⟨ownRanges_disjoint _ _ _ _ hsl, ?_⟩, ⟨ownRanges_disjoint _ _ _ _ hno, ?_⟩⟩
  · intro ph hph
    have e : phasesFrom (fun _ s => s) (conj_grad csqrt G)
        = cgInit G :: phasesFrom (cgSumRho G)
            (loopProg (fun _ => cgIteration G) 1 (24 + 1)
              ++ [Instr.run (cgResidualMatVec G), Instr.barrier, Instr.run (cgResidual G),
                  Instr.barrier, Instr.run (cgRnorm csqrt G)]) := rfl
    rw [e, List.mem_cons] at hph
    rcases hph with h | h
    · simp [h]
    · rcases mem_phases_loop G _ ph 24 1 (cgSumRho G) h with h2 | h2 | h2
      · simp [h2]
      · simp only [List.mem_cons, List.mem_singleton, List.not_mem_nil, or_false] at h2
        rcases h2 with h3 | h3 | h3 | h3 | h3 <;> simp [h3]
      · have e2 : phasesFrom (cgDirection G)
            [Instr.run (cgResidualMatVec G), Instr.barrier, Instr.run (cgResidual G),
              Instr.barrier, Instr.run (cgRnorm csqrt G)]
            = [fun u s => cgResidualMatVec G u (cgDirection G u s), cgResidual G,
                cgRnorm csqrt G] := rfl
        rw [e2] at h2
        simp only [List.mem_cons, List.mem_singleton, List.not_mem_nil, or_false] at h2
        rcases h2 with h3 | h3 | h3 <;> simp [h3]
  · exact cgInit_confined G _ (fun h => h rfl) (by intro h; cases h) (by intro h; cases h)
      (by intro h; cases h) (by intro h; cases h) (by intro h; cases h)
  · exact Confined.comp (cgSumRho_confined G _ _) (cgStart_confined G _ _ _ hno)
  · exact cgMatVec_confined G _ rfl (by intro h; cases h)
  · exact cgDot_confined G _ (Or.inl rfl) (Or.inr rfl) (by rintro (h | h) <;> cases h)
  · exact cgAxpy_confined G _ (Or.inl rfl) (Or.inr rfl) (by rintro (h | h) <;> cases h)
      (by rintro (h | h) <;> cases h)
  · exact cgNorm_confined G _ (fun h => h)
  · exact Confined.comp (cgDirection_confined G _ rfl (by intro h; cases h))
      (cgStart_confined G _ _ _ hno)
  · have hc2 := cgResidualMatVec_confined (K := K) G (fun f => f = Fld.p ∨ f = Fld.w)
      (Or.inr rfl) (by rintro (h | h) <;> cases h)
    rw [hrc] at hc2
    exact Confined.comp (cgDirection_confined G _ (Or.inl rfl) (by rintro (h | h) <;> cases h))
      hc2
  · exact cgResidual_confined G _ rfl (by intro h; cases h) (by intro h; cases h)
  · exact cgRnorm_confined csqrt G _ _

theorem conj_grad_barrier_ordering_witness :
    KeepsTo (K := ℚ) (mainGlobals 3 2).numtasks
        ((mainGlobals 3 2).lastrow + 1 - (mainGlobals 3 2).firstrow) (fun f => f = Fld.w)
        (fun _ _ => False) (cgMatVec (mainGlobals 3 2)) ∧
      KeepsTo (K := ℚ) (mainGlobals 3 2).numtasks
        ((mainGlobals 3 2).lastcol + 1 - (mainGlobals 3 2).firstcol)
        (fun f => f = Fld.p ∨ f = Fld.w) (fun _ _ => False)
        (fun u s => cgResidualMatVec (mainGlobals 3 2) u (cgDirection (mainGlobals 3 2) u s)) :=
  ⟨(conj_grad_barrier_ordering demoSqrt (mainGlobals 3 2) rfl).2.2.2.1,
   (conj_grad_barrier_ordering demoSqrt (mainGlobals 3 2) rfl).2.2.2.2.2.2.2.2.1⟩

/-! ## The writers of the elements of the vectors -/

/-- Code that keeps to an ownership without shared elements has a sole writer for every
element. -/
theorem soleWriter_of_confined {K : Type} (numtasks : Nat) (own : Nat → Fld → Nat → Prop)
    (seg : Nat → Worker K → Worker K) (hd : OwnDisjoint (List.range numtasks) own)
    (hc : Confined (List.range numtasks) own seg) : SoleWriter numtasks seg := by
  intro u u2 hu hu2 hne v v2 f j _ h
  have ho : own u f j := by
    by_contra hn
    exact h.1 (hc.1 u (List.mem_range.mpr hu) v f j hn)
  have ho2 : own u2 f j := by
    by_contra hn
    exact h.2 (hc.1 u2 (List.mem_range.mpr hu2) v2 f j hn)
  exact hd u (List.mem_range.mpr hu) u2 (List.mem_range.mpr hu2) hne f j ⟨ho, ho2⟩

/-- Code that leaves the vectors as they are has no writer at all. -/
theorem soleWriter_of_frame {K : Type} (numtasks : Nat) (seg : Nat → Worker K → Worker K)
    (h : ∀ u (v : Worker K) f j, f ≠ Fld.gnorm_temps →
      (seg u v).glob.get f j = v.glob.get f j) : SoleWriter numtasks seg := by
  intro u u2 _ _ _ v v2 f j hf hh
  exact hh.1 (h u v f j hf)

/-- The loop that sets the start vector writes inside the worker's range of the partition
of `[1, NA+1]`. -/
theorem mainSetX_soleWriter {K : Type} [Field K] (NA : Nat) (G : Globals) :
    SoleWriter (K := K) G.numtasks (mainSetX NA G) := by
  intro u u2 hu hu2 hne v v2 f j hf h
  have key : ∀ (w : Nat) (s : Worker K),
      (mainSetX NA G w s).glob.get f j ≠ s.glob.get f j →
      beg (NA + 1) G.numtasks w ≤ j ∧ j ≤ end_ (NA + 1) G.numtasks w := by
    intro w s hw
    by_contra hn
    apply hw
    rw [mainSetX_eq]
    cases f with
    | gnorm_temps => rfl
    | x =>
      simp only [GlobalMem.get]
      rw [onRange_out (fun _ => (1 : K)) _ hn]
    | z => rfl
    | p => rfl
    | q => rfl
    | r => rfl
    | w => rfl
  exact ranges_disjoint hu hu2 hne ⟨key u v h.1, key u2 v2 h.2⟩

/-- C25, as the code has it: with `NA = 3` on 2 workers, the element `z[2]` is written by
worker 0 in the initialisation of `conj_grad` (its range of the partition of `[1, NA+1]`
is `[1, 2]`; `z[2]` goes from 7 to 0) and by worker 1 in the update of `z` of the first
iteration (its range of the partition of `[1, NA]` is `[2, 3]`; `z[2]` goes from 0 to
`3/13`). -/
theorem vector_element_written_by_two_workers :
    (beg_naa (mainGlobals 3 2) 0 = 1 ∧ end_naa (mainGlobals 3 2) 0 = 2) ∧
      (beg_col (mainGlobals 3 2) 1 = 2 ∧ end_col (mainGlobals 3 2) 1 = 3) ∧
      (demoWorld.glob.z 2 = 7 ∧
        (cgInit (mainGlobals 3 2) 0
          { glob := demoWorld.glob, node := demoWorld.node 0 }).glob.z 2 = 0) ∧
      ((runProg (fun _ => [0, 1]) (cgToDot (mainGlobals 3 2)) demoWorld).glob.z 2 = 0 ∧
        (cgAxpy (mainGlobals 3 2) 1
          { glob := (runProg (fun _ => [0, 1]) (cgToDot (mainGlobals 3 2)) demoWorld).glob,
            node := (runProg (fun _ => [0, 1]) (cgToDot (mainGlobals 3 2)) demoWorld).node 1
          }).glob.z 2 = 3 / 13) := by
  decide!

/-- C25 (amended): for every number of workers, with the globals as `main` sets them, in
each phase of a run (the code between two consecutive barriers) no element of a vector is
written by two workers: this holds for the loop that sets the start vector `x`, for each
of the ten phases of `conj_grad` (initialisation, product, updates, and the others), for
the phase of the norms of a timed iteration and for its normalisation of `x`. -/
theorem sole_writer_in_each_phase {K : Type} [Field K] (SHIFT : K) (csqrt : K → K)
    (NA numtasks : Nat) :
    ∀ seg, seg ∈ [mainSetX NA (mainGlobals NA numtasks), cgInit (mainGlobals NA numtasks),
        fun u s => cgStart (mainGlobals NA numtasks) u (cgSumRho (mainGlobals NA numtasks) u s),
        cgMatVec (mainGlobals NA numtasks), cgDot (mainGlobals NA numtasks),
        cgAxpy (mainGlobals NA numtasks), cgNorm (mainGlobals NA numtasks),
        fun u s =>
          cgStart (mainGlobals NA numtasks) u (cgDirection (mainGlobals NA numtasks) u s),
        fun u s => cgResidualMatVec (mainGlobals NA numtasks) u
          (cgDirection (mainGlobals NA numtasks) u s),
        cgResidual (mainGlobals NA numtasks),
        fun u s => mainNorms (mainGlobals NA numtasks) u
          (cgRnorm csqrt (mainGlobals NA numtasks) u s),
        mainZeta SHIFT csqrt (mainGlobals NA numtasks)] →
      SoleWriter (K := K) numtasks seg := by
  have hno : ∀ (u u2 j : Nat), False → False → u = u2 := fun _ _ _ h => absurd h id
  have hsl : ∀ (u u2 j : Nat), j = u → j = u2 → u = u2 := fun _ _ _ h h2 => h.symm.trans h2
  intro seg hseg
  simp only [List.mem_cons, List.mem_singleton, List.not_mem_nil, or_false] at hseg
  rcases hseg with h | h | h | h | h | h | h | h | h | h | h | h
  · rw [h]
    exact mainSetX_soleWriter NA (mainGlobals NA numtasks)
  · rw [h]
    exact soleWriter_of_confined _ _ _ (ownRanges_disjoint _ _ _ _ hsl)
      (cgInit_confined (mainGlobals NA numtasks) (fun f => f ≠ Fld.x) (fun h => h rfl)
        (by intro h; cases h) (by intro h; cases h) (by intro h; cases h)
        (by intro h; cases h) (by intro h; cases h))
  · rw [h]
    exact soleWriter_of_frame _ _ (fun u v f j _ => rfl)
  · rw [h]
    exact soleWriter_of_confined _ _ _ (ownRanges_disjoint _ _ _ _ hno)
      (cgMatVec_confined (mainGlobals NA numtasks) (fun f => f = Fld.w) rfl
        (by intro h; cases h))
  · rw [h]
    exact soleWriter_of_confined _ _ _ (ownRanges_disjoint _ _ _ _ hsl)
      (cgDot_confined (mainGlobals NA numtasks) (fun f => f = Fld.q ∨ f = Fld.w) (Or.inl rfl)
        (Or.inr rfl) (by rintro (h | h) <;> cases h))
  · rw [h]
    exact soleWriter_of_confined _ _ _ (ownRanges_disjoint _ _ _ _ hno)
      (cgAxpy_confined (mainGlobals NA numtasks) (fun f => f = Fld.z ∨ f = Fld.r) (Or.inl rfl)
        (Or.inr rfl) (by rintro (h | h) <;> cases h) (by rintro (h | h) <;> cases h))
  · rw [h]
    exact soleWriter_of_confined _ _ _ (ownRanges_disjoint _ _ _ _ hsl)
      (cgNorm_confined (mainGlobals NA numtasks) (fun _ => False) (fun h => h))
  · rw [h]
    exact soleWriter_of_confined _ _ _ (ownRanges_disjoint _ _ _ _ hno)
      (Confined.comp
        (cgDirection_confined (mainGlobals NA numtasks) (fun f => f = Fld.p) rfl
          (by intro h; cases h))
        (cgStart_confined (mainGlobals NA numtasks) _ _ _ hno))
  · rw [h]
    exact soleWriter_of_confined _ _ _ (ownRanges_disjoint _ _ _ _ hno)
      (Confined.comp
        (cgDirection_confined (mainGlobals NA numtasks) (fun f => f = Fld.p ∨ f = Fld.w)
          (Or.inl rfl) (by rintro (h | h) <;> cases h))
        (cgResidualMatVec_confined (mainGlobals NA numtasks) (fun f => f = Fld.p ∨ f = Fld.w)
          (Or.inr rfl) (by rintro (h | h) <;> cases h)))
  · rw [h]
    exact soleWriter_of_confined _ _ _ (ownRanges_disjoint _ _ _ _ hsl)
      (cgResidual_confined (mainGlobals NA numtasks) (fun f => f = Fld.r) rfl
        (by intro h; cases h) (by intro h; cases h))
  · rw [h]
    refine soleWriter_of_frame _ _ (fun u v f j hf => ?_)
    dsimp only
    rw [cgRnorm_eq, mainNorms_eq]
    cases f with
    | gnorm_temps => exact absurd rfl hf
    | x => rfl
    | z => rfl
    | p => rfl
    | q => rfl
    | r => rfl
    | w => rfl
  · rw [h]
    exact soleWriter_of_confined _ _ _ (ownRanges_disjoint _ _ _ _ hno)
      (mainZeta_confined SHIFT csqrt (mainGlobals NA numtasks) (fun f => f = Fld.x) rfl
        (by intro h; cases h))

/-- The update of `z` (lines 624-627) with `NA = 3` on 2 workers is one of the phases of
`sole_writer_in_each_phase`: no element of a vector is written by both workers in it. -/
theorem sole_writer_in_each_phase_witness :
    SoleWriter (K := ℚ) 2 (cgAxpy (mainGlobals 3 2)) :=
  sole_writer_in_each_phase (10 : ℚ) raceSqrt 3 2 (cgAxpy (mainGlobals 3 2))
    (List.mem_cons_of_mem _ (List.mem_cons_of_mem _ (List.mem_cons_of_mem _
      (List.mem_cons_of_mem _ (List.mem_cons_of_mem _ (List.mem_cons_self _ _))))))

/-! ## The code between the last barrier of `conj_grad` and the next barrier of `main` -/

/-- C17, as the code has it: a timed iteration is the code up to the barrier of line 690,
then `residualEnd`, then lines 340-368; no barrier separates the last reduction of
`conj_grad` (lines 711-714) from the stores `gnorm_temps[2*workrank] = norm_temp11` of
`main` (lines 335-336).  With 3 workers, the identity matrix, `x = (7, 4, 7)` and
`z = (1, 1, 1)` the sum of the squares of `x - A*z` is 81.  When worker 0 runs the phase
first it gets `rnorm = 9`; when worker 1 runs it first, worker 0 reads in slot 2 the
`norm_temp11 = 4` of worker 1 in place of its residual sum 36 and gets `rnorm = 7`. -/
theorem rnorm_depends_on_schedule :
    (mainIteration 10 raceSqrt (mainGlobals 3 3)
        = (cgPrefix (mainGlobals 3 3) cgitmax
            ++ [Instr.run (cgResidualMatVec (mainGlobals 3 3)), Instr.barrier])
          ++ residualEnd raceSqrt (mainGlobals 3 3)
          ++ [Instr.run (mainZeta 10 raceSqrt (mainGlobals 3 3)), Instr.barrier]) ∧
      (∑ j ∈ Finset.Icc 1 3, (raceWorld.glob.x j - csrApply raceNode raceWorld.glob.z j)
          * (raceWorld.glob.x j - csrApply raceNode raceWorld.glob.z j) = 81 ∧
        raceWorld.glob.w 1 = csrApply raceNode raceWorld.glob.z 1 ∧
        raceWorld.glob.w 2 = csrApply raceNode raceWorld.glob.z 2 ∧
        raceWorld.glob.w 3 = csrApply raceNode raceWorld.glob.z 3) ∧
      ((runProg (fun _ => [0, 1, 2]) (residualEnd raceSqrt (mainGlobals 3 3))
          raceWorld).node 0).rnorm = 9 ∧
      ((runProg (fun _ => [1, 0, 2]) (residualEnd raceSqrt (mainGlobals 3 3))
          raceWorld).node 0).rnorm = 7 := by
  refine ⟨?_, ?_, ?_, ?_⟩
  · unfold mainIteration conj_grad cgPrefix residualEnd
    simp only [List.append_assoc, List.cons_append, List.nil_append]
  · decide!
  · decide!
  · decide!

/-- C19, as the code has it: the untimed iteration ends with `warmTail` (no reduction:
each worker divides by the square root of its own part of `z.z`), the timed iteration
with `iterationTail`.  From the same state at the last barrier of `conj_grad`, with
`z = (12, 3, 4)` on 2 workers (worker 1 owns `[2, 3]`): the timed iteration gives
`x[2] = 3/13` and `x[3] = 4/13` (`z.z = 169`), the untimed one `x[2] = 3/5` and
`x[3] = 4/5` (the part of worker 1 is 25). -/
theorem warmup_normalises_by_local_norm :
    (mainWarmup raceSqrt 3 (mainGlobals 3 2)
        = [Instr.run (mainSetX 3 (mainGlobals 3 2))] ++ cgBody (mainGlobals 3 2)
          ++ [Instr.barrier] ++ warmTail raceSqrt (mainGlobals 3 2)
          ++ [Instr.run (mainSetX 3 (mainGlobals 3 2)), Instr.barrier]) ∧
      (mainIteration 10 raceSqrt (mainGlobals 3 2)
        = cgBody (mainGlobals 3 2) ++ [Instr.barrier]
          ++ iterationTail 10 raceSqrt (mainGlobals 3 2)) ∧
      ((runProg (fun _ => [0, 1]) (iterationTail 10 raceSqrt (mainGlobals 3 2))
          warmWorld).glob.x 2 = 3 / 13 ∧
        (runProg (fun _ => [0, 1]) (iterationTail 10 raceSqrt (mainGlobals 3 2))
          warmWorld).glob.x 3 = 4 / 13) ∧
      ((runProg (fun _ => [0, 1]) (warmTail raceSqrt (mainGlobals 3 2)) warmWorld).glob.x 2
          = 3 / 5 ∧
        (runProg (fun _ => [0, 1]) (warmTail raceSqrt (mainGlobals 3 2)) warmWorld).glob.x 3
          = 4 / 5) := by
  refine ⟨?_, ?_, ?_, ?_⟩
  · unfold mainWarmup conj_grad cgBody warmTail
    simp only [loopProg, List.append_assoc, List.cons_append, List.nil_append]
  · unfold mainIteration conj_grad cgBody iterationTail
    simp only [List.append_assoc, List.cons_append, List.nil_append]
  · decide!
  · decide!

/-- C20, as the code has it: `main` up to the barrier of line 290 ends with `warmupEnd`:
the normalisation of the untimed iteration (ranges of the partition of `[1, NA]`) and the
second initialisation `x[i] = 1.0` (ranges of the partition of `[1, NA+1]`) are in the same
phase.  With `NA = 3` on 2 workers, worker 1 normalises `x[2]` and worker 0 resets it: when
worker 0 runs first the timed loop starts with `x[2] = 3/5`, when worker 1 runs first with
`x[2] = 1`.  For class S (`NA = 1400`) on 3 workers the element is `x[467]`. -/
theorem warmup_reset_depends_on_schedule :
    (mainWarmup raceSqrt 3 (mainGlobals 3 2)
        = [Instr.run (mainSetX 3 (mainGlobals 3 2))] ++ cgBody (mainGlobals 3 2)
          ++ [Instr.barrier] ++ warmupEnd raceSqrt 3 (mainGlobals 3 2)) ∧
      ((beg_col (mainGlobals 3 2) 1 = 2 ∧ end_col (mainGlobals 3 2) 1 = 3) ∧
        (beg (3 + 1) 2 0 = 1 ∧ end_ (3 + 1) 2 0 = 2)) ∧
      ((beg_col (mainGlobals 1400 3) 1 = 467 ∧ end_col (mainGlobals 1400 3) 1 = 932) ∧
        (beg (1400 + 1) 3 0 = 1 ∧ end_ (1400 + 1) 3 0 = 467)) ∧
      (runProg (fun _ => [0, 1]) (warmupEnd raceSqrt 3 (mainGlobals 3 2)) warmWorld).glob.x 2
        = 3 / 5 ∧
      (runProg (fun _ => [1, 0]) (warmupEnd raceSqrt 3 (mainGlobals 3 2)) warmWorld).glob.x 2
        = 1 := by
  refine ⟨?_, ?_, ?_, ?_, ?_⟩
  · unfold mainWarmup conj_grad cgBody warmupEnd
    simp only [loopProg, List.append_assoc, List.cons_append, List.nil_append]
  · decide
  · decide
  · decide!
  · decide!

/-! ## The doubling loop of `sprnvc` (lines 986-993) -/

/-- Once the doubling loop has ended, more fuel does not change its result. -/
theorem nn1Loop_enough (n : Nat) :
    ∀ (fuel nn1 : Nat), 1 ≤ nn1 → n ≤ fuel + 2 * nn1 → ∀ extra,
      nn1Loop (fuel + 1 + extra) n nn1 = nn1Loop (fuel + 1) n nn1 := by
  intro fuel
  induction fuel with
  | zero =>
    intro nn1 h1 h extra
    have e : 0 + 1 + extra = extra + 1 := by omega
    rw [e]
    unfold nn1Loop
    rw [if_neg (by omega), if_neg (by omega)]
  | succ f ih =>
    intro nn1 h1 h extra
    have e : f + 1 + 1 + extra = (f + 1 + extra) + 1 := by omega
    rw [e, nn1Loop, nn1Loop]
    by_cases hc : 2 * nn1 < n
    · rw [if_pos hc, if_pos hc]
      exact ih (2 * nn1) (by omega) (by omega) extra
    · rw [if_neg hc, if_neg hc]

/-- The doubling loop started below `n` from `nn1 >= 1` multiplies `nn1` by a power of two
`2^e`, `e >= 1`, and stops at the first value that is not less than `n`. -/
theorem nn1Loop_power (n : Nat) :
    ∀ (fuel nn1 : Nat), 1 ≤ nn1 → nn1 < n → n ≤ fuel + 2 * nn1 →
      ∃ e, 1 ≤ e ∧ nn1Loop (fuel + 1) n nn1 = nn1 * 2 ^ e ∧ n ≤ nn1 * 2 ^ e ∧
        nn1 * 2 ^ (e - 1) < n := by
  intro fuel
  induction fuel with
  | zero =>
    intro nn1 h1 hlt h
    refine ⟨1, le_refl 1, ?_, ?_, ?_⟩
    · unfold nn1Loop
      rw [if_neg (by omega)]
      omega
    · omega
    · simpa using hlt
  | succ f ih =>
    intro nn1 h1 hlt h
    rw [nn1Loop]
    by_cases hc : 2 * nn1 < n
    · rw [if_pos hc]
      obtain ⟨e, he, h2, h3, h4⟩ := ih (2 * nn1) (by omega) hc (by omega)
      refine ⟨e + 1, by omega, ?_, ?_, ?_⟩
      · rw [h2, pow_succ]; ring
      · rw [pow_succ]
        calc n ≤ 2 * nn1 * 2 ^ e := h3
          _ = nn1 * (2 ^ e * 2) := by ring
      · have e1 : e + 1 - 1 = (e - 1) + 1 := by omega
        rw [e1, pow_succ]
        calc nn1 * (2 ^ (e - 1) * 2) = 2 * nn1 * 2 ^ (e - 1) := by ring
          _ < n := h4
    · rw [if_neg hc]
      refine ⟨1, le_refl 1, by omega, by omega, by simpa using hlt⟩

/-- For `n >= 2` the value `nn1` of `sprnvc` is the smallest power of two that is not
less than `n`: it is `2^e` with `2^(e-1) < n <= 2^e`. -/
theorem nn1_smallest_power_from_two (n : Nat) (hn : 2 ≤ n) :
    ∃ e, 1 ≤ e ∧ nn1Loop (n + 1) n 1 = 2 ^ e ∧ n ≤ 2 ^ e ∧ 2 ^ (e - 1) < n := by
  obtain ⟨e, he, h1, h2, h3⟩ := nn1Loop_power n n 1 (le_refl 1) (by omega) (by omega)
  exact ⟨e, he, by simpa using h1, by simpa using h2, by simpa using h3⟩

/-- C31, as the code has it: for `n = 1` the loop `nn1 = 1; do nn1 = 2*nn1 while (nn1 < n)`
runs its body once and gives `nn1 = 2` (with any fuel), whereas the smallest power of two
that is not less than 1 is `2^0 = 1`: the value of the loop is a power of two not less than
`n`, but not the smallest one. -/
theorem nn1_of_one_is_two :
    (∀ fuel, nn1Loop (fuel + 1) 1 1 = 2) ∧ nn1Loop (1 + 1) 1 1 = 2 ^ 1 ∧
      (1 ≤ 2 ^ 0 ∧ 2 ^ 0 < nn1Loop (1 + 1) 1 1) := by
  refine ⟨fun fuel => ?_, by decide, by decide, by decide⟩
  unfold nn1Loop
  rw [if_neg (by omega)]

/-! ## The capacity `NZ` for the classes of `main` -/

/-- C38, as the code has it: for the classes S, W, A, B, C and D of the table of `main`
the macro `NZ` evaluated on `int` operands has its mathematical value; for the classes E
and F the product `NA*(NONZER+1)*(NONZER+1)` overflows: the mathematical values
6813000000 and 57078000000 are above `2^31 - 1 = 2147483647`. -/
theorem nz_int_overflow_for_classes_E_F :
    ((selectClass 1400 7 15 10 0).class_npb = 'S' ∧ NZ32 1400 7 = some (NZ 1400 7) ∧
      (selectClass 7000 8 15 12 0).class_npb = 'W' ∧ NZ32 7000 8 = some (NZ 7000 8) ∧
      (selectClass 14000 11 15 20 0).class_npb = 'A' ∧ NZ32 14000 11 = some (NZ 14000 11) ∧
      (selectClass 75000 13 75 60 0).class_npb = 'B' ∧ NZ32 75000 13 = some (NZ 75000 13) ∧
      (selectClass 150000 15 75 110 0).class_npb = 'C' ∧
        NZ32 150000 15 = some (NZ 150000 15) ∧
      (selectClass 1500000 21 100 500 0).class_npb = 'D' ∧
        NZ32 1500000 21 = some (NZ 1500000 21)) ∧
    ((selectClass 9000000 26 100 1500 0).class_npb = 'E' ∧ NZ 9000000 26 = 6813000000 ∧
      (2 : Int) ^ 31 - 1 < 9000000 * (26 + 1) * (26 + 1) ∧ NZ32 9000000 26 = none) ∧
    ((selectClass 54000000 31 100 5000 0).class_npb = 'F' ∧ NZ 54000000 31 = 57078000000 ∧
      (2 : Int) ^ 31 - 1 < 54000000 * (31 + 1) * (31 + 1) ∧ NZ32 54000000 31 = none) := by
  decide!

/-! ## The capacity `NZ` is enough for `makea` -/

/-- A loop whose iterations each add at most `c` to a counter, and can end the run only
when the counter would pass `nz`, does not end the run by `exit(1)` when `cnt * c` more
fit below `nz`; the counter then grows by at most `cnt * c`. -/
theorem forUpRun_budget {σ : Type} (size : σ → Nat) (I : σ → Prop) (body : Nat → σ → Run σ)
    (nz c : Nat)
    (hstep : ∀ i s, I s → size s + c ≤ nz →
      body i s ≠ Run.exited ∧ ∀ s2, body i s = Run.ok s2 → I s2 ∧ size s2 ≤ size s + c)
    (lo cnt : Nat) (s : σ) (h0 : I s) (hb : size s + cnt * c ≤ nz) :
    forUpRun body lo cnt s ≠ Run.exited ∧
      ∀ s2, forUpRun body lo cnt s = Run.ok s2 → I s2 ∧ size s2 ≤ size s + cnt * c := by
  induction cnt with
  | zero =>
    refine ⟨(fun h => by cases h), fun s2 h => ?_⟩
    cases h
    exact ⟨h0, by omega⟩
  | succ m ih =>
    have hm : size s + m * c ≤ nz := by
      have : (m + 1) * c = m * c + c := Nat.succ_mul m c
      omega
    obtain ⟨ih1, ih2⟩ := ih hm
    have e : forUpRun body lo (m + 1) s = (forUpRun body lo m s).bind (body (lo + m)) := by
      unfold forUpRun
      rw [forUp_succ_last]
    rw [e]
    have hmul : (m + 1) * c = m * c + c := Nat.succ_mul m c
    cases hr : forUpRun body lo m s with
    | ok mid =>
      obtain ⟨hI, hsz⟩ := ih2 mid hr
      obtain ⟨b1, b2⟩ := hstep (lo + m) mid hI (by omega)
      refine ⟨b1, fun s2 h2 => ?_⟩
      obtain ⟨hI2, hsz2⟩ := b2 s2 h2
      exact ⟨hI2, by omega⟩
    | exited => exact absurd hr ih1
    | outOfFuel =>
      refine ⟨(fun h => by cases h), fun s2 h => by cases h⟩

theorem makeaInner_budget (nz firstrow lastrow jcol : Nat) (scale : ℚ) (m : Nat) (i : Nat)
    (s : MakeaState) (hI : s.nzv = m) (hb : s.nnza + 1 ≤ nz) :
    makeaInner nz firstrow lastrow jcol scale i s ≠ Run.exited ∧
      ∀ s2, makeaInner nz firstrow lastrow jcol scale i s = Run.ok s2 →
        s2.nzv = m ∧ s2.nnza ≤ s.nnza + 1 := by
  unfold makeaInner
  split
  · rw [if_neg (by omega)]
    refine ⟨(fun h => by cases h), fun s2 h => ?_⟩
    cases h
    exact ⟨hI, le_refl _⟩
  · refine ⟨(fun h => by cases h), fun s2 h => ?_⟩
    cases h
    exact ⟨hI, by omega⟩

theorem makeaColumn_budget (nz firstrow lastrow firstcol lastcol : Nat) (m : Nat) (i : Nat)
    (s : MakeaState) (hI : s.nzv = m) (hb : s.nnza + m ≤ nz) :
    makeaColumn nz firstrow lastrow firstcol lastcol i s ≠ Run.exited ∧
      ∀ s2, makeaColumn nz firstrow lastrow firstcol lastcol i s = Run.ok s2 →
        s2.nzv = m ∧ s2.nnza ≤ s.nnza + m := by
  unfold makeaColumn
  split
  · have h := forUpRun_budget MakeaState.nnza (fun t => t.nzv = m)
      (makeaInner nz firstrow lastrow (s.iv i) (s.size * s.v i)) nz 1
      (fun k t hIt hbt => makeaInner_budget nz firstrow lastrow _ _ m k t hIt hbt)
      1 s.nzv s hI (by rw [hI]; omega)
    rw [hI] at h ⊢
    simpa using h
  · refine ⟨(fun h => by cases h), fun s2 h => ?_⟩
    cases h
    exact ⟨hI, by omega⟩

theorem vecset_nzv_le (v : Nat → ℚ) (iv : Nat → Nat) (nzv i : Nat) (val : ℚ) :
    (vecset v iv nzv i val).nzv ≤ nzv + 1 := by
  by_cases h : ∃ k, 1 ≤ k ∧ k ≤ nzv ∧ iv k = i
  · rw [(vecset_present v iv nzv i val h).2.1]
    omega
  · rw [(vecset_absent v iv nzv i val h).2.1]

theorem makeaOuter_budget (fuel : Nat) (rand : Nat → ℚ) (ratio : ℚ)
    (n nz nonzer firstrow lastrow firstcol lastcol : Nat) (iouter : Nat) (s : MakeaState)
    (hb : s.nnza + (nonzer + 1) * (nonzer + 1) ≤ nz) :
    makeaOuter fuel rand ratio n nz nonzer firstrow lastrow firstcol lastcol iouter s
        ≠ Run.exited ∧
      ∀ s2, makeaOuter fuel rand ratio n nz nonzer firstrow lastrow firstcol lastcol iouter s
          = Run.ok s2 → True ∧ s2.nnza ≤ s.nnza + (nonzer + 1) * (nonzer + 1) := by
  unfold makeaOuter
  split
  · exact ⟨(fun h => by cases h), fun s2 h => by cases h⟩
  · rename_i g hg
    have hv := vecset_nzv_le g.v g.iv nonzer iouter (1 / 2)
    have hmm : (vecset g.v g.iv nonzer iouter (1 / 2)).nzv
        * (vecset g.v g.iv nonzer iouter (1 / 2)).nzv ≤ (nonzer + 1) * (nonzer + 1) :=
      Nat.mul_le_mul hv hv
    have h := forUpRun_budget MakeaState.nnza
      (fun t => t.nzv = (vecset g.v g.iv nonzer iouter (1 / 2)).nzv)
      (makeaColumn nz firstrow lastrow firstcol lastcol) nz
      (vecset g.v g.iv nonzer iouter (1 / 2)).nzv
      (fun k t hIt hbt => makeaColumn_budget nz firstrow lastrow firstcol lastcol _ k t hIt hbt)
      1 (vecset g.v g.iv nonzer iouter (1 / 2)).nzv
      { s with v := (vecset g.v g.iv nonzer iouter (1 / 2)).v,
               iv := (vecset g.v g.iv nonzer iouter (1 / 2)).iv,
               nzv := (vecset g.v g.iv nonzer iouter (1 / 2)).nzv,
               colidx := fun k => if k ≤ n then g.nzloc k else g.mark (k - n),
               pos := g.pos } rfl (by show s.nnza + _ ≤ nz; omega)
    obtain ⟨h1, h2⟩ := h
    cases hr : forUpRun (makeaColumn nz firstrow lastrow firstcol lastcol) 1
        (vecset g.v g.iv nonzer iouter (1 / 2)).nzv
        { s with v := (vecset g.v g.iv nonzer iouter (1 / 2)).v,
                 iv := (vecset g.v g.iv nonzer iouter (1 / 2)).iv,
                 nzv := (vecset g.v g.iv nonzer iouter (1 / 2)).nzv,
                 colidx := fun k => if k ≤ n then g.nzloc k else g.mark (k - n),
                 pos := g.pos } with
    | ok mid =>
      refine ⟨(fun h => by cases h), fun s2 h3 => ?_⟩
      cases h3
      have := (h2 mid hr).2
      refine ⟨trivial, ?_⟩
      show mid.nnza ≤ _
      have hthis : mid.nnza ≤ s.nnza + (vecset g.v g.iv nonzer iouter (1 / 2)).nzv
          * (vecset g.v g.iv nonzer iouter (1 / 2)).nzv := this
      omega
    | exited => exact absurd hr h1
    | outOfFuel => exact ⟨(fun h => by cases h), fun s2 h => by cases h⟩

theorem makeaDiag_budget (nz firstcol lastcol : Nat) (rcond shift : ℚ) (i : Nat)
    (s : MakeaState) (hb : s.nnza + 1 ≤ nz) :
    makeaDiag nz firstcol lastcol rcond shift i s ≠ Run.exited ∧
      ∀ s2, makeaDiag nz firstcol lastcol rcond shift i s = Run.ok s2 →
        True ∧ s2.nnza ≤ s.nnza + 1 := by
  unfold makeaDiag
  split
  · rw [if_neg (by omega)]
    refine ⟨(fun h => by cases h), fun s2 h => ?_⟩
    cases h
    exact ⟨trivial, le_refl _⟩
  · refine ⟨(fun h => by cases h), fun s2 h => ?_⟩
    cases h
    exact ⟨trivial, by omega⟩

/-- The macro `NZ` for natural numbers. -/
theorem NZ_natCast (n nonzer : Nat) :
    (NZ (n : Int) (nonzer : Int)).toNat
      = n * (nonzer + 1) * (nonzer + 1) + n * (nonzer + 2) := by
  unfold NZ
  have : ((n : Int) * ((nonzer : Int) + 1) * ((nonzer : Int) + 1) + (n : Int) * ((nonzer : Int) + 2))
      = ((n * (nonzer + 1) * (nonzer + 1) + n * (nonzer + 2) : Nat) : Int) := by
    push_cast
    ring
  rw [this, Int.toNat_ofNat]

/-- C37: `makea` called with the capacity `nz = NZ = n*(nonzer+1)*(nonzer+1) + n*(nonzer+2)`
and a row range that fits the matrix (`lastrow - firstrow + 1 <= n`) never takes the
branch `exit(1)`, whatever `n`, `nonzer`, the column range, the random stream and the
memory on entry are (in the model `sprnvc` gives `nonzer` distinct indices whenever it
returns); and when it returns, the count `nnza` of triples is at most
`n*(nonzer+1)^2 + n`, which is at most `nz`. -/
theorem makea_capacity_never_exceeded (fuel : Nat) (rand : Nat → ℚ) (cpow : ℚ → ℚ → ℚ)
    (n nonzer firstrow lastrow firstcol lastcol : Nat) (rcond shift : ℚ) (s : MakeaState)
    (hrows : lastrow + 1 - firstrow ≤ n) :
    makea fuel rand cpow n (NZ (n : Int) (nonzer : Int)).toNat nonzer firstrow lastrow firstcol
        lastcol rcond shift s ≠ Run.exited ∧
      (∀ out, makea fuel rand cpow n (NZ (n : Int) (nonzer : Int)).toNat nonzer firstrow lastrow
          firstcol lastcol rcond shift s = Run.ok out →
        out.nnza ≤ n * (nonzer + 1) ^ 2 + n) ∧
      n * (nonzer + 1) ^ 2 + n ≤ (NZ (n : Int) (nonzer : Int)).toNat := by
  rw [NZ_natCast]
  have hsq : n * (nonzer + 1) ^ 2 = n * ((nonzer + 1) * (nonzer + 1)) := by rw [pow_two]
  have hle : n * (nonzer + 1) ^ 2 + n ≤ n * (nonzer + 1) * (nonzer + 1) + n * (nonzer + 2) := by
    have : n ≤ n * (nonzer + 2) := Nat.le_mul_of_pos_right n (by omega)
    rw [hsq, Nat.mul_assoc]
    omega
  have e0 : (forUp (fun i (s : MakeaState) => { s with colidx := setAt s.colidx (n + i) 0 })
      1 n { s with size := 1, nnza := 0 }).nnza = 0 :=
    forUp_preserve _ MakeaState.nnza (by intro _ _; rfl) _ _ _
  have h1 := forUpRun_budget MakeaState.nnza (fun _ => True)
    (makeaOuter fuel rand (cpow rcond (1 / (n : ℚ))) n
      (n * (nonzer + 1) * (nonzer + 1) + n * (nonzer + 2)) nonzer firstrow lastrow firstcol
      lastcol)
    (n * (nonzer + 1) * (nonzer + 1) + n * (nonzer + 2)) ((nonzer + 1) * (nonzer + 1))
    (fun i t _ hbt => makeaOuter_budget fuel rand _ n _ nonzer firstrow lastrow firstcol
      lastcol i t hbt)
    1 n
    (forUp (fun i (s : MakeaState) => { s with colidx := setAt s.colidx (n + i) 0 })
      1 n { s with size := 1, nnza := 0 }) trivial
    (by rw [e0, Nat.mul_assoc]; omega)
  rw [e0] at h1
  obtain ⟨h1a, h1b⟩ := h1
  have key : makea fuel rand cpow n (n * (nonzer + 1) * (nonzer + 1) + n * (nonzer + 2)) nonzer
        firstrow lastrow firstcol lastcol rcond shift s ≠ Run.exited ∧
      ∀ out, makea fuel rand cpow n (n * (nonzer + 1) * (nonzer + 1) + n * (nonzer + 2)) nonzer
          firstrow lastrow firstcol lastcol rcond shift s = Run.ok out →
        out.nnza ≤ n * (nonzer + 1) ^ 2 + n := by
    unfold makea
    cases hr : forUpRun
        (makeaOuter fuel rand (cpow rcond (1 / (n : ℚ))) n
          (n * (nonzer + 1) * (nonzer + 1) + n * (nonzer + 2)) nonzer firstrow lastrow firstcol
          lastcol) 1 n
        (forUp (fun i (s : MakeaState) => { s with colidx := setAt s.colidx (n + i) 0 })
          1 n { s with size := 1, nnza := 0 }) with
    | ok s1 =>
      have hs1 : s1.nnza ≤ n * ((nonzer + 1) * (nonzer + 1)) := by
        have := (h1b s1 hr).2
        omega
      have h2 := forUpRun_budget MakeaState.nnza (fun _ => True)
        (makeaDiag (n * (nonzer + 1) * (nonzer + 1) + n * (nonzer + 2)) firstcol lastcol rcond
          shift)
        (n * (nonzer + 1) * (nonzer + 1) + n * (nonzer + 2)) 1
        (fun i t _ hbt => makeaDiag_budget _ firstcol lastcol rcond shift i t hbt)
        firstrow (lastrow + 1 - firstrow) s1 trivial
        (by
          have : n ≤ n * (nonzer + 2) := Nat.le_mul_of_pos_right n (by omega)
          rw [Nat.mul_assoc]
          omega)
      obtain ⟨h2a, h2b⟩ := h2
      simp only [Run.bind]
      cases hr2 : forUpRun
          (makeaDiag (n * (nonzer + 1) * (nonzer + 1) + n * (nonzer + 2)) firstcol lastcol rcond
            shift) firstrow (lastrow + 1 - firstrow) s1 with
      | ok s2 =>
        refine ⟨(fun h => by cases h), fun out h => ?_⟩
        cases h
        have := (h2b s2 hr2).2
        show s2.nnza ≤ _
        rw [hsq]
        omega
      | exited => exact absurd hr2 h2a
      | outOfFuel => exact ⟨(fun h => by cases h), fun out h => by cases h⟩
    | exited => exact absurd hr h1a
    | outOfFuel => exact ⟨(fun h => by cases h), fun out h => by cases h⟩
  exact ⟨key.1, key.2, hle⟩

/-- The capacity on the example of a 4 x 4 matrix with 2 nonzeros per generated vector. -/
theorem makea_capacity_never_exceeded_witness :
    makea 40 npbStream (fun _ _ => 1 / 2) 4 (NZ ((4 : Nat) : Int) ((2 : Nat) : Int)).toNat 2 1 4 1
        4 (1 / 10) 10 MakeaState.blank ≠ Run.exited ∧
      (∀ out, makea 40 npbStream (fun _ _ => 1 / 2) 4
          (NZ ((4 : Nat) : Int) ((2 : Nat) : Int)).toNat 2 1 4 1 4 (1 / 10) 10 MakeaState.blank
          = Run.ok out →
        out.nnza ≤ 4 * (2 + 1) ^ 2 + 4) ∧
      4 * (2 + 1) ^ 2 + 4 ≤ (NZ ((4 : Nat) : Int) ((2 : Nat) : Int)).toNat :=
  makea_capacity_never_exceeded 40 npbStream (fun _ _ => 1 / 2) 4 2 1 4 1 4 (1 / 10) 10
    MakeaState.blank (by decide)

/-! ## The accesses of the products `A*p` and `A*z` are in bounds -/

/-- One more triple moves the start of a row by one when the row of the triple is below
it, and not at all otherwise. -/
theorem startOf_triple {α : Type} (arow acol : Nat → Nat) (aelt : Nat → α) (firstrow m : Nat) :
    ∀ j, startOf arow acol aelt firstrow (m + 1) j
      = startOf arow acol aelt firstrow m j
        + (if arow (m + 1) + 1 - firstrow < j then 1 else 0) := by
  intro j
  induction j with
  | zero => simp [startOf]
  | succ j ih =>
    rw [startOf_succ, startOf_succ, ih, rowEntries_length_succ]
    by_cases h1 : arow (m + 1) + 1 - firstrow < j
    · rw [if_pos h1, if_neg (by omega), if_pos (by omega)]
      omega
    · rw [if_neg h1]
      by_cases h2 : arow (m + 1) + 1 - firstrow = j
      · rw [if_pos h2, if_pos (by omega)]
        omega
      · rw [if_neg h2, if_neg (by omega)]
        omega

/-- The rows of `nnza` triples start at positions up to `nnza + 1`. -/
theorem startOf_le {α : Type} (arow acol : Nat → Nat) (aelt : Nat → α) (firstrow nnza j : Nat) :
    startOf arow acol aelt firstrow nnza j ≤ nnza + 1 := by
  induction nnza with
  | zero =>
    induction j with
    | zero => simp [startOf]
    | succ j ih =>
      rw [startOf_succ]
      simp only [rowEntries, List.length_nil]
      omega
  | succ m ih =>
    rw [startOf_triple]
    split <;> omega

/-- The arrays `rowstr` and `colidx` that `makea` returns for the column range `[1, n]`:
`rowstr[1] = 1`, `rowstr` does not decrease over the rows, its last element is at most
`nz + 1`, and the column indices stored below it are in `[1, n]`. -/
theorem makea_csr_bounds (fuel : Nat) (rand : Nat → ℚ) (cpow : ℚ → ℚ → ℚ)
    (n nz nonzer firstrow lastrow : Nat) (rcond shift : ℚ) (s out : MakeaState)
    (hrows : lastrow + 1 - firstrow ≤ n)
    (h : makea fuel rand cpow n nz nonzer firstrow lastrow 1 n rcond shift s = Run.ok out) :
    out.rowstr 1 = 1 ∧
      (∀ i, 1 ≤ i → i ≤ lastrow + 1 - firstrow → out.rowstr i ≤ out.rowstr (i + 1)) ∧
      out.rowstr (lastrow + 1 - firstrow + 1) ≤ nz + 1 ∧
      (∀ k, out.rowstr 1 ≤ k → k < out.rowstr (lastrow + 1 - firstrow + 1) →
        1 ≤ out.colidx k ∧ out.colidx k ≤ n) := by
  obtain ⟨s2, hin, hc, hr, _, hnn, _⟩ := makea_ok _ _ _ _ _ _ _ _ _ _ _ _ _ _ h
  have hcap := (makea_within _ _ _ _ _ _ _ _ _ _ _ _ _ _ h).1
  obtain ⟨u1, u2, u3, _⟩ := sparse_unconditional n s2.arow s2.acol s2.aelt firstrow lastrow
    s2.nnza
    { a := s2.a, colidx := s2.colidx, rowstr := s2.rowstr, x := s2.v,
      mark := fun i => decide (s2.iv i ≠ 0), nzloc := fun i => s2.iv (n + i),
      nza := 0, nzrow := 0, jajp1 := 0 }
  obtain ⟨e1, _, hrowEq, _⟩ := sparse_spec n s2.arow s2.acol s2.aelt firstrow lastrow s2.nnza
    { a := s2.a, colidx := s2.colidx, rowstr := s2.rowstr, x := s2.v,
      mark := fun i => decide (s2.iv i ≠ 0), nzloc := fun i => s2.iv (n + i),
      nza := 0, nzrow := 0, jajp1 := 0 }
    (fun t h1 h2 => (hin t h1 h2).1) (fun t h1 h2 => (hin t h1 h2).2) hrows
  have hr1 : ∀ i, out.rowstr i = (sparse n s2.arow s2.acol s2.aelt firstrow lastrow s2.nnza
      { a := s2.a, colidx := s2.colidx, rowstr := s2.rowstr, x := s2.v,
        mark := fun i => decide (s2.iv i ≠ 0), nzloc := fun i => s2.iv (n + i),
        nza := 0, nzrow := 0, jajp1 := 0 }).rowstr i := fun i => by rw [hr]; rfl
  have hc1 : ∀ k, out.colidx k = (sparse n s2.arow s2.acol s2.aelt firstrow lastrow s2.nnza
      { a := s2.a, colidx := s2.colidx, rowstr := s2.rowstr, x := s2.v,
        mark := fun i => decide (s2.iv i ≠ 0), nzloc := fun i => s2.iv (n + i),
        nza := 0, nzrow := 0, jajp1 := 0 }).colidx k := fun k => by rw [hc]; rfl
  refine ⟨by rw [hr1]; exact u1, fun i h1 h2 => by rw [hr1, hr1]; exact u3 i h1 h2, ?_, ?_⟩
  · rw [hr1, u2, e1]
    have a1 := newStart_le_startOf s2.arow s2.acol s2.aelt firstrow s2.nnza
      (lastrow + 1 - firstrow + 1)
    have a2 := startOf_le s2.arow s2.acol s2.aelt firstrow s2.nnza (lastrow + 1 - firstrow + 1)
    omega
  · intro k hk1 hk2
    rw [hr1] at hk1 hk2
    rw [hc1]
    generalize (sparse n s2.arow s2.acol s2.aelt firstrow lastrow s2.nnza
      { a := s2.a, colidx := s2.colidx, rowstr := s2.rowstr, x := s2.v,
        mark := fun i => decide (s2.iv i ≠ 0), nzloc := fun i => s2.iv (n + i),
        nza := 0, nzrow := 0, jajp1 := 0 }) = sp at hrowEq hk1 hk2 ⊢
    obtain ⟨j, hj1, hj2, hj3, hj4⟩ := exists_row_of_pos sp.rowstr _ k hk1 hk2
    have hmem : (sp.colidx k, sp.a k) ∈ csrRow sp j := by
      unfold csrRow
      rw [mem_seg]
      exact ⟨k, hj3, by omega, rfl⟩
    rw [hrowEq j hj1 hj2] at hmem
    have hcm := coalesceRow_col_mem _ _ _ hmem
    rw [List.mem_map] at hcm
    obtain ⟨e, he, hfst⟩ := hcm
    obtain ⟨t, ht1, ht2, _, ht4⟩ := rowEntries_mem _ _ _ _ _ _ _ he
    rw [← hfst, ht4]
    exact (hin t ht1 ht2).2

/-- A sequence that does not decrease from one index to the next does not decrease. -/
theorem le_of_steps (f : Nat → Nat) (m : Nat) (h : ∀ i, 1 ≤ i → i ≤ m → f i ≤ f (i + 1))
    {a b : Nat} (ha : 1 ≤ a) (hab : a ≤ b) (hb : b ≤ m + 1) : f a ≤ f b := by
  induction b with
  | zero => omega
  | succ c ih =>
    by_cases hc : a = c + 1
    · rw [hc]
    · exact le_trans (ih (by omega) (by omega)) (h c (by omega) (by omega))

/-- C39: for the arrays `makea` returns when called as `main` calls it (`n = NA`, capacity
`NZ`, rows and columns `[1, NA]`), after the shift of `colidx` of lines 207-211, on every
worker of `numtasks >= 1`: for every row `j` of `[beg_row, end_row]` and every `k` with
`rowstr[j] <= k < rowstr[j+1]`, `1 <= j` and `j + 1 <= NA + 1`, `1 <= k <= NZ`, and
`1 <= colidx[k] <= NA`; so the indices are below the lengths of the arrays: `NZ + 1` for `a`
and `colidx`, `NA + 2` for `rowstr`, `NA + 3` for `p`, `z` and `w`. -/
theorem matvec_accesses_in_bounds (fuel : Nat) (rand : Nat → ℚ) (cpow : ℚ → ℚ → ℚ)
    (NA nonzer : Nat) (rcond shift : ℚ) (s out : MakeaState) (numtasks workrank j k : Nat)
    (h : makea fuel rand cpow NA (NZ (NA : Int) (nonzer : Int)).toNat nonzer 1 NA 1 NA rcond
      shift s = Run.ok out)
    (hw : workrank < numtasks)
    (hj : beg_row (mainGlobals NA numtasks) workrank ≤ j ∧
      j ≤ end_row (mainGlobals NA numtasks) workrank)
    (hk : out.rowstr j ≤ k ∧ k < out.rowstr (j + 1)) :
    (1 ≤ j ∧ j + 1 ≤ NA + 1) ∧
      (1 ≤ k ∧ k ≤ (NZ (NA : Int) (nonzer : Int)).toNat) ∧
      (1 ≤ shiftColidx 1 NA 1 out.rowstr out.colidx k ∧
        shiftColidx 1 NA 1 out.rowstr out.colidx k ≤ NA) ∧
      (k < (NZ (NA : Int) (nonzer : Int)).toNat + 1 ∧ j + 1 < NA + 1 + 1 ∧
        shiftColidx 1 NA 1 out.rowstr out.colidx k < NA + 2 + 1 ∧ j < NA + 2 + 1) := by
  obtain ⟨b1, b2, b3, b4⟩ := makea_csr_bounds fuel rand cpow NA _ nonzer 1 NA rcond shift s out
    (by omega) h
  have hj1 : 1 ≤ j := by
    have : 1 ≤ beg_row (mainGlobals NA numtasks) workrank := by
      unfold beg_row beg
      omega
    omega
  have hj2 : j ≤ NA := by
    have : end_row (mainGlobals NA numtasks) workrank ≤ NA + 1 - 1 := end_le_size hw
    omega
  have e : NA + 1 - 1 = NA := by omega
  rw [e] at b2 b3 b4
  have m1 : out.rowstr 1 ≤ out.rowstr j := le_of_steps out.rowstr NA b2 (le_refl 1) hj1 (by omega)
  have m2 : out.rowstr (j + 1) ≤ out.rowstr (NA + 1) :=
    le_of_steps out.rowstr NA b2 (by omega) (by omega) (le_refl _)
  have hc := b4 k (by omega) (by omega)
  rw [shiftColidx_one]
  refine ⟨⟨hj1, by omega⟩, ⟨by omega, by omega⟩, hc, by omega, by omega, by omega, by omega⟩

/-- The bounds on the example run: worker 1 of 2 owns the rows 3 and 4, and position 7 of
the arrays belongs to row 3. -/
theorem matvec_accesses_in_bounds_witness :
    demoMakeaNZ.isOk = true ∧
      (beg_row (mainGlobals 4 2) 1 ≤ 3 ∧ 3 ≤ end_row (mainGlobals 4 2) 1) ∧
      ((demoMakeaNZ.getD MakeaState.blank).rowstr 3 ≤ 7 ∧
        7 < (demoMakeaNZ.getD MakeaState.blank).rowstr (3 + 1)) ∧
      (1 ≤ 7 ∧ 7 ≤ (NZ ((4 : Nat) : Int) ((2 : Nat) : Int)).toNat) ∧
      (1 ≤ shiftColidx 1 4 1 (demoMakeaNZ.getD MakeaState.blank).rowstr
          (demoMakeaNZ.getD MakeaState.blank).colidx 7 ∧
        shiftColidx 1 4 1 (demoMakeaNZ.getD MakeaState.blank).rowstr
          (demoMakeaNZ.getD MakeaState.blank).colidx 7 ≤ 4) := by
  have hok : demoMakeaNZ.isOk = true := by decide!
  have hj : beg_row (mainGlobals 4 2) 1 ≤ 3 ∧ 3 ≤ end_row (mainGlobals 4 2) 1 := by decide
  have hk : (demoMakeaNZ.getD MakeaState.blank).rowstr 3 ≤ 7 ∧
      7 < (demoMakeaNZ.getD MakeaState.blank).rowstr (3 + 1) := by decide!
  have h := matvec_accesses_in_bounds 40 npbStream (fun _ _ => 1 / 2) 4 2 (1 / 10) 10
    MakeaState.blank (demoMakeaNZ.getD MakeaState.blank) 2 1 3 7
    (Run.eq_ok_of_isOk demoMakeaNZ MakeaState.blank hok) (by decide) hj hk
  exact ⟨hok, hj, hk, h.2.1, h.2.2.1⟩

/-! ## When `sprnvc` returns -/

/-- The rejection loop returns exactly when, after some number `t <= fuel` of attempts,
the test `nzv < nz` fails for the first time; it returns the state after these attempts. -/
theorem sprnvcLoop_iff (n nz nn1 : Nat) (rand : Nat → ℚ) :
    ∀ (fuel : Nat) (s out : SprnvcState),
      sprnvcLoop n nz nn1 rand fuel s = some out ↔
        ∃ t, t ≤ fuel ∧ (∀ m, m < t → ((sprnvcStep n nn1 rand)^[m] s).nzv < nz) ∧
          ¬ ((sprnvcStep n nn1 rand)^[t] s).nzv < nz ∧ out = (sprnvcStep n nn1 rand)^[t] s := by
  intro fuel
  induction fuel with
  | zero =>
    intro s out
    unfold sprnvcLoop
    constructor
    · intro h
      by_cases hc : s.nzv < nz
      · rw [if_pos hc] at h
        cases h
      · rw [if_neg hc] at h
        cases h
        exact ⟨0, le_refl _, fun m hm => by omega, hc, rfl⟩
    · rintro ⟨t, ht, _, h2, h3⟩
      have : t = 0 := by omega
      subst this
      have h2b : ¬ s.nzv < nz := h2
      rw [if_neg h2b, h3]
      rfl
  | succ f ih =>
    intro s out
    rw [sprnvcLoop]
    by_cases hc : s.nzv < nz
    · rw [if_pos hc, ih]
      constructor
      · rintro ⟨t, ht, h1, h2, h3⟩
        refine ⟨t + 1, by omega, ?_, ?_, ?_⟩
        · intro m hm
          cases m with
          | zero => exact hc
          | succ k =>
            rw [Function.iterate_succ_apply]
            exact h1 k (by omega)
        · rw [Function.iterate_succ_apply]
          exact h2
        · rw [Function.iterate_succ_apply]
          exact h3
      · rintro ⟨t, ht, h1, h2, h3⟩
        cases t with
        | zero => exact absurd hc h2
        | succ k =>
          refine ⟨k, by omega, ?_, ?_, ?_⟩
          · intro m hm
            have := h1 (m + 1) (by omega)
            rw [Function.iterate_succ_apply] at this
            exact this
          · rw [Function.iterate_succ_apply] at h2
            exact h2
          · rw [Function.iterate_succ_apply] at h3
            exact h3
    · rw [if_neg hc]
      constructor
      · intro h
        cases h
        exact ⟨0, Nat.zero_le _, fun m hm => by omega, hc, rfl⟩
      · rintro ⟨t, ht, h1, h2, h3⟩
        cases t with
        | zero =>
          rw [h3]
          rfl
        | succ k => exact absurd (h1 0 (by omega)) hc

/-- One more attempt adds its index to the accepted ones when it lies in `[1, n]`. -/
theorem acceptedDraws_succ (n nn1 : Nat) (rand : Nat → ℚ) (pos m : Nat) :
    acceptedDraws n nn1 rand pos (m + 1)
      = if 1 ≤ drawIndex nn1 rand pos m ∧ drawIndex nn1 rand pos m ≤ (n : Int) then
          insert (drawIndex nn1 rand pos m) (acceptedDraws n nn1 rand pos m)
        else acceptedDraws n nn1 rand pos m := by
  unfold acceptedDraws
  rw [Finset.range_succ, Finset.image_insert, Finset.filter_insert]

theorem acceptedDraws_card_succ_le (n nn1 : Nat) (rand : Nat → ℚ) (pos m : Nat) :
    (acceptedDraws n nn1 rand pos m).card ≤ (acceptedDraws n nn1 rand pos (m + 1)).card ∧
      (acceptedDraws n nn1 rand pos (m + 1)).card ≤ (acceptedDraws n nn1 rand pos m).card + 1 := by
  rw [acceptedDraws_succ]
  split
  · exact ⟨Finset.card_le_card (Finset.subset_insert _ _), Finset.card_insert_le _ _⟩
  · exact ⟨le_refl _, Nat.le_succ _⟩

/-- The state of the rejection loop after `k` attempts, started with `nzv = 0` and marks
that are zero on `[1, n]`: `2k` random values are consumed, `nzv` counts the accepted
indices, and the marks set on `[1, n]` are the accepted indices. -/
theorem sprnvcStep_iterate (n nn1 : Nat) (rand : Nat → ℚ) (hrand : ∀ k, 0 ≤ rand k)
    (s : SprnvcState) (hnzv : s.nzv = 0) (hmark : ∀ c, 1 ≤ c → c ≤ n → s.mark c = 0) :
    ∀ k, ((sprnvcStep n nn1 rand)^[k] s).pos = s.pos + 2 * k ∧
      ((sprnvcStep n nn1 rand)^[k] s).nzv = (acceptedDraws n nn1 rand s.pos k).card ∧
      ∀ c, 1 ≤ c → c ≤ n →
        (((sprnvcStep n nn1 rand)^[k] s).mark c ≠ 0 ↔
          (c : Int) ∈ acceptedDraws n nn1 rand s.pos k) := by
  intro k
  induction k with
  | zero =>
    refine ⟨rfl, ?_, ?_⟩
    · simp [acceptedDraws, hnzv]
    · intro c h1 h2
      simp [acceptedDraws, hmark c h1 h2]
  | succ k ih =>
    obtain ⟨i1, i2, i3⟩ := ih
    rw [Function.iterate_succ_apply']
    generalize (sprnvcStep n nn1 rand)^[k] s = t at i1 i2 i3
    have hd : icnvrt (rand (t.pos + 1)) nn1 + 1 = drawIndex nn1 rand s.pos k := by
      unfold drawIndex
      rw [i1]
    have hpos : 1 ≤ drawIndex nn1 rand s.pos k := by
      unfold drawIndex
      have := icnvrt_nonneg (rand (s.pos + 2 * k + 1)) nn1 (hrand _)
      omega
    rw [acceptedDraws_succ]
    have hstep : sprnvcStep n nn1 rand t
        = if drawIndex nn1 rand s.pos k > (n : Int) then { t with pos := t.pos + 2 }
          else if t.mark (drawIndex nn1 rand s.pos k).toNat = 0 then
            { t with mark := setAt t.mark (drawIndex nn1 rand s.pos k).toNat 1,
                     nzrow := t.nzrow + 1,
                     nzloc := setAt t.nzloc (t.nzrow + 1) (drawIndex nn1 rand s.pos k).toNat,
                     nzv := t.nzv + 1,
                     v := setAt t.v (t.nzv + 1) (rand t.pos),
                     iv := setAt t.iv (t.nzv + 1) (drawIndex nn1 rand s.pos k).toNat,
                     pos := t.pos + 2 }
          else { t with pos := t.pos + 2 } := by
      rw [← hd]
      rfl
    rw [hstep]
    generalize drawIndex nn1 rand s.pos k = d at hpos ⊢
    by_cases h1 : d > (n : Int)
    · rw [if_pos h1, if_neg (show ¬ (1 ≤ d ∧ d ≤ (n : Int)) from fun h => by omega)]
      exact ⟨by show t.pos + 2 = _; omega, i2, i3⟩
    · rw [if_neg h1, if_pos (show 1 ≤ d ∧ d ≤ (n : Int) from ⟨hpos, by omega⟩)]
      have hc0 : 1 ≤ d.toNat ∧ d.toNat ≤ n ∧ ((d.toNat : Nat) : Int) = d := by omega
      by_cases h2 : t.mark d.toNat = 0
      · rw [if_pos h2]
        have hnot : d ∉ acceptedDraws n nn1 rand s.pos k := by
          intro hmem
          have := (i3 d.toNat hc0.1 hc0.2.1).2 (by rw [hc0.2.2]; exact hmem)
          exact this h2
        refine ⟨by show t.pos + 2 = _; omega, ?_, ?_⟩
        · rw [Finset.card_insert_of_not_mem hnot]
          show t.nzv + 1 = _
          omega
        · intro c hc1 hc2
          show setAt t.mark d.toNat 1 c ≠ 0 ↔ _
          rw [Finset.mem_insert, setAt_apply]
          by_cases hcd : c = d.toNat
          · rw [if_pos hcd]
            constructor
            · intro _
              left
              omega
            · intro _
              exact one_ne_zero
          · rw [if_neg hcd, i3 c hc1 hc2]
            constructor
            · intro h
              exact Or.inr h
            · rintro (h | h)
              · omega
              · exact h
      · rw [if_neg h2]
        have hmem : d ∈ acceptedDraws n nn1 rand s.pos k := by
          have := (i3 d.toNat hc0.1 hc0.2.1).1 h2
          rw [hc0.2.2] at this
          exact this
        rw [Finset.insert_eq_of_mem hmem]
        exact ⟨by show t.pos + 2 = _; omega, i2, i3⟩

/-- C32: for `n >= 1`, `nz <= n`, marks that are zero on `[1, n]` on entry and a stream of
random values in `(0, 1)`: `sprnvc` returns (for some bound on the attempts of the model)
if and only if the indices drawn by some number `m` of attempts hold `nz` distinct values
of `[1, n]`; and when it returns, it has made exactly the `t` attempts after which the
count of distinct values of `[1, n]` is `nz` for the first time, and has consumed `2 t`
random values. -/
theorem sprnvc_returns_iff (n nz : Nat) (rand : Nat → ℚ) (s : SprnvcState)
    (_hn : 1 ≤ n) (_hnz : nz ≤ n) (hmark : ∀ c, 1 ≤ c → c ≤ n → s.mark c = 0)
    (hrand : ∀ k, 0 < rand k ∧ rand k < 1) :
    ((∃ fuel out, sprnvc fuel n nz rand s = some out) ↔
        ∃ m, nz ≤ (acceptedDraws n (nn1Loop (n + 1) n 1) rand s.pos m).card) ∧
      ∀ fuel out, sprnvc fuel n nz rand s = some out →
        ∃ t, t ≤ fuel ∧ out.pos = s.pos + 2 * t ∧
          (acceptedDraws n (nn1Loop (n + 1) n 1) rand s.pos t).card = nz ∧
          ∀ m, m < t → (acceptedDraws n (nn1Loop (n + 1) n 1) rand s.pos m).card < nz := by
  have hit := sprnvcStep_iterate n (nn1Loop (n + 1) n 1) rand (fun k => le_of_lt (hrand k).1)
    { s with nzv := 0, nzrow := 0 } rfl hmark
  have hpos0 : ({ s with nzv := 0, nzrow := 0 } : SprnvcState).pos = s.pos := rfl
  rw [hpos0] at hit
  have hB : ∀ fuel out, sprnvc fuel n nz rand s = some out →
      ∃ t, t ≤ fuel ∧ out.pos = s.pos + 2 * t ∧
        (acceptedDraws n (nn1Loop (n + 1) n 1) rand s.pos t).card = nz ∧
        ∀ m, m < t → (acceptedDraws n (nn1Loop (n + 1) n 1) rand s.pos m).card < nz := by
    intro fuel out h
    unfold sprnvc at h
    split at h
    · cases h
    · rename_i s1 hloop
      cases h
      obtain ⟨t, ht, h1, h2, h3⟩ := (sprnvcLoop_iff n nz _ rand fuel _ s1).1 hloop
      refine ⟨t, ht, ?_, ?_, ?_⟩
      · rw [(sprnvcClear_spec s1).2.2.2.2, h3, (hit t).1]
      · rw [(hit t).2.1] at h2
        cases t with
        | zero =>
          have : (acceptedDraws n (nn1Loop (n + 1) n 1) rand s.pos 0).card = 0 := by
            simp [acceptedDraws]
          omega
        | succ k =>
          have hk := h1 k (Nat.lt_succ_self k)
          rw [(hit k).2.1] at hk
          have := (acceptedDraws_card_succ_le n (nn1Loop (n + 1) n 1) rand s.pos k).2
          omega
      · intro m hm
        have := h1 m hm
        rw [(hit m).2.1] at this
        exact this
  refine ⟨⟨?_, ?_⟩, hB⟩
  · rintro ⟨fuel, out, h⟩
    obtain ⟨t, _, _, h3, _⟩ := hB fuel out h
    exact ⟨t, by omega⟩
  · intro hex
    classical
    have hmin : ∀ m, m < Nat.find hex →
        ¬ nz ≤ (acceptedDraws n (nn1Loop (n + 1) n 1) rand s.pos m).card :=
      fun m hm => Nat.find_min hex hm
    have hspec := Nat.find_spec hex
    refine ⟨Nat.find hex, sprnvcClear ((sprnvcStep n (nn1Loop (n + 1) n 1) rand)^[Nat.find hex]
      { s with nzv := 0, nzrow := 0 }), ?_⟩
    have hloop := (sprnvcLoop_iff n nz (nn1Loop (n + 1) n 1) rand (Nat.find hex)
      { s with nzv := 0, nzrow := 0 }
      ((sprnvcStep n (nn1Loop (n + 1) n 1) rand)^[Nat.find hex]
        { s with nzv := 0, nzrow := 0 })).2
      ⟨Nat.find hex, le_refl _,
        fun m hm => by
          rw [(hit m).2.1]
          exact not_le.1 (hmin m hm),
        by
          rw [(hit _).2.1]
          exact not_lt.2 hspec,
        rfl⟩
    unfold sprnvc
    rw [hloop]

/-- The call `nz = 7`, `n = 1400` on the benchmark's random stream. -/
theorem sprnvc_returns_iff_witness :
    ((∃ fuel out, sprnvc fuel 1400 7 npbStream SprnvcState.blank = some out) ↔
        ∃ m, 7 ≤ (acceptedDraws 1400 (nn1Loop (1400 + 1) 1400 1) npbStream
          SprnvcState.blank.pos m).card) ∧
      ∀ fuel out, sprnvc fuel 1400 7 npbStream SprnvcState.blank = some out →
        ∃ t, t ≤ fuel ∧ out.pos = SprnvcState.blank.pos + 2 * t ∧
          (acceptedDraws 1400 (nn1Loop (1400 + 1) 1400 1) npbStream
            SprnvcState.blank.pos t).card = 7 ∧
          ∀ m, m < t → (acceptedDraws 1400 (nn1Loop (1400 + 1) 1400 1) npbStream
            SprnvcState.blank.pos m).card < 7 :=
  sprnvc_returns_iff 1400 7 npbStream SprnvcState.blank (by decide) (by decide)
    (fun _ _ _ => rfl) npbStream_range

/-! ## The residual identity of `conj_grad` -/

/-- The product with the matrix is linear in the update `z + alpha*p` over `[1, N]`, when
the columns stored in the rows of `[1, N]` are in `[1, N]`. -/
theorem csrApply_axpy {K : Type} [Field K] (mat : NodeMem K) (N : Nat) (z p : Nat → K)
    (alpha : K)
    (hcol : ∀ j, 1 ≤ j → j ≤ N → ∀ k, mat.rowstr j ≤ k → k < mat.rowstr (j + 1) →
      1 ≤ mat.colidx k ∧ mat.colidx k ≤ N)
    (j : Nat) (hj : 1 ≤ j ∧ j ≤ N) :
    csrApply mat (onRange 1 N (fun i => z i + alpha * p i) z) j
      = csrApply mat z j + alpha * csrApply mat p j := by
  unfold csrApply
  rw [Finset.mul_sum, ← Finset.sum_add_distrib]
  refine Finset.sum_congr rfl (fun k hk => ?_)
  rw [Finset.mem_Ico] at hk
  rw [onRange_in _ _ (hcol j hj.1 hj.2 k hk.1 hk.2)]
  ring

/-- An iteration of the solver keeps the identity `r = x - A*z` on `[1, N]`. -/
theorem specIteration_residual {K : Type} [Field K] (mat : NodeMem K) (N : Nat) (x : Nat → K)
    (c : CgVecs K)
    (hcol : ∀ j, 1 ≤ j → j ≤ N → ∀ k, mat.rowstr j ≤ k → k < mat.rowstr (j + 1) →
      1 ≤ mat.colidx k ∧ mat.colidx k ≤ N)
    (h : ∀ j, 1 ≤ j → j ≤ N → c.r j = x j - csrApply mat c.z j) :
    ∀ j, 1 ≤ j → j ≤ N →
      (specIteration mat N c).r j = x j - csrApply mat (specIteration mat N c).z j := by
  intro j h1 h2
  unfold specIteration
  dsimp only
  rw [onRange_in _ _ ⟨h1, h2⟩, csrApply_axpy mat N c.z c.p _ hcol j ⟨h1, h2⟩, h j h1 h2]
  ring

/-- The initialisation establishes the identity `r = x - A*z` on `[1, N]`. -/
theorem specInit_residual {K : Type} [Field K] (mat : NodeMem K) (N1 N : Nat) (hN : N ≤ N1)
    (x z r p : Nat → K)
    (hcol : ∀ j, 1 ≤ j → j ≤ N → ∀ k, mat.rowstr j ≤ k → k < mat.rowstr (j + 1) →
      1 ≤ mat.colidx k ∧ mat.colidx k ≤ N) :
    ∀ j, 1 ≤ j → j ≤ N →
      (specInit N1 N x z r p).r j = x j - csrApply mat (specInit N1 N x z r p).z j := by
  intro j h1 h2
  unfold specInit
  dsimp only
  rw [onRange_in _ _ ⟨h1, by omega⟩]
  have e : csrApply mat (onRange 1 N1 (fun _ => 0) z) j = 0 := by
    unfold csrApply
    refine Finset.sum_eq_zero (fun k hk => ?_)
    rw [Finset.mem_Ico] at hk
    have := hcol j h1 h2 k hk.1 hk.2
    rw [onRange_in _ _ ⟨this.1, by omega⟩, mul_zero]
  rw [e, sub_zero]

theorem specIterate_residual {K : Type} [Field K] (mat : NodeMem K) (N1 N : Nat) (hN : N ≤ N1)
    (x z r p : Nat → K)
    (hcol : ∀ j, 1 ≤ j → j ≤ N → ∀ k, mat.rowstr j ≤ k → k < mat.rowstr (j + 1) →
      1 ≤ mat.colidx k ∧ mat.colidx k ≤ N) (m : Nat) :
    ∀ j, 1 ≤ j → j ≤ N →
      ((specIteration mat N)^[m] (specInit N1 N x z r p)).r j
        = x j - csrApply mat ((specIteration mat N)^[m] (specInit N1 N x z r p)).z j := by
  induction m with
  | zero => exact specInit_residual mat N1 N hN x z r p hcol
  | succ m ih =>
    rw [Function.iterate_succ_apply']
    exact specIteration_residual mat N x _ hcol ih

/-- The residual identity in the code: after the initialisation (`m = 0`) and after each
iteration `m` of the loop of `conj_grad`, run by `numtasks >= 1` workers that hold the same
matrix, in any order inside each phase, `r[j] = x[j] - (A*z)[j]` for every `j` of
`[1, N]`. -/
theorem residual_identity_run {K : Type} [Field K] (G : Globals) (hn : 1 ≤ G.numtasks)
    (hrc : G.lastrow + 1 - G.firstrow = G.lastcol + 1 - G.firstcol)
    (hN : G.lastcol + 1 - G.firstcol ≤ G.naa + 1)
    (sched : Nat → List Nat) (hs : ∀ k, (sched k).Perm (List.range G.numtasks))
    (mat : NodeMem K) (g : World K)
    (hmat : ∀ u, u < G.numtasks → (g.node u).a = mat.a ∧ (g.node u).colidx = mat.colidx ∧
      (g.node u).rowstr = mat.rowstr)
    (hcol : ∀ j, 1 ≤ j → j ≤ G.lastcol + 1 - G.firstcol → ∀ k, mat.rowstr j ≤ k →
      k < mat.rowstr (j + 1) → 1 ≤ mat.colidx k ∧ mat.colidx k ≤ G.lastcol + 1 - G.firstcol)
    (m : Nat) :
    (runProg sched (cgPrefix G m) g).glob.x = g.glob.x ∧
      ∀ j, 1 ≤ j → j ≤ G.lastcol + 1 - G.firstcol →
        (runProg sched (cgPrefix G m) g).glob.r j
          = (runProg sched (cgPrefix G m) g).glob.x j
            - csrApply mat (runProg sched (cgPrefix G m) g).glob.z j := by
  cases m with
  | zero =>
    have e : runProg sched (cgPrefix G 0) g
        = runPhase (sched 1) (cgSumRho G) (runPhase (sched 0) (cgInit G) g) := by
      unfold runProg cgPrefix
      rw [exec_eq_runPhases]
      rfl
    rw [e, reader_phase_eq G.numtasks (cgSumRho G) (fun _ _ => rfl) (sched 1) (hs 1),
      init_phase_eq G hn (sched 0) (hs 0) g]
    refine ⟨rfl, ?_⟩
    exact specInit_residual mat (G.naa + 1) _ hN g.glob.x g.glob.z g.glob.r g.glob.p hcol
  | succ m2 =>
    obtain ⟨k2, g2, hg2, hrun⟩ := cg_run G hn hrc sched hs mat [] m2 0 g hmat
    have e : runProg sched (cgPrefix G (m2 + 1)) g = runPhase (sched k2) (cgDirection G) g2 := by
      unfold runProg cgPrefix
      rw [exec_eq_runPhases]
      rw [List.append_nil] at hrun
      rw [hrun]
      rfl
    rw [e]
    obtain ⟨d1, d2, d3, _, _⟩ := iteration_done G hn (sched k2) (hs k2) mat _ _ g2 hg2
    rw [d1, d2, d3, ← Function.iterate_succ_apply' (specIteration mat _)]
    exact ⟨rfl, specIterate_residual mat (G.naa + 1) _ hN g.glob.x g.glob.z g.glob.r g.glob.p
      hcol (m2 + 1)⟩

/-- The value of `rho` after an iteration of the solver is the sum of the squares of its
`r` over `[1, N]`. -/
theorem specIteration_rho {K : Type} [Field K] (mat : NodeMem K) (N : Nat) (c : CgVecs K) :
    (specIteration mat N c).rho
      = ∑ j ∈ Finset.Icc 1 N, (specIteration mat N c).r j * (specIteration mat N c).r j := rfl

/-- When `conj_grad` is run alone, by `numtasks >= 1` workers that hold the same matrix, in
any order inside each phase, the `rnorm` every worker has when the routine returns is the
square root of the `rho` of the last iteration. -/
theorem conj_grad_rnorm_alone {K : Type} [Field K] (csqrt : K → K) (G : Globals)
    (hn : 1 ≤ G.numtasks)
    (hrc : G.lastrow + 1 - G.firstrow = G.lastcol + 1 - G.firstcol)
    (hN : G.lastcol + 1 - G.firstcol ≤ G.naa + 1)
    (sched : Nat → List Nat) (hs : ∀ k, (sched k).Perm (List.range G.numtasks))
    (mat : NodeMem K) (g : World K)
    (hmat : ∀ u, u < G.numtasks → (g.node u).a = mat.a ∧ (g.node u).colidx = mat.colidx ∧
      (g.node u).rowstr = mat.rowstr)
    (hcol : ∀ j, 1 ≤ j → j ≤ G.lastcol + 1 - G.firstcol → ∀ k, mat.rowstr j ≤ k →
      k < mat.rowstr (j + 1) → 1 ≤ mat.colidx k ∧ mat.colidx k ≤ G.lastcol + 1 - G.firstcol)
    (u : Nat) (hu : u < G.numtasks) :
    ((runProg sched (conj_grad csqrt G) g).node u).rnorm
      = csqrt ((runProg sched (conj_grad csqrt G) g).node u).rho := by
  obtain ⟨k2, g2, hg2, hrun⟩ := cg_run G hn hrc sched hs mat
    [Instr.run (cgResidualMatVec G), Instr.barrier, Instr.run (cgResidual G),
      Instr.barrier, Instr.run (cgRnorm csqrt G)] 24 0 g hmat
  have e : runProg sched (conj_grad csqrt G) g
      = runPhase (sched (k2 + 1 + 1)) (cgRnorm csqrt G)
          (runPhase (sched (k2 + 1)) (cgResidual G)
            (runPhase (sched k2) (fun u s => cgResidualMatVec G u (cgDirection G u s)) g2)) := by
    unfold runProg conj_grad
    rw [exec_eq_runPhases]
    have e24 : cgitmax = 24 + 1 := rfl
    rw [e24, hrun]
    rfl
  rw [e]
  obtain ⟨_, _, _, _, t5⟩ := tail_run G hn hrc (sched k2) (sched (k2 + 1)) (hs _) (hs _)
    mat _ _ g2 hg2
  generalize runPhase (sched (k2 + 1)) (cgResidual G)
    (runPhase (sched k2) (fun u s => cgResidualMatVec G u (cgDirection G u s)) g2) = W at t5 ⊢
  rw [reader_phase_eq G.numtasks (cgRnorm csqrt G) (fun _ _ => rfl) (sched (k2 + 1 + 1))
    (hs _) W]
  dsimp only
  rw [onWorkers_in _ _ hu, cgRnorm_eq]
  dsimp only
  rw [(t5 u hu).1]
  have hg := gather_partition (G.lastcol + 1 - G.firstcol) G.numtasks hn W.glob.gnorm_temps
    (fun j => (g.glob.x j - csrApply mat ((specIteration mat (G.lastcol + 1 - G.firstcol))
        ((specIteration mat (G.lastcol + 1 - G.firstcol))^[24]
          (specInit (G.naa + 1) (G.lastcol + 1 - G.firstcol) g.glob.x g.glob.z g.glob.r
            g.glob.p))).z j)
      * (g.glob.x j - csrApply mat ((specIteration mat (G.lastcol + 1 - G.firstcol))
        ((specIteration mat (G.lastcol + 1 - G.firstcol))^[24]
          (specInit (G.naa + 1) (G.lastcol + 1 - G.firstcol) g.glob.x g.glob.z g.glob.r
            g.glob.p))).z j))
    (W.node u).sum u hu (fun i hi => (t5 i hi).2.2.1) (t5 u hu).2.2.2
  rw [hg, specIteration_rho]
  congr 1
  refine Finset.sum_congr rfl (fun j hj => ?_)
  rw [Finset.mem_Icc] at hj
  have hid := specIterate_residual mat (G.naa + 1) _ hN g.glob.x g.glob.z g.glob.r g.glob.p
    hcol 25 j hj.1 hj.2
  rw [Function.iterate_succ_apply'] at hid
  rw [hid]

/-- C36, as the code has it: a timed iteration is the code up to the barrier of line 690,
then `residualEnd`, then lines 340-368, and no barrier separates the last reduction of
`conj_grad` (lines 711-714) from the stores into `gnorm_temps` of `main` (lines 335-336).
On 2 workers, from a state in which `r = x - A*z` and `rho = r.r = 49`: when worker 1
runs the phase first it returns `rnorm = 7`, the square root of `rho`; when worker 0 runs
it first, worker 1 reads in slot 0 the `norm_temp11 = x[1]*z[1] = 144` of worker 0 in place
of its residual sum 49 and returns `rnorm = 12`. -/
theorem rnorm_differs_from_sqrt_rho :
    (mainIteration 10 raceSqrt (mainGlobals 3 2)
        = (cgPrefix (mainGlobals 3 2) cgitmax
            ++ [Instr.run (cgResidualMatVec (mainGlobals 3 2)), Instr.barrier])
          ++ residualEnd raceSqrt (mainGlobals 3 2)
          ++ [Instr.run (mainZeta 10 raceSqrt (mainGlobals 3 2)), Instr.barrier]) ∧
      ((∀ j, 1 ≤ j → j ≤ 3 →
          rhoWorld.glob.r j = rhoWorld.glob.x j - csrApply raceNode rhoWorld.glob.z j ∧
          rhoWorld.glob.w j = csrApply raceNode rhoWorld.glob.z j) ∧
        ∑ j ∈ Finset.Icc 1 3, rhoWorld.glob.r j * rhoWorld.glob.r j = (rhoWorld.node 1).rho) ∧
      (((runProg (fun _ => [1, 0]) (residualEnd raceSqrt (mainGlobals 3 2)) rhoWorld).node 1).rnorm
          = 7 ∧
        raceSqrt ((runProg (fun _ => [1, 0]) (residualEnd raceSqrt (mainGlobals 3 2))
          rhoWorld).node 1).rho = 7) ∧
      (((runProg (fun _ => [0, 1]) (residualEnd raceSqrt (mainGlobals 3 2)) rhoWorld).node 1).rnorm
          = 12 ∧
        raceSqrt ((runProg (fun _ => [0, 1]) (residualEnd raceSqrt (mainGlobals 3 2))
          rhoWorld).node 1).rho = 7) := by
  refine ⟨?_, ⟨?_, ?_⟩, ?_, ?_⟩
  · unfold mainIteration conj_grad cgPrefix residualEnd
    simp only [List.append_assoc, List.cons_append, List.nil_append]
  · intro j h1 h2
    interval_cases j <;> decide!
  · decide!
  · decide!
  · decide!

end CG

namespace FT

open CG

/-! ## `ipow46` computes a power modulo `2^46` -/

/-- The loop of `ipow46` with the generator `x := (a * x) mod 2^46`: started from
`(q, r, n)` with `n >= 1` and enough fuel it ends, in a state `(q2, r2)` with
`q2 * r2 = r * q^n` modulo `2^46`. -/
theorem ipow46Loop_spec :
    ∀ (fuel k q r : Nat), 1 ≤ k → k ≤ fuel + 1 →
      ∃ q2 r2, ipow46Loop (fun x a => (a * x) % 2 ^ 46) fuel q r (k : Int) = some (q2, r2) ∧
        (q2 * r2) % 2 ^ 46 = (r * q ^ k) % 2 ^ 46 := by
  intro fuel
  induction fuel with
  | zero =>
    intro k q r h1 h2
    have hk : k = 1 := by omega
    subst hk
    refine ⟨q, r, ?_, ?_⟩
    · simp [ipow46Loop]
    · rw [pow_one, Nat.mul_comm]
  | succ f ih =>
    intro k q r h1 h2
    rw [ipow46Loop]
    by_cases hk : (k : Int) > 1
    · rw [if_pos hk]
      have hk1 : 1 < k := by exact_mod_cast hk
      have hdiv : Int.tdiv (k : Int) 2 = ((k / 2 : Nat) : Int) := by
        exact (Int.ofNat_tdiv k 2).symm
      rw [hdiv]
      by_cases hev : ((k / 2 : Nat) : Int) * 2 = (k : Int)
      · rw [if_pos hev]
        have hev2 : k / 2 * 2 = k := by exact_mod_cast hev
        obtain ⟨q2, r2, e1, e2⟩ := ih (k / 2) ((q * q) % 2 ^ 46) r (by omega) (by omega)
        refine ⟨q2, r2, e1, ?_⟩
        rw [e2]
        have h : (r * (q * q % 2 ^ 46) ^ (k / 2)) % 2 ^ 46 = (r * (q * q) ^ (k / 2)) % 2 ^ 46 :=
          Nat.ModEq.mul_left r ((Nat.mod_modEq (q * q) (2 ^ 46)).pow (k / 2))
        have h2 : (q * q) ^ (k / 2) = q ^ k := by
          rw [← pow_two, ← pow_mul, Nat.mul_comm, hev2]
        rw [h, h2]
      · rw [if_neg hev]
        have e3 : (k : Int) - 1 = ((k - 1 : Nat) : Int) := by omega
        rw [e3]
        obtain ⟨q2, r2, e1, e2⟩ := ih (k - 1) q ((q * r) % 2 ^ 46) (by omega) (by omega)
        refine ⟨q2, r2, e1, ?_⟩
        rw [e2]
        have h : (q * r % 2 ^ 46 * q ^ (k - 1)) % 2 ^ 46 = (q * r * q ^ (k - 1)) % 2 ^ 46 :=
          Nat.ModEq.mul_right (q ^ (k - 1)) (Nat.mod_modEq (q * r) (2 ^ 46))
        have h2 : q * r * q ^ (k - 1) = r * q ^ k := by
          have e4 : k = (k - 1) + 1 := by omega
          conv_rhs => rw [e4, pow_succ]
          ring
        rw [h, h2]
    · have hk1 : k = 1 := by
        have : ¬ (1 < k) := fun h => hk (by exact_mod_cast h)
        omega
      subst hk1
      rw [if_neg hk]
      exact ⟨q, r, rfl, by rw [pow_one, Nat.mul_comm]⟩

/-- C33: with `randlc(&x, m)` the update `x := (m * x) mod 2^46`, for every multiplier `a`
and every exponent `e >= 0` the routine `ipow46(a, e, &result)` returns (its loop ends
within `e` iterations, whatever fuel is left over) and stores `a^e mod 2^46`; for `e = 0`
this is 1. -/
theorem ipow46_power (a e extra : Nat) :
    ipow46 (fun x m => (m * x) % 2 ^ 46) (e + extra) a (e : Int) = some (a ^ e % 2 ^ 46) ∧
      ipow46 (fun x m => (m * x) % 2 ^ 46) extra a 0 = some 1 := by
  refine ⟨?_, by simp [ipow46]⟩
  unfold ipow46
  by_cases he : (e : Int) = 0
  · have : e = 0 := by exact_mod_cast he
    subst this
    simp
  · rw [if_neg he]
    have : e ≠ 0 := fun h => he (by exact_mod_cast h)
    obtain ⟨q2, r2, e1, e2⟩ := ipow46Loop_spec (e + extra) e a 1 (by omega) (by omega)
    rw [e1]
    simp only [Option.some.injEq]
    rw [e2, one_mul]

/-! ## The index map of `compute_indexmap` -/

theorem fills_setAt {β : Type} (idx : Nat) (v : β) (V : Nat → β) (h : V idx = v) :
    Fills (fun m => setAt m idx v) (fun a => a = idx) V := by
  intro m a
  constructor
  · intro ha
    subst ha
    simp [setAt, h]
  · intro ha
    simp [setAt, ha]

/-- A loop whose iterations fill sets with the same values fills the union of the sets. -/
theorem fills_forUp {β : Type} (body : Nat → (Nat → β) → (Nat → β)) (S : Nat → Nat → Prop)
    (V : Nat → β) (lo cnt : Nat)
    (h : ∀ i, lo ≤ i → i < lo + cnt → Fills (body i) (S i) V) :
    Fills (forUp body lo cnt) (fun a => ∃ i, lo ≤ i ∧ i < lo + cnt ∧ S i a) V := by
  induction cnt with
  | zero =>
    intro m a
    constructor
    · rintro ⟨i, h1, h2, _⟩
      omega
    · intro _
      rfl
  | succ c ih =>
    have ih2 := ih (fun i h1 h2 => h i h1 (by omega))
    intro m a
    rw [forUp_succ_last]
    have hb := h (lo + c) (by omega) (by omega) (forUp body lo c m) a
    constructor
    · rintro ⟨i, h1, h2, h3⟩
      by_cases hS : S (lo + c) a
      · exact hb.1 hS
      · rw [hb.2 hS]
        have hi : i ≠ lo + c := fun e => hS (e ▸ h3)
        exact (ih2 m a).1 ⟨i, h1, by omega, h3⟩
    · intro hn
      have hS : ¬ S (lo + c) a := fun hS => hn ⟨lo + c, by omega, by omega, hS⟩
      rw [hb.2 hS]
      exact (ih2 m a).2 (fun ⟨i, h1, h2, h3⟩ => hn ⟨i, h1, by omega, h3⟩)

theorem Fills.congr {β : Type} {f : (Nat → β) → (Nat → β)} {S T : Nat → Prop} {V : Nat → β}
    (h : Fills f S V) (hST : ∀ a, S a ↔ T a) : Fills f T V := by
  intro m a
  exact ⟨fun ha => (h m a).1 ((hST a).2 ha), fun ha => (h m a).2 (fun hs => ha ((hST a).1 hs))⟩

/-- Workers that fill sets with the same values, run one after the other, fill the union. -/
theorem fills_foldl {β : Type} (f : Nat → (Nat → β) → (Nat → β)) (S : Nat → Nat → Prop)
    (V : Nat → β) (order : List Nat) (h : ∀ u, u ∈ order → Fills (f u) (S u) V) :
    Fills (fun m => order.foldl (fun m u => f u m) m) (fun a => ∃ u, u ∈ order ∧ S u a) V := by
  induction order using List.reverseRecOn with
  | nil =>
    intro m a
    constructor
    · rintro ⟨u, hu, _⟩
      cases hu
    · intro _
      rfl
  | append_singleton l u ih =>
    have ih2 := ih (fun v hv => h v (List.mem_append_left _ hv))
    have hu := h u (List.mem_append_right _ (List.mem_singleton_self u))
    intro m a
    simp only [List.foldl_append, List.foldl_cons, List.foldl_nil]
    have hb := hu (l.foldl (fun m u => f u m) m) a
    constructor
    · rintro ⟨v, hv, hS⟩
      by_cases hSu : S u a
      · exact hb.1 hSu
      · rw [hb.2 hSu]
        rcases List.mem_append.1 hv with hv | hv
        · exact (ih2 m a).1 ⟨v, hv, hS⟩
        · rw [List.mem_singleton] at hv
          exact absurd (hv ▸ hS) hSu
    · intro hn
      have hSu : ¬ S u a := fun hS =>
        hn ⟨u, List.mem_append_right _ (List.mem_singleton_self u), hS⟩
      rw [hb.2 hSu]
      exact (ih2 m a).2 (fun ⟨v, hv, hS⟩ => hn ⟨v, List.mem_append_left _ hv, hS⟩)

/-- The three coordinates of an element are read back from its position `at(k, j, i)`. -/
theorem at_decode (NX NY k j i : Nat) (hi : i < NX) (hj : j < NY) :
    at_ NX NY k j i % NX = i ∧ at_ NX NY k j i / NX % NY = j ∧
      at_ NX NY k j i / NX / NY = k := by
  have hx : 0 < NX := by omega
  have hy : 0 < NY := by omega
  have e : at_ NX NY k j i = i + NX * (j + NY * k) := by
    unfold at_
    ring
  rw [e]
  refine ⟨?_, ?_, ?_⟩
  · rw [Nat.add_mul_mod_self_left, Nat.mod_eq_of_lt hi]
  · rw [Nat.add_mul_div_left _ _ hx, Nat.div_eq_of_lt hi, Nat.zero_add,
      Nat.add_mul_mod_self_left, Nat.mod_eq_of_lt hj]
  · rw [Nat.add_mul_div_left _ _ hx, Nat.div_eq_of_lt hi, Nat.zero_add,
      Nat.add_mul_div_left _ _ hy, Nat.div_eq_of_lt hj, Nat.zero_add]

/-- The folded index for a start of 1: the remainder of `i + N/2` minus `N/2`. -/
theorem foldIndex_one (i N : Nat) :
    foldIndex i 1 N = (((i + N / 2) % N : Nat) : Int) - ((N / 2 : Nat) : Int) := by
  unfold foldIndex
  have e1 : Int.tdiv (N : Int) 2 = ((N / 2 : Nat) : Int) := (Int.ofNat_tdiv N 2).symm
  rw [e1]
  have e2 : (i : Int) + 1 + 1 - 2 + ((N / 2 : Nat) : Int) = ((i + N / 2 : Nat) : Int) := by
    push_cast
    ring
  rw [e2, ← Int.ofNat_tmod]

/-- The folded index of an even dimension: `i` below the middle, `i - n` from the middle on. -/
theorem foldIndex_even (n i : Nat) (hn : n % 2 = 0) (hi : i < n) :
    foldIndex i 1 n = if i < n / 2 then (i : Int) else (i : Int) - (n : Int) := by
  rw [foldIndex_one]
  have h2 : n / 2 + n / 2 = n := by omega
  by_cases h : i < n / 2
  · rw [if_pos h, Nat.mod_eq_of_lt (by omega)]
    push_cast
    ring
  · rw [if_neg h]
    have e : (i + n / 2) % n = i + n / 2 - n := by
      rw [Nat.mod_eq_sub_mod (by omega), Nat.mod_eq_of_lt (by omega)]
    rw [e]
    omega

/-- What one worker's `compute_indexmap` does: it stores `indexValue` at the positions
`at(k, j, i)` of the planes `i` of its part, and leaves the other elements as they are. -/
theorem compute_indexmap_fills (NX NY NZ numtasks u : Nat) (hu : u < numtasks) :
    Fills (compute_indexmap NX NY NZ (setup NX NY NZ) numtasks u)
      (fun a => ∃ i, (CG.beg NX numtasks u ≤ i + 1 ∧ i + 1 ≤ CG.end_ NX numtasks u) ∧
        ∃ j, j < NY ∧ ∃ k, k < NZ ∧ a = at_ NX NY k j i)
      (indexValue NX NY NZ) := by
  have hend : CG.end_ NX numtasks u ≤ NX := CG.end_le_size hu
  have hloop := fills_forUp
    (fun i indexmap =>
      forUp (fun j indexmap =>
        forUp (fun k indexmap =>
          setAt indexmap (at_ NX NY k j i)
            (foldIndex k 1 NZ * foldIndex k 1 NZ
              + (foldIndex j 1 NY * foldIndex j 1 NY + foldIndex i 1 NX * foldIndex i 1 NX)))
          0 NZ indexmap) 0 NY indexmap)
    (fun i a => ∃ j, 0 ≤ j ∧ j < 0 + NY ∧ ∃ k, 0 ≤ k ∧ k < 0 + NZ ∧ a = at_ NX NY k j i)
    (indexValue NX NY NZ) (u * (NX / numtasks))
    ((if u ≠ numtasks - 1 then u * (NX / numtasks) + NX / numtasks else NX)
      - u * (NX / numtasks))
    (by
      intro i h1 h2
      have hi : i < NX := by
        have : i + 1 ≤ CG.end_ NX numtasks u := by
          unfold CG.end_ CG.chunk
          split
          · rw [if_pos (by assumption)] at h2
            omega
          · rw [if_neg (by assumption)] at h2
            omega
        omega
      apply fills_forUp
      intro j _ hj
      apply fills_forUp
      intro k _ hk
      apply fills_setAt
      obtain ⟨d1, d2, d3⟩ := at_decode NX NY k j i hi (by omega)
      unfold indexValue
      rw [d1, d2, d3])
  have hc : compute_indexmap NX NY NZ (setup NX NY NZ) numtasks u
      = forUp (fun i indexmap =>
          forUp (fun j indexmap =>
            forUp (fun k indexmap =>
              setAt indexmap (at_ NX NY k j i)
                (foldIndex k 1 NZ * foldIndex k 1 NZ
                  + (foldIndex j 1 NY * foldIndex j 1 NY
                    + foldIndex i 1 NX * foldIndex i 1 NX)))
              0 NZ indexmap) 0 NY indexmap)
          (u * (NX / numtasks))
          ((if u ≠ numtasks - 1 then u * (NX / numtasks) + NX / numtasks else NX)
            - u * (NX / numtasks)) := by
    funext m
    simp [compute_indexmap, setup]
  rw [hc]
  refine hloop.congr (fun a => ?_)
  constructor
  · rintro ⟨i, h1, h2, j, _, hj, k, _, hk, ha⟩
    refine ⟨i, ?_, j, by omega, k, by omega, ha⟩
    unfold CG.beg CG.end_ CG.chunk
    split
    · rw [if_pos (by assumption)] at h2
      omega
    · rw [if_neg (by assumption)] at h2
      omega
  · rintro ⟨i, ⟨h1, h2⟩, j, hj, k, hk, ha⟩
    refine ⟨i, ?_, ?_, j, Nat.zero_le _, by omega, k, Nat.zero_le _, by omega, ha⟩
    · unfold CG.beg CG.chunk at h1
      omega
    · unfold CG.beg CG.chunk at h1
      unfold CG.end_ CG.chunk at h2
      split
      · rw [if_pos (by assumption)] at h2
        omega
      · rw [if_neg (by assumption)] at h2
        omega

/-- C34: the folded index `((i + n/2) mod n) - n/2` of an even dimension `n` is `i` for
`i < n/2` and `i - n` otherwise (for `n = 8`: 0, 1, 2, 3, -4, -3, -2, -1); and once every
worker of `numtasks >= 1` has run `compute_indexmap` on the layout of `setup`, in any
order, the element of `indexmap` at `at(k, j, i)` is `kk^2 + jj^2 + ii^2` for the folded
indices `ii`, `jj`, `kk` of `i < NX`, `j < NY`, `k < NZ`. -/
theorem indexmap_folded_squares (n x : Nat) (hn : n % 2 = 0) (hx : x < n)
    (NX NY NZ numtasks : Nat) (order : List Nat) (indexmap : Nat → Int) (i j k : Nat)
    (hnum : 1 ≤ numtasks) (horder : ∀ u, u ∈ order ↔ u < numtasks)
    (hi : i < NX) (hj : j < NY) (hk : k < NZ) :
    (foldIndex x 1 n = if x < n / 2 then (x : Int) else (x : Int) - (n : Int)) ∧
      (List.range 8).map (fun y => foldIndex y 1 8) = [0, 1, 2, 3, -4, -3, -2, -1] ∧
      indexmapAll NX NY NZ (setup NX NY NZ) numtasks order indexmap (at_ NX NY k j i)
        = foldIndex k 1 NZ ^ 2 + foldIndex j 1 NY ^ 2 + foldIndex i 1 NX ^ 2 := by
  refine ⟨foldIndex_even n x hn hx, by decide, ?_⟩
  have hall := fills_foldl (fun u => compute_indexmap NX NY NZ (setup NX NY NZ) numtasks u)
    _ (indexValue NX NY NZ) order
    (fun u hu => compute_indexmap_fills NX NY NZ numtasks u ((horder u).1 hu))
  obtain ⟨w, hw, hb, he⟩ := @CG.exists_owner NX numtasks hnum (i + 1) (by omega) (by omega)
  have := (hall indexmap (at_ NX NY k j i)).1
    ⟨w, (horder w).2 hw, i, ⟨hb, he⟩, j, hj, k, hk, rfl⟩
  have this2 : indexmapAll NX NY NZ (setup NX NY NZ) numtasks order indexmap (at_ NX NY k j i)
      = indexValue NX NY NZ (at_ NX NY k j i) := this
  rw [this2]
  obtain ⟨d1, d2, d3⟩ := at_decode NX NY k j i hi hj
  unfold indexValue
  rw [d1, d2, d3]
  ring

/-- The index map of a 2 x 2 x 2 problem on 2 workers, the second one first. -/
theorem indexmap_folded_squares_witness :
    (foldIndex 5 1 8 = if 5 < 8 / 2 then ((5 : Nat) : Int) else ((5 : Nat) : Int) - ((8 : Nat) : Int)) ∧
      (List.range 8).map (fun y => foldIndex y 1 8) = [0, 1, 2, 3, -4, -3, -2, -1] ∧
      indexmapAll 2 2 2 (setup 2 2 2) 2 [1, 0] (fun _ => 0) (at_ 2 2 1 0 1)
        = foldIndex 1 1 2 ^ 2 + foldIndex 0 1 2 ^ 2 + foldIndex 1 1 2 ^ 2 :=
  indexmap_folded_squares 8 5 (by decide) (by decide) 2 2 2 2 [1, 0] (fun _ => 0) 1 0 1
    (by decide) (by intro u; simp; omega) (by decide) (by decide) (by decide)

/-! ## What `verify` reports -/

/-- The loop of a branch of `verify` leaves `verified` true exactly when every checksum
of its range is within the relative error `epsilon` of its reference value, real and
imaginary part. -/
theorem verifyLoop_iff (vr vi : List ℚ) (sums : Nat → dcomplex ℚ) (epsilon : ℚ) :
    ∀ (cnt lo : Nat), verifyLoop vr vi sums epsilon cnt lo true = true ↔
      ∀ i, lo ≤ i → i < lo + cnt →
        |((sums i).real - vr.getD i 0) / vr.getD i 0| ≤ epsilon ∧
        |((sums i).imag - vi.getD i 0) / vi.getD i 0| ≤ epsilon := by
  intro cnt
  induction cnt with
  | zero =>
    intro lo
    simp only [verifyLoop, true_iff]
    intro i h1 h2
    omega
  | succ c ih =>
    intro lo
    rw [verifyLoop]
    by_cases h1 : |((sums lo).real - vr.getD lo 0) / vr.getD lo 0| > epsilon
    · rw [if_pos h1]
      constructor
      · intro h
        cases h
      · intro h
        exact absurd (h lo (le_refl _) (by omega)).1 (not_le.2 h1)
    · rw [if_neg h1]
      by_cases h2 : |((sums lo).imag - vi.getD lo 0) / vi.getD lo 0| > epsilon
      · rw [if_pos h2]
        constructor
        · intro h
          cases h
        · intro h
          exact absurd (h lo (le_refl _) (by omega)).2 (not_le.2 h2)
      · rw [if_neg h2, ih (lo + 1)]
        constructor
        · intro h i hi1 hi2
          by_cases e : i = lo
          · subst e
            exact ⟨not_lt.1 h1, not_lt.1 h2⟩
          · exact h i (by omega) (by omega)
        · intro h i hi1 hi2
          exact h i (by omega) (by omega)

/-- For the sizes of a known class, `verify` reports the class, prints the success
message whatever the checksums are, and sets `*verified` to TRUE exactly when all the
`nt` checksums are within the relative error `1e-12` of the reference values. -/
theorem verify_known (d1 d2 d3 nt : Int) (c : Char) (vr vi : List ℚ)
    (sums : Nat → dcomplex ℚ) (h : ((d1, d2, d3, nt), c, vr, vi) ∈ verifyRows) :
    (verify d1 d2 d3 nt sums).class_npb = c ∧ c ≠ 'U' ∧
      (verify d1 d2 d3 nt sums).printed = "Result verification successful" ∧
      ((verify d1 d2 d3 nt sums).verified = true ↔
        ∀ i, 1 ≤ i → i < 1 + nt.toNat →
          |((sums i).real - vr.getD i 0) / vr.getD i 0| ≤ 1.0e-12 ∧
          |((sums i).imag - vi.getD i 0) / vi.getD i 0| ≤ 1.0e-12) := by
  simp only [verifyRows, List.mem_cons, List.mem_singleton, List.not_mem_nil, or_false,
    Prod.mk.injEq] at h
  rcases h with h | h | h | h | h | h | h | h <;>
    obtain ⟨⟨r1, r2, r3, r4⟩, rc, rr, ri⟩ := h <;>
    subst r1 r2 r3 r4 rc rr ri <;>
    refine ⟨by simp [verify], by decide, by simp [verify, verifyMessage], ?_⟩ <;>
    rw [← verifyLoop_iff] <;>
    simp [verify]

/-- For sizes that are in no branch, `verify` reports class `U`, prints the failure
message, and leaves `*verified` at the TRUE of line 1261. -/
theorem verify_unknown (d1 d2 d3 nt : Int) (sums : Nat → dcomplex ℚ)
    (h : ∀ c vr vi, ((d1, d2, d3, nt), c, vr, vi) ∉ verifyRows) :
    verify d1 d2 d3 nt sums
      = { verified := true, class_npb := 'U', printed := "Result verification failed" } := by
  simp only [verifyRows, List.mem_cons, List.mem_singleton, List.not_mem_nil, or_false,
    Prod.mk.injEq, not_or, not_and] at h
  have h0 := h 'S' vdata_real_s vdata_imag_s
  have h1 := h 'W' vdata_real_w vdata_imag_w
  have h2 := h 'A' vdata_real_a vdata_imag_a
  have h3 := h 'B' vdata_real_b vdata_imag_b
  have h4 := h 'C' vdata_real_c vdata_imag_c
  have h5 := h 'D' vdata_real_d vdata_imag_d
  have h6 := h 'E' vdata_real_e vdata_imag_e
  have h7 := h 'F' vdata_real_f vdata_imag_f
  unfold verify
  dsimp only
  rw [if_neg (fun hc => (h0.1 ⟨hc.1, hc.2.1, hc.2.2.1, hc.2.2.2⟩) rfl rfl rfl),
    if_neg (fun hc => (h1.2.1 ⟨hc.1, hc.2.1, hc.2.2.1, hc.2.2.2⟩) rfl rfl rfl),
    if_neg (fun hc => (h2.2.2.1 ⟨hc.1, hc.2.1, hc.2.2.1, hc.2.2.2⟩) rfl rfl rfl),
    if_neg (fun hc => (h3.2.2.2.1 ⟨hc.1, hc.2.1, hc.2.2.1, hc.2.2.2⟩) rfl rfl rfl),
    if_neg (fun hc => (h4.2.2.2.2.1 ⟨hc.1, hc.2.1, hc.2.2.1, hc.2.2.2⟩) rfl rfl rfl),
    if_neg (fun hc => (h5.2.2.2.2.2.1 ⟨hc.1, hc.2.1, hc.2.2.1, hc.2.2.2⟩) rfl rfl rfl),
    if_neg (fun hc => (h6.2.2.2.2.2.2.1 ⟨hc.1, hc.2.1, hc.2.2.1, hc.2.2.2⟩) rfl rfl rfl),
    if_neg (fun hc => (h7.2.2.2.2.2.2.2 ⟨hc.1, hc.2.1, hc.2.2.1, hc.2.2.2⟩) rfl rfl rfl)]
  rfl

/-- C40, as the code has it: for the size 32 x 32 x 32 with 6 iterations, which is in no
branch of `verify`, the routine reports class `U` and prints the failure message, but
`*verified` keeps the TRUE of line 1261, whatever the checksums are. -/
theorem verify_unknown_size_stays_verified :
    (∀ c vr vi, (((32 : Int), (32 : Int), (32 : Int), (6 : Int)), c, vr, vi) ∉ verifyRows) ∧
      ∀ sums : Nat → dcomplex ℚ,
        verify 32 32 32 6 sums
          = { verified := true, class_npb := 'U', printed := "Result verification failed" } := by
  have h : ∀ c vr vi,
      (((32 : Int), (32 : Int), (32 : Int), (6 : Int)), c, vr, vi) ∉ verifyRows := by
    intro c vr vi hm
    simp [verifyRows] at hm
  exact ⟨h, fun sums => verify_unknown 32 32 32 6 sums h⟩

/-! ## The Stockham FFT computes the discrete Fourier transform -/

/-- A sum over `2 L` indices, by pairs. -/
theorem sum_range_pairs {R : Type} [AddCommMonoid R] (f : Nat → R) (L : Nat) :
    ∑ t ∈ Finset.range (2 * L), f t = ∑ s ∈ Finset.range L, (f (2 * s) + f (2 * s + 1)) := by
  induction L with
  | zero => simp
  | succ L ih =>
    have e : 2 * (L + 1) = 2 * L + 1 + 1 := by ring
    rw [e, Finset.sum_range_succ, Finset.sum_range_succ, ih, Finset.sum_range_succ, add_assoc]

/-- One iteration of the FFT, first half of a block: the sum of the entries of two blocks
of the iteration before. -/
theorem partialDft_even {R : Type} [CommRing R] (w : R) (M L : Nat) (X : Nat → R) (i k : Nat) :
    partialDft w M (2 * L) X i k
      = partialDft w (2 * M) L X i k + partialDft w (2 * M) L X (i + M) k := by
  unfold partialDft
  rw [sum_range_pairs, Finset.sum_add_distrib]
  congr 1
  · refine Finset.sum_congr rfl (fun s _ => ?_)
    have e : i + 2 * s * M = i + s * (2 * M) := by ring
    rw [e]
  · refine Finset.sum_congr rfl (fun s _ => ?_)
    have e : i + (2 * s + 1) * M = i + M + s * (2 * M) := by ring
    rw [e]

/-- One iteration of the FFT, second half of a block: the difference of the entries of
two blocks of the iteration before, times a power of the root of unity. -/
theorem partialDft_odd {R : Type} [CommRing R] (w : R) (M L : Nat) (hw : w ^ (M * L) = -1)
    (X : Nat → R) (i k : Nat) :
    partialDft w M (2 * L) X i (L + k)
      = w ^ (i * L) * (partialDft w (2 * M) L X i k - partialDft w (2 * M) L X (i + M) k) := by
  have hw2 : ∀ s : Nat, w ^ (s * (2 * (M * L))) = 1 := by
    intro s
    have e : s * (2 * (M * L)) = (M * L) * (2 * s) := by ring
    rw [e, pow_mul, hw, pow_mul]
    simp
  unfold partialDft
  rw [sum_range_pairs, ← Finset.sum_sub_distrib, Finset.mul_sum]
  refine Finset.sum_congr rfl (fun s _ => ?_)
  have e1 : (i + 2 * s * M) * (L + k) = (i + s * (2 * M)) * k + i * L + s * (2 * (M * L)) := by
    ring
  have e2 : (i + (2 * s + 1) * M) * (L + k)
      = (i + M + s * (2 * M)) * k + i * L + M * L + s * (2 * (M * L)) := by ring
  have e3 : i + 2 * s * M = i + s * (2 * M) := by ring
  have e4 : i + (2 * s + 1) * M = i + M + s * (2 * M) := by ring
  rw [e1, e2, e3, e4, pow_add, pow_add, pow_add, pow_add, pow_add, hw2, hw]
  ring

theorem fills2_setAt2 {β : Type} (r0 j0 : Nat) (v : β) (V : Nat → Nat → β)
    (h : V r0 j0 = v) :
    Fills2 (fun y => setAt2 y r0 j0 v) (fun r j => r = r0 ∧ j = j0) V := by
  intro y r j
  constructor
  · rintro ⟨rfl, rfl⟩
    simp [setAt2, h]
  · intro hn
    simp [setAt2, hn]

/-- Two pieces of code that fill sets with the same values, one after the other, fill the
union of the sets. -/
theorem fills2_seq {β : Type} (f g : (Nat → Nat → β) → (Nat → Nat → β))
    (S T : Nat → Nat → Prop) (V : Nat → Nat → β) (hf : Fills2 f S V) (hg : Fills2 g T V) :
    Fills2 (fun y => g (f y)) (fun r j => S r j ∨ T r j) V := by
  intro y r j
  show (S r j ∨ T r j → g (f y) r j = V r j) ∧ (¬ (S r j ∨ T r j) → g (f y) r j = y r j)
  constructor
  · intro h
    by_cases hT : T r j
    · exact (hg (f y) r j).1 hT
    · rw [(hg (f y) r j).2 hT]
      rcases h with h | h
      · exact (hf y r j).1 h
      · exact absurd h hT
  · intro hn
    rw [(hg (f y) r j).2 (fun h => hn (Or.inr h)), (hf y r j).2 (fun h => hn (Or.inl h))]

/-- A loop whose iterations fill sets with the same values fills the union of the sets. -/
theorem fills2_forUp {β : Type} (body : Nat → (Nat → Nat → β) → (Nat → Nat → β))
    (S : Nat → Nat → Nat → Prop) (V : Nat → Nat → β) (lo cnt : Nat)
    (h : ∀ i, lo ≤ i → i < lo + cnt → Fills2 (body i) (S i) V) :
    Fills2 (forUp body lo cnt) (fun r j => ∃ i, lo ≤ i ∧ i < lo + cnt ∧ S i r j) V := by
  induction cnt with
  | zero =>
    intro y r j
    constructor
    · rintro ⟨i, h1, h2, _⟩
      omega
    · intro _
      rfl
  | succ c ih =>
    have ih2 := ih (fun i h1 h2 => h i h1 (by omega))
    intro y r j
    rw [forUp_succ_last]
    have hb := h (lo + c) (by omega) (by omega) (forUp body lo c y) r j
    constructor
    · rintro ⟨i, h1, h2, h3⟩
      by_cases hS : S (lo + c) r j
      · exact hb.1 hS
      · rw [hb.2 hS]
        have hi : i ≠ lo + c := fun e => hS (e ▸ h3)
        exact (ih2 y r j).1 ⟨i, h1, by omega, h3⟩
    · intro hn
      have hS : ¬ S (lo + c) r j := fun hS => hn ⟨lo + c, by omega, by omega, hS⟩
      rw [hb.2 hS]
      exact (ih2 y r j).2 (fun ⟨i, h1, h2, h3⟩ => hn ⟨i, h1, by omega, h3⟩)

/-- The block lengths of the iteration `l` of `m`: `lk = 2^(l-1)` and `li = 2^(m-l)`. -/
theorem fftz2_lengths (l m : Nat) (hl : 1 ≤ l) :
    (if l - 1 = 0 then 1 else 2 <<< (l - 1 - 1)) = 2 ^ (l - 1) ∧
      (if m - l = 0 then 1 else 2 <<< (m - l - 1)) = 2 ^ (m - l) := by
  constructor
  · split
    · rename_i h
      rw [h]
      rfl
    · rename_i h
      rw [Nat.shiftLeft_eq]
      have e : l - 1 = (l - 1 - 1) + 1 := by omega
      conv_rhs => rw [e, pow_succ]
      ring
  · split
    · rename_i h
      rw [h]
      rfl
    · rename_i h
      rw [Nat.shiftLeft_eq]
      have e : m - l = (m - l - 1) + 1 := by omega
      conv_rhs => rw [e, pow_succ]
      ring

/-- The rows `i * 2lk + k` and `i * 2lk + lk + k`, `k < lk`, give back `i` and `k`. -/
theorem stage_decode (lk i k : Nat) (hk : k < lk) :
    ((i * (2 * lk) + k) / (2 * lk) = i ∧ (i * (2 * lk) + k) % (2 * lk) = k) ∧
      ((i * (2 * lk) + lk + k) / (2 * lk) = i ∧ (i * (2 * lk) + lk + k) % (2 * lk) = lk + k) := by
  have h2 : 0 < 2 * lk := by omega
  have e1 : i * (2 * lk) + k = k + 2 * lk * i := by ring
  have e2 : i * (2 * lk) + lk + k = (lk + k) + 2 * lk * i := by ring
  rw [e1, e2]
  refine ⟨⟨?_, ?_⟩, ?_, ?_⟩
  · rw [Nat.add_mul_div_left _ _ h2, Nat.div_eq_of_lt (by omega), Nat.zero_add]
  · rw [Nat.add_mul_mod_self_left, Nat.mod_eq_of_lt (by omega)]
  · rw [Nat.add_mul_div_left _ _ h2, Nat.div_eq_of_lt (by omega), Nat.zero_add]
  · rw [Nat.add_mul_mod_self_left, Nat.mod_eq_of_lt (by omega)]

/-- What `fftz2` stores: for every `i < li`, `k < lk` and column `j < ny`, the sum of
`x[i*lk + k]` and `x[i*lk + n/2 + k]` at row `i * 2lk + k`, and `u1` times their difference
at row `i * 2lk + lk + k`. -/
theorem fftz2_spec {K : Type} [Field K] (is : Int) (l m n ny : Nat) (hl : 1 ≤ l)
    (u : Nat → dcomplex K) (x y : Nat → Nat → dcomplex K) (i k j : Nat)
    (hi : i < 2 ^ (m - l)) (hk : k < 2 ^ (l - 1)) (hj : j < ny) :
    fftz2 is l m n ny u x y (i * (2 * 2 ^ (l - 1)) + k) j
        = dcomplex.add (x (i * 2 ^ (l - 1) + k) j) (x (i * 2 ^ (l - 1) + n / 2 + k) j) ∧
      fftz2 is l m n ny u x y (i * (2 * 2 ^ (l - 1)) + 2 ^ (l - 1) + k) j
        = dcomplex.mulSub (twiddle is u (2 ^ (m - l) + i))
            (x (i * 2 ^ (l - 1) + k) j) (x (i * 2 ^ (l - 1) + n / 2 + k) j) := by
  obtain ⟨elk, eli⟩ := fftz2_lengths l m hl
  have hfill : Fills2 (fftz2 is l m n ny u x)
      (fun r c => ∃ i2, 0 ≤ i2 ∧ i2 < 0 + 2 ^ (m - l) ∧ ∃ k2, 0 ≤ k2 ∧ k2 < 0 + 2 ^ (l - 1) ∧
        ∃ j2, 0 ≤ j2 ∧ j2 < 0 + ny ∧
          ((r = i2 * (2 * 2 ^ (l - 1)) + k2 ∧ c = j2) ∨
           (r = i2 * (2 * 2 ^ (l - 1)) + 2 ^ (l - 1) + k2 ∧ c = j2)))
      (stageValue is (2 ^ (l - 1)) (2 ^ (m - l)) (n / 2) u x) := by
    have hc : fftz2 is l m n ny u x
        = forUp (fun i2 (y : Nat → Nat → dcomplex K) =>
            forUp (fun k2 (y : Nat → Nat → dcomplex K) =>
              forUp (fun j2 (y : Nat → Nat → dcomplex K) =>
                setAt2 (setAt2 y (i2 * (2 * 2 ^ (l - 1)) + k2) j2
                    (dcomplex.add (x (i2 * 2 ^ (l - 1) + k2) j2)
                      (x (i2 * 2 ^ (l - 1) + n / 2 + k2) j2)))
                  (i2 * (2 * 2 ^ (l - 1)) + 2 ^ (l - 1) + k2) j2
                  (dcomplex.mulSub (twiddle is u (2 ^ (m - l) + i2))
                    (x (i2 * 2 ^ (l - 1) + k2) j2) (x (i2 * 2 ^ (l - 1) + n / 2 + k2) j2)))
                0 ny y) 0 (2 ^ (l - 1)) y) 0 (2 ^ (m - l)) := by
      funext y0
      unfold fftz2
      simp only [elk, eli]
      rfl
    rw [hc]
    apply fills2_forUp
    intro i2 _ _
    apply fills2_forUp
    intro k2 _ hk2
    apply fills2_forUp
    intro j2 _ _
    obtain ⟨⟨d1, d2⟩, d3, d4⟩ := stage_decode (2 ^ (l - 1)) i2 k2 (by omega)
    refine fills2_seq _ _ _ _ _ (fills2_setAt2 _ _ _ _ ?_) (fills2_setAt2 _ _ _ _ ?_)
    · unfold stageValue
      rw [d1, d2, if_pos (by omega)]
    · unfold stageValue
      rw [d3, d4, if_neg (by omega), Nat.add_sub_cancel_left]
  obtain ⟨⟨d1, d2⟩, d3, d4⟩ := stage_decode (2 ^ (l - 1)) i k hk
  constructor
  · rw [(hfill y _ j).1 ⟨i, Nat.zero_le _, by omega, k, Nat.zero_le _, by omega, j,
      Nat.zero_le _, by omega, Or.inl ⟨rfl, rfl⟩⟩]
    unfold stageValue
    rw [d1, d2, if_pos hk]
  · rw [(hfill y _ j).1 ⟨i, Nat.zero_le _, by omega, k, Nat.zero_le _, by omega, j,
      Nat.zero_le _, by omega, Or.inr ⟨rfl, rfl⟩⟩]
    unfold stageValue
    rw [d3, d4, if_neg (by omega), Nat.add_sub_cancel_left]

theorem toComplex_add (a b : dcomplex ℝ) :
    (dcomplex.add a b).toComplex = a.toComplex + b.toComplex := by
  apply Complex.ext <;> simp [dcomplex.add, dcomplex.toComplex]

theorem toComplex_mulSub (u1 a b : dcomplex ℝ) :
    (dcomplex.mulSub u1 a b).toComplex = u1.toComplex * (a.toComplex - b.toComplex) := by
  apply Complex.ext <;> simp [dcomplex.mulSub, dcomplex.toComplex]

/-- The loop of `ilog2` on a power of two ends by its own test, with the exponent. -/
theorem ilog2Loop_pow (mx : Nat) :
    ∀ (fuel lg : Nat), lg ≤ mx → mx - lg ≤ fuel → ilog2Loop fuel (2 ^ mx) (2 ^ lg) lg = mx := by
  intro fuel
  induction fuel with
  | zero =>
    intro lg h1 h2
    unfold ilog2Loop
    omega
  | succ f ih =>
    intro lg h1 h2
    rw [ilog2Loop]
    by_cases h : 2 ^ lg < 2 ^ mx
    · rw [if_pos h]
      have hlt : lg < mx := (Nat.pow_lt_pow_iff_right (by norm_num)).1 h
      have e : (2 ^ lg) <<< 1 = 2 ^ (lg + 1) := by
        rw [Nat.shiftLeft_eq]
        ring
      rw [e]
      exact ih (lg + 1) hlt (by omega)
    · rw [if_neg h]
      have : ¬ lg < mx := fun hlt => h (Nat.pow_lt_pow_right (by norm_num) hlt)
      omega

theorem ilog2_pow (mx : Nat) : ilog2 (2 ^ mx) = mx := by
  unfold ilog2
  by_cases h : 2 ^ mx = 1
  · rw [if_pos h]
    have : mx = 0 := by
      by_contra hne
      have := Nat.one_lt_two_pow hne
      omega
    omega
  · rw [if_neg h]
    have hmx : 1 ≤ mx := by
      by_contra hne
      have : mx = 0 := by omega
      rw [this] at h
      exact h rfl
    have hfuel : mx - 1 ≤ 2 ^ mx := by
      have := Nat.lt_two_pow mx
      omega
    have := ilog2Loop_pow mx (2 ^ mx) 1 hmx hfuel
    rw [pow_one] at this
    exact this

/-- The table `fft_init(2^mx)` leaves: `u[0] = (mx, 0)`, and for every `s < mx` and
`i < 2^s`, `u[2^s + i] = (cos(i * (PI / 2^s)), sin(i * (PI / 2^s)))`. -/
theorem fft_init_table {K : Type} [Field K] (PI : K) (ccos csin : K → K) (mx : Nat)
    (u0 : Nat → dcomplex K) :
    fft_init PI ccos csin (2 ^ mx) u0 0 = { real := (mx : K), imag := 0 } ∧
      ∀ s, s < mx → ∀ i, i < 2 ^ s →
        fft_init PI ccos csin (2 ^ mx) u0 (2 ^ s + i)
          = { real := ccos ((i : K) * (PI / ((2 ^ s : Nat) : K))),
              imag := csin ((i : K) * (PI / ((2 ^ s : Nat) : K))) } := by
  have hinv := forUp_invariant
    (fun _ (s : InitState K) =>
      ({ u := forUp (fun i (u : Nat → dcomplex K) =>
            setAt u (i + s.ku)
              { real := ccos ((i : K) * (PI / (s.ln : K))),
                imag := csin ((i : K) * (PI / (s.ln : K))) }) 0 s.ln s.u,
         ku := s.ku + s.ln, ln := 2 * s.ln } : InitState K))
    (fun t (s : InitState K) => s.ku = 2 ^ t ∧ s.ln = 2 ^ t ∧
      s.u 0 = { real := (mx : K), imag := 0 } ∧
      ∀ s2, s2 < t → ∀ i, i < 2 ^ s2 →
        s.u (2 ^ s2 + i) = { real := ccos ((i : K) * (PI / ((2 ^ s2 : Nat) : K))),
                             imag := csin ((i : K) * (PI / ((2 ^ s2 : Nat) : K))) })
    1 mx { u := setAt u0 0 { real := (mx : K), imag := 0 }, ku := 1, ln := 1 }
    ⟨rfl, rfl, by simp [setAt], fun s2 h => by omega⟩
    (by
      intro t s _ hP
      obtain ⟨hku, hln, h0, hold⟩ := hP
      have hfill := fills_forUp
        (fun i (u : Nat → dcomplex K) =>
          setAt u (i + s.ku)
            { real := ccos ((i : K) * (PI / (s.ln : K))),
              imag := csin ((i : K) * (PI / (s.ln : K))) })
        (fun i a => a = i + s.ku)
        (fun a => { real := ccos (((a - s.ku : Nat) : K) * (PI / (s.ln : K))),
                    imag := csin (((a - s.ku : Nat) : K) * (PI / (s.ln : K))) })
        0 s.ln
        (fun i _ _ => fills_setAt (i + s.ku) _ _ (by rw [Nat.add_sub_cancel]))
      have hpos : 0 < 2 ^ t := Nat.two_pow_pos t
      refine ⟨?_, ?_, ?_, ?_⟩
      · show s.ku + s.ln = 2 ^ (t + 1)
        rw [hku, hln, pow_succ]
        ring
      · show 2 * s.ln = 2 ^ (t + 1)
        rw [hln, pow_succ]
        ring
      · show forUp _ 0 s.ln s.u 0 = _
        rw [(hfill s.u 0).2 (by rintro ⟨i, _, _, h⟩; omega)]
        exact h0
      · intro s2 hs2 i hi
        show forUp _ 0 s.ln s.u (2 ^ s2 + i) = _
        by_cases hlt : s2 < t
        · have hle : 2 ^ (s2 + 1) ≤ 2 ^ t := Nat.pow_le_pow_right (by norm_num) hlt
          rw [pow_succ] at hle
          rw [(hfill s.u _).2 (by rintro ⟨i2, _, _, h⟩; omega)]
          exact hold s2 hlt i hi
        · have e : s2 = t := by omega
          subst e
          rw [(hfill s.u _).1 ⟨i, Nat.zero_le _, by omega, by omega⟩]
          have e2 : 2 ^ s2 + i - s.ku = i := by omega
          show ({ real := ccos (((2 ^ s2 + i - s.ku : Nat) : K) * (PI / (s.ln : K))),
                  imag := csin (((2 ^ s2 + i - s.ku : Nat) : K) * (PI / (s.ln : K))) }
                : dcomplex K) = _
          rw [e2, hln])
  have hc : fft_init PI ccos csin (2 ^ mx) u0
      = (forUp (fun _ (s : InitState K) =>
          ({ u := forUp (fun i (u : Nat → dcomplex K) =>
                setAt u (i + s.ku)
                  { real := ccos ((i : K) * (PI / (s.ln : K))),
                    imag := csin ((i : K) * (PI / (s.ln : K))) }) 0 s.ln s.u,
             ku := s.ku + s.ln, ln := 2 * s.ln } : InitState K))
          1 mx { u := setAt u0 0 { real := (mx : K), imag := 0 }, ku := 1, ln := 1 }).u := by
    unfold fft_init
    rw [ilog2_pow]
  rw [hc]
  exact ⟨hinv.2.2.1, hinv.2.2.2⟩

/-- The pair `(cos t, sin t)` is the complex number `exp(t i)`. -/
theorem toComplex_cos_sin (t : ℝ) :
    (({ real := Real.cos t, imag := Real.sin t } : dcomplex ℝ)).toComplex
      = Complex.exp ((t : ℂ) * Complex.I) := by
  rw [Complex.exp_mul_I]
  apply Complex.ext
  · simp [dcomplex.toComplex, ← Complex.ofReal_cos, ← Complex.ofReal_sin]
  · simp [dcomplex.toComplex, ← Complex.ofReal_cos, ← Complex.ofReal_sin]

/-- The pair `(cos t, -sin t)` is the complex number `exp(-t i)`. -/
theorem toComplex_cos_neg_sin (t : ℝ) :
    (({ real := Real.cos t, imag := -Real.sin t } : dcomplex ℝ)).toComplex
      = Complex.exp (-((t : ℂ) * Complex.I)) := by
  have h := toComplex_cos_sin (-t)
  rw [Real.cos_neg, Real.sin_neg] at h
  rw [h]
  congr 1
  push_cast
  ring

/-- The powers of two of an iteration `l` of `m`. -/
theorem stage_powers (l m : Nat) (hl : 1 ≤ l) (hlm : l ≤ m) :
    2 ^ l = 2 * 2 ^ (l - 1) ∧ 2 ^ (m - (l - 1)) = 2 * 2 ^ (m - l) ∧
      2 ^ m / 2 = 2 ^ (m - l) * 2 ^ (l - 1) ∧ 2 ^ m = 2 * (2 ^ (m - l) * 2 ^ (l - 1)) := by
  have a1 : 2 ^ l = 2 * 2 ^ (l - 1) := by
    have e : l = (l - 1) + 1 := by omega
    conv_lhs => rw [e, pow_succ]
    ring
  have a2 : 2 ^ (m - (l - 1)) = 2 * 2 ^ (m - l) := by
    have e : m - (l - 1) = (m - l) + 1 := by omega
    rw [e, pow_succ]
    ring
  have a4 : 2 ^ m = 2 * (2 ^ (m - l) * 2 ^ (l - 1)) := by
    have e : m = (m - l) + (l - 1) + 1 := by omega
    conv_lhs => rw [e, pow_succ, pow_add]
    ring
  refine ⟨a1, a2, ?_, a4⟩
  rw [a4, Nat.mul_div_cancel_left _ (by norm_num)]

/-- The factor `u1` of the iteration `l`, read in the table of `fft_init`, is the power
`i * 2^(l-1)` of the root of unity `exp(is * 2 pi i / 2^m)`. -/
theorem twiddle_power (is : Int) (his : is = 1 ∨ is = -1) (l m mx : Nat) (hl : 1 ≤ l)
    (hlm : l ≤ m) (hmx : m ≤ mx) (u0 : Nat → dcomplex ℝ) (i : Nat) (hi : i < 2 ^ (m - l)) :
    (twiddle is (fft_init Real.pi Real.cos Real.sin (2 ^ mx) u0) (2 ^ (m - l) + i)).toComplex
      = Complex.exp ((is : ℂ) * (2 * Real.pi * Complex.I) / ((2 ^ m : Nat) : ℂ))
          ^ (i * 2 ^ (l - 1)) := by
  obtain ⟨_, _, _, a4⟩ := stage_powers l m hl hlm
  rw [← Complex.exp_nat_mul]
  have htab := (fft_init_table Real.pi Real.cos Real.sin mx u0).2 (m - l) (by omega) i hi
  have hli : (((2 ^ (m - l) : Nat) : ℝ) : ℂ) ≠ 0 := by
    norm_cast
    exact (Nat.two_pow_pos _).ne'
  have hlk : (((2 ^ (l - 1) : Nat) : ℝ) : ℂ) ≠ 0 := by
    norm_cast
    exact (Nat.two_pow_pos _).ne'
  have hn : ((2 ^ m : Nat) : ℂ)
      = 2 * ((((2 ^ (m - l) : Nat) : ℝ) : ℂ) * (((2 ^ (l - 1) : Nat) : ℝ) : ℂ)) := by
    rw [a4]
    push_cast
    ring
  unfold twiddle
  rw [htab]
  rcases his with h | h
  · subst h
    rw [if_pos (by norm_num)]
    rw [toComplex_cos_sin]
    congr 1
    rw [hn]
    push_cast
    field_simp
    ring
  · subst h
    rw [if_neg (by norm_num)]
    rw [toComplex_cos_neg_sin]
    congr 1
    rw [hn]
    push_cast
    field_simp
    ring

/-- The root of unity `w = exp(is * 2 pi i / 2^m)`: `w^(2^(m-1)) = -1`. -/
theorem root_half_power (is : Int) (his : is = 1 ∨ is = -1) (m : Nat) (h : Nat)
    (hh : 2 ^ m = 2 * h) :
    Complex.exp ((is : ℂ) * (2 * Real.pi * Complex.I) / ((2 ^ m : Nat) : ℂ)) ^ h = -1 := by
  rw [← Complex.exp_nat_mul]
  have hpos : (h : ℂ) ≠ 0 := by
    have : 0 < h := by
      have := Nat.two_pow_pos m
      omega
    exact_mod_cast this.ne'
  have e : (h : ℂ) * ((is : ℂ) * (2 * Real.pi * Complex.I) / ((2 ^ m : Nat) : ℂ))
      = (is : ℂ) * (Real.pi * Complex.I) := by
    rw [hh]
    push_cast
    field_simp
    ring
  rw [e]
  rcases his with h1 | h1
  · subst h1
    simp [Complex.exp_pi_mul_I]
  · subst h1
    have : ((-1 : Int) : ℂ) * (Real.pi * Complex.I) = -(Real.pi * Complex.I) := by
      push_cast
      ring
    rw [this, Complex.exp_neg, Complex.exp_pi_mul_I]
    norm_num

/-- The iteration `l` of the FFT takes an array that holds the partial transforms after
`l - 1` iterations to an array that holds those after `l` iterations. -/
theorem stage_holds (is : Int) (his : is = 1 ∨ is = -1) (l m mx ny : Nat) (hl : 1 ≤ l)
    (hlm : l ≤ m) (hmx : m ≤ mx) (u0 : Nat → dcomplex ℝ) (x0 src dst : Nat → Nat → dcomplex ℝ)
    (h : HoldsStage (Complex.exp ((is : ℂ) * (2 * Real.pi * Complex.I) / ((2 ^ m : Nat) : ℂ)))
      m ny x0 src (l - 1)) :
    HoldsStage (Complex.exp ((is : ℂ) * (2 * Real.pi * Complex.I) / ((2 ^ m : Nat) : ℂ)))
      m ny x0
      (fftz2 is l m (2 ^ m) ny (fft_init Real.pi Real.cos Real.sin (2 ^ mx) u0) src dst) l := by
  obtain ⟨a1, a2, a3, a4⟩ := stage_powers l m hl hlm
  have hw := root_half_power is his m (2 ^ (m - l) * 2 ^ (l - 1)) a4
  intro j hj i hi k hk
  unfold HoldsStage at h
  rw [a2] at h
  have hsrc1 : ∀ k2, k2 < 2 ^ (l - 1) →
      (src (i * 2 ^ (l - 1) + k2) j).toComplex
        = partialDft (Complex.exp ((is : ℂ) * (2 * Real.pi * Complex.I) / ((2 ^ m : Nat) : ℂ)))
            (2 * 2 ^ (m - l)) (2 ^ (l - 1)) (fun t => (x0 t j).toComplex) i k2 :=
    fun k2 hk2 => h j hj i (by omega) k2 hk2
  have hsrc2 : ∀ k2, k2 < 2 ^ (l - 1) →
      (src (i * 2 ^ (l - 1) + 2 ^ m / 2 + k2) j).toComplex
        = partialDft (Complex.exp ((is : ℂ) * (2 * Real.pi * Complex.I) / ((2 ^ m : Nat) : ℂ)))
            (2 * 2 ^ (m - l)) (2 ^ (l - 1)) (fun t => (x0 t j).toComplex) (i + 2 ^ (m - l)) k2 := by
    intro k2 hk2
    have e : i * 2 ^ (l - 1) + 2 ^ m / 2 + k2 = (i + 2 ^ (m - l)) * 2 ^ (l - 1) + k2 := by
      rw [a3]
      ring
    rw [e]
    exact h j hj (i + 2 ^ (m - l)) (by omega) k2 hk2
  rw [a1]
  by_cases hlt : k < 2 ^ (l - 1)
  · rw [(fftz2_spec is l m (2 ^ m) ny hl (fft_init Real.pi Real.cos Real.sin (2 ^ mx) u0)
      src dst i k j hi hlt hj).1, toComplex_add, hsrc1 k hlt, hsrc2 k hlt, partialDft_even]
  · obtain ⟨k2, rfl⟩ : ∃ k2, k = 2 ^ (l - 1) + k2 := ⟨k - 2 ^ (l - 1), by omega⟩
    have hk2 : k2 < 2 ^ (l - 1) := by omega
    rw [← Nat.add_assoc,
      (fftz2_spec is l m (2 ^ m) ny hl (fft_init Real.pi Real.cos Real.sin (2 ^ mx) u0)
        src dst i k2 j hi hk2 hj).2, toComplex_mulSub, hsrc1 k2 hk2, hsrc2 k2 hk2,
      twiddle_power is his l m mx hl hlm hmx u0 i hi, partialDft_odd _ _ _ hw]

/-- The array before the first iteration holds the partial transforms after 0 iterations. -/
theorem holds_zero (w : ℂ) (m ny : Nat) (x0 : Nat → Nat → dcomplex ℝ) :
    HoldsStage w m ny x0 x0 0 := by
  intro j _ i _ k hk
  have hk0 : k = 0 := by
    rw [pow_zero] at hk
    omega
  subst hk0
  simp [partialDft]

/-- The copy of `y` to `x` at the end of `cfftz`: the rows `r < n` of the columns
`c < fftblock`. -/
theorem copy_spec (n fftblock : Nat) (x y : Nat → Nat → dcomplex ℝ) (r c : Nat) (hr : r < n)
    (hc : c < fftblock) :
    forUp (fun j (x : Nat → Nat → dcomplex ℝ) =>
        forUp (fun i (x : Nat → Nat → dcomplex ℝ) => setAt2 x j i (y j i)) 0 fftblock x)
      0 n x r c = y r c := by
  have hfill := fills2_forUp
    (fun j (x : Nat → Nat → dcomplex ℝ) =>
      forUp (fun i (x : Nat → Nat → dcomplex ℝ) => setAt2 x j i (y j i)) 0 fftblock x)
    (fun j r2 c2 => ∃ i, 0 ≤ i ∧ i < 0 + fftblock ∧ (r2 = j ∧ c2 = i)) y 0 n
    (fun j _ _ => fills2_forUp _ _ _ _ _ (fun i _ _ => fills2_setAt2 j i _ _ rfl))
  exact (hfill x r c).1 ⟨r, Nat.zero_le _, by omega, c, Nat.zero_le _, by omega, rfl, rfl⟩

/-- The routine `cfftz` on the table of `fft_init(2^mx)`, for `1 <= m <= mx` and `is` in
`{1, -1}`: it returns, and `x` then holds the partial transforms after all `m` iterations
of the columns `j < fftblock` of the `x` it was given. -/
theorem cfftz_holds (is : Int) (his : is = 1 ∨ is = -1) (m mx fftblock : Nat) (hm : 1 ≤ m)
    (hmx : m ≤ mx) (u0 : Nat → dcomplex ℝ) (x0 y0 : Nat → Nat → dcomplex ℝ) :
    ∃ x1 y1,
      cfftz (fun r : ℝ => if 0 ≤ r then ⌊r⌋ else ⌈r⌉) fftblock
          (fft_init Real.pi Real.cos Real.sin (2 ^ mx) u0) is (m : Int) (2 ^ m) x0 y0
        = Run.ok (x1, y1) ∧
      HoldsStage (Complex.exp ((is : ℂ) * (2 * Real.pi * Complex.I) / ((2 ^ m : Nat) : ℂ)))
        m fftblock x0 x1 m := by
  have hu0 := (fft_init_table Real.pi Real.cos Real.sin mx u0).1
  have hinv := forUp_invariant
    (fun t (s : FftState ℝ) =>
      if s.broken then s
      else
        if ((1 + 2 * t : Nat) : Int) = (m : Int) then
          ({ x := s.x,
             y := fftz2 is (1 + 2 * t) m (2 ^ m) fftblock
               (fft_init Real.pi Real.cos Real.sin (2 ^ mx) u0) s.x s.y,
             broken := true } : FftState ℝ)
        else
          { x := fftz2 is (1 + 2 * t + 1) m (2 ^ m) fftblock
              (fft_init Real.pi Real.cos Real.sin (2 ^ mx) u0)
              (fftz2 is (1 + 2 * t) m (2 ^ m) fftblock
                (fft_init Real.pi Real.cos Real.sin (2 ^ mx) u0) s.x s.y) s.x,
            y := fftz2 is (1 + 2 * t) m (2 ^ m) fftblock
              (fft_init Real.pi Real.cos Real.sin (2 ^ mx) u0) s.x s.y,
            broken := false })
    (fun t (s : FftState ℝ) =>
      (s.broken = false ∧ 2 * t ≤ m ∧
        HoldsStage (Complex.exp ((is : ℂ) * (2 * Real.pi * Complex.I) / ((2 ^ m : Nat) : ℂ)))
          m fftblock x0 s.x (2 * t)) ∨
      (s.broken = true ∧ m % 2 = 1 ∧
        HoldsStage (Complex.exp ((is : ℂ) * (2 * Real.pi * Complex.I) / ((2 ^ m : Nat) : ℂ)))
          m fftblock x0 s.y m))
    0 ((m + 1) / 2) { x := x0, y := y0, broken := false }
    (Or.inl ⟨rfl, Nat.zero_le _, holds_zero _ m fftblock x0⟩)
    (by
      intro t s ht hP
      rw [Nat.zero_add]
      beta_reduce
      rcases hP with ⟨hb, h2t, hx⟩ | ⟨hb, hodd, hy⟩
      · rw [hb]
        simp only [Bool.false_eq_true, if_false]
        have hl : 1 + 2 * t ≤ m := by omega
        have hy1 := stage_holds is his (1 + 2 * t) m mx fftblock (by omega) hl hmx u0 x0 s.x s.y
          (by
            have e : 1 + 2 * t - 1 = 2 * t := by omega
            rw [e]
            exact hx)
        by_cases hlast : ((1 + 2 * t : Nat) : Int) = (m : Int)
        · rw [if_pos hlast]
          have e : 1 + 2 * t = m := by exact_mod_cast hlast
          right
          refine ⟨rfl, by omega, ?_⟩
          rw [e] at hy1
          rw [e]
          exact hy1
        · rw [if_neg hlast]
          have hne : 1 + 2 * t ≠ m := fun e => hlast (by exact_mod_cast e)
          left
          refine ⟨rfl, by omega, ?_⟩
          have hx1 := stage_holds is his (1 + 2 * t + 1) m mx fftblock (by omega) (by omega) hmx
            u0 x0
            (fftz2 is (1 + 2 * t) m (2 ^ m) fftblock
              (fft_init Real.pi Real.cos Real.sin (2 ^ mx) u0) s.x s.y) s.x
            (by
              have e : 1 + 2 * t + 1 - 1 = 1 + 2 * t := by omega
              rw [e]
              exact hy1)
          have e : 2 * (t + 1) = 1 + 2 * t + 1 := by ring
          rw [e]
          exact hx1
      · rw [hb]
        simp only [if_true]
        exact Or.inr ⟨hb, hodd, hy⟩)
  have htr : (if (0 : ℝ) ≤ (fft_init Real.pi Real.cos Real.sin (2 ^ mx) u0 0).real
      then ⌊(fft_init Real.pi Real.cos Real.sin (2 ^ mx) u0 0).real⌋
      else ⌈(fft_init Real.pi Real.cos Real.sin (2 ^ mx) u0 0).real⌉) = (mx : Int) := by
    rw [hu0]
    simp
  have hcheck : ¬ ((is ≠ 1 ∧ is ≠ -1) ∨ (m : Int) < 1 ∨ (m : Int) > (mx : Int)) := by
    rintro (⟨h1, h2⟩ | h | h)
    · rcases his with h3 | h3
      · exact h1 h3
      · exact h2 h3
    · omega
    · omega
  unfold cfftz
  simp only [htr, if_neg hcheck, Int.toNat_ofNat]
  generalize forUp (fun t (s : FftState ℝ) =>
      if s.broken then s
      else
        if ((1 + 2 * t : Nat) : Int) = (m : Int) then
          ({ x := s.x,
             y := fftz2 is (1 + 2 * t) m (2 ^ m) fftblock
               (fft_init Real.pi Real.cos Real.sin (2 ^ mx) u0) s.x s.y,
             broken := true } : FftState ℝ)
        else
          { x := fftz2 is (1 + 2 * t + 1) m (2 ^ m) fftblock
              (fft_init Real.pi Real.cos Real.sin (2 ^ mx) u0)
              (fftz2 is (1 + 2 * t) m (2 ^ m) fftblock
                (fft_init Real.pi Real.cos Real.sin (2 ^ mx) u0) s.x s.y) s.x,
            y := fftz2 is (1 + 2 * t) m (2 ^ m) fftblock
              (fft_init Real.pi Real.cos Real.sin (2 ^ mx) u0) s.x s.y,
            broken := false })
    0 ((m + 1) / 2) { x := x0, y := y0, broken := false } = sfin at hinv ⊢
  by_cases hodd : Int.tmod (m : Int) 2 = 1
  · rw [if_pos hodd]
    refine ⟨_, _, rfl, ?_⟩
    have hm2 : m % 2 = 1 := by
      have : ((m % 2 : Nat) : Int) = 1 := by
        rw [Int.ofNat_tmod]
        exact hodd
      exact_mod_cast this
    rcases hinv with ⟨_, h2, _⟩ | ⟨_, _, hy⟩
    · omega
    · intro j hj i hi k hk
      have hi0 : i = 0 := by
        rw [Nat.sub_self, pow_zero] at hi
        omega
      subst hi0
      rw [copy_spec (2 ^ m) fftblock sfin.x sfin.y _ j (by omega) hj]
      exact hy j hj 0 (by rw [Nat.sub_self, pow_zero]; omega) k hk
  · rw [if_neg hodd]
    refine ⟨_, _, rfl, ?_⟩
    have hm2 : m % 2 ≠ 1 := by
      intro h
      apply hodd
      have h3 : ((m % 2 : Nat) : Int) = 1 := by
        rw [h]
        rfl
      rw [Int.ofNat_tmod] at h3
      exact h3
    rcases hinv with ⟨_, h2, hx⟩ | ⟨_, h1, _⟩
    · have e : 2 * ((m + 1) / 2) = m := by omega
      rw [e] at hx
      exact hx
    · exact absurd h1 hm2

/-- After all `m` iterations the array holds the `2^m`-point transform: row `k` of column
`j` is the sum over `t` of `x0[t][j] * exp(is * 2*pi*i * t*k / 2^m)`. -/
theorem holds_last (is : Int) (m ny : Nat) (x0 arr : Nat → Nat → dcomplex ℝ)
    (h : HoldsStage (Complex.exp ((is : ℂ) * (2 * Real.pi * Complex.I) / ((2 ^ m : Nat) : ℂ)))
      m ny x0 arr m)
    (j : Nat) (hj : j < ny) (k : Nat) (hk : k < 2 ^ m) :
    (arr k j).toComplex = ∑ t ∈ Finset.range (2 ^ m), (x0 t j).toComplex *
      Complex.exp ((is : ℂ) * (2 * Real.pi * Complex.I) * (t : ℂ) * (k : ℂ) /
        ((2 ^ m : Nat) : ℂ)) := by
  have h1 := h j hj 0 (by rw [Nat.sub_self, pow_zero]; omega) k hk
  rw [Nat.zero_mul, Nat.zero_add] at h1
  rw [h1]
  unfold partialDft
  rw [Nat.sub_self, pow_zero]
  refine Finset.sum_congr rfl (fun t _ => ?_)
  rw [Nat.zero_add, Nat.mul_one, ← Complex.exp_nat_mul]
  congr 2
  push_cast
  ring

/-- The sum of the `n` powers `exp(2*pi*i * d*k / n)`, `k < n`, is 0 when `d` is not 0 and
`|d| < n`. -/
theorem exp_sum_zero (n : Nat) (hn : 0 < n) (d : Int) (hd : d ≠ 0) (hlt : |d| < (n : Int)) :
    ∑ k ∈ Finset.range n,
      Complex.exp ((2 * Real.pi * Complex.I) * (d : ℂ) * (k : ℂ) / (n : ℂ)) = 0 := by
  have hnC : (n : ℂ) ≠ 0 := by
    exact_mod_cast (Nat.pos_iff_ne_zero.mp hn)
  have hterm : ∀ k ∈ Finset.range n,
      Complex.exp ((2 * Real.pi * Complex.I) * (d : ℂ) * (k : ℂ) / (n : ℂ))
        = Complex.exp ((2 * Real.pi * Complex.I) * (d : ℂ) / (n : ℂ)) ^ k := by
    intro k _
    rw [← Complex.exp_nat_mul]
    congr 1
    ring
  rw [Finset.sum_congr rfl hterm]
  have hq1 : Complex.exp ((2 * Real.pi * Complex.I) * (d : ℂ) / (n : ℂ)) ≠ 1 := by
    intro h
    rw [Complex.exp_eq_one_iff] at h
    obtain ⟨z, hz⟩ := h
    have h2 : (d : ℂ) = (z : ℂ) * (n : ℂ) := by
      have h3 : (2 * Real.pi * Complex.I) * (d : ℂ)
          = (2 * Real.pi * Complex.I) * ((z : ℂ) * (n : ℂ)) := by
        field_simp at hz
        linear_combination hz
      exact mul_left_cancel₀ Complex.two_pi_I_ne_zero h3
    have h4 : d = z * (n : Int) := by exact_mod_cast h2
    have hz0 : z ≠ 0 := by
      intro hz0
      rw [hz0, zero_mul] at h4
      exact hd h4
    have h5 : (n : Int) ≤ |d| := by
      rw [h4, abs_mul, Int.abs_natCast]
      have : 1 ≤ |z| := Int.one_le_abs hz0
      nlinarith [Int.ofNat_nonneg n]
    omega
  have hqn : Complex.exp ((2 * Real.pi * Complex.I) * (d : ℂ) / (n : ℂ)) ^ n = 1 := by
    rw [← Complex.exp_nat_mul]
    have e : (n : ℂ) * ((2 * Real.pi * Complex.I) * (d : ℂ) / (n : ℂ))
        = (d : ℂ) * (2 * Real.pi * Complex.I) := by
      field_simp
      ring
    rw [e]
    exact Complex.exp_int_mul_two_pi_mul_I d
  have hg := geom_sum_mul (Complex.exp ((2 * Real.pi * Complex.I) * (d : ℂ) / (n : ℂ))) n
  rw [hqn, sub_self] at hg
  rcases mul_eq_zero.mp hg with h | h
  · exact h
  · exact absurd (sub_eq_zero.mp h) hq1

/-- The transform with `is = -1` of the transform with `is = 1` of a sequence of length
`n` is `n` times the sequence. -/
theorem dft_round_trip (n : Nat) (hn : 0 < n) (X : Nat → ℂ) (k : Nat) (hk : k < n) :
    ∑ t ∈ Finset.range n,
      (∑ s ∈ Finset.range n, X s *
        Complex.exp (((1 : Int) : ℂ) * (2 * Real.pi * Complex.I) * (s : ℂ) * (t : ℂ) / (n : ℂ))) *
      Complex.exp (((-1 : Int) : ℂ) * (2 * Real.pi * Complex.I) * (t : ℂ) * (k : ℂ) / (n : ℂ))
      = (n : ℂ) * X k := by
  have h1 : ∀ t ∈ Finset.range n,
      (∑ s ∈ Finset.range n, X s *
        Complex.exp (((1 : Int) : ℂ) * (2 * Real.pi * Complex.I) * (s : ℂ) * (t : ℂ) / (n : ℂ))) *
      Complex.exp (((-1 : Int) : ℂ) * (2 * Real.pi * Complex.I) * (t : ℂ) * (k : ℂ) / (n : ℂ))
      = ∑ s ∈ Finset.range n, X s *
        Complex.exp ((2 * Real.pi * Complex.I) * (((s : Int) - (k : Int) : Int) : ℂ) * (t : ℂ)
          / (n : ℂ)) := by
    intro t _
    rw [Finset.sum_mul]
    refine Finset.sum_congr rfl (fun s _ => ?_)
    rw [mul_assoc, ← Complex.exp_add]
    congr 2
    push_cast
    ring
  rw [Finset.sum_congr rfl h1, Finset.sum_comm]
  have h2 : ∀ s ∈ Finset.range n,
      ∑ t ∈ Finset.range n, X s *
        Complex.exp ((2 * Real.pi * Complex.I) * (((s : Int) - (k : Int) : Int) : ℂ) * (t : ℂ)
          / (n : ℂ))
      = if s = k then (n : ℂ) * X k else 0 := by
    intro s hs
    rw [← Finset.mul_sum]
    by_cases hsk : s = k
    · rw [if_pos hsk, hsk]
      simp
      ring
    · rw [if_neg hsk]
      rw [exp_sum_zero n hn ((s : Int) - (k : Int)) (by omega)
        (by
          have := Finset.mem_range.mp hs
          rw [abs_lt]
          constructor <;> omega), mul_zero]
  rw [Finset.sum_congr rfl h2, Finset.sum_ite_eq' (Finset.range n) k]
  rw [if_pos (Finset.mem_range.mpr hk)]

/-- Claim C35. For every `m >= 1`, `n = 2^m`, table `u` initialised by `fft_init(2^mx)`
with `mx >= m` (over exact real and complex arithmetic, with the real cosine, sine and pi):
for `is` in `{1, -1}` the routine `cfftz` returns, and row `k < n` of every column
`j < fftblock` of the resulting `x` is the `n`-point discrete Fourier transform
`sum over t in [0, n) of x[t][j] * exp(is * 2*pi*i * t*k / n)` of that column of the given
`x`; and `cfftz` with `is = -1` applied (with any scratch array) to the result of `cfftz`
with `is = 1` returns `n` times the original column. -/
theorem cfftz_computes_dft (m mx fftblock : Nat) (hm : 1 ≤ m) (hmx : m ≤ mx)
    (u0 : Nat → dcomplex ℝ) (x y : Nat → Nat → dcomplex ℝ) :
    (∀ is : Int, is = 1 ∨ is = -1 →
      ∃ x1 y1,
        cfftz (fun r : ℝ => if 0 ≤ r then ⌊r⌋ else ⌈r⌉) fftblock
            (fft_init Real.pi Real.cos Real.sin (2 ^ mx) u0) is (m : Int) (2 ^ m) x y
          = Run.ok (x1, y1) ∧
        ∀ j, j < fftblock → ∀ k, k < 2 ^ m →
          (x1 k j).toComplex = ∑ t ∈ Finset.range (2 ^ m), (x t j).toComplex *
            Complex.exp ((is : ℂ) * (2 * Real.pi * Complex.I) * (t : ℂ) * (k : ℂ) /
              ((2 ^ m : Nat) : ℂ))) ∧
    (∃ x1 y1,
      cfftz (fun r : ℝ => if 0 ≤ r then ⌊r⌋ else ⌈r⌉) fftblock
          (fft_init Real.pi Real.cos Real.sin (2 ^ mx) u0) 1 (m : Int) (2 ^ m) x y
        = Run.ok (x1, y1) ∧
      ∀ y2, ∃ x3 y3,
        cfftz (fun r : ℝ => if 0 ≤ r then ⌊r⌋ else ⌈r⌉) fftblock
            (fft_init Real.pi Real.cos Real.sin (2 ^ mx) u0) (-1) (m : Int) (2 ^ m) x1 y2
          = Run.ok (x3, y3) ∧
        ∀ j, j < fftblock → ∀ k, k < 2 ^ m →
          (x3 k j).toComplex = ((2 ^ m : Nat) : ℂ) * (x k j).toComplex) := by
  constructor
  · intro is his
    obtain ⟨x1, y1, hrun, hst⟩ := cfftz_holds is his m mx fftblock hm hmx u0 x y
    exact ⟨x1, y1, hrun, fun j hj k hk => holds_last is m fftblock x x1 hst j hj k hk⟩
  · obtain ⟨x1, y1, hrun, hst⟩ := cfftz_holds 1 (Or.inl rfl) m mx fftblock hm hmx u0 x y
    refine ⟨x1, y1, hrun, fun y2 => ?_⟩
    obtain ⟨x3, y3, hrun3, hst3⟩ :=
      cfftz_holds (-1) (Or.inr rfl) m mx fftblock hm hmx u0 x1 y2
    refine ⟨x3, y3, hrun3, fun j hj k hk => ?_⟩
    rw [holds_last (-1) m fftblock x1 x3 hst3 j hj k hk]
    have h1 : ∀ t ∈ Finset.range (2 ^ m), (x1 t j).toComplex *
        Complex.exp (((-1 : Int) : ℂ) * (2 * Real.pi * Complex.I) * (t : ℂ) * (k : ℂ) /
          ((2 ^ m : Nat) : ℂ))
        = (∑ s ∈ Finset.range (2 ^ m), (x s j).toComplex *
          Complex.exp (((1 : Int) : ℂ) * (2 * Real.pi * Complex.I) * (s : ℂ) * (t : ℂ) /
            ((2 ^ m : Nat) : ℂ))) *
        Complex.exp (((-1 : Int) : ℂ) * (2 * Real.pi * Complex.I) * (t : ℂ) * (k : ℂ) /
          ((2 ^ m : Nat) : ℂ)) := by
      intro t ht
      rw [holds_last 1 m fftblock x x1 hst j hj t (Finset.mem_range.mp ht)]
    rw [Finset.sum_congr rfl h1]
    exact dft_round_trip (2 ^ m) (Nat.two_pow_pos m) (fun t => (x t j).toComplex) k hk

/-- Witness for C35: `m = mx = 1` (the 2-point transform), one column, zero arrays. -/
theorem cfftz_computes_dft_witness :
    (1 ≤ 1 ∧ 1 ≤ 1) ∧
    ((∀ is : Int, is = 1 ∨ is = -1 →
      ∃ x1 y1,
        cfftz (fun r : ℝ => if 0 ≤ r then ⌊r⌋ else ⌈r⌉) 1
            (fft_init Real.pi Real.cos Real.sin (2 ^ 1) (fun _ => ⟨0, 0⟩)) is ((1 : Nat) : Int)
            (2 ^ 1) (fun _ _ => ⟨0, 0⟩) (fun _ _ => ⟨0, 0⟩)
          = Run.ok (x1, y1) ∧
        ∀ j, j < 1 → ∀ k, k < 2 ^ 1 →
          (x1 k j).toComplex = ∑ t ∈ Finset.range (2 ^ 1),
            (((fun _ _ => ⟨0, 0⟩ : Nat → Nat → dcomplex ℝ)) t j).toComplex *
            Complex.exp ((is : ℂ) * (2 * Real.pi * Complex.I) * (t : ℂ) * (k : ℂ) /
              ((2 ^ 1 : Nat) : ℂ))) ∧
    (∃ x1 y1,
      cfftz (fun r : ℝ => if 0 ≤ r then ⌊r⌋ else ⌈r⌉) 1
          (fft_init Real.pi Real.cos Real.sin (2 ^ 1) (fun _ => ⟨0, 0⟩)) 1 ((1 : Nat) : Int)
          (2 ^ 1) (fun _ _ => ⟨0, 0⟩) (fun _ _ => ⟨0, 0⟩)
        = Run.ok (x1, y1) ∧
      ∀ y2, ∃ x3 y3,
        cfftz (fun r : ℝ => if 0 ≤ r then ⌊r⌋ else ⌈r⌉) 1
            (fft_init Real.pi Real.cos Real.sin (2 ^ 1) (fun _ => ⟨0, 0⟩)) (-1) ((1 : Nat) : Int)
            (2 ^ 1) x1 y2
          = Run.ok (x3, y3) ∧
        ∀ j, j < 1 → ∀ k, k < 2 ^ 1 →
          (x3 k j).toComplex = ((2 ^ 1 : Nat) : ℂ) *
            (((fun _ _ => ⟨0, 0⟩ : Nat → Nat → dcomplex ℝ)) k j).toComplex)) :=
  ⟨⟨by decide, by decide⟩,
   cfftz_computes_dft 1 1 1 (by decide) (by decide) (fun _ => ⟨0, 0⟩) (fun _ _ => ⟨0, 0⟩)
     (fun _ _ => ⟨0, 0⟩)⟩

end FT
